import Mathlib

/-!
# MeX: a shallow embedding of `libmex.c`

The engine state of `libmex.c` (the static variables `in`, `is_start`,
`line_breaks`, `buf`, `bpos`, `blast`, `pool`, `ppos`, `plen`, `pcur`, `plast`,
`macro`, `mdef`, `margs`, `mlast`) is one record that is passed explicitly;
the array `macro` is the field `mname`, since the source's name is reserved.

* The C arrays are total maps `Nat → Nat`, all zero in a fresh process (static
  storage).  Every array write is bounds-checked against the declared capacity
  and faults otherwise; a read at a negative index and a read of an
  uninitialised `param` slot fault as well.
* `token_t` is `uint16_t`; the only arithmetic on it that can wrap is `pcur++`,
  which is taken modulo `2 ^ 16`.
* The input stream is the list of bytes still to be read; `fgetc` at the end of
  the list is `EOF`, and `ungetc` is modelled by not consuming the byte.
* The output stream is the list of bytes written by `fputc`.
* The `goto again` loops of `scan` and `next`, and the `while (1)` of `mxrun`,
  take a fuel argument.
-/

namespace Mex

/-! ## Constants -/

def tEOF : Nat := 256
def tESCAPE : Nat := 257
def tBGROUP : Nat := 258
def tEGROUP : Nat := 259
def tARG1 : Nat := 260
def tARG9 : Nat := 268
def tDEF : Nat := 269
def tSENTINEL : Nat := 270

def POOLMAX : Nat := 1000000
def TOKENMAX : Nat := 500
def BUFFERMAX : Nat := 3 * TOKENMAX
def UINT16_MAX : Nat := 65535
def MACROMAX : Nat := UINT16_MAX - tSENTINEL

/-- The table `prims`: token, spelling, length. -/
def prims : List (Nat × List Nat × Nat) :=
  [ (256, [69, 79, 70], 3), (257, [92], 1),
    (258, [123], 1),        (259, [125], 1),
    (260, [92, 49], 2),     (261, [92, 50], 2),
    (262, [92, 51], 2),     (263, [92, 52], 2),
    (264, [92, 53], 2),     (265, [92, 54], 2),
    (266, [92, 55], 2),     (267, [92, 56], 2),
    (268, [92, 57], 2),     (269, [257, 100, 101, 102], 4) ]

/-- Ways in which the C program leaves defined behaviour, plus fuel exhaustion
of the model's loops. -/
inductive Fault where
  | fuel
  | bufferOverflow
  | poolOverflow
  | tableOverflow
  | negativeIndex
  | uninitialised
  deriving DecidableEq, Repr

deriving instance DecidableEq for Except

/-- The `isspace` of the C locale. -/
def isspace (ch : Nat) : Bool := ch == 32 || (9 ≤ ch && ch ≤ 13)

/-- The `isalpha` of the C locale. -/
def isalpha (ch : Nat) : Bool := (65 ≤ ch && ch ≤ 90) || (97 ≤ ch && ch ≤ 122)

/-- Array cell assignment `a[i] = v`. -/
def upd (a : Nat → Nat) (i v : Nat) : Nat → Nat := fun j => if j = i then v else a j

/-! ## Engine state -/

@[ext] structure Engine where
  inp : List Nat
  is_start : Bool
  line_breaks : Nat
  buf : Nat → Nat
  bpos : Nat
  blast : Nat
  pool : Nat → Nat
  ppos : Nat → Nat
  plen : Nat → Nat
  pcur : Nat
  plast : Nat
  mname : Nat → Nat
  mdef : Nat → Nat
  margs : Nat → Nat
  mlast : Nat

/-- A fresh process: all static storage is zero. -/
def Engine.zero : Engine :=
  { inp := [], is_start := false, line_breaks := 0,
    buf := fun _ => 0, bpos := 0, blast := 0,
    pool := fun _ => 0, ppos := fun _ => 0, plen := fun _ => 0, pcur := 0, plast := 0,
    mname := fun _ => 0, mdef := fun _ => 0, margs := fun _ => 0, mlast := 0 }

/-- The statement `pool[plast++] = t`. -/
def poolPush (st : Engine) (t : Nat) : Except Fault Engine :=
  if st.plast < POOLMAX then
    .ok { st with pool := upd st.pool st.plast t, plast := st.plast + 1 }
  else .error .poolOverflow

/-- The loop `for (i = 0; i < len; i++) pool[plast++] = xs[i]`. -/
def poolPushAll : Engine → List Nat → Except Fault Engine
  | st, [] => .ok st
  | st, x :: xs =>
    match poolPush st x with
    | .ok st1 => poolPushAll st1 xs
    | .error e => .error e

/-- The statement `buf[blast++] = t`. -/
def put (st : Engine) (t : Nat) : Except Fault Engine :=
  if st.blast < BUFFERMAX then
    .ok { st with buf := upd st.buf st.blast t, blast := st.blast + 1 }
  else .error .bufferOverflow

/-- One round of the first loop of `init`. -/
def initChar (st : Engine) (i : Nat) : Engine :=
  { st with ppos := upd st.ppos i st.plast, plen := upd st.plen i 1,
            pool := upd st.pool st.plast i, plast := st.plast + 1 }

/-- The inner loop of the second loop of `init`, `pool[plast++] = prims[i].s[j]`
for `j < prims[i].len`. -/
def initSpell : Engine → List Nat → Nat → Engine
  | st, _, 0 => st
  | st, [], _ + 1 => st
  | st, x :: xs, n + 1 =>
    initSpell { st with pool := upd st.pool st.plast x, plast := st.plast + 1 } xs n

/-- One round of the second loop of `init`. -/
def initPrim (st : Engine) (p : Nat × List Nat × Nat) : Engine :=
  initSpell { st with ppos := upd st.ppos p.1 st.plast, plen := upd st.plen p.1 p.2.2 }
    p.2.1 p.2.2

/-- The function `init`. -/
def init (fp : List Nat) : Engine :=
  let st0 : Engine :=
    { Engine.zero with inp := fp, pcur := tSENTINEL, bpos := 0, blast := 0, plast := 0,
                       mlast := 0, is_start := true, line_breaks := 0 }
  let st1 := (List.range 256).foldl initChar st0
  prims.foldl initPrim st1

/-! ## Interning -/

/-- The call `!memcmp(&pool[off], xs, len * sizeof(token_t))`. -/
def poolMatches (pool : Nat → Nat) : Nat → List Nat → Bool
  | _, [] => true
  | off, x :: xs => pool off == x && poolMatches pool (off + 1) xs

/-- The search loop `for (i = from; i < pcur; i++) if (plen[i] == len && !memcmp(..)) ..`
with `n` rounds left; it yields the first matching identifier. -/
def findEntry (st : Engine) (xs : List Nat) : Nat → Nat → Option Nat
  | 0, _ => none
  | n + 1, i =>
    if st.plen i = xs.length ∧ poolMatches st.pool (st.ppos i) xs = true then some i
    else findEntry st xs n (i + 1)

/-- The tail shared by `scan_cs` and `scan_group`: `ppos[pcur] = plast;
plen[pcur] = len; for (..) pool[plast++] = xs[i];` and `pcur++`; it yields the
new identifier (the old `pcur`). -/
def addEntry (st : Engine) (xs : List Nat) : Except Fault (Nat × Engine) :=
  if st.pcur < UINT16_MAX then
    match poolPushAll { st with ppos := upd st.ppos st.pcur st.plast,
                                plen := upd st.plen st.pcur xs.length } xs with
    | .ok st1 => .ok (st.pcur, { st1 with pcur := (st.pcur + 1) % 65536 })
    | .error e => .error e
  else .error .tableOverflow

/-! ## Scanner -/

/-- The `while (1)` of `scan_cs`: alphabetic bytes are appended to `cs` while
`len < TOKENMAX`; the first other byte is pushed back. -/
def readName : List Nat → List Nat → List Nat × List Nat
  | cs, [] => (cs, [])
  | cs, ch :: rest =>
    if !isalpha ch || cs.length ≥ TOKENMAX then (cs, ch :: rest)
    else readName (cs ++ [ch]) rest

/-- The function `scan_cs`. -/
def scan_cs (st : Engine) : Except Fault Engine :=
  let r := readName [tESCAPE] st.inp
  let st1 := { st with inp := r.2 }
  match findEntry st1 r.1 (st1.pcur - tDEF) tDEF with
  | some i => put st1 i
  | none =>
    match addEntry st1 r.1 with
    | .ok (t, st2) => put st2 t
    | .error e => .error e

/-- The `while (1)` of the whitespace branch of `scan`, entered with the byte
`ch` just read: it counts newlines and stops at the first byte that is not a
space (pushed back), or at the end of input (`none`). -/
def skipSpaces : Nat → Nat → List Nat → Nat × Option (List Nat)
  | lb, ch, [] => (if ch = 10 then lb + 1 else lb, none)
  | lb, ch, c :: rest =>
    if isspace c then skipSpaces (if ch = 10 then lb + 1 else lb) c rest
    else (if ch = 10 then lb + 1 else lb, some (c :: rest))

/-- The `while (1)` of the comment branch of `scan`: bytes are dropped up to and
including the next newline; `none` at the end of input. -/
def skipComment : List Nat → Option (List Nat)
  | [] => none
  | c :: rest => if c = 10 then some rest else skipComment rest

/-- The function `scan`; each `goto again` uses one unit of fuel. -/
def scanAux : Nat → Engine → Except Fault Engine
  | 0, _ => .error .fuel
  | fuel + 1, st =>
    match st.inp with
    | [] => put st tEOF
    | ch :: rest =>
      if isspace ch then
        if !st.is_start then
          match skipSpaces st.line_breaks ch rest with
          | (lb, none) => put { st with inp := [], line_breaks := lb } tEOF
          | (lb, some rest1) =>
            match put { st with inp := rest1, line_breaks := lb }
                (if lb > 1 then 10 else 32) with
            | .ok st1 => scanAux fuel { st1 with line_breaks := 0 }
            | .error e => .error e
        else scanAux fuel { st with inp := rest }
      else if ch = 35 then
        match skipComment rest with
        | none => put { st with inp := [] } tEOF
        | some rest1 => scanAux fuel { st with inp := rest1 }
      else
        let r : Except Fault Engine :=
          if ch = 123 then put { st with inp := rest } tBGROUP
          else if ch = 125 then put { st with inp := rest } tEGROUP
          else if ch ≠ 92 then put { st with inp := rest } ch
          else
            match rest with
            | [] => put { st with inp := [] } tEOF
            | c :: rest1 =>
              if 49 ≤ c ∧ c ≤ 57 then put { st with inp := rest1 } (tARG1 + c - 49)
              else if !isalpha c then put { st with inp := rest1 } c
              else scan_cs { st with inp := c :: rest1 }
        match r with
        | .ok st1 => .ok { st1 with is_start := false }
        | .error e => .error e

/-- The function `scan`: every `goto again` follows the consumption of at least
one byte, so `length + 1` rounds always suffice. -/
def scan (st : Engine) : Except Fault Engine := scanAux (st.inp.length + 1) st

/-- The statement `if (bpos == blast) scan();`. -/
def fill (st : Engine) : Except Fault Engine :=
  if st.bpos = st.blast then scan st else .ok st

/-- The `while (1)` of `scan_group` with nesting depth `d` and the tokens
`group` collected so far.  Every round that does not leave the loop appends to
`group`, and the loop is left once `len >= TOKENMAX`, so `TOKENMAX + 1` rounds
always suffice. -/
def groupLoop : Nat → Engine → Nat → List Nat → Except Fault (Engine × List Nat)
  | 0, _, _, _ => .error .fuel
  | n + 1, st, d, group =>
    match fill st with
    | .error e => .error e
    | .ok st1 =>
      let t := st1.buf st1.bpos
      if t = tEOF ∨ group.length ≥ TOKENMAX then .ok (st1, group)
      else if t = tBGROUP then
        groupLoop n { st1 with bpos := st1.bpos + 1 } (d + 1) (group ++ [t])
      else if t = tEGROUP then
        if d - 1 = 0 then .ok ({ st1 with bpos := st1.bpos + 1 }, group)
        else groupLoop n { st1 with bpos := st1.bpos + 1 } (d - 1) (group ++ [t])
      else groupLoop n { st1 with bpos := st1.bpos + 1 } d (group ++ [t])

/-- The function `scan_group`. -/
def scan_group (st : Engine) : Except Fault (Nat × Engine) :=
  match groupLoop (TOKENMAX + 1) st 1 [] with
  | .error e => .error e
  | .ok (st1, group) =>
    match findEntry st1 group (st1.pcur - tSENTINEL) tSENTINEL with
    | some i => .ok (i, st1)
    | none => addEntry st1 group

/-! ## Macro table -/

/-- The search loop `for (i = 0; i < mlast; i++) if (macro[i] == t) break;`
with `n` rounds left; it yields the final value of `i`. -/
def findMacro (names : Nat → Nat) (t : Nat) : Nat → Nat → Nat
  | 0, i => i
  | n + 1, i => if names i = t then i else findMacro names t n (i + 1)

/-- The function `define`. -/
def define (st : Engine) : Except Fault Engine :=
  match fill st with
  | .error e => .error e
  | .ok st1 =>
    if st1.buf st1.bpos < tSENTINEL then .ok st1
    else
      let i := findMacro st1.mname (st1.buf st1.bpos) st1.mlast 0
      let r2 : Except Fault Engine :=
        if i = st1.mlast then
          if st1.mlast < MACROMAX then
            .ok { st1 with mname := upd st1.mname st1.mlast (st1.buf st1.bpos),
                           mlast := st1.mlast + 1 }
          else .error .tableOverflow
        else .ok st1
      match r2 with
      | .error e => .error e
      | .ok st2 =>
        match fill { st2 with bpos := st2.bpos + 1 } with
        | .error e => .error e
        | .ok st3 =>
          let r4 : Except Fault Engine :=
            if 48 ≤ st3.buf st3.bpos ∧ st3.buf st3.bpos ≤ 57 then
              fill { st3 with margs := upd st3.margs i (st3.buf st3.bpos - 48),
                              bpos := st3.bpos + 1 }
            else .ok { st3 with margs := upd st3.margs i 0 }
          match r4 with
          | .error e => .error e
          | .ok st4 =>
            if st4.buf st4.bpos = tBGROUP then
              match scan_group { st4 with bpos := st4.bpos + 1 } with
              | .error e => .error e
              | .ok (g, st5) => .ok { st5 with mdef := upd st5.mdef i g }
            else if st4.buf st4.bpos ≠ tEOF then
              .ok { st4 with mdef := upd st4.mdef i (st4.buf st4.bpos) }
            else .ok st4

/-! ## Expansion -/

/-- The argument loop of `expand`, `for (i = 0; i < margs[m]; i++)`, with `n`
rounds left and the arguments `param` collected so far. -/
def collectArgs : Nat → Engine → List Nat → Except Fault (Engine × List Nat)
  | 0, st, param => .ok (st, param)
  | n + 1, st, param =>
    match fill st with
    | .error e => .error e
    | .ok st1 =>
      if param.length < 9 then
        if st1.buf st1.bpos = tBGROUP then
          match scan_group { st1 with bpos := st1.bpos + 1 } with
          | .error e => .error e
          | .ok (g, st2) => collectArgs n st2 (param ++ [g])
        else
          collectArgs n { st1 with bpos := st1.bpos + 1 } (param ++ [st1.buf st1.bpos])
      else .error .tableOverflow

/-- The copy loop `for (..; v < w; v++) tmp[k++] = pool[v]` with `n` rounds left. -/
def copySpelling (pool : Nat → Nat) : Nat → Nat → List Nat → Except Fault (List Nat)
  | 0, _, tmp => .ok tmp
  | n + 1, v, tmp =>
    if tmp.length < BUFFERMAX then copySpelling pool n (v + 1) (tmp ++ [pool v])
    else .error .bufferOverflow

/-- The substitution loop of `expand` over the body spelling, with `n` rounds
left, at pool index `i`. -/
def substitute (st : Engine) (param : List Nat) : Nat → Nat → List Nat → Except Fault (List Nat)
  | 0, _, tmp => .ok tmp
  | n + 1, i, tmp =>
    if st.pool i < tARG1 ∨ st.pool i > tARG9 then
      if tmp.length < BUFFERMAX then substitute st param n (i + 1) (tmp ++ [st.pool i])
      else .error .bufferOverflow
    else
      match param.get? (st.pool i - tARG1) with
      | none => .error .uninitialised
      | some a =>
        match copySpelling st.pool (st.plen a) (st.ppos a) tmp with
        | .error e => .error e
        | .ok tmp1 => substitute st param n (i + 1) tmp1

/-- The loop `for (i = blast - 1; i >= bpos; i--) buf[i] = buf[i - j];` with
`n` rounds left; the round with `n + 1` left has `i = bpos + n`. -/
def shiftUp (j bpos : Nat) : Nat → (Nat → Nat) → Except Fault (Nat → Nat)
  | 0, buf => .ok buf
  | n + 1, buf =>
    if bpos + n < j then .error .negativeIndex
    else shiftUp j bpos n (upd buf (bpos + n) (buf (bpos + n - j)))

/-- The loop `for (i = bpos; i < blast; i++) buf[i + j] = buf[i];` for negative
`j = -(jneg)`, with `n` rounds left. -/
def shiftDown (jneg : Nat) : Nat → Nat → (Nat → Nat) → Nat → Nat
  | 0, _, buf => buf
  | n + 1, i, buf => shiftDown jneg n (i + 1) (upd buf (i - jneg) (buf i))

/-- The loop `for (i = 0; i < k; i++) buf[start + i] = tmp[i];`. -/
def copyIn : (Nat → Nat) → Nat → List Nat → Except Fault (Nat → Nat)
  | buf, _, [] => .ok buf
  | buf, pos, t :: ts =>
    if pos < BUFFERMAX then copyIn (upd buf pos t) (pos + 1) ts
    else .error .bufferOverflow

/-- The function `expand`. -/
def expand (st : Engine) : Except Fault Engine :=
  let start := st.bpos
  let m := findMacro st.mname (st.buf st.bpos) st.mlast 0
  if m < MACROMAX then
    match collectArgs (st.margs m) { st with bpos := st.bpos + 1 } [] with
    | .error e => .error e
    | .ok (st1, param) =>
      match substitute st1 param (st1.plen (st1.mdef m)) (st1.ppos (st1.mdef m)) [] with
      | .error e => .error e
      | .ok tmp =>
        let k := tmp.length
        let r : Except Fault (Nat → Nat) :=
          if start + k > st1.bpos then
            shiftUp (start + k - st1.bpos) st1.bpos (st1.blast - st1.bpos) st1.buf
          else if start + k < st1.bpos then
            .ok (shiftDown (st1.bpos - (start + k)) (st1.blast - st1.bpos) st1.bpos st1.buf)
          else .ok st1.buf
        match r with
        | .error e => .error e
        | .ok buf1 =>
          match copyIn buf1 start tmp with
          | .error e => .error e
          | .ok buf2 =>
            .ok { st1 with buf := buf2, blast := st1.blast + (start + k) - st1.bpos,
                           bpos := start }
  else .error .tableOverflow

/-! ## Driver -/

/-- The compaction loop of `next`, `for (i = bpos; i < blast; i++) buf[i - bpos] = buf[i];`
with `n` rounds left. -/
def compactLoop (bpos : Nat) : Nat → Nat → (Nat → Nat) → Nat → Nat
  | 0, _, buf => buf
  | n + 1, i, buf => compactLoop bpos n (i + 1) (upd buf (i - bpos) (buf i))

/-- The compaction step of `next`. -/
def compact (st : Engine) : Engine :=
  if st.bpos > TOKENMAX then
    { st with buf := compactLoop st.bpos (st.blast - st.bpos) st.bpos st.buf,
              blast := st.blast - st.bpos, bpos := 0 }
  else st

/-- The function `next`; each `goto again` uses one unit of fuel. -/
def next : Nat → Engine → Except Fault (Nat × Engine)
  | 0, _ => .error .fuel
  | fuel + 1, st =>
    match fill st with
    | .error e => .error e
    | .ok st0 =>
      let st1 := compact st0
      if st1.buf st1.bpos = tDEF then
        match define { st1 with bpos := st1.bpos + 1 } with
        | .error e => .error e
        | .ok st2 => next fuel st2
      else if st1.buf st1.bpos ≥ tSENTINEL then
        match expand st1 with
        | .error e => .error e
        | .ok st2 => next fuel st2
      else .ok (st1.buf st1.bpos, { st1 with bpos := st1.bpos + 1 })

/-- The `while (1)` of `mxrun` with `n` rounds left; `fuel` is the fuel of each
call of `next`, `out` the bytes written so far.  The result is the output
together with the engine state in which the loop was left. -/
def runLoop (fuel : Nat) : Nat → Engine → List Nat → Except Fault (List Nat × Engine)
  | 0, _, _ => .error .fuel
  | n + 1, st, out =>
    match next fuel st with
    | .error e => .error e
    | .ok (t, st1) =>
      if t = tEOF then .ok (out, st1)
      else if t < tEOF then runLoop fuel n st1 (out ++ [t])
      else runLoop fuel n st1 out

/-- The function `mxrun` on the input bytes `fi`, with the engine state at the
end of the run. -/
def mxrunState (fuel : Nat) (fi : List Nat) : Except Fault (List Nat × Engine) :=
  runLoop fuel fuel (init fi) []

/-- The function `mxrun` on the input bytes `fi`; the result is the list of
bytes written to `fo`. -/
def mxrun (fuel : Nat) (fi : List Nat) : Except Fault (List Nat) :=
  match mxrunState fuel fi with
  | .ok r => .ok r.1
  | .error e => .error e


/-! ## Reading the state -/

/-- The cells `buf[bpos..blast)`: the tokens scanned but not yet consumed. -/
def pending (st : Engine) : List Nat :=
  (List.range (st.blast - st.bpos)).map (fun i => st.buf (st.bpos + i))

/-- The arena content of the identifier `i`, its spelling:
`pool[ppos[i] .. ppos[i] + plen[i])`. -/
def spelling (st : Engine) (i : Nat) : List Nat :=
  (List.range (st.plen i)).map (fun k => st.pool (st.ppos i + k))

/-! ## Reference lexer for documents without escape and braces

A byte-at-a-time description of the tokens the scanner delivers for a document
in which no `\`, `{` or `}` occurs; `litLex` is used to state what `mxrun`
writes for such a document. -/

/-- Where the reference lexer stands: at the start of the document (`start`),
after the first token (`top`), inside a whitespace run that holds `lb` newlines
(`ws lb`), or inside a comment entered from `start` (`cmt true`) or from `top`
(`cmt false`). -/
inductive LMode where
  | start
  | top
  | ws (lb : Nat)
  | cmt (s : Bool)
  deriving DecidableEq

/-- The token that stands for a whitespace run with `lb` newlines. -/
def wsToken (lb : Nat) : Nat := if lb > 1 then 10 else 32

/-- The reference lexer. -/
def litLex : LMode → List Nat → List Nat
  | _, [] => []
  | .start, c :: r =>
    if isspace c then litLex .start r
    else if c = 35 then litLex (.cmt true) r
    else c :: litLex .top r
  | .top, c :: r =>
    if isspace c then litLex (.ws (if c = 10 then 1 else 0)) r
    else if c = 35 then litLex (.cmt false) r
    else c :: litLex .top r
  | .ws lb, c :: r =>
    if isspace c then litLex (.ws (if c = 10 then lb + 1 else lb)) r
    else wsToken lb :: (if c = 35 then litLex (.cmt false) r else c :: litLex .top r)
  | .cmt s, c :: r =>
    if c = 10 then litLex (if s then .start else .top) r else litLex (.cmt s) r

/-- The number of comments that start in a document (`true`: the reading
begins inside a comment). -/
def cmtCount : Bool → List Nat → Nat
  | _, [] => 0
  | false, c :: r => if c = 35 then cmtCount true r + 1 else cmtCount false r
  | true, c :: r => if c = 10 then cmtCount false r else cmtCount true r

/-- A byte that is none of `\`, `{`, `}`. -/
def isLiteral (c : Nat) : Prop := c < 256 ∧ c ≠ 92 ∧ c ≠ 123 ∧ c ≠ 125

instance (c : Nat) : Decidable (isLiteral c) := by unfold isLiteral; infer_instance

/-- A literal document: outside of comments every byte is literal (`true`: the
reading begins inside a comment). -/
def litOK : Bool → List Nat → Bool
  | _, [] => true
  | false, c :: r => decide (isLiteral c) && litOK (c == 35) r
  | true, c :: r => litOK (c != 10) r

/-! ## Whitespace normalisation, in the words of the specification -/

/-- The token for a whitespace run: "a single newline if the run contains two or
more newline characters, otherwise a single space". -/
def runToken (run : List Nat) : Nat := if run.count 10 ≥ 2 then 10 else 32

/-- Replaces every maximal whitespace run by its one token; `run` is the
whitespace run read so far. -/
def collapse : List Nat → List Nat → List Nat
  | run, [] => if run = [] then [] else [runToken run]
  | run, c :: r =>
    if isspace c then collapse (run ++ [c]) r
    else (if run = [] then [] else [runToken run]) ++ c :: collapse [] r

/-- "The input with all leading whitespace removed and every maximal interior
whitespace run replaced by one token". -/
def normalize (doc : List Nat) : List Nat :=
  collapse [] (doc.dropWhile isspace)

/-! ## Auxiliary notions for the statements about literal documents -/

/-- The cells written by consecutive statements `buf[pos++] = t`. -/
def writeAll : (Nat → Nat) → Nat → List Nat → Nat → Nat
  | buf, _, [] => buf
  | buf, pos, t :: ts => writeAll (upd buf pos t) (pos + 1) ts

/-- The lexer mode between two calls of the scanner. -/
def modeOf (s : Bool) : LMode := if s then .start else .top

/-- The tokens ahead of the driver when the rest of the input is literal: the
pending ones, then those the scanner will deliver, up to the end of input. -/
def ahead (st : Engine) : List Nat :=
  (pending st ++ litLex (modeOf st.is_start) st.inp).takeWhile (fun t => t ≠ tEOF)

/-- An upper bound for the number of tokens one call of `scan` appends when the
input is literal. -/
def burst (inp : List Nat) : Nat :=
  cmtCount false inp +
    (match inp with
     | [] => 1
     | c :: _ => if isspace c then 2 else 1)

/-- The arena and the macro table of two states coincide. -/
def sameTables (a b : Engine) : Prop :=
  a.pool = b.pool ∧ a.ppos = b.ppos ∧ a.plen = b.plen ∧ a.pcur = b.pcur ∧ a.plast = b.plast ∧
  a.mname = b.mname ∧ a.mdef = b.mdef ∧ a.margs = b.margs ∧ a.mlast = b.mlast

/-- The driver's invariant while the rest of the input is literal. -/
structure LitInv (st : Engine) : Prop where
  le : st.bpos ≤ st.blast
  low : st.bpos = st.blast → st.bpos ≤ TOKENMAX + 1
  cmt : cmtCount false st.inp + (TOKENMAX + 3) ≤ BUFFERMAX
  lit : litOK false st.inp = true
  lb : st.line_breaks = 0 ∨ st.inp = []
  small : ∀ t ∈ pending st, t ≤ 256

/-- The state in which `next` returns a pending token: the compaction step and
`bpos++` are done. -/
def advance (st : Engine) : Engine :=
  { compact st with bpos := (compact st).bpos + 1 }

/-- A byte that may stand in a document without escape, braces and comments. -/
def isPlain (c : Nat) : Prop := c < 256 ∧ c ≠ 92 ∧ c ≠ 123 ∧ c ≠ 125 ∧ c ≠ 35

instance (c : Nat) : Decidable (isPlain c) := by unfold isPlain; infer_instance

/-- Whether the last byte of a document is whitespace. -/
def endsInSpace (doc : List Nat) : Bool :=
  match doc.getLast? with
  | some c => isspace c
  | none => false

/-! ## Observing the splice of `expand` -/

/-- What `spliceReport` observes around the first expansion of a document: the
cursor `s` at which `expand` is entered, the cursor `e` after the arguments are
collected, the extent `blast` before the splice, the tokens `buf[e..blast)`
pending at that moment, the substitution `tmp`, the extent after `expand`, and
the cells `buf[s .. s + k + (blast - e))` after `expand`. -/
structure SpliceReport where
  s : Nat
  e : Nat
  blastBefore : Nat
  pendingBefore : List Nat
  tmp : List Nat
  blastAfter : Nat
  cells : List Nat
  deriving DecidableEq

/-- Runs the driver by hand up to the first call of `expand` in a document that
starts with one `\def` directive (`fill`, `define`, `fill`), then runs the
argument loop and the substitution loop of `expand` to expose `e` and `tmp`,
and `expand` itself on the same entry state. -/
def spliceReport (fi : List Nat) : Except Fault SpliceReport :=
  match fill (init fi) with
  | .error e => .error e
  | .ok s0 =>
    match define { s0 with bpos := s0.bpos + 1 } with
    | .error e => .error e
    | .ok s1 =>
      match fill s1 with
      | .error e => .error e
      | .ok s2 =>
        let m := findMacro s2.mname (s2.buf s2.bpos) s2.mlast 0
        match collectArgs (s2.margs m) { s2 with bpos := s2.bpos + 1 } [] with
        | .error e => .error e
        | .ok (s3, param) =>
          match substitute s3 param (s3.plen (s3.mdef m)) (s3.ppos (s3.mdef m)) [] with
          | .error e => .error e
          | .ok tmp =>
            match expand s2 with
            | .error e => .error e
            | .ok s4 =>
              .ok { s := s2.bpos, e := s3.bpos, blastBefore := s3.blast,
                    pendingBefore := pending s3, tmp := tmp, blastAfter := s4.blast,
                    cells := (List.range (tmp.length + (s3.blast - s3.bpos))).map
                      (fun i => s4.buf (s2.bpos + i)) }

/-! ## The arena as a list of spellings -/

/-- The spelling of the control sequence `\def`. -/
def defSpelling : List Nat := [tESCAPE, 100, 101, 102]

/-- The arena of `st` holds the literal and primitive entries as `init` wrote
them and, after them, exactly the compound entries `L`, in the order of their
identifiers `tSENTINEL, tSENTINEL + 1, ..`, stored back to back in the pool. -/
structure Arena (st : Engine) (L : List (List Nat)) : Prop where
  pcur : st.pcur = tSENTINEL + L.length
  small : st.pcur ≤ UINT16_MAX
  base : ∀ i, i < tSENTINEL → st.ppos i = (init []).ppos i ∧ st.plen i = (init []).plen i
  basePool : ∀ j, j < 284 → st.pool j = (init []).pool j
  spell : ∀ k, k < L.length → spelling st (tSENTINEL + k) = L.getD k []
  low : ∀ k, k < L.length → 284 ≤ st.ppos (tSENTINEL + k)
  ok : ∀ i, i < st.pcur → st.ppos i + st.plen i ≤ st.plast
  plast : st.plast = 284 + (L.map List.length).sum
  cap : st.plast ≤ POOLMAX

/-- The list of compound spellings after `xs` is interned. -/
def internIn (L : List (List Nat)) (xs : List Nat) : List (List Nat) :=
  if xs ∈ L then L else L ++ [xs]

/-- The index of the first occurrence of `xs` in `L`, the length of `L` if there
is none. -/
def slotOf (xs : List Nat) : List (List Nat) → Nat
  | [] => 0
  | y :: L => if y = xs then 0 else slotOf xs L + 1

/-- The identifier under which `xs` is interned. -/
def internId (L : List (List Nat)) (xs : List Nat) : Nat := tSENTINEL + slotOf xs L

/-! ## Lexemes of macro documents

The parts of a macro document between the control-sequence names are written
as lists of lexemes: plain bytes (a space only alone and in front of another
lexeme), argument references, and the two braces. -/

/-- A lexeme. -/
inductive Lx where
  | lit (c : Nat)
  | arg (i : Nat)
  | bg
  | eg
  deriving DecidableEq

/-- The bytes of a lexeme in the document. -/
def Lx.bytes : Lx → List Nat
  | .lit c => [c]
  | .arg i => [92, 48 + i]
  | .bg => [123]
  | .eg => [125]

/-- The token of a lexeme. -/
def Lx.tok : Lx → Nat
  | .lit c => c
  | .arg i => tARG1 + i - 1
  | .bg => tBGROUP
  | .eg => tEGROUP

/-- The bytes of a list of lexemes. -/
def render : List Lx → List Nat
  | [] => []
  | x :: r => x.bytes ++ render r

/-- A well-formed lexeme: a plain byte that is no whitespace other than the
space, or an argument reference `\1` .. `\9`, or a brace. -/
def Lx.ok : Lx → Bool
  | .lit c => decide (isPlain c) && (!isspace c || c == 32)
  | .arg i => decide (1 ≤ i) && decide (i ≤ 9)
  | .bg => true
  | .eg => true

/-- The lexeme of a space. -/
def Lx.isSp : Lx → Bool
  | .lit c => c == 32
  | _ => false

/-- A well-formed list of lexemes: every space is followed by a lexeme that is
not a space. -/
def lxOK : List Lx → Bool
  | [] => true
  | [x] => x.ok && !x.isSp
  | x :: y :: r => x.ok && !(x.isSp && y.isSp) && lxOK (y :: r)

/-- The tokens `ts` are what the consumers of the token buffer will see next:
the pending tokens followed by the tokens of lexemes that are still in the
input, in front of the rest `rest` of the input. -/
structure Feed (st : Engine) (ts : List Nat) (rest : List Nat) : Prop where
  le : st.bpos ≤ st.blast
  noStart : st.is_start = false
  lb : st.line_breaks = 0
  ex : ∃ items, lxOK items = true ∧ st.inp = render items ++ rest ∧
    ts = pending st ++ items.map Lx.tok

/-! ## Macro documents with plain texts -/

/-- A text of plain bytes in which whitespace occurs only as single spaces: the
text of a group whose tokens are its bytes. -/
def textOK (a : List Nat) : Bool := lxOK (a.map Lx.lit ++ [Lx.eg])

/-- A macro body for the arity `n`: plain bytes, whitespace only as single
spaces, and argument references `\1` .. `\n`. -/
def bodyOK (n : Nat) (B : List Lx) : Bool :=
  lxOK (B ++ [Lx.eg]) &&
    B.all (fun x => match x with
      | .lit _ => true
      | .arg i => decide (i ≤ n)
      | _ => false)

/-- The body `B` with each reference `\i` replaced by the `i`-th of the
arguments `As`. -/
def instantiate (As : List (List Nat)) : List Lx → List Nat
  | [] => []
  | .lit c :: r => c :: instantiate As r
  | .arg i :: r => As.getD (i - 1) [] ++ instantiate As r
  | _ :: r => instantiate As r

/-- The bytes of the argument groups `{A1}...{An}`. -/
def groups : List (List Nat) → List Nat
  | [] => []
  | a :: r => 123 :: (a ++ 125 :: groups r)

/-- The number of buffer cells the tokens of the argument groups take. -/
def groupCells : List (List Nat) → Nat
  | [] => 0
  | a :: r => a.length + 2 + groupCells r

/-- The cursor after the compaction step of `next` in a state whose cursor was
`p`: `if (bpos > TOKENMAX) .. bpos = 0`. -/
def compacted (p : Nat) : Nat := if p > TOKENMAX then 0 else p

/-- The substitution loop of `expand` on a body spelling `toks`, with the
spellings `As` of the arguments: a reference is replaced by the spelling of its
argument, every other token is copied. -/
def substToks (As : List (List Nat)) : List Nat → List Nat
  | [] => []
  | t :: r => (if t < tARG1 ∨ t > tARG9 then [t] else As.getD (t - tARG1) []) ++ substToks As r

/-- The lexemes of the argument groups. -/
def groupLx : List (List Nat) → List Lx
  | [] => []
  | a :: r => Lx.bg :: (a.map Lx.lit ++ Lx.eg :: groupLx r)

/-- The tokens of the argument groups. -/
def groupToks : List (List Nat) → List Nat
  | [] => []
  | a :: r => tBGROUP :: (a ++ tEGROUP :: groupToks r)

/-- The list of compound spellings after the groups `As` are interned in turn. -/
def internAll (L : List (List Nat)) : List (List Nat) → List (List Nat)
  | [] => L
  | a :: r => internAll (internIn L a) r

/-! ## Reachable states -/

/-- The arena of `b` is the arena of `a`: pool, entry positions and lengths,
`pcur` and `plast` coincide. -/
def sameArena (a b : Engine) : Prop :=
  b.pool = a.pool ∧ b.ppos = a.ppos ∧ b.plen = a.plen ∧ b.pcur = a.pcur ∧ b.plast = a.plast

/-- Every cell of the token buffer and of the pool holds a token that exists (a
byte, a primitive or the identifier of an entry), and the input holds bytes. -/
def validTokens (st : Engine) : Prop :=
  (∀ j, st.buf j < st.pcur) ∧ (∀ j, st.pool j < st.pcur) ∧ (∀ c ∈ st.inp, c < 256)

/-- The state `b` is reached from `a` by running functions of the engine.  The
step `frame` stands for everything that leaves the arena as it is, such as the
caller reading from another position of the input or consuming tokens of the
buffer; the buffer it leaves holds existing tokens and the input holds bytes. -/
inductive Later : Engine → Engine → Prop
  | refl (a : Engine) : Later a a
  | frame (a b c : Engine) : Later a b → sameArena b c → validTokens c → Later a c
  | scan_cs (a b c : Engine) : Later a b → scan_cs b = .ok c → Later a c
  | scan (a b c : Engine) : Later a b → scan b = .ok c → Later a c
  | scan_group (a b c : Engine) (g : Nat) : Later a b → scan_group b = .ok (g, c) → Later a c
  | define (a b c : Engine) : Later a b → define b = .ok c → Later a c
  | expand (a b c : Engine) : Later a b → expand b = .ok c → Later a c
  | next (a b c : Engine) (f t : Nat) : Later a b → next f b = .ok (t, c) → Later a c

/-- A state reached from the state that `init` leaves on an input of bytes. -/
def Reachable (st : Engine) : Prop := ∃ fp, (∀ c ∈ fp, c < 256) ∧ Later (init fp) st

/-- The compound entries of `a` are entries of `b`, under the same identifiers. -/
def Grows (a b : Engine) : Prop := ∀ L, Arena a L → ∃ M, Arena b (L ++ M)

/-- The invariant of the reachable states: the arena is well formed and the
tokens in the buffer and in the pool exist. -/
def Sound (st : Engine) : Prop := validTokens st ∧ ∃ L, Arena st L

/-- What one call of `scan` does to the token buffer and to `pcur`: tokens are
appended, all of them but the last are whitespace tokens, and at most one
entry is added, whose identifier is then the last token appended. -/
structure Burst (st st1 : Engine) : Prop where
  bpos : st1.bpos = st.bpos
  more : st.blast < st1.blast
  old : ∀ j, j < st.blast → st1.buf j = st.buf j
  sp : ∀ j, st.blast ≤ j → j + 1 < st1.blast → st1.buf j = 10 ∨ st1.buf j = 32
  fresh : st1.pcur = st.pcur ∨ (st1.pcur = st.pcur + 1 ∧ st1.buf (st1.blast - 1) = st.pcur)

/-- The invariant of the capture loop of `scan_group` with respect to the
entries added since `pcur` was `p0`: the identifier of each of them has been
collected or is the last pending token, and the pending tokens are either all
older than `p0` or, but for the last one, whitespace tokens. -/
structure FreshInv (p0 : Nat) (s : Engine) (acc : List Nat) : Prop where
  ge : 270 ≤ p0
  seen : ∀ id, p0 ≤ id → id < s.pcur →
    id ∈ acc ∨ (s.bpos < s.blast ∧ s.buf (s.blast - 1) = id)
  pend : (∀ j, s.bpos ≤ j → j < s.blast → s.buf j < p0) ∨
    (∀ j, s.bpos ≤ j → j + 1 < s.blast → s.buf j = 10 ∨ s.buf j = 32)

/-! ## Steps of the engine and what they change -/

/-- The macro table of `b` is the macro table of `a`. -/
def sameTable (a b : Engine) : Prop :=
  b.mname = a.mname ∧ b.mdef = a.mdef ∧ b.margs = a.margs ∧ b.mlast = a.mlast

/-- The state `b` is reached from `a` by calls of `scan_cs`, `scan`,
`scan_group`, `define`, `expand` and `next`, and by nothing else. -/
inductive Ran : Engine → Engine → Prop
  | refl (a : Engine) : Ran a a
  | scan_cs (a b c : Engine) : Ran a b → scan_cs b = .ok c → Ran a c
  | scan (a b c : Engine) : Ran a b → scan b = .ok c → Ran a c
  | scan_group (a b c : Engine) (g : Nat) : Ran a b → scan_group b = .ok (g, c) → Ran a c
  | define (a b c : Engine) : Ran a b → define b = .ok c → Ran a c
  | expand (a b c : Engine) : Ran a b → expand b = .ok c → Ran a c
  | next (a b c : Engine) (f t : Nat) : Ran a b → next f b = .ok (t, c) → Ran a c

/-- The writes to the arena between two states: every step either leaves the
arena and the macro table as they are, or is a successful `addEntry` of a
spelling that has no compound entry yet. -/
inductive ArenaTrace : Engine → Engine → Prop
  | refl (a : Engine) : ArenaTrace a a
  | other (a b c : Engine) : ArenaTrace a b → sameArena b c → sameTable b c → ArenaTrace a c
  | add (a b c : Engine) (xs : List Nat) (t : Nat) : ArenaTrace a b →
      addEntry b xs = .ok (t, c) → (∀ L, Arena b L → xs ∉ L) → ArenaTrace a c

/-- The writes to the arena and to the macro table between two states: besides
the steps of `ArenaTrace`, a name is appended to the macro table when the search
loop has not found it, an arity in `0..9` is stored, or a body is stored. -/
inductive Trace : Engine → Engine → Prop
  | refl (a : Engine) : Trace a a
  | arena (a b c : Engine) : Trace a b → ArenaTrace b c → Trace a c
  | name (a b c : Engine) (t : Nat) : Trace a b → sameArena b c → tSENTINEL ≤ t → t < b.pcur →
      findMacro b.mname t b.mlast 0 = b.mlast → c.mname = upd b.mname b.mlast t →
      c.mlast = b.mlast + 1 → c.margs = b.margs → c.mdef = b.mdef → Trace a c
  | arity (a b c : Engine) (i v : Nat) : Trace a b → sameArena b c → v ≤ 9 →
      c.margs = upd b.margs i v → c.mname = b.mname → c.mlast = b.mlast →
      c.mdef = b.mdef → Trace a c
  | body (a b c : Engine) (i g : Nat) : Trace a b → sameArena b c →
      c.mdef = upd b.mdef i g → c.mname = b.mname → c.mlast = b.mlast →
      c.margs = b.margs → Trace a c

/-- The macro table invariant: the names `macro[0..mlast)` are pairwise distinct
compound identifiers, and every arity lies in `0..9`. -/
structure TableOK (st : Engine) : Prop where
  distinct : ∀ i j, i < j → j < st.mlast → st.mname i ≠ st.mname j
  compound : ∀ i, i < st.mlast → tSENTINEL ≤ st.mname i
  known : ∀ i, i < st.mlast → st.mname i < st.pcur
  arity : ∀ i, st.margs i ≤ 9

/-- The arena of `b` extends the arena of `a`: `pcur` and `plast` have not
decreased, and the offset, the length and the pool cells of every identifier
that exists in `a` are the same in `b`. -/
structure Extends (a b : Engine) : Prop where
  pcur : a.pcur ≤ b.pcur
  plast : a.plast ≤ b.plast
  ppos : ∀ i, i < a.pcur → b.ppos i = a.ppos i
  plen : ∀ i, i < a.pcur → b.plen i = a.plen i
  pool : ∀ j, j < a.plast → b.pool j = a.pool j

/-! ## Consuming tokens -/

/-- A consumer that repeats `if (bpos == blast) scan(); t = buf[bpos++];`,
starting in the state `st`, reads the tokens `ts` and is left in the state
`st2`. -/
inductive Delivers : Engine → List Nat → Engine → Prop
  | nil (st : Engine) : Delivers st [] st
  | cons (st st1 st2 : Engine) (t : Nat) (ts : List Nat) : fill st = .ok st1 →
      st1.buf st1.bpos = t → Delivers { st1 with bpos := st1.bpos + 1 } ts st2 →
      Delivers st (t :: ts) st2

/-- A brace-balanced token list: every prefix has at least as many begin-group
as end-group tokens, and the totals are equal. -/
def balanced (G : List Nat) : Prop :=
  (∀ k, k ≤ G.length → (G.take k).count tEGROUP ≤ (G.take k).count tBGROUP) ∧
  G.count tEGROUP = G.count tBGROUP

instance (G : List Nat) : Decidable (balanced G) := by unfold balanced; infer_instance

/-- The collection of arguments in the words of the specification: starting in
the state `st`, the arguments `ps` are collected in order and the state `st2`
is left; an argument is the identifier that `scan_group` returns for the group
when the next token is a begin-group token, and the next token itself
otherwise. -/
inductive Collected : Engine → List Nat → Engine → Prop
  | nil (st : Engine) : Collected st [] st
  | group (st st1 st2 st3 : Engine) (g : Nat) (ps : List Nat) : fill st = .ok st1 →
      st1.buf st1.bpos = tBGROUP →
      scan_group { st1 with bpos := st1.bpos + 1 } = .ok (g, st2) →
      Collected st2 ps st3 → Collected st (g :: ps) st3
  | token (st st1 st3 : Engine) (t : Nat) (ps : List Nat) : fill st = .ok st1 →
      st1.buf st1.bpos = t → t ≠ tBGROUP →
      Collected { st1 with bpos := st1.bpos + 1 } ps st3 → Collected st (t :: ps) st3

/-- Any two different compound identifiers have different spellings. -/
def Distinct (st : Engine) : Prop :=
  ∀ i j, tSENTINEL ≤ i → i < j → j < st.pcur → spelling st i ≠ spelling st j

/-! ## Auxiliary notions for the proofs -/

/-- What the primitive loop of `init` leaves untouched. -/
structure PrimFrame (st r : Engine) (keys : List Nat) : Prop where
  inp : r.inp = st.inp
  is_start : r.is_start = st.is_start
  line_breaks : r.line_breaks = st.line_breaks
  buf : r.buf = st.buf
  bpos : r.bpos = st.bpos
  blast : r.blast = st.blast
  pcur : r.pcur = st.pcur
  mname : r.mname = st.mname
  mdef : r.mdef = st.mdef
  margs : r.margs = st.margs
  mlast : r.mlast = st.mlast
  plast : st.plast ≤ r.plast
  pool_lt : ∀ j, j < st.plast → r.pool j = st.pool j
  pool_ge : ∀ j, r.plast ≤ j → r.pool j = st.pool j
  ppos : ∀ i, i ∉ keys → r.ppos i = st.ppos i
  plen : ∀ i, i ∉ keys → r.plen i = st.plen i

/-- The primitive entries `256..269` of the fresh arena: offset and length. -/
def primEntry (i : Nat) : Nat × Nat :=
  ([256, 259, 260, 261, 262, 264, 266, 268, 270, 272, 274, 276, 278, 280].getD (i - 256) 0,
   [3, 1, 1, 1, 2, 2, 2, 2, 2, 2, 2, 2, 2, 4].getD (i - 256) 0)

/-- The spellings of the primitives as they lie in `pool[256..284)`. -/
def primPool : List Nat :=
  [69, 79, 70, 92, 123, 125, 92, 49, 92, 50, 92, 51, 92, 52, 92, 53, 92, 54, 92, 55, 92, 56,
   92, 57, 257, 100, 101, 102]

/-- What one call of `scan` does on literal input: it appends the tokens `toks`
and leaves the input `inp1`. -/
structure ScanLit (st : Engine) (toks inp1 : List Nat) (s1 : Bool) (lb1 : Nat) : Prop where
  nonempty : toks ≠ []
  stream : (toks ++ litLex (modeOf s1) inp1).takeWhile (fun t => t ≠ tEOF) =
    litLex (modeOf st.is_start) st.inp
  small : ∀ t ∈ toks, t ≤ 256
  lit : litOK false inp1 = true
  lb : lb1 = 0 ∨ inp1 = []
  len : inp1.length + toks.length ≤ max st.inp.length 1
  cap : toks.length ≤ burst st.inp
  cmt : cmtCount false inp1 ≤ cmtCount false st.inp
  eof : st.inp = [] → toks = [tEOF]

/-- What `advance` does to a state with a pending token. -/
structure Advanced (st st2 : Engine) : Prop where
  inp : st2.inp = st.inp
  is_start : st2.is_start = st.is_start
  line_breaks : st2.line_breaks = st.line_breaks
  pend : pending st = st.buf st.bpos :: pending st2
  le : st2.bpos ≤ st2.blast
  low : st2.bpos ≤ TOKENMAX + 1
  blast : st2.blast ≤ st.blast
  tables : sameTables st2 st

/-- The bytes of a document given as a string literal. -/
def bytes (s : String) : List Nat := s.toList.map Char.toNat

end Mex

namespace Mex

/-! ## Array cells -/

@[simp] theorem upd_same (a : Nat → Nat) (i v : Nat) : upd a i v i = v := by simp [upd]

theorem upd_other (a : Nat → Nat) (i v j : Nat) (h : j ≠ i) : upd a i v j = a j := by
  simp [upd, h]

/-! ## The state built by `init` -/

theorem foldl_initChar (n : Nat) (st : Engine) :
    (List.range n).foldl initChar st =
      { st with ppos := fun i => if i < n then st.plast + i else st.ppos i,
                plen := fun i => if i < n then 1 else st.plen i,
                pool := fun j => if st.plast ≤ j ∧ j < st.plast + n then j - st.plast
                                 else st.pool j,
                plast := st.plast + n } := by
  induction n with
  | zero =>
    ext1 <;> simp only [List.range_zero, List.foldl_nil, Nat.add_zero]
    · funext j
      have : ¬ (st.plast ≤ j ∧ j < st.plast) := by omega
      simp [this]
    · funext i; simp
    · funext i; simp
  | succ n ih =>
    rw [List.range_succ, List.foldl_append, ih]
    simp only [List.foldl, initChar]
    ext1 <;> simp only []
    · funext j
      simp only [upd]
      split_ifs <;> omega
    · funext j
      simp only [upd]
      split_ifs <;> omega
    · funext j
      simp only [upd]
      split_ifs <;> omega
    · omega

theorem initSpell_frame (xs : List Nat) : ∀ (n : Nat) (st : Engine),
    PrimFrame st (initSpell st xs n) [] := by
  induction xs with
  | nil =>
    intro n st
    cases n <;> simp only [initSpell] <;> constructor <;> simp
  | cons x xs ih =>
    intro n st
    cases n with
    | zero => simp only [initSpell]; constructor <;> simp
    | succ n =>
      simp only [initSpell]
      have h := ih n { st with pool := upd st.pool st.plast x, plast := st.plast + 1 }
      constructor
      · exact h.inp
      · exact h.is_start
      · exact h.line_breaks
      · exact h.buf
      · exact h.bpos
      · exact h.blast
      · exact h.pcur
      · exact h.mname
      · exact h.mdef
      · exact h.margs
      · exact h.mlast
      · have := h.plast; simp only [] at this; omega
      · intro j hj
        rw [h.pool_lt j (by simp only []; omega)]
        exact upd_other _ _ _ _ (by omega)
      · intro j hj
        have := h.plast; simp only [] at this
        rw [h.pool_ge j hj]
        exact upd_other _ _ _ _ (by omega)
      · intro i hi; exact h.ppos i hi
      · intro i hi; exact h.plen i hi

theorem foldl_initPrim_frame (ps : List (Nat × List Nat × Nat)) : ∀ st : Engine,
    PrimFrame st (ps.foldl initPrim st) (ps.map Prod.fst) := by
  induction ps with
  | nil => intro st; constructor <;> simp
  | cons p ps ih =>
    intro st
    simp only [List.foldl]
    have h1 := initSpell_frame p.2.1 p.2.2
      { st with ppos := upd st.ppos p.1 st.plast, plen := upd st.plen p.1 p.2.2 }
    have h2 := ih (initPrim st p)
    unfold initPrim at h2 ⊢
    constructor
    · rw [h2.inp, h1.inp]
    · rw [h2.is_start, h1.is_start]
    · rw [h2.line_breaks, h1.line_breaks]
    · rw [h2.buf, h1.buf]
    · rw [h2.bpos, h1.bpos]
    · rw [h2.blast, h1.blast]
    · rw [h2.pcur, h1.pcur]
    · rw [h2.mname, h1.mname]
    · rw [h2.mdef, h1.mdef]
    · rw [h2.margs, h1.margs]
    · rw [h2.mlast, h1.mlast]
    · exact le_trans h1.plast h2.plast
    · intro j hj
      rw [h2.pool_lt j (lt_of_lt_of_le hj h1.plast), h1.pool_lt j hj]
    · intro j hj
      rw [h2.pool_ge j hj, h1.pool_ge j (le_trans h2.plast hj)]
    · intro i hi
      simp only [List.map, List.mem_cons, not_or] at hi
      rw [h2.ppos i hi.2, h1.ppos i (by simp)]
      exact upd_other _ _ _ _ hi.1
    · intro i hi
      simp only [List.map, List.mem_cons, not_or] at hi
      rw [h2.plen i hi.2, h1.plen i (by simp)]
      exact upd_other _ _ _ _ hi.1

/-- The state after the character loop of `init`. -/
theorem init_frame (fp : List Nat) :
    PrimFrame
      { Engine.zero with
          inp := fp, pcur := tSENTINEL, is_start := true,
          ppos := fun i => if i < 256 then i else 0,
          plen := fun i => if i < 256 then 1 else 0,
          pool := fun j => if j < 256 then j else 0,
          plast := 256 }
      (init fp) (prims.map Prod.fst) := by
  have h := foldl_initPrim_frame prims
    ((List.range 256).foldl initChar
      { Engine.zero with inp := fp, pcur := tSENTINEL, bpos := 0, blast := 0, plast := 0,
                         mlast := 0, is_start := true, line_breaks := 0 })
  rw [foldl_initChar] at h
  simpa [init, Engine.zero, foldl_initChar] using h

theorem init_inp (fp : List Nat) : (init fp).inp = fp := (init_frame fp).inp
theorem init_is_start (fp : List Nat) : (init fp).is_start = true := (init_frame fp).is_start
theorem init_line_breaks (fp : List Nat) : (init fp).line_breaks = 0 := (init_frame fp).line_breaks
theorem init_buf (fp : List Nat) : (init fp).buf = fun _ => 0 := (init_frame fp).buf
theorem init_bpos (fp : List Nat) : (init fp).bpos = 0 := (init_frame fp).bpos
theorem init_blast (fp : List Nat) : (init fp).blast = 0 := (init_frame fp).blast
theorem init_pcur (fp : List Nat) : (init fp).pcur = 270 := (init_frame fp).pcur
theorem init_mname (fp : List Nat) : (init fp).mname = fun _ => 0 := (init_frame fp).mname
theorem init_mdef (fp : List Nat) : (init fp).mdef = fun _ => 0 := (init_frame fp).mdef
theorem init_margs (fp : List Nat) : (init fp).margs = fun _ => 0 := (init_frame fp).margs
theorem init_mlast (fp : List Nat) : (init fp).mlast = 0 := (init_frame fp).mlast

set_option maxRecDepth 100000 in
theorem init_plast (fp : List Nat) : (init fp).plast = 284 := rfl

theorem init_pool_lt (fp : List Nat) (j : Nat) (h : j < 256) : (init fp).pool j = j := by
  rw [(init_frame fp).pool_lt j (by simpa using h)]
  simp [h]

theorem init_pool_ge (fp : List Nat) (j : Nat) (h : 284 ≤ j) : (init fp).pool j = 0 := by
  rw [(init_frame fp).pool_ge j (by rw [init_plast]; exact h)]
  have : ¬ j < 256 := by omega
  simp [this]

theorem init_ppos_lt (fp : List Nat) (i : Nat) (h : i < 256) : (init fp).ppos i = i := by
  rw [(init_frame fp).ppos i (by simp [prims]; omega)]
  simp [h]

theorem init_plen_lt (fp : List Nat) (i : Nat) (h : i < 256) : (init fp).plen i = 1 := by
  rw [(init_frame fp).plen i (by simp [prims]; omega)]
  simp [h]

theorem init_ppos_ge (fp : List Nat) (i : Nat) (h : 270 ≤ i) : (init fp).ppos i = 0 := by
  rw [(init_frame fp).ppos i (by simp [prims]; omega)]
  have : ¬ i < 256 := by omega
  simp [this]

theorem init_plen_ge (fp : List Nat) (i : Nat) (h : 270 ≤ i) : (init fp).plen i = 0 := by
  rw [(init_frame fp).plen i (by simp [prims]; omega)]
  have : ¬ i < 256 := by omega
  simp [this]

theorem initSpell_inp (a : List Nat) (xs : List Nat) : ∀ (n : Nat) (st : Engine),
    initSpell { st with inp := a } xs n = { initSpell st xs n with inp := a } := by
  induction xs with
  | nil => intro n st; cases n <;> rfl
  | cons x xs ih =>
    intro n st
    cases n with
    | zero => rfl
    | succ n =>
      simp only [initSpell]
      exact ih n { st with pool := upd st.pool st.plast x, plast := st.plast + 1 }

theorem foldl_initPrim_inp (a : List Nat) (ps : List (Nat × List Nat × Nat)) : ∀ st : Engine,
    ps.foldl initPrim { st with inp := a } = { ps.foldl initPrim st with inp := a } := by
  induction ps with
  | nil => intro st; rfl
  | cons p ps ih =>
    intro st
    simp only [List.foldl]
    rw [← ih]
    congr 1
    simp only [initPrim]
    exact initSpell_inp a p.2.1 p.2.2
      { st with ppos := upd st.ppos p.1 st.plast, plen := upd st.plen p.1 p.2.2 }

theorem foldl_initChar_inp (a : List Nat) (l : List Nat) : ∀ st : Engine,
    l.foldl initChar { st with inp := a } = { l.foldl initChar st with inp := a } := by
  induction l with
  | nil => intro st; rfl
  | cons p ps ih =>
    intro st
    simp only [List.foldl]
    rw [← ih]
    rfl

/-- The arena built by `init` does not depend on the input. -/
theorem init_eq (fp : List Nat) : init fp = { init [] with inp := fp } := by
  unfold init
  simp only []
  rw [← foldl_initPrim_inp, ← foldl_initChar_inp]

set_option maxRecDepth 100000 in
theorem init_prim (fp : List Nat) (i : Nat) (h1 : 256 ≤ i) (h2 : i < 270) :
    (init fp).ppos i = (primEntry i).1 ∧ (init fp).plen i = (primEntry i).2 := by
  rw [init_eq]
  simp only []
  interval_cases i <;> decide

set_option maxRecDepth 100000 in
theorem init_pool_prim (fp : List Nat) (j : Nat) (h1 : 256 ≤ j) (h2 : j < 284) :
    (init fp).pool j = primPool.getD (j - 256) 0 := by
  rw [init_eq]
  simp only []
  interval_cases j <;> decide

end Mex

namespace Mex

/-! ## Elementary statements -/

theorem put_ok (st : Engine) (t : Nat) (h : st.blast < BUFFERMAX) :
    put st t = .ok { st with buf := upd st.buf st.blast t, blast := st.blast + 1 } := by
  simp [put, h]

theorem writeAll_lt : ∀ (ts : List Nat) (buf : Nat → Nat) (pos j : Nat), j < pos →
    writeAll buf pos ts j = buf j := by
  intro ts
  induction ts with
  | nil => intro buf pos j _; rfl
  | cons t ts ih =>
    intro buf pos j h
    simp only [writeAll]
    rw [ih _ _ _ (by omega), upd_other _ _ _ _ (by omega)]

theorem writeAll_ge : ∀ (ts : List Nat) (buf : Nat → Nat) (pos j : Nat), pos + ts.length ≤ j →
    writeAll buf pos ts j = buf j := by
  intro ts
  induction ts with
  | nil => intro buf pos j _; rfl
  | cons t ts ih =>
    intro buf pos j h
    simp only [writeAll, List.length_cons] at h ⊢
    rw [ih _ _ _ (by omega), upd_other _ _ _ _ (by omega)]

theorem writeAll_get : ∀ (ts : List Nat) (buf : Nat → Nat) (pos k : Nat), k < ts.length →
    writeAll buf pos ts (pos + k) = ts.getD k 0 := by
  intro ts
  induction ts with
  | nil => intro buf pos k h; simp at h
  | cons t ts ih =>
    intro buf pos k h
    simp only [writeAll]
    cases k with
    | zero =>
      rw [writeAll_lt _ _ _ _ (by omega), Nat.add_zero, upd_same]
      rfl
    | succ k =>
      have := ih (upd buf pos t) (pos + 1) k (by simpa using h)
      rw [show pos + (k + 1) = pos + 1 + k by omega, this]
      rfl

theorem writeAll_append (ts us : List Nat) : ∀ (buf : Nat → Nat) (pos : Nat),
    writeAll buf pos (ts ++ us) = writeAll (writeAll buf pos ts) (pos + ts.length) us := by
  induction ts with
  | nil => intro buf pos; rfl
  | cons t ts ih =>
    intro buf pos
    show writeAll (upd buf pos t) (pos + 1) (ts ++ us) = _
    rw [ih]
    simp only [writeAll, List.length_cons]
    rw [show pos + 1 + ts.length = pos + (ts.length + 1) by omega]

theorem range_map_eq_of_get (f : Nat → Nat) (ts : List Nat)
    (h : ∀ k, k < ts.length → f k = ts.getD k 0) :
    (List.range ts.length).map f = ts := by
  apply List.ext_getElem
  · simp
  · intro n h1 h2
    simp only [List.getElem_map, List.getElem_range]
    rw [h n h2]
    simp [List.getD_eq_getElem?_getD, h2]

theorem pending_writeAll (st : Engine) (ts : List Nat) (buf : Nat → Nat) (pos : Nat)
    (h1 : st.bpos = pos) (h2 : st.blast = pos + ts.length)
    (h3 : st.buf = writeAll buf pos ts) : pending st = ts := by
  unfold pending
  rw [h1, h2, h3, Nat.add_sub_cancel_left]
  exact range_map_eq_of_get _ _ (fun k hk => writeAll_get ts buf pos k hk)

theorem pending_length (st : Engine) : (pending st).length = st.blast - st.bpos := by
  simp [pending]

theorem pending_nil (st : Engine) (h : st.blast ≤ st.bpos) : pending st = [] := by
  simp [pending, Nat.sub_eq_zero_of_le h]

theorem pending_cons (st : Engine) (h : st.bpos < st.blast) :
    pending st = st.buf st.bpos :: pending { st with bpos := st.bpos + 1 } := by
  unfold pending
  have : st.blast - st.bpos = (st.blast - (st.bpos + 1)) + 1 := by omega
  rw [this, List.range_succ_eq_map]
  simp only [List.map_cons, List.map_map, Nat.add_zero]
  congr 1
  apply List.map_congr_left
  intro a _
  simp only [Function.comp]
  congr 1
  omega

/-- Two states with the same cells between cursor and extent have the same
pending tokens. -/
theorem pending_congr (a b : Engine) (n : Nat) (ha : a.blast = a.bpos + n)
    (hb : b.blast = b.bpos + n) (h : ∀ k, k < n → a.buf (a.bpos + k) = b.buf (b.bpos + k)) :
    pending a = pending b := by
  unfold pending
  rw [ha, hb, Nat.add_sub_cancel_left, Nat.add_sub_cancel_left]
  apply List.map_congr_left
  intro k hk
  exact h k (by simpa using hk)

/-! ## Compaction -/

theorem compactLoop_spec (b : Nat) (hb : 0 < b) : ∀ (n i : Nat) (buf : Nat → Nat), b ≤ i →
    ∀ j, compactLoop b n i buf j = if i - b ≤ j ∧ j < i - b + n then buf (j + b) else buf j := by
  intro n
  induction n with
  | zero =>
    intro i buf _ j
    have : ¬ (i - b ≤ j ∧ j < i - b + 0) := by omega
    rw [if_neg this]
    rfl
  | succ n ih =>
    intro i buf hi j
    simp only [compactLoop]
    rw [ih (i + 1) _ (by omega) j]
    by_cases h1 : i + 1 - b ≤ j ∧ j < i + 1 - b + n
    · have h2 : i - b ≤ j ∧ j < i - b + (n + 1) := by omega
      rw [if_pos h1, if_pos h2, upd_other _ _ _ _ (by omega)]
    · rw [if_neg h1]
      by_cases h3 : j = i - b
      · have h2 : i - b ≤ j ∧ j < i - b + (n + 1) := by omega
        rw [if_pos h2, h3, upd_same]
        congr 1
        omega
      · have h2 : ¬ (i - b ≤ j ∧ j < i - b + (n + 1)) := by omega
        rw [if_neg h2, upd_other _ _ _ _ h3]

theorem compact_pending (st : Engine) (h : st.bpos ≤ st.blast) :
    pending (compact st) = pending st := by
  unfold compact
  split
  · rename_i hgt
    apply pending_congr _ _ (st.blast - st.bpos)
    · simp
    · omega
    · intro k hk
      simp only [TOKENMAX] at hgt
      simp only [Nat.zero_add]
      rw [compactLoop_spec st.bpos (by omega) _ _ _ (le_refl _) k]
      have : st.bpos - st.bpos ≤ k ∧ k < st.bpos - st.bpos + (st.blast - st.bpos) := by omega
      rw [if_pos this, Nat.add_comm]
  · rfl

theorem compact_bpos_le (st : Engine) : (compact st).bpos ≤ TOKENMAX := by
  unfold compact
  split
  · simp
  · omega

theorem compact_bounds (st : Engine) (h : st.bpos ≤ st.blast) :
    (compact st).bpos ≤ (compact st).blast ∧ (compact st).blast ≤ st.blast ∧
    (compact st).blast - (compact st).bpos = st.blast - st.bpos := by
  unfold compact
  split
  · simp only []; omega
  · omega

theorem compact_other (st : Engine) :
    (compact st).inp = st.inp ∧ (compact st).is_start = st.is_start ∧
    (compact st).line_breaks = st.line_breaks ∧ (compact st).pool = st.pool ∧
    (compact st).ppos = st.ppos ∧ (compact st).plen = st.plen ∧
    (compact st).pcur = st.pcur ∧ (compact st).plast = st.plast ∧
    (compact st).mname = st.mname ∧ (compact st).mdef = st.mdef ∧
    (compact st).margs = st.margs ∧ (compact st).mlast = st.mlast := by
  unfold compact
  split <;> simp

end Mex

namespace Mex

/-! ## The scanner on literal input -/

/-- Whether the reference lexer stands inside a comment. -/
theorem litOK_cons_false (c : Nat) (r : List Nat) :
    litOK false (c :: r) = (decide (isLiteral c) && litOK (c == 35) r) := rfl

theorem litOK_cons_true (c : Nat) (r : List Nat) :
    litOK true (c :: r) = litOK (c != 10) r := rfl

theorem litOK_space (c : Nat) (r : List Nat) (h : isspace c = true)
    (hl : litOK false (c :: r) = true) : litOK false r = true := by
  have : (c == 35) = false := by
    rw [beq_eq_false_iff_ne]
    intro h35; rw [h35] at h; simp [isspace] at h
  rw [litOK_cons_false, this] at hl
  exact (Bool.and_eq_true _ _ ▸ hl).2

theorem litOK_plain (c : Nat) (r : List Nat) (h : c ≠ 35)
    (hl : litOK false (c :: r) = true) : isLiteral c ∧ litOK false r = true := by
  have : (c == 35) = false := by rw [beq_eq_false_iff_ne]; exact h
  rw [litOK_cons_false, this, Bool.and_eq_true] at hl
  exact ⟨of_decide_eq_true hl.1, hl.2⟩

theorem litOK_hash (r : List Nat) (hl : litOK false (35 :: r) = true) : litOK true r = true := by
  rw [litOK_cons_false, Bool.and_eq_true] at hl
  exact hl.2

theorem litLex_lt : ∀ (inp : List Nat) (m : LMode),
    litOK (match m with | .cmt _ => true | _ => false) inp = true →
    ∀ t ∈ litLex m inp, t < 256 := by
  intro inp
  induction inp with
  | nil => intro m _ t ht; cases m <;> simp [litLex] at ht
  | cons c r ih =>
    intro m hl t ht
    have hw : ∀ lb, wsToken lb < 256 := by intro lb; unfold wsToken; split <;> omega
    cases m with
    | cmt s =>
      simp only [litOK_cons_true] at hl
      simp only [litLex] at ht
      by_cases h10 : c = 10
      · rw [if_pos h10] at ht
        rw [h10] at hl
        cases s <;> exact ih _ hl t ht
      · rw [if_neg h10] at ht
        have : (c != 10) = true := by simpa using h10
        rw [this] at hl
        exact ih _ hl t ht
    | start =>
      simp only [] at hl
      simp only [litLex] at ht
      by_cases hsp : isspace c = true
      · rw [if_pos hsp] at ht
        exact ih _ (litOK_space c r hsp hl) t ht
      · rw [if_neg hsp] at ht
        by_cases h35 : c = 35
        · rw [if_pos h35] at ht
          rw [h35] at hl
          exact ih _ (litOK_hash r hl) t ht
        · rw [if_neg h35] at ht
          obtain ⟨h1, h2⟩ := litOK_plain c r h35 hl
          rcases List.mem_cons.1 ht with h | h
          · rw [h]; exact h1.1
          · exact ih _ h2 t h
    | top =>
      simp only [] at hl
      simp only [litLex] at ht
      by_cases hsp : isspace c = true
      · rw [if_pos hsp] at ht
        exact ih _ (litOK_space c r hsp hl) t ht
      · rw [if_neg hsp] at ht
        by_cases h35 : c = 35
        · rw [if_pos h35] at ht
          rw [h35] at hl
          exact ih _ (litOK_hash r hl) t ht
        · rw [if_neg h35] at ht
          obtain ⟨h1, h2⟩ := litOK_plain c r h35 hl
          rcases List.mem_cons.1 ht with h | h
          · rw [h]; exact h1.1
          · exact ih _ h2 t h
    | ws lb =>
      simp only [] at hl
      simp only [litLex] at ht
      by_cases hsp : isspace c = true
      · rw [if_pos hsp] at ht
        exact ih _ (litOK_space c r hsp hl) t ht
      · rw [if_neg hsp] at ht
        rcases List.mem_cons.1 ht with h | ht
        · rw [h]; exact hw _
        by_cases h35 : c = 35
        · rw [if_pos h35] at ht
          rw [h35] at hl
          exact ih _ (litOK_hash r hl) t ht
        · rw [if_neg h35] at ht
          obtain ⟨h1, h2⟩ := litOK_plain c r h35 hl
          rcases List.mem_cons.1 ht with h | h
          · rw [h]; exact h1.1
          · exact ih _ h2 t h

theorem litLex_modeOf_lt (inp : List Nat) (s : Bool) (h : litOK false inp = true) :
    ∀ t ∈ litLex (modeOf s) inp, t < 256 := by
  cases s
  · exact litLex_lt inp .top h
  · exact litLex_lt inp .start h

theorem takeWhile_all (l : List Nat) (h : ∀ t ∈ l, t < 256) :
    l.takeWhile (fun t => t ≠ tEOF) = l := by
  rw [List.takeWhile_eq_self_iff]
  intro t ht
  have := h t ht
  simp only [tEOF, ne_eq, decide_not, Bool.not_eq_true', decide_eq_false_iff_not]
  omega

theorem litLex_ws_nonspace (lb c : Nat) (r : List Nat) (h : isspace c = false) :
    litLex (.ws lb) (c :: r) = wsToken lb :: litLex .top (c :: r) := by
  simp [litLex, h]

theorem skipSpaces_none : ∀ (rest : List Nat) (lb ch lb1 : Nat),
    skipSpaces lb ch rest = (lb1, none) →
    litLex (.ws (if ch = 10 then lb + 1 else lb)) rest = [] := by
  intro rest
  induction rest with
  | nil => intro lb ch lb1 _; rfl
  | cons c r ih =>
    intro lb ch lb1 h
    simp only [skipSpaces] at h
    generalize (if ch = 10 then lb + 1 else lb) = n at h ⊢
    by_cases hc : isspace c = true
    · rw [if_pos hc] at h
      simp only [litLex, hc, if_true]
      exact ih _ _ _ h
    · rw [if_neg hc] at h
      simp at h

theorem skipSpaces_some : ∀ (rest : List Nat) (lb ch lb1 : Nat) (r1 : List Nat),
    skipSpaces lb ch rest = (lb1, some r1) →
    (∃ c r2, r1 = c :: r2 ∧ isspace c = false) ∧
    litLex (.ws (if ch = 10 then lb + 1 else lb)) rest = wsToken lb1 :: litLex .top r1 ∧
    r1.length ≤ rest.length ∧ cmtCount false rest = cmtCount false r1 ∧
    (litOK false rest = true → litOK false r1 = true) := by
  intro rest
  induction rest with
  | nil => intro lb ch lb1 r1 h; simp [skipSpaces] at h
  | cons c r ih =>
    intro lb ch lb1 r1 h
    simp only [skipSpaces] at h
    generalize (if ch = 10 then lb + 1 else lb) = n at h ⊢
    by_cases hc : isspace c = true
    · rw [if_pos hc] at h
      obtain ⟨h1, h2, h3, h4, h5⟩ := ih _ _ _ _ h
      refine ⟨h1, ?_, ?_, ?_, ?_⟩
      · simp only [litLex, hc, if_true]
        exact h2
      · simp only [List.length_cons]; omega
      · have : c ≠ 35 := by
          intro h35; rw [h35] at hc; simp [isspace] at hc
        simp only [cmtCount, this, if_false]
        exact h4
      · intro hl; exact h5 (litOK_space c r hc hl)
    · rw [if_neg hc] at h
      simp only [Prod.mk.injEq, Option.some.injEq] at h
      obtain ⟨h1, h2⟩ := h
      subst h2
      have hc' : isspace c = false := by simpa using hc
      refine ⟨⟨c, r, rfl, hc'⟩, ?_, le_refl _, rfl, fun hl => hl⟩
      rw [h1]
      exact litLex_ws_nonspace _ _ _ hc'

theorem skipComment_none : ∀ (rest : List Nat) (s : Bool), skipComment rest = none →
    litLex (.cmt s) rest = [] := by
  intro rest
  induction rest with
  | nil => intro s _; rfl
  | cons c r ih =>
    intro s h
    simp only [skipComment] at h
    split_ifs at h with hc
    simp only [litLex, hc, if_false]
    exact ih s h

theorem skipComment_some : ∀ (rest : List Nat) (s : Bool) (r1 : List Nat),
    skipComment rest = some r1 →
    litLex (.cmt s) rest = litLex (modeOf s) r1 ∧ r1.length < rest.length ∧
    cmtCount true rest = cmtCount false r1 ∧
    (litOK true rest = true → litOK false r1 = true) := by
  intro rest
  induction rest with
  | nil => intro s r1 h; simp [skipComment] at h
  | cons c r ih =>
    intro s r1 h
    simp only [skipComment] at h
    split_ifs at h with hc
    · simp only [Option.some.injEq] at h
      subst h
      refine ⟨?_, by simp, ?_, ?_⟩
      · simp only [litLex, hc, if_true, modeOf]
      · simp only [cmtCount, hc, if_true]
      · intro hl
        rw [litOK_cons_true, hc] at hl
        exact hl
    · obtain ⟨h1, h2, h3, h4⟩ := ih s r1 h
      refine ⟨?_, ?_, ?_, ?_⟩
      · simp only [litLex, hc, if_false]; exact h1
      · simp only [List.length_cons]; omega
      · simp only [cmtCount, hc, if_false]; exact h3
      · intro hl
        have : (c != 10) = true := by simpa using hc
        rw [litOK_cons_true, this] at hl
        exact h4 hl

theorem burst_nil : burst [] = 1 := rfl

theorem burst_cons (c : Nat) (r : List Nat) :
    burst (c :: r) = cmtCount false (c :: r) + (if isspace c = true then 2 else 1) := rfl

theorem cmtCount_space (c : Nat) (r : List Nat) (h : isspace c = true) :
    cmtCount false (c :: r) = cmtCount false r := by
  have : c ≠ 35 := by intro h35; rw [h35] at h; simp [isspace] at h
  simp [cmtCount, this]

theorem burst_le (inp : List Nat) : burst inp ≤ cmtCount false inp + 2 := by
  cases inp with
  | nil => show _ + 1 ≤ _ + 2; omega
  | cons c r =>
    rw [burst_cons]
    split <;> omega

theorem burst_pos (inp : List Nat) : 1 ≤ burst inp := by
  cases inp with
  | nil => show 1 ≤ _ + 1; omega
  | cons c r =>
    rw [burst_cons]
    split <;> omega

theorem scanAux_lit : ∀ (fuel : Nat) (st : Engine), st.inp.length < fuel →
    litOK false st.inp = true → (st.line_breaks = 0 ∨ st.inp = []) →
    st.blast + burst st.inp ≤ BUFFERMAX →
    ∃ toks inp1 s1 lb1,
      scanAux fuel st = .ok { st with inp := inp1, is_start := s1, line_breaks := lb1,
                                      buf := writeAll st.buf st.blast toks,
                                      blast := st.blast + toks.length } ∧
      ScanLit st toks inp1 s1 lb1 := by
  intro fuel
  induction fuel with
  | zero => intro st h; omega
  | succ fuel ih =>
    intro st hfuel hlit hlb hcap
    have hbp := burst_pos st.inp
    rcases hinp : st.inp with _ | ⟨ch, rest⟩
    · -- end of input
      refine ⟨[tEOF], st.inp, st.is_start, st.line_breaks, ?_, ?_⟩
      · simp only [scanAux, hinp]
        rw [put_ok _ _ (by omega)]
        simp only [writeAll, List.length_singleton, hinp]
      · constructor
        · simp
        · simp [hinp, litLex, tEOF]
        · simp [tEOF]
        · rw [hinp]; rfl
        · exact Or.inr hinp
        · simp [hinp]
        · simp [hinp, burst_nil]
        · simp
        · intro _; rfl
    · rw [hinp] at hfuel hlit hcap hbp
      have hne : st.inp ≠ [] := by rw [hinp]; simp
      have hlb0 : st.line_breaks = 0 := by
        rcases hlb with h | h
        · exact h
        · rw [hinp] at h; cases h
      simp only [List.length_cons] at hfuel
      have hbc := burst_cons ch rest
      by_cases hsp : isspace ch = true
      · have hc := cmtCount_space ch rest hsp
        rw [if_pos hsp] at hbc
        have hrest : litOK false rest = true := litOK_space ch rest hsp hlit
        by_cases hs : st.is_start = true
        · -- leading whitespace is dropped byte by byte
          have hbr := burst_le rest
          obtain ⟨toks, inp1, s1, lb1, h1, h2⟩ := ih { st with inp := rest }
            (by simp only []; omega) hrest (Or.inl hlb0) (by simp only []; omega)
          refine ⟨toks, inp1, s1, lb1, ?_, ?_⟩
          · simp only [scanAux, hinp, hsp, hs, if_true, Bool.not_true, Bool.false_eq_true,
              if_false]
            simpa only [hs] using h1
          · constructor
            · exact h2.nonempty
            · rw [h2.stream]
              simp only [hs, modeOf, if_true, hinp, litLex, hsp]
            · exact h2.small
            · exact h2.lit
            · exact h2.lb
            · have := h2.len
              simp only [hinp, List.length_cons] at this ⊢
              omega
            · have := h2.cap
              simp only [hinp] at this ⊢
              omega
            · have := h2.cmt
              simp only [hinp] at this ⊢
              omega
            · intro h; exact absurd h hne
        · -- an interior whitespace run
          have hs' : st.is_start = false := by simpa using hs
          rcases hsk : skipSpaces st.line_breaks ch rest with ⟨lb, _ | rest1⟩
          · refine ⟨[tEOF], [], st.is_start, lb, ?_, ?_⟩
            · simp only [scanAux, hinp, hsp, hs', if_true, Bool.not_false, hsk]
              rw [put_ok _ _ (by simp only []; omega)]
              simp only [writeAll, List.length_singleton]
            · have h0 := skipSpaces_none _ _ _ _ hsk
              constructor
              · simp
              · simp only [hs', modeOf, hinp, litLex, hsp, if_true, Bool.false_eq_true, if_false]
                rw [hlb0] at h0
                simp only [Nat.zero_add] at h0
                rw [h0]
                simp [tEOF]
              · simp [tEOF]
              · rfl
              · exact Or.inr rfl
              · simp
              · rw [hinp]; simp only [List.length_singleton]; omega
              · simp [cmtCount]
              · intro h; exact absurd h hne
          · obtain ⟨⟨c, r2, hr1, hcns⟩, h2, h3, h4, h5⟩ := skipSpaces_some _ _ _ _ _ hsk
            have hb1 : burst rest1 = cmtCount false rest1 + 1 := by
              rw [hr1, burst_cons, hcns]; rfl
            obtain ⟨toks, inp1, s1, lb1, g1, g2⟩ := ih
              { st with inp := rest1, line_breaks := 0,
                        buf := upd st.buf st.blast (wsToken lb), blast := st.blast + 1 }
              (by simp only []; omega) (h5 hrest) (Or.inl rfl)
              (by simp only []; omega)
            refine ⟨wsToken lb :: toks, inp1, s1, lb1, ?_, ?_⟩
            · simp only [scanAux, hinp, hsp, hs', if_true, Bool.not_false, hsk]
              rw [put_ok _ _ (by simp only []; omega)]
              simp only [hs'] at g1
              rw [show (if lb > 1 then 10 else 32) = wsToken lb from rfl]
              simp only [g1, writeAll, List.length_cons]
              rw [show st.blast + 1 + toks.length = st.blast + (toks.length + 1) by omega]
            · constructor
              · simp
              · have hw : wsToken lb ≠ tEOF := by unfold wsToken tEOF; split <;> omega
                have := g2.stream
                simp only [hs', modeOf, Bool.false_eq_true, if_false] at this
                simp only [List.cons_append, List.takeWhile_cons, hw, ne_eq, not_false_eq_true,
                  decide_True, if_true, hs', modeOf, Bool.false_eq_true, if_false, hinp]
                rw [this]
                simp only [litLex, hsp, if_true]
                rw [hlb0] at h2
                simp only [Nat.zero_add] at h2
                exact h2.symm
              · intro t ht
                rcases List.mem_cons.1 ht with h | h
                · rw [h]; unfold wsToken; split <;> omega
                · exact g2.small t h
              · exact g2.lit
              · exact g2.lb
              · have := g2.len
                simp only [hinp, List.length_cons] at this ⊢
                rw [hr1] at this h3
                simp only [List.length_cons] at this h3
                omega
              · have := g2.cap
                simp only [hinp, List.length_cons] at this ⊢
                omega
              · have := g2.cmt
                simp only [hinp] at this ⊢
                omega
              · intro h; exact absurd h hne
      · have hsp' : isspace ch = false := by simpa using hsp
        rw [if_neg hsp] at hbc
        by_cases h35 : ch = 35
        · -- a comment
          have hsp35 : isspace 35 = false := rfl
          have hrest : litOK true rest = true := by rw [h35] at hlit; exact litOK_hash rest hlit
          rcases hsk : skipComment rest with _ | rest1
          · refine ⟨[tEOF], [], st.is_start, st.line_breaks, ?_, ?_⟩
            · simp only [scanAux, hinp, hsp', hsp35, Bool.false_eq_true, if_false, h35, if_true, hsk]
              rw [put_ok _ _ (by simp only []; omega)]
              simp only [writeAll, List.length_singleton]
            · constructor
              · simp
              · have h0 := skipComment_none rest st.is_start hsk
                rw [hinp, h35]
                cases hst : st.is_start <;>
                  simp [modeOf, litLex, isspace, tEOF, hst] at h0 ⊢ <;> exact h0
              · simp [tEOF]
              · rfl
              · exact Or.inr rfl
              · simp
              · rw [hinp]; simp only [List.length_singleton]; omega
              · simp [cmtCount]
              · intro h; exact absurd h hne
          · obtain ⟨h1, h2, h3, h4⟩ := skipComment_some rest st.is_start rest1 hsk
            have hc : cmtCount false (ch :: rest) = cmtCount false rest1 + 1 := by
              simp [cmtCount, h35, h3]
            have hbr := burst_le rest1
            obtain ⟨toks, inp1, s1, lb1, g1, g2⟩ := ih { st with inp := rest1 }
              (by simp only []; omega) (h4 hrest) (Or.inl hlb0)
              (by simp only []; omega)
            refine ⟨toks, inp1, s1, lb1, ?_, ?_⟩
            · simp only [scanAux, hinp, hsp', hsp35, Bool.false_eq_true, if_false, h35, if_true, hsk]
              exact g1
            · constructor
              · exact g2.nonempty
              · rw [g2.stream, hinp, h35]
                simp only []
                cases hst : st.is_start <;>
                  simp [modeOf, litLex, isspace, hst] at h1 ⊢ <;> exact h1.symm
              · exact g2.small
              · exact g2.lit
              · exact g2.lb
              · have := g2.len
                simp only [hinp, List.length_cons] at this ⊢
                omega
              · have := g2.cap
                simp only [hinp] at this ⊢
                omega
              · have := g2.cmt
                simp only [hinp] at this ⊢
                omega
              · intro h; exact absurd h hne
        · -- a literal byte
          obtain ⟨⟨hlt, h92, h123, h125⟩, hrest⟩ := litOK_plain ch rest h35 hlit
          refine ⟨[ch], rest, false, st.line_breaks, ?_, ?_⟩
          · simp only [scanAux, hinp, hsp', Bool.false_eq_true, if_false, h35, h123, h125,
              ne_eq, h92, not_false_eq_true, if_true]
            rw [put_ok _ _ (by simp only []; omega)]
            simp only [writeAll, List.length_singleton]
          · constructor
            · simp
            · have hne : ch ≠ tEOF := by unfold tEOF; omega
              rw [hinp]
              simp only [List.singleton_append, List.takeWhile_cons, hne, ne_eq,
                not_false_eq_true, decide_True, if_true]
              rw [takeWhile_all _ (litLex_lt _ _ hrest)]
              cases hst : st.is_start <;> simp [modeOf, litLex, hsp', h35]
            · intro t ht; simp only [List.mem_singleton] at ht; omega
            · exact hrest
            · exact Or.inl hlb0
            · simp [hinp]
            · rw [hinp]; simp only [List.length_singleton]; omega
            · simp [hinp, cmtCount, h35]
            · intro h; exact absurd h hne

end Mex

namespace Mex

/-! ## The driver on literal input -/

theorem sameTables_refl (a : Engine) : sameTables a a :=
  ⟨rfl, rfl, rfl, rfl, rfl, rfl, rfl, rfl, rfl⟩

theorem sameTables_trans {a b c : Engine} (h1 : sameTables a b) (h2 : sameTables b c) :
    sameTables a c := by
  obtain ⟨a1, a2, a3, a4, a5, a6, a7, a8, a9⟩ := h1
  obtain ⟨b1, b2, b3, b4, b5, b6, b7, b8, b9⟩ := h2
  exact ⟨a1.trans b1, a2.trans b2, a3.trans b3, a4.trans b4, a5.trans b5, a6.trans b6,
    a7.trans b7, a8.trans b8, a9.trans b9⟩

theorem sameTables_compact (st : Engine) : sameTables (compact st) st := by
  obtain ⟨_, _, _, h4, h5, h6, h7, h8, h9, h10, h11, h12⟩ := compact_other st
  exact ⟨h4, h5, h6, h7, h8, h9, h10, h11, h12⟩

theorem ahead_congr (a b : Engine) (h1 : pending a = pending b) (h2 : a.inp = b.inp)
    (h3 : a.is_start = b.is_start) : ahead a = ahead b := by
  unfold ahead
  rw [h1, h2, h3]

theorem compact_head (st : Engine) (h : st.bpos < st.blast) :
    (compact st).buf (compact st).bpos = st.buf st.bpos := by
  have h1 := compact_pending st (le_of_lt h)
  have h2 := compact_bounds st (le_of_lt h)
  rw [pending_cons st h, pending_cons (compact st) (by omega)] at h1
  exact (List.cons.inj h1).1

theorem advance_spec (st : Engine) (h : st.bpos < st.blast) : Advanced st (advance st) := by
  have h1 := compact_pending st (le_of_lt h)
  have h2 := compact_bounds st (le_of_lt h)
  have h3 := compact_other st
  have h4 := compact_bpos_le st
  rw [pending_cons (compact st) (by omega)] at h1
  rw [compact_head st h] at h1
  constructor
  · exact h3.1
  · exact h3.2.1
  · exact h3.2.2.1
  · exact h1.symm
  · show (compact st).bpos + 1 ≤ (compact st).blast; omega
  · show (compact st).bpos + 1 ≤ TOKENMAX + 1; omega
  · exact h2.2.1
  · exact sameTables_compact st

/-- The call `next()` when a token that is neither `\def` nor compound is pending. -/
theorem next_emit (fuel : Nat) (st : Engine) (h : st.bpos < st.blast)
    (h1 : st.buf st.bpos ≠ tDEF) (h2 : st.buf st.bpos < tSENTINEL) :
    next (fuel + 1) st = .ok (st.buf st.bpos, advance st) := by
  have hf : fill st = .ok st := by
    unfold fill
    rw [if_neg (by omega)]
  have hh := compact_head st h
  simp only [next, hf, hh, h1, if_false, ge_iff_le, Nat.not_le.2 h2, advance]

theorem fill_lit (st : Engine) (hinv : LitInv st) :
    ∃ st1, fill st = .ok st1 ∧ LitInv st1 ∧ st1.bpos < st1.blast ∧ ahead st1 = ahead st ∧
      st1.inp.length + (pending st1).length ≤ max (st.inp.length + (pending st).length) 1 ∧
      sameTables st1 st ∧
      (st.inp.length + (pending st).length = 0 → st1.buf st1.bpos = tEOF) := by
  by_cases hb : st.bpos = st.blast
  · have hlow := hinv.low hb
    have hcmt := hinv.cmt
    have hbu := burst_le st.inp
    simp only [TOKENMAX, BUFFERMAX] at hlow hcmt
    obtain ⟨toks, inp1, s1, lb1, h1, h2⟩ := scanAux_lit (st.inp.length + 1) st (by omega)
      hinv.lit hinv.lb (by simp only [BUFFERMAX, TOKENMAX]; omega)
    have hne : toks.length ≠ 0 := by
      intro h0; exact h2.nonempty (List.length_eq_zero.1 h0)
    have hp : pending { st with inp := inp1, is_start := s1, line_breaks := lb1,
                                buf := writeAll st.buf st.blast toks,
                                blast := st.blast + toks.length } = toks :=
      pending_writeAll _ toks st.buf st.blast hb rfl rfl
    refine ⟨_, by unfold fill scan; rw [if_pos hb]; exact h1, ?_, ?_, ?_, ?_, ?_, ?_⟩
    · constructor
      · simp only []; omega
      · simp only []; omega
      · have := h2.cmt
        show cmtCount false inp1 + (TOKENMAX + 3) ≤ BUFFERMAX
        simp only [TOKENMAX, BUFFERMAX]
        omega
      · exact h2.lit
      · exact h2.lb
      · rw [hp]; exact h2.small
    · simp only []; omega
    · unfold ahead
      rw [hp]
      simp only []
      rw [h2.stream, pending_nil st (by omega), List.nil_append,
        takeWhile_all _ (litLex_modeOf_lt _ _ hinv.lit)]
    · rw [hp]
      have := h2.len
      simp only [] at this ⊢
      omega
    · exact ⟨rfl, rfl, rfl, rfl, rfl, rfl, rfl, rfl, rfl⟩
    · intro h0
      have hi : st.inp = [] := List.length_eq_zero.1 (by omega)
      have ht := h2.eof hi
      show writeAll st.buf st.blast toks st.bpos = tEOF
      rw [ht, hb]
      simp [writeAll]
  · have hlt : st.bpos < st.blast := lt_of_le_of_ne hinv.le hb
    refine ⟨st, by unfold fill; rw [if_neg hb], hinv, hlt, rfl, by omega, sameTables_refl _, ?_⟩
    intro h0
    rw [pending_length] at h0
    omega

theorem runLoop_lit : ∀ (n : Nat) (st : Engine) (out : List Nat) (fuel : Nat), 0 < fuel →
    LitInv st → st.inp.length + (pending st).length < n →
    ∃ st1, runLoop fuel n st out = .ok (out ++ ahead st, st1) ∧ sameTables st1 st := by
  intro n
  induction n with
  | zero => intro st out fuel _ _ h; omega
  | succ n ih =>
    intro st out fuel hfuel hinv hn
    obtain ⟨f, rfl⟩ : ∃ f, fuel = f + 1 := ⟨fuel - 1, by omega⟩
    obtain ⟨st1, h1, h2, h3, h4, h5, h6, h7⟩ := fill_lit st hinv
    have hadv := advance_spec st1 h3
    have hsm : st1.buf st1.bpos ≤ 256 :=
      h2.small _ (by rw [hadv.pend]; exact List.mem_cons_self _ _)
    have hnext : next (f + 1) st = .ok (st1.buf st1.bpos, advance st1) := by
      have := next_emit f st1 h3 (by simp only [tDEF]; omega) (by simp only [tSENTINEL]; omega)
      simp only [next, h1] at this ⊢
      have hf1 : fill st1 = .ok st1 := by unfold fill; rw [if_neg (by omega)]
      simp only [hf1] at this
      exact this
    by_cases heof : st1.buf st1.bpos = tEOF
    · refine ⟨advance st1, ?_, sameTables_trans hadv.tables h6⟩
      simp only [runLoop, hnext, heof, if_true]
      rw [← h4]
      unfold ahead
      rw [hadv.pend, heof]
      simp
    · have hlt : st1.buf st1.bpos < tEOF := by
        simp only [tEOF] at heof ⊢; omega
      have hinv2 : LitInv (advance st1) := by
        constructor
        · exact hadv.le
        · intro _; exact hadv.low
        · rw [hadv.inp]; exact h2.cmt
        · rw [hadv.inp]; exact h2.lit
        · rw [hadv.inp, hadv.line_breaks]; exact h2.lb
        · intro t ht
          exact h2.small t (by rw [hadv.pend]; exact List.mem_cons_of_mem _ ht)
      have hlen : (pending (advance st1)).length + 1 = (pending st1).length := by
        rw [hadv.pend]; simp
      obtain ⟨st2, g1, g2⟩ := ih (advance st1) (out ++ [st1.buf st1.bpos]) (f + 1) hfuel hinv2
        (by
          rw [hadv.inp]
          have : st.inp.length + (pending st).length ≠ 0 := fun h0 => heof (h7 h0)
          omega)
      refine ⟨st2, ?_, sameTables_trans g2 (sameTables_trans hadv.tables h6)⟩
      simp only [runLoop, hnext, heof, if_false, hlt, if_true]
      rw [g1, ← h4]
      congr 2
      unfold ahead
      rw [hadv.pend, hadv.inp, hadv.is_start]
      simp [heof]

end Mex

namespace Mex

/-! ## Literal documents, end to end -/

theorem init_pending (fp : List Nat) : pending (init fp) = [] :=
  pending_nil _ (by rw [init_blast, init_bpos])

theorem init_litInv (doc : List Nat) (hlit : litOK false doc = true)
    (hcmt : cmtCount false doc ≤ 997) : LitInv (init doc) := by
  constructor
  · rw [init_blast, init_bpos]
  · intro _; rw [init_bpos]; omega
  · rw [init_inp]; simp only [TOKENMAX, BUFFERMAX]; omega
  · rw [init_inp]; exact hlit
  · exact Or.inl (init_line_breaks doc)
  · rw [init_pending]; intro t ht; cases ht

theorem mxrunState_literal (doc : List Nat) (hlit : litOK false doc = true)
    (hcmt : cmtCount false doc ≤ 997) (fuel : Nat) (hf : doc.length < fuel) :
    ∃ st, mxrunState fuel doc = .ok (litLex .start doc, st) ∧ sameTables st (init doc) := by
  obtain ⟨st, h1, h2⟩ := runLoop_lit fuel (init doc) [] fuel (by omega)
    (init_litInv doc hlit hcmt) (by rw [init_inp, init_pending]; simpa using hf)
  refine ⟨st, ?_, h2⟩
  unfold mxrunState
  rw [h1]
  congr 2
  unfold ahead
  rw [init_pending, init_inp, init_is_start, List.nil_append]
  exact takeWhile_all _ (litLex_lt _ _ hlit)

theorem mxrun_literal (doc : List Nat) (hlit : litOK false doc = true)
    (hcmt : cmtCount false doc ≤ 997) (fuel : Nat) (hf : doc.length < fuel) :
    mxrun fuel doc = .ok (litLex .start doc) := by
  obtain ⟨st, h, _⟩ := mxrunState_literal doc hlit hcmt fuel hf
  unfold mxrun
  rw [h]

/-! ### Documents without comments -/

theorem litOK_of_plain : ∀ (doc : List Nat), (∀ c ∈ doc, isPlain c) → litOK false doc = true := by
  intro doc
  induction doc with
  | nil => intro _; rfl
  | cons c r ih =>
    intro h
    obtain ⟨h1, h2, h3, h4, h5⟩ := h c (List.mem_cons_self _ _)
    have : (c == 35) = false := by rw [beq_eq_false_iff_ne]; exact h5
    rw [litOK_cons_false, this, Bool.and_eq_true]
    exact ⟨decide_eq_true ⟨h1, h2, h3, h4⟩, ih (fun x hx => h x (List.mem_cons_of_mem _ hx))⟩

theorem cmtCount_of_plain : ∀ (doc : List Nat), (∀ c ∈ doc, isPlain c) →
    cmtCount false doc = 0 := by
  intro doc
  induction doc with
  | nil => intro _; rfl
  | cons c r ih =>
    intro h
    obtain ⟨h1, h2, h3, h4, h5⟩ := h c (List.mem_cons_self _ _)
    simp only [cmtCount, h5, if_false]
    exact ih (fun x hx => h x (List.mem_cons_of_mem _ hx))

theorem mxrun_plain (doc : List Nat) (h : ∀ c ∈ doc, isPlain c) (fuel : Nat)
    (hf : doc.length < fuel) : mxrun fuel doc = .ok (litLex .start doc) :=
  mxrun_literal doc (litOK_of_plain doc h) (by rw [cmtCount_of_plain doc h]; omega) fuel hf

/-- Without whitespace and comment characters the reference lexer copies. -/
theorem litLex_copy : ∀ (doc : List Nat), (∀ c ∈ doc, c ≠ 35 ∧ isspace c = false) →
    litLex .start doc = doc ∧ litLex .top doc = doc := by
  intro doc
  induction doc with
  | nil => intro _; exact ⟨rfl, rfl⟩
  | cons c r ih =>
    intro h
    obtain ⟨h1, h2⟩ := h c (List.mem_cons_self _ _)
    have := (ih (fun x hx => h x (List.mem_cons_of_mem _ hx))).2
    simp [litLex, h1, h2, this]

/-! ### Whitespace -/

theorem wsToken_count (run : List Nat) : wsToken (run.count 10) = runToken run := by
  unfold wsToken runToken
  by_cases h : run.count 10 > 1
  · rw [if_pos h, if_pos (by omega)]
  · rw [if_neg h, if_neg (by omega)]

theorem endsInSpace_cons (c : Nat) (r : List Nat) (h : r ≠ []) :
    endsInSpace (c :: r) = endsInSpace r := by
  unfold endsInSpace
  cases r with
  | nil => exact absurd rfl h
  | cons d r => rw [List.getLast?_cons_cons]

theorem litLex_collapse : ∀ (r : List Nat), (∀ c ∈ r, c ≠ 35) → endsInSpace r = false →
    litLex .top r = collapse [] r ∧
    (r ≠ [] → ∀ run, run ≠ [] → litLex (.ws (run.count 10)) r = collapse run r) := by
  intro r
  induction r with
  | nil =>
    intro _ _
    exact ⟨rfl, fun h => absurd rfl h⟩
  | cons c r ih =>
    intro h35 hend
    have hc : c ≠ 35 := h35 c (List.mem_cons_self _ _)
    have hr : ∀ x ∈ r, x ≠ 35 := fun x hx => h35 x (List.mem_cons_of_mem _ hx)
    by_cases hsp : isspace c = true
    · have hne : r ≠ [] := by
        intro h; rw [h] at hend; simp [endsInSpace, hsp] at hend
      rw [endsInSpace_cons c r hne] at hend
      obtain ⟨_, i2⟩ := ih hr hend
      constructor
      · simp only [litLex, collapse, hsp, if_true, List.nil_append]
        have := i2 hne [c] (by simp)
        rw [← this]
        congr 2
        by_cases h10 : c = 10 <;> simp [h10, List.count_cons]
      · intro _ run hrun
        simp only [litLex, collapse, hsp, if_true]
        have := i2 hne (run ++ [c]) (by simp)
        rw [← this]
        congr 2
        by_cases h10 : c = 10 <;> simp [h10, List.count_append, List.count_cons]
    · have hend' : endsInSpace r = false := by
        by_cases hne : r = []
        · rw [hne]; rfl
        · rw [endsInSpace_cons c r hne] at hend; exact hend
      obtain ⟨i1, _⟩ := ih hr hend'
      constructor
      · simp only [litLex, collapse, hsp, hc, if_false, i1, if_true, List.nil_append]
        rfl
      · intro _ run hrun
        simp only [litLex, collapse, hsp, hc, if_false, i1, hrun, wsToken_count]
        rfl

theorem litLex_dropWhile : ∀ (doc : List Nat), litLex .start doc =
    litLex .start (doc.dropWhile isspace) := by
  intro doc
  induction doc with
  | nil => rfl
  | cons c r ih =>
    by_cases hsp : isspace c = true
    · simp only [litLex, hsp, if_true, List.dropWhile_cons_of_pos]
      exact ih
    · simp only [List.dropWhile_cons_of_neg hsp]

theorem endsInSpace_dropWhile : ∀ (doc : List Nat), endsInSpace doc = false →
    endsInSpace (doc.dropWhile isspace) = false := by
  intro doc
  induction doc with
  | nil => intro _; rfl
  | cons c r ih =>
    intro h
    by_cases hsp : isspace c = true
    · rw [List.dropWhile_cons_of_pos hsp]
      have hne : r ≠ [] := by
        intro h0; rw [h0] at h; simp [endsInSpace, hsp] at h
      rw [endsInSpace_cons c r hne] at h
      exact ih h
    · rw [List.dropWhile_cons_of_neg hsp]; exact h

theorem litLex_normalize (doc : List Nat) (h35 : ∀ c ∈ doc, c ≠ 35)
    (hend : endsInSpace doc = false) : litLex .start doc = normalize doc := by
  rw [litLex_dropWhile, normalize]
  have h35' : ∀ c ∈ doc.dropWhile isspace, c ≠ 35 :=
    fun c hc => h35 c (List.dropWhile_sublist _ |>.subset hc)
  have hend' := endsInSpace_dropWhile doc hend
  rcases hd : doc.dropWhile isspace with _ | ⟨c, r⟩
  · rfl
  · have hsp : isspace c = false := by
      have := List.head_dropWhile_not isspace doc (by rw [hd]; simp)
      simpa [hd] using this
    rw [hd] at h35' hend'
    have hc : c ≠ 35 := h35' c (List.mem_cons_self _ _)
    have hend2 : endsInSpace r = false := by
      by_cases hne : r = []
      · rw [hne]; rfl
      · rw [endsInSpace_cons c r hne] at hend'; exact hend'
    obtain ⟨i1, _⟩ := litLex_collapse r (fun x hx => h35' x (List.mem_cons_of_mem _ hx)) hend2
    simp only [litLex, collapse, hsp, hc, if_false, i1, if_true, List.nil_append,
      Bool.false_eq_true]

end Mex

namespace Mex

/-! ### Comments -/

theorem litLex_comment : ∀ (c : List Nat), (∀ x ∈ c, x ≠ 10) → ∀ (s : Bool) (v : List Nat),
    litLex (.cmt s) (c ++ 10 :: v) = litLex (modeOf s) v := by
  intro c
  induction c with
  | nil => intro _ s v; simp [litLex, modeOf]
  | cons a c ih =>
    intro h s v
    have ha : a ≠ 10 := h a (List.mem_cons_self _ _)
    simp only [List.cons_append, litLex, ha, if_false]
    exact ih (fun x hx => h x (List.mem_cons_of_mem _ hx)) s v

theorem litOK_comment : ∀ (c : List Nat), (∀ x ∈ c, x ≠ 10) → ∀ (v : List Nat),
    litOK true (c ++ 10 :: v) = litOK false v := by
  intro c
  induction c with
  | nil => intro _ v; rfl
  | cons a c ih =>
    intro h v
    have ha : (a != 10) = true := by simpa using h a (List.mem_cons_self _ _)
    rw [List.cons_append, litOK_cons_true, ha]
    exact ih (fun x hx => h x (List.mem_cons_of_mem _ hx)) v

theorem cmtCount_comment : ∀ (c : List Nat), (∀ x ∈ c, x ≠ 10) → ∀ (v : List Nat),
    cmtCount true (c ++ 10 :: v) = cmtCount false v := by
  intro c
  induction c with
  | nil => intro _ v; simp [cmtCount]
  | cons a c ih =>
    intro h v
    have ha : a ≠ 10 := h a (List.mem_cons_self _ _)
    simp only [List.cons_append, cmtCount, ha, if_false]
    exact ih (fun x hx => h x (List.mem_cons_of_mem _ hx)) v

theorem litOK_append_plain : ∀ (u : List Nat), (∀ a ∈ u, isPlain a) → ∀ (x : List Nat),
    litOK false (u ++ x) = litOK false x := by
  intro u
  induction u with
  | nil => intro _ x; rfl
  | cons a u ih =>
    intro h x
    obtain ⟨h1, h2, h3, h4, h5⟩ := h a (List.mem_cons_self _ _)
    have : (a == 35) = false := by rw [beq_eq_false_iff_ne]; exact h5
    have hd : decide (isLiteral a) = true := decide_eq_true ⟨h1, h2, h3, h4⟩
    rw [List.cons_append, litOK_cons_false, this, hd, Bool.true_and]
    exact ih (fun y hy => h y (List.mem_cons_of_mem _ hy)) x

theorem cmtCount_append_plain : ∀ (u : List Nat), (∀ a ∈ u, isPlain a) → ∀ (x : List Nat),
    cmtCount false (u ++ x) = cmtCount false x := by
  intro u
  induction u with
  | nil => intro _ x; rfl
  | cons a u ih =>
    intro h x
    obtain ⟨h1, h2, h3, h4, h5⟩ := h a (List.mem_cons_self _ _)
    simp only [List.cons_append, cmtCount, h5, if_false]
    exact ih (fun y hy => h y (List.mem_cons_of_mem _ hy)) x

/-- Reading a comment-free text `u` emits some tokens and leaves the reference
lexer in a mode that depends on `u` only. -/
theorem litLex_through : ∀ (u : List Nat) (m : LMode), (∀ a ∈ u, a ≠ 35) →
    (m = .start ∨ m = .top ∨ ∃ lb, m = .ws lb) →
    ∃ toks m1, (∀ x, litLex m (u ++ x) = toks ++ litLex m1 x) ∧
      (m1 = .start ∨ m1 = .top ∨ ∃ lb, m1 = .ws lb) ∧
      ((∀ a ∈ u, isspace a = true) → m = .start → m1 = .start) ∧
      (u ≠ [] → endsInSpace u = false → m1 = .top) ∧ (u = [] → m1 = m) := by
  intro u
  induction u with
  | nil =>
    intro m _ hm
    exact ⟨[], m, fun x => rfl, hm, fun _ h => h, fun h => absurd rfl h, fun _ => rfl⟩
  | cons a u ih =>
    intro m h35 hm
    have ha : a ≠ 35 := h35 a (List.mem_cons_self _ _)
    have hu : ∀ x ∈ u, x ≠ 35 := fun x hx => h35 x (List.mem_cons_of_mem _ hx)
    have hend : ∀ (m1 : LMode), (u ≠ [] → endsInSpace u = false → m1 = .top) →
        isspace a = true → a :: u ≠ [] → endsInSpace (a :: u) = false → m1 = .top := by
      intro m1 h1 hsp _ h2
      have hne : u ≠ [] := by
        intro h0; rw [h0] at h2; simp [endsInSpace, hsp] at h2
      rw [endsInSpace_cons a u hne] at h2
      exact h1 hne h2
    have hnil : ∀ (m1 : LMode), a :: u = [] → m1 = m := fun _ h => by cases h
    by_cases hsp : isspace a = true
    · rcases hm with hm | hm | ⟨lb, hm⟩
      · -- start, whitespace
        obtain ⟨toks, m1, g1, g2, g3, g4, g5⟩ := ih .start hu (Or.inl rfl)
        refine ⟨toks, m1, ?_, g2, ?_, hend m1 g4 hsp, hnil m1⟩
        · intro x; rw [hm]; simp only [List.cons_append, litLex, hsp, if_true]; exact g1 x
        · intro hall _; exact g3 (fun y hy => hall y (List.mem_cons_of_mem _ hy)) rfl
      · obtain ⟨toks, m1, g1, g2, g3, g4, g5⟩ := ih (.ws (if a = 10 then 1 else 0)) hu
          (Or.inr (Or.inr ⟨_, rfl⟩))
        refine ⟨toks, m1, ?_, g2, ?_, hend m1 g4 hsp, hnil m1⟩
        · intro x; rw [hm]; simp only [List.cons_append, litLex, hsp, if_true]; exact g1 x
        · intro _ h; rw [hm] at h; cases h
      · obtain ⟨toks, m1, g1, g2, g3, g4, g5⟩ := ih (.ws (if a = 10 then lb + 1 else lb)) hu
          (Or.inr (Or.inr ⟨_, rfl⟩))
        refine ⟨toks, m1, ?_, g2, ?_, hend m1 g4 hsp, hnil m1⟩
        · intro x; rw [hm]; simp only [List.cons_append, litLex, hsp, if_true]; exact g1 x
        · intro _ h; rw [hm] at h; cases h
    · have hsp' : isspace a = false := by simpa using hsp
      obtain ⟨toks, m1, g1, g2, g3, g4, g5⟩ := ih .top hu (Or.inr (Or.inl rfl))
      have hlast : a :: u ≠ [] → endsInSpace (a :: u) = false → m1 = .top := by
        intro _ h2
        by_cases hne : u = []
        · exact g5 hne
        · rw [endsInSpace_cons a u hne] at h2
          exact g4 hne h2
      have hall : (∀ y ∈ a :: u, isspace y = true) → m = .start → m1 = .start := by
        intro h _
        have := h a (List.mem_cons_self _ _)
        rw [hsp'] at this; cases this
      rcases hm with hm | hm | ⟨lb, hm⟩
      · refine ⟨a :: toks, m1, ?_, g2, hall, hlast, hnil m1⟩
        intro x; rw [hm]
        simp only [List.cons_append, litLex, hsp', ha, if_false, Bool.false_eq_true]
        exact congrArg (List.cons a) (g1 x)
      · refine ⟨a :: toks, m1, ?_, g2, hall, hlast, hnil m1⟩
        intro x; rw [hm]
        simp only [List.cons_append, litLex, hsp', ha, if_false, Bool.false_eq_true]
        exact congrArg (List.cons a) (g1 x)
      · refine ⟨wsToken lb :: a :: toks, m1, ?_, g2, hall, hlast, hnil m1⟩
        intro x; rw [hm]
        simp only [List.cons_append, litLex, hsp', ha, if_false, Bool.false_eq_true]
        exact congrArg (fun l => wsToken lb :: a :: l) (g1 x)

/-- The comment law on the reference lexer. -/
theorem litLex_comment_law (u c v : List Nat) (hu : ∀ a ∈ u, a ≠ 35) (hv : ∀ a ∈ v, a ≠ 35)
    (hc : ∀ x ∈ c, x ≠ 10)
    (H : (∀ a ∈ u, isspace a = true) ∨ endsInSpace u = false ∨
         ∃ d w, v = d :: w ∧ isspace d = false) :
    litLex .start (u ++ 35 :: (c ++ 10 :: v)) = litLex .start (u ++ v) := by
  obtain ⟨toks, m1, g1, g2, g3, g4, g5⟩ := litLex_through u .start hu (Or.inl rfl)
  rw [g1, g1]
  congr 1
  have hstart : litLex .start (35 :: (c ++ 10 :: v)) = litLex .start v := by
    simp only [litLex, show isspace 35 = false from rfl, Bool.false_eq_true, if_false, if_true]
    exact litLex_comment c hc true v
  have htop : litLex .top (35 :: (c ++ 10 :: v)) = litLex .top v := by
    simp only [litLex, show isspace 35 = false from rfl, Bool.false_eq_true, if_false, if_true]
    exact litLex_comment c hc false v
  have hws : ∀ lb d w, v = d :: w → isspace d = false →
      litLex (.ws lb) (35 :: (c ++ 10 :: v)) = litLex (.ws lb) v := by
    intro lb d w hvd hd
    have hd35 : d ≠ 35 := hv d (by rw [hvd]; exact List.mem_cons_self _ _)
    simp only [litLex, show isspace 35 = false from rfl, Bool.false_eq_true, if_false, if_true]
    rw [litLex_comment c hc false v, hvd]
    simp only [litLex, hd, hd35, Bool.false_eq_true, if_false]
  rcases H with H | H | ⟨d, w, hvd, hd⟩
  · rw [g3 H rfl]; exact hstart
  · by_cases hne : u = []
    · rw [g5 hne]; exact hstart
    · rw [g4 hne H]; exact htop
  · rcases g2 with h | h | ⟨lb, h⟩
    · rw [h]; exact hstart
    · rw [h]; exact htop
    · rw [h]; exact hws lb d w hvd hd

/-! ## Escapes -/

/-- The escape branch of `scan` on a byte that is not alphabetic. -/
theorem scan_escape (st : Engine) (c : Nat) (rest : List Nat)
    (hinp : st.inp = 92 :: c :: rest) (hcap : st.blast < BUFFERMAX)
    (hna : isalpha c = false) :
    scan st = .ok { st with inp := rest, is_start := false,
                            buf := upd st.buf st.blast
                              (if 49 ≤ c ∧ c ≤ 57 then tARG1 + c - 49 else c),
                            blast := st.blast + 1 } := by
  have h1 : isspace 92 = false := rfl
  unfold scan
  rw [hinp]
  simp only [List.length_cons, scanAux, hinp, h1, Bool.false_eq_true, if_false,
    show (92 : Nat) ≠ 35 by omega, show (92 : Nat) ≠ 123 by omega,
    show (92 : Nat) ≠ 125 by omega, ne_eq, not_true_eq_false, hna, Bool.not_false, if_true]
  by_cases hd : 49 ≤ c ∧ c ≤ 57
  · rw [if_pos hd, if_pos hd]
    simp only [put, hcap, if_true]
  · rw [if_neg hd, if_neg hd]
    simp only [put, hcap, if_true]

/-- Calling `next` and `fill` first makes no difference. -/
theorem next_fill (fuel : Nat) (st st1 : Engine) (h : fill st = .ok st1)
    (hlt : st1.bpos < st1.blast) : next fuel st = next fuel st1 := by
  cases fuel with
  | zero => rfl
  | succ f =>
    have hf1 : fill st1 = .ok st1 := by unfold fill; rw [if_neg (by omega)]
    simp only [next, h, hf1]

theorem runLoop_fill (fuel n : Nat) (st st1 : Engine) (out : List Nat)
    (h : fill st = .ok st1) (hlt : st1.bpos < st1.blast) :
    runLoop fuel n st out = runLoop fuel n st1 out := by
  cases n with
  | zero => rfl
  | succ n => simp only [runLoop, next_fill fuel st st1 h hlt]

theorem mxrun_escape (c : Nat) (hc : c < 256) (hna : isalpha c = false)
    (hd : ¬ (49 ≤ c ∧ c ≤ 57)) (fuel : Nat) (hfuel : 2 ≤ fuel) :
    mxrun fuel [92, c] = .ok [c] := by
  unfold mxrun mxrunState
  have e1 := init_inp [92, c]
  have e2 := init_bpos [92, c]
  have e3 := init_blast [92, c]
  generalize init [92, c] = S at e1 e2 e3 ⊢
  have hs := scan_escape S c [] e1 (by rw [e3]; simp [BUFFERMAX, TOKENMAX]) hna
  rw [if_neg hd] at hs
  obtain ⟨S1, hS1⟩ : ∃ S1, S1 =
      { S with
        inp := [], is_start := false,
        buf := upd S.buf S.blast c, blast := S.blast + 1 } := ⟨_, rfl⟩
  rw [← hS1] at hs
  have hfill : fill S = .ok S1 := by
    unfold fill
    rw [if_pos (by rw [e2, e3])]
    exact hs
  have hp : pending S1 = [c] :=
    pending_writeAll _ [c] S.buf 0 (by rw [hS1]; exact e2) (by rw [hS1]; simp [e3])
      (by rw [hS1]; simp [writeAll, e3])
  have hinv : LitInv S1 := by
    constructor
    · rw [hS1]; simp [e2]
    · rw [hS1]; simp [e2]
    · rw [hS1]; simp [cmtCount, BUFFERMAX, TOKENMAX]
    · rw [hS1]; rfl
    · rw [hS1]; exact Or.inr rfl
    · rw [hp]; intro t ht; simp only [List.mem_singleton] at ht; omega
  obtain ⟨st2, g1, _⟩ := runLoop_lit fuel S1 [] fuel (by omega) hinv
    (by rw [hp]; rw [hS1]; simp only [List.length_nil, List.length_singleton]; omega)
  rw [runLoop_fill fuel fuel _ _ [] hfill (by rw [hS1]; simp [e2, e3]), g1]
  simp only [List.nil_append]
  congr 1
  unfold ahead
  rw [hp]
  have : c ≠ tEOF := by unfold tEOF; omega
  rw [hS1]
  simp [litLex, this]

end Mex

namespace Mex

/-! ## The arena -/

theorem poolMatches_iff (pool : Nat → Nat) : ∀ (xs : List Nat) (off : Nat),
    poolMatches pool off xs = true ↔ (List.range xs.length).map (fun k => pool (off + k)) = xs := by
  intro xs
  induction xs with
  | nil => intro off; simp [poolMatches]
  | cons x xs ih =>
    intro off
    simp only [poolMatches, Bool.and_eq_true, beq_iff_eq, List.length_cons,
      List.range_succ_eq_map, List.map_cons, Nat.add_zero, List.map_map, List.cons.injEq]
    rw [ih (off + 1)]
    have : (fun k => pool (off + 1 + k)) = (fun k => pool (off + k)) ∘ Nat.succ := by
      funext k
      simp only [Function.comp]
      congr 1
      omega
    rw [this]

theorem matches_iff_spelling (st : Engine) (i : Nat) (xs : List Nat) :
    (st.plen i = xs.length ∧ poolMatches st.pool (st.ppos i) xs = true) ↔ spelling st i = xs := by
  unfold spelling
  rw [poolMatches_iff]
  constructor
  · rintro ⟨h1, h2⟩
    rw [h1]; exact h2
  · intro h
    have hl : st.plen i = xs.length := by
      have := congrArg List.length h
      simpa using this
    rw [hl] at h
    exact ⟨hl, h⟩

theorem findEntry_none (st : Engine) (xs : List Nat) : ∀ (n i : Nat),
    (∀ j, i ≤ j → j < i + n → spelling st j ≠ xs) → findEntry st xs n i = none := by
  intro n
  induction n with
  | zero => intro i _; rfl
  | succ n ih =>
    intro i h
    simp only [findEntry]
    rw [if_neg]
    · exact ih (i + 1) (fun j h1 h2 => h j (by omega) (by omega))
    · rw [matches_iff_spelling]
      exact h i (le_refl _) (by omega)

theorem findEntry_first (st : Engine) (xs : List Nat) : ∀ (n i j : Nat),
    i ≤ j → j < i + n → spelling st j = xs → (∀ k, i ≤ k → k < j → spelling st k ≠ xs) →
    findEntry st xs n i = some j := by
  intro n
  induction n with
  | zero => intro i j h1 h2; omega
  | succ n ih =>
    intro i j h1 h2 h3 h4
    simp only [findEntry]
    by_cases hij : i = j
    · rw [if_pos]
      · rw [hij]
      · rw [matches_iff_spelling, hij]; exact h3
    · rw [if_neg]
      · exact ih (i + 1) j (by omega) (by omega) h3 (fun k g1 g2 => h4 k (by omega) g2)
      · rw [matches_iff_spelling]
        exact h4 i (le_refl _) (by omega)

theorem slotOf_le_length (xs : List Nat) : ∀ (L : List (List Nat)), slotOf xs L ≤ L.length := by
  intro L
  induction L with
  | nil => exact le_refl _
  | cons y L ih =>
    simp only [slotOf, List.length_cons]
    split <;> omega

theorem slotOf_lt_length (xs : List Nat) : ∀ (L : List (List Nat)),
    slotOf xs L < L.length ↔ xs ∈ L := by
  intro L
  induction L with
  | nil => simp [slotOf]
  | cons y L ih =>
    simp only [slotOf, List.length_cons, List.mem_cons]
    by_cases hy : y = xs
    · rw [if_pos hy]
      constructor
      · intro _; exact Or.inl hy.symm
      · intro _; omega
    · rw [if_neg hy, Nat.add_lt_add_iff_right, ih]
      constructor
      · intro h; exact Or.inr h
      · rintro (h | h)
        · exact absurd h.symm hy
        · exact h

theorem slotOf_of_not_mem (xs : List Nat) (L : List (List Nat)) (h : xs ∉ L) :
    slotOf xs L = L.length := by
  have h1 := slotOf_le_length xs L
  have h2 := (slotOf_lt_length xs L).not.2 h
  omega

theorem getD_slotOf (xs : List Nat) : ∀ (L : List (List Nat)), xs ∈ L →
    L.getD (slotOf xs L) [] = xs := by
  intro L
  induction L with
  | nil => intro h; cases h
  | cons y L ih =>
    intro h
    simp only [slotOf]
    by_cases hy : y = xs
    · rw [if_pos hy]; simpa using hy
    · rw [if_neg hy]
      rcases List.mem_cons.1 h with h | h
      · exact absurd h.symm hy
      · simpa using ih h

theorem getD_ne_of_lt_slotOf (xs : List Nat) : ∀ (L : List (List Nat)) (k : Nat),
    k < slotOf xs L → L.getD k [] ≠ xs ∨ L.length ≤ k := by
  intro L
  induction L with
  | nil => intro k hk; simp [slotOf] at hk
  | cons y L ih =>
    intro k hk
    simp only [slotOf] at hk
    by_cases hy : y = xs
    · rw [if_pos hy] at hk; omega
    · rw [if_neg hy] at hk
      cases k with
      | zero => left; simpa using hy
      | succ k =>
        rcases ih k (by omega) with h | h
        · left; simpa using h
        · right; simp only [List.length_cons]; omega

theorem slotOf_append_of_mem (xs : List Nat) (M : List (List Nat)) : ∀ (L : List (List Nat)),
    xs ∈ L → slotOf xs (L ++ M) = slotOf xs L := by
  intro L
  induction L with
  | nil => intro h; cases h
  | cons y L ih =>
    intro h
    simp only [List.cons_append, slotOf]
    by_cases hy : y = xs
    · rw [if_pos hy, if_pos hy]
    · rw [if_neg hy, if_neg hy]
      rcases List.mem_cons.1 h with h | h
      · exact absurd h.symm hy
      · exact congrArg (· + 1) (ih h)

theorem slotOf_append_self (xs : List Nat) : ∀ (L : List (List Nat)),
    xs ∉ L → slotOf xs (L ++ [xs]) = L.length := by
  intro L
  induction L with
  | nil => intro _; simp [slotOf]
  | cons y L ih =>
    intro h
    have hy : y ≠ xs := fun e => h (by rw [e]; exact List.mem_cons_self _ _)
    simp only [List.cons_append, slotOf, if_neg hy, List.length_cons]
    exact congrArg (· + 1) (ih (fun g => h (List.mem_cons_of_mem _ g)))

/-- The search of `scan_group`, which starts at `tSENTINEL`. -/
theorem findEntry_group (st : Engine) (L : List (List Nat)) (h : Arena st L) (xs : List Nat) :
    findEntry st xs (st.pcur - tSENTINEL) tSENTINEL =
      if xs ∈ L then some (internId L xs) else none := by
  rw [h.pcur, Nat.add_sub_cancel_left]
  by_cases hm : xs ∈ L
  · rw [if_pos hm]
    have hlt : slotOf xs L < L.length := (slotOf_lt_length xs L).2 hm
    apply findEntry_first
    · unfold internId; omega
    · unfold internId; omega
    · unfold internId
      rw [h.spell _ hlt]
      exact getD_slotOf xs L hm
    · intro k h1 h2
      unfold internId at h2
      obtain ⟨j, rfl⟩ : ∃ j, k = tSENTINEL + j := ⟨k - tSENTINEL, by omega⟩
      rw [h.spell j (by omega)]
      rcases getD_ne_of_lt_slotOf xs L j (by omega) with g | g
      · exact g
      · omega
  · rw [if_neg hm]
    apply findEntry_none
    intro k h1 h2
    obtain ⟨j, rfl⟩ : ∃ j, k = tSENTINEL + j := ⟨k - tSENTINEL, by omega⟩
    rw [h.spell j (by omega)]
    intro heq
    apply hm
    rw [← heq, List.getD_eq_getElem _ _ (by omega : j < L.length)]
    exact List.getElem_mem _

set_option maxRecDepth 100000 in
theorem init_spelling_def : spelling (init []) tDEF = defSpelling := by decide

theorem arena_spelling_base (st : Engine) (L : List (List Nat)) (h : Arena st L) (i : Nat)
    (hi : i < tSENTINEL) : spelling st i = spelling (init []) i := by
  unfold spelling
  obtain ⟨h1, h2⟩ := h.base i hi
  rw [h1, h2]
  apply List.map_congr_left
  intro k hk
  have hk' : k < (init []).plen i := by simpa using hk
  apply h.basePool
  -- the base entries lie below 284
  have : (init []).ppos i + (init []).plen i ≤ 284 := by
    by_cases hlt : i < 256
    · rw [init_ppos_lt _ _ hlt, init_plen_lt _ _ hlt]; omega
    · have hi' : i < 270 := hi
      obtain ⟨g1, g2⟩ := init_prim [] i (by omega) hi'
      rw [g1, g2]
      have : 256 ≤ i := by omega
      interval_cases i <;> decide
  omega

theorem arena_spelling_def (st : Engine) (L : List (List Nat)) (h : Arena st L) :
    spelling st tDEF = defSpelling := by
  rw [arena_spelling_base st L h tDEF (by decide)]
  exact init_spelling_def

/-- The search of `scan_cs`, which starts at `tDEF`. -/
theorem findEntry_cs (st : Engine) (L : List (List Nat)) (h : Arena st L) (xs : List Nat) :
    findEntry st xs (st.pcur - tDEF) tDEF =
      if xs = defSpelling then some tDEF
      else if xs ∈ L then some (internId L xs) else none := by
  have hp : st.pcur - tDEF = (st.pcur - tSENTINEL) + 1 := by
    rw [h.pcur]; simp only [tSENTINEL, tDEF]; omega
  rw [hp]
  rw [show findEntry st xs (st.pcur - tSENTINEL + 1) tDEF =
      (if st.plen tDEF = xs.length ∧ poolMatches st.pool (st.ppos tDEF) xs = true then some tDEF
       else findEntry st xs (st.pcur - tSENTINEL) (tDEF + 1)) from rfl]
  have hm := matches_iff_spelling st tDEF xs
  rw [arena_spelling_def st L h] at hm
  by_cases hd : defSpelling = xs
  · rw [if_pos (hm.2 hd), if_pos hd.symm]
  · rw [if_neg (fun g => hd (hm.1 g)), if_neg (fun h => hd h.symm)]
    exact findEntry_group st L h xs

theorem poolPushAll_ok : ∀ (xs : List Nat) (st : Engine), st.plast + xs.length ≤ POOLMAX →
    poolPushAll st xs =
      .ok { st with pool := writeAll st.pool st.plast xs, plast := st.plast + xs.length } := by
  intro xs
  induction xs with
  | nil => intro st _; rfl
  | cons x xs ih =>
    intro st h
    simp only [List.length_cons] at h
    simp only [poolPushAll, poolPush, show st.plast < POOLMAX by omega, if_true]
    rw [ih _ (by simp only []; omega)]
    simp only [writeAll, List.length_cons]
    rw [show st.plast + 1 + xs.length = st.plast + (xs.length + 1) by omega]

theorem addEntry_ok (st : Engine) (xs : List Nat) (h1 : st.pcur < UINT16_MAX)
    (h2 : st.plast + xs.length ≤ POOLMAX) :
    addEntry st xs = .ok (st.pcur,
      { st with ppos := upd st.ppos st.pcur st.plast, plen := upd st.plen st.pcur xs.length,
                pool := writeAll st.pool st.plast xs, plast := st.plast + xs.length,
                pcur := st.pcur + 1 }) := by
  unfold addEntry
  rw [if_pos h1, poolPushAll_ok xs
    { st with ppos := upd st.ppos st.pcur st.plast, plen := upd st.plen st.pcur xs.length } h2]
  simp only [UINT16_MAX] at h1
  simp only []
  rw [Nat.mod_eq_of_lt (by omega)]

/-- The arena after a new entry. -/
theorem arena_add (st : Engine) (L : List (List Nat)) (h : Arena st L) (xs : List Nat)
    (h1 : st.pcur < UINT16_MAX) (h2 : st.plast + xs.length ≤ POOLMAX) :
    Arena { st with ppos := upd st.ppos st.pcur st.plast, plen := upd st.plen st.pcur xs.length,
                    pool := writeAll st.pool st.plast xs, plast := st.plast + xs.length,
                    pcur := st.pcur + 1 } (L ++ [xs]) := by
  have hpc := h.pcur
  have hpl := h.plast
  constructor
  · simp only [List.length_append, List.length_singleton]; omega
  · simp only []; omega
  · intro i hi
    simp only []
    rw [upd_other _ _ _ _ (by omega), upd_other _ _ _ _ (by omega)]
    exact h.base i hi
  · intro j hj
    simp only []
    rw [writeAll_lt _ _ _ _ (by omega)]
    exact h.basePool j hj
  · intro k hk
    simp only [List.length_append, List.length_singleton] at hk
    by_cases hkl : k < L.length
    · have hok := h.ok (tSENTINEL + k) (by omega)
      have : spelling { st with ppos := upd st.ppos st.pcur st.plast,
                                plen := upd st.plen st.pcur xs.length,
                                pool := writeAll st.pool st.plast xs,
                                plast := st.plast + xs.length,
                                pcur := st.pcur + 1 } (tSENTINEL + k) =
          spelling st (tSENTINEL + k) := by
        unfold spelling
        simp only []
        rw [upd_other _ _ _ _ (by omega), upd_other _ _ _ _ (by omega)]
        apply List.map_congr_left
        intro a ha
        have : a < st.plen (tSENTINEL + k) := by simpa using ha
        exact writeAll_lt _ _ _ _ (by omega)
      rw [this, h.spell k hkl, List.getD_append _ _ _ _ hkl]
    · have hk' : k = L.length := by omega
      subst hk'
      rw [List.getD_append_right _ _ _ _ (le_refl _), Nat.sub_self]
      unfold spelling
      simp only [← hpc, upd_same, List.getD_cons_zero]
      exact range_map_eq_of_get _ _ (fun a ha => writeAll_get xs st.pool st.plast a ha)
  · intro k hk
    simp only [List.length_append, List.length_singleton] at hk
    simp only []
    by_cases hkl : k < L.length
    · rw [upd_other _ _ _ _ (by omega)]
      exact h.low k hkl
    · have hk' : k = L.length := by omega
      subst hk'
      rw [← hpc, upd_same]
      omega
  · intro i hi
    simp only [] at hi ⊢
    by_cases hip : i = st.pcur
    · rw [hip, upd_same, upd_same]
    · rw [upd_other _ _ _ _ hip, upd_other _ _ _ _ hip]
      have := h.ok i (by omega)
      omega
  · simp only [List.map_append, List.sum_append, List.map_cons, List.map_nil, List.sum_cons,
      List.sum_nil]
    omega
  · exact h2

theorem arena_congr (a b : Engine) (L : List (List Nat)) (h : Arena a L)
    (e1 : b.pool = a.pool) (e2 : b.ppos = a.ppos) (e3 : b.plen = a.plen) (e4 : b.pcur = a.pcur)
    (e5 : b.plast = a.plast) : Arena b L := by
  have hs : ∀ i, spelling b i = spelling a i := by
    intro i; unfold spelling; rw [e1, e2, e3]
  constructor
  · rw [e4]; exact h.pcur
  · rw [e4]; exact h.small
  · rw [e2, e3]; exact h.base
  · rw [e1]; exact h.basePool
  · intro k hk; rw [hs]; exact h.spell k hk
  · rw [e2]; exact h.low
  · rw [e2, e3, e4, e5]; exact h.ok
  · rw [e5]; exact h.plast
  · rw [e5]; exact h.cap

set_option maxRecDepth 100000 in
theorem arena_init (fp : List Nat) : Arena (init fp) [] := by
  have e := init_eq fp
  apply arena_congr (init []) (init fp) [] ?_ (by rw [e]) (by rw [e]) (by rw [e]) (by rw [e])
    (by rw [e])
  constructor
  · rw [init_pcur]; rfl
  · rw [init_pcur]; decide
  · intro i _; exact ⟨rfl, rfl⟩
  · intro j _; rfl
  · intro k hk; simp at hk
  · intro k hk; simp at hk
  · intro i hi
    rw [init_pcur] at hi
    rw [init_plast]
    by_cases hlt : i < 256
    · rw [init_ppos_lt _ _ hlt, init_plen_lt _ _ hlt]; omega
    · obtain ⟨g1, g2⟩ := init_prim [] i (by omega) hi
      rw [g1, g2]
      have : 256 ≤ i := by omega
      interval_cases i <;> decide
  · rw [init_plast]; rfl
  · rw [init_plast]; decide

end Mex

namespace Mex

/-! ## Scanning lexemes -/

theorem lxOK_cons (x : Lx) (r : List Lx) (h : lxOK (x :: r) = true) :
    x.ok = true ∧ lxOK r = true := by
  cases r with
  | nil =>
    simp only [lxOK, Bool.and_eq_true] at h
    exact ⟨h.1, rfl⟩
  | cons y r =>
    simp only [lxOK, Bool.and_eq_true] at h
    exact ⟨h.1.1, h.2⟩

theorem lxOK_sp (x : Lx) (r : List Lx) (h : lxOK (x :: r) = true) (hx : x.isSp = true) :
    ∃ y r1, r = y :: r1 ∧ y.isSp = false := by
  cases r with
  | nil =>
    simp only [lxOK, Bool.and_eq_true, hx] at h
    simp at h
  | cons y r =>
    simp only [lxOK, Bool.and_eq_true, hx, Bool.true_and] at h
    refine ⟨y, r, rfl, ?_⟩
    simpa using h.1.2

/-- The first byte of a lexeme that is not a space is not whitespace. -/
theorem Lx.bytes_head (x : Lx) (hx : x.ok = true) (hs : x.isSp = false) :
    ∃ c r, x.bytes = c :: r ∧ isspace c = false := by
  cases x with
  | lit c =>
    refine ⟨c, [], rfl, ?_⟩
    simp only [Lx.ok, Bool.and_eq_true, Bool.or_eq_true, Bool.not_eq_true', beq_iff_eq] at hx
    simp only [Lx.isSp, beq_eq_false_iff_ne] at hs
    rcases hx.2 with h | h
    · exact h
    · exact absurd h hs
  | arg i => exact ⟨92, [48 + i], rfl, rfl⟩
  | bg => exact ⟨123, [], rfl, rfl⟩
  | eg => exact ⟨125, [], rfl, rfl⟩

/-- One round of `scan` on a lexeme that is not a space. -/
theorem scanAux_lx (fuel : Nat) (st : Engine) (x : Lx) (rest : List Nat) (hx : x.ok = true)
    (hs : x.isSp = false) (hinp : st.inp = x.bytes ++ rest) (hcap : st.blast < BUFFERMAX) :
    scanAux (fuel + 1) st =
      .ok { st with inp := rest, is_start := false,
                    buf := upd st.buf st.blast x.tok, blast := st.blast + 1 } := by
  cases x with
  | lit c =>
    simp only [Lx.ok, Bool.and_eq_true, Bool.or_eq_true, Bool.not_eq_true', beq_iff_eq,
      decide_eq_true_eq] at hx
    simp only [Lx.isSp, beq_eq_false_iff_ne] at hs
    obtain ⟨⟨h1, h2, h3, h4, h5⟩, h6⟩ := hx
    have hsp : isspace c = false := by
      rcases h6 with h | h
      · exact h
      · exact absurd h hs
    simp only [Lx.bytes, List.singleton_append] at hinp
    simp only [scanAux, hinp, hsp, Bool.false_eq_true, if_false, h5, h3, h4, ne_eq, h2,
      not_false_eq_true, if_true, put, hcap, Lx.tok]
  | arg i =>
    simp only [Lx.ok, Bool.and_eq_true, decide_eq_true_eq] at hx
    simp only [Lx.bytes, List.cons_append, List.nil_append] at hinp
    have hna : isalpha (48 + i) = false := by
      unfold isalpha
      simp only [Bool.or_eq_false_iff, Bool.and_eq_false_iff, decide_eq_false_iff_not]
      omega
    have hd : 49 ≤ 48 + i ∧ 48 + i ≤ 57 := by omega
    simp only [scanAux, hinp, show isspace 92 = false from rfl, Bool.false_eq_true, if_false,
      show (92 : Nat) ≠ 35 by omega, show (92 : Nat) ≠ 123 by omega,
      show (92 : Nat) ≠ 125 by omega, ne_eq, not_true_eq_false, hd, and_self, if_true, put,
      hcap, Lx.tok]
    rw [show tARG1 + (48 + i) - 49 = tARG1 + i - 1 by omega]
  | bg =>
    simp only [Lx.bytes, List.singleton_append] at hinp
    simp only [scanAux, hinp, show isspace 123 = false from rfl, Bool.false_eq_true, if_false,
      show (123 : Nat) ≠ 35 by omega, if_true, put, hcap, Lx.tok]
  | eg =>
    simp only [Lx.bytes, List.singleton_append] at hinp
    simp only [scanAux, hinp, show isspace 125 = false from rfl, Bool.false_eq_true, if_false,
      show (125 : Nat) ≠ 35 by omega, show (125 : Nat) ≠ 123 by omega, if_true, put, hcap,
      Lx.tok]

/-- One call of `scan` on a space in front of a lexeme that is not a space. -/
theorem scan_sp (st : Engine) (y : Lx) (rest : List Nat) (hy : y.ok = true)
    (hs : y.isSp = false) (hst : st.is_start = false) (hlb : st.line_breaks = 0)
    (hinp : st.inp = 32 :: (y.bytes ++ rest)) (hcap : st.blast + 1 < BUFFERMAX) :
    scan st =
      .ok { st with inp := rest,
                    buf := upd (upd st.buf st.blast 32) (st.blast + 1) y.tok,
                    blast := st.blast + 2 } := by
  obtain ⟨c, r, hb, hc⟩ := Lx.bytes_head y hy hs
  have hsk : skipSpaces 0 32 (y.bytes ++ rest) = (0, some (y.bytes ++ rest)) := by
    rw [hb]
    simp [skipSpaces, hc]
  have hlen : st.inp.length + 1 = ((y.bytes ++ rest).length + 1) + 1 := by rw [hinp]; rfl
  unfold scan
  rw [hlen, scanAux]
  simp only [hinp, show isspace 32 = true from rfl, if_true, hst,
    Bool.not_false, hlb, hsk, put, show st.blast < BUFFERMAX by omega,
    show ¬ (0 > 1) by omega, if_false]
  have := scanAux_lx (y.bytes ++ rest).length
    { st with inp := y.bytes ++ rest, line_breaks := 0,
              buf := upd st.buf st.blast 32, blast := st.blast + 1 } y rest hy hs rfl
    (by simp only []; omega)
  simp only [hst] at this
  rw [this]

/-! ## The token feed -/

theorem feed_of_input (st : Engine) (items : List Lx) (rest : List Nat)
    (h1 : st.bpos = st.blast) (h2 : st.is_start = false) (h3 : st.line_breaks = 0)
    (h4 : lxOK items = true) (h5 : st.inp = render items ++ rest) :
    Feed st (items.map Lx.tok) rest :=
  ⟨by omega, h2, h3, items, h4, h5, by rw [pending_nil st (by omega)]; rfl⟩

theorem feed_done (st : Engine) (rest : List Nat) (h : Feed st [] rest) :
    st.bpos = st.blast ∧ st.inp = rest := by
  obtain ⟨items, h1, h2, h3⟩ := h.ex
  have hp : pending st = [] := (List.append_eq_nil.1 h3.symm).1
  have hi : items = [] := by
    have := (List.append_eq_nil.1 h3.symm).2
    exact List.map_eq_nil_iff.1 this
  have hl := pending_length st
  rw [hp] at hl
  have := h.le
  refine ⟨by simp only [List.length_nil] at hl; omega, ?_⟩
  rw [h2, hi]
  rfl

/-- Taking the next token from the feed: the statement `if (bpos == blast) scan();`
followed by a read of `buf[bpos]` and `bpos++`. -/
theorem feed_pull (st : Engine) (t : Nat) (ts rest : List Nat) (h : Feed st (t :: ts) rest)
    (hcap : st.bpos + ts.length + 1 ≤ BUFFERMAX) :
    ∃ inp1 buf1 blast1,
      fill st = .ok { st with inp := inp1, buf := buf1, blast := blast1 } ∧
      buf1 st.bpos = t ∧ st.bpos < blast1 ∧
      Feed { st with inp := inp1, buf := buf1, blast := blast1, bpos := st.bpos + 1 } ts rest := by
  obtain ⟨items, h1, h2, h3⟩ := h.ex
  by_cases hb : st.bpos = st.blast
  · -- nothing pending: the scanner is called
    rw [pending_nil st (by omega), List.nil_append] at h3
    cases items with
    | nil => simp at h3
    | cons x r =>
      obtain ⟨hx, hr⟩ := lxOK_cons x r h1
      simp only [List.map_cons, List.cons.injEq] at h3
      obtain ⟨ht, hts⟩ := h3
      by_cases hs : x.isSp = true
      · -- a space and the lexeme after it
        obtain ⟨y, r1, hr1, hy⟩ := lxOK_sp x r h1 hs
        subst hr1
        obtain ⟨hyok, hr1ok⟩ := lxOK_cons y r1 hr
        have hx32 : x = .lit 32 := by
          cases x <;> simp [Lx.isSp] at hs
          rw [hs]
        subst hx32
        have hlen : ts.length = r1.length + 1 := by rw [hts]; simp
        have hscan := scan_sp st y (render r1 ++ rest) hyok hy h.noStart h.lb
          (by rw [h2]; simp [render, Lx.bytes]) (by omega)
        refine ⟨render r1 ++ rest, upd (upd st.buf st.blast 32) (st.blast + 1) y.tok,
          st.blast + 2, ?_, ?_, ?_, ?_⟩
        · unfold fill; rw [if_pos hb]; exact hscan
        · rw [hb, upd_other _ _ _ _ (by omega), upd_same, ht]; rfl
        · omega
        · refine ⟨by simp only []; omega, h.noStart, h.lb, r1, hr1ok, rfl, ?_⟩
          rw [hts]
          simp only [List.map_cons, List.cons_append, List.singleton_append]
          have : pending { st with inp := render r1 ++ rest,
                                   buf := upd (upd st.buf st.blast 32) (st.blast + 1) y.tok,
                                   blast := st.blast + 2, bpos := st.bpos + 1 } = [y.tok] := by
            apply pending_writeAll _ [y.tok] (upd st.buf st.blast 32) (st.bpos + 1) rfl
            · simp only [List.length_singleton]; omega
            · simp only [writeAll]; rw [hb]
          rw [this]
          rfl
      · -- one lexeme
        have hs' : x.isSp = false := by simpa using hs
        have hscan := scanAux_lx st.inp.length st x (render r ++ rest) hx hs'
          (by rw [h2]; simp only [render, List.append_assoc]) (by omega)
        refine ⟨render r ++ rest, upd st.buf st.blast x.tok, st.blast + 1, ?_, ?_, ?_, ?_⟩
        · unfold fill scan; rw [if_pos hb, hscan]
          congr 1
          have := h.noStart
          cases st
          simp only [] at this
          simp only [this]
        · rw [hb, upd_same, ht]
        · omega
        · refine ⟨by simp only []; omega, h.noStart, h.lb, r, hr, rfl, ?_⟩
          rw [hts, pending_nil _ (by simp only []; omega)]
          rfl
  · -- a token is pending
    have hlt : st.bpos < st.blast := lt_of_le_of_ne h.le hb
    rw [pending_cons st hlt, List.cons_append, List.cons.injEq] at h3
    refine ⟨st.inp, st.buf, st.blast, by unfold fill; rw [if_neg hb], h3.1.symm, hlt, ?_⟩
    exact ⟨by simp only []; omega, h.noStart, h.lb, items, h1, h2, h3.2⟩

end Mex

namespace Mex

/-! ## Capturing a group -/

/-- The feed depends on the input position and the token buffer only. -/
theorem feed_congr (a b : Engine) (ts rest : List Nat) (h : Feed a ts rest)
    (e1 : b.inp = a.inp) (e2 : b.is_start = a.is_start) (e3 : b.line_breaks = a.line_breaks)
    (e4 : b.buf = a.buf) (e5 : b.bpos = a.bpos) (e6 : b.blast = a.blast) : Feed b ts rest := by
  have hp : pending b = pending a := by unfold pending; rw [e4, e5, e6]
  obtain ⟨items, h1, h2, h3⟩ := h.ex
  exact ⟨by rw [e5, e6]; exact h.le, by rw [e2]; exact h.noStart, by rw [e3]; exact h.lb,
    items, h1, by rw [e1]; exact h2, by rw [hp]; exact h3⟩

/-- The loop of `scan_group` on a group without inner braces. -/
theorem groupLoop_flat : ∀ (G : List Nat) (n : Nat) (st : Engine) (acc ts rest : List Nat),
    Feed st (G ++ tEGROUP :: ts) rest →
    (∀ t ∈ G, t ≠ tEOF ∧ t ≠ tBGROUP ∧ t ≠ tEGROUP) →
    acc.length + G.length < TOKENMAX → G.length < n →
    st.bpos + G.length + 1 + ts.length ≤ BUFFERMAX →
    ∃ inp1 buf1 blast1,
      groupLoop n st 1 acc =
        .ok ({ st with inp := inp1, buf := buf1, blast := blast1,
                       bpos := st.bpos + G.length + 1 }, acc ++ G) ∧
      Feed { st with inp := inp1, buf := buf1, blast := blast1,
                     bpos := st.bpos + G.length + 1 } ts rest := by
  intro G
  induction G with
  | nil =>
    intro n st acc ts rest hfeed _ hacc hn hcap
    obtain ⟨n, rfl⟩ : ∃ k, n = k + 1 := ⟨n - 1, by simp only [List.length_nil] at hn; omega⟩
    simp only [List.nil_append] at hfeed
    obtain ⟨inp1, buf1, blast1, h1, h2, h3, h4⟩ := feed_pull st tEGROUP ts rest hfeed
      (by simp only [List.length_nil] at hcap; omega)
    refine ⟨inp1, buf1, blast1, ?_, ?_⟩
    · simp only [List.length_nil, Nat.add_zero] at hacc
      simp only [groupLoop, h1, h2, show tEGROUP ≠ tEOF by decide,
        show ¬ acc.length ≥ TOKENMAX by omega, or_self, if_false,
        show tEGROUP ≠ tBGROUP by decide, if_true, Nat.sub_self, List.append_nil,
        List.length_nil, Nat.add_zero]
    · simpa using h4
  | cons g G ih =>
    intro n st acc ts rest hfeed hG hacc hn hcap
    obtain ⟨n, rfl⟩ : ∃ k, n = k + 1 := ⟨n - 1, by simp only [List.length_cons] at hn; omega⟩
    simp only [List.length_cons] at hacc hn hcap
    obtain ⟨g1, g2, g3⟩ := hG g (List.mem_cons_self _ _)
    simp only [List.cons_append] at hfeed
    obtain ⟨inp1, buf1, blast1, h1, h2, h3, h4⟩ := feed_pull st g (G ++ tEGROUP :: ts) rest hfeed
      (by simp only [List.length_append, List.length_cons]; omega)
    obtain ⟨inp2, buf2, blast2, k1, k2⟩ := ih n
      { st with inp := inp1, buf := buf1, blast := blast1, bpos := st.bpos + 1 }
      (acc ++ [g]) ts rest h4 (fun t ht => hG t (List.mem_cons_of_mem _ ht))
      (by simp only [List.length_append, List.length_singleton]; omega) (by omega)
      (by simp only []; omega)
    refine ⟨inp2, buf2, blast2, ?_, ?_⟩
    · simp only [groupLoop, h1, h2, g1, show ¬ acc.length ≥ TOKENMAX by omega, or_self,
        if_false, g2, g3]
      simp only [] at k1
      rw [k1]
      simp only [List.append_assoc, List.singleton_append, List.length_cons]
      rw [show st.bpos + 1 + G.length + 1 = st.bpos + (G.length + 1) + 1 by omega]
    · simp only [List.length_cons]
      simp only [] at k2
      rw [show st.bpos + (G.length + 1) + 1 = st.bpos + 1 + G.length + 1 by omega]
      exact k2

/-- The interning that ends `scan_group` (and `scan_cs`, from `tSENTINEL` on). -/
theorem intern_group (st : Engine) (L : List (List Nat)) (ha : Arena st L) (G : List Nat)
    (hp : st.pcur < UINT16_MAX) (hpool : st.plast + G.length ≤ POOLMAX) :
    ∃ pool1 ppos1 plen1 pcur1 plast1,
      (match findEntry st G (st.pcur - tSENTINEL) tSENTINEL with
        | some i => Except.ok (i, st)
        | none => addEntry st G) =
        .ok (internId L G, { st with pool := pool1, ppos := ppos1, plen := plen1,
                                     pcur := pcur1, plast := plast1 }) ∧
      Arena { st with pool := pool1, ppos := ppos1, plen := plen1,
                      pcur := pcur1, plast := plast1 } (internIn L G) := by
  rw [findEntry_group st L ha G]
  by_cases hm : G ∈ L
  · refine ⟨st.pool, st.ppos, st.plen, st.pcur, st.plast, ?_, ?_⟩
    · rw [if_pos hm]
    · unfold internIn; rw [if_pos hm]; exact ha
  · refine ⟨writeAll st.pool st.plast G, upd st.ppos st.pcur st.plast,
      upd st.plen st.pcur G.length, st.pcur + 1, st.plast + G.length, ?_, ?_⟩
    · rw [if_neg hm]
      simp only []
      rw [addEntry_ok st G hp hpool]
      unfold internId
      rw [slotOf_of_not_mem G L hm, ← ha.pcur]
    · unfold internIn; rw [if_neg hm]
      exact arena_add st L ha G hp hpool

set_option maxRecDepth 10000 in
/-- The function `scan_group` on a group without inner braces. -/
theorem scan_group_flat (st : Engine) (G ts rest : List Nat) (L : List (List Nat))
    (hfeed : Feed st (G ++ tEGROUP :: ts) rest)
    (hG : ∀ t ∈ G, t ≠ tEOF ∧ t ≠ tBGROUP ∧ t ≠ tEGROUP) (hlen : G.length < TOKENMAX)
    (hcap : st.bpos + G.length + 1 + ts.length ≤ BUFFERMAX) (ha : Arena st L)
    (hp : st.pcur < UINT16_MAX) (hpool : st.plast + G.length ≤ POOLMAX) :
    ∃ st1, scan_group st = .ok (internId L G, st1) ∧ Feed st1 ts rest ∧
      Arena st1 (internIn L G) ∧ st1.bpos = st.bpos + G.length + 1 ∧
      st1.mname = st.mname ∧ st1.mdef = st.mdef ∧ st1.margs = st.margs ∧
      st1.mlast = st.mlast := by
  obtain ⟨inp1, buf1, blast1, h1, h2⟩ := groupLoop_flat G (TOKENMAX + 1) st [] ts rest hfeed hG
    (by simpa using hlen) (by omega) hcap
  obtain ⟨S, hS⟩ : ∃ S : Engine, S =
      { st with inp := inp1, buf := buf1, blast := blast1, bpos := st.bpos + G.length + 1 } :=
    ⟨_, rfl⟩
  rw [← hS] at h1 h2
  obtain ⟨p1, p2, p3, p4, p5, k1, k2⟩ := intern_group S L
    (arena_congr st S L ha (by rw [hS]) (by rw [hS]) (by rw [hS]) (by rw [hS]) (by rw [hS]))
    G (by rw [hS]; exact hp) (by rw [hS]; exact hpool)
  have e1 : S.bpos = st.bpos + G.length + 1 := by rw [hS]
  have e2 : S.mname = st.mname := by rw [hS]
  have e3 : S.mdef = st.mdef := by rw [hS]
  have e4 : S.margs = st.margs := by rw [hS]
  have e5 : S.mlast = st.mlast := by rw [hS]
  refine ⟨{ S with pool := p1, ppos := p2, plen := p3, pcur := p4, plast := p5 }, ?_, ?_, k2,
    e1, e2, e3, e4, e5⟩
  · unfold scan_group
    rw [h1]
    simp only [List.nil_append]
    exact k1
  · exact feed_congr S _ ts rest h2 rfl rfl rfl rfl rfl rfl

/-! ## Scanning a control-sequence name -/

theorem readName_spec : ∀ (name acc rest : List Nat), (∀ c ∈ name, isalpha c = true) →
    acc.length + name.length ≤ TOKENMAX →
    (rest = [] ∨ ∃ c r, rest = c :: r ∧ isalpha c = false) →
    readName acc (name ++ rest) = (acc ++ name, rest) := by
  intro name
  induction name with
  | nil =>
    intro acc rest _ _ hrest
    rcases hrest with h | ⟨c, r, h, hc⟩
    · subst h; simp [readName]
    · subst h; simp [readName, hc]
  | cons a name ih =>
    intro acc rest hal hlen hrest
    have ha : isalpha a = true := hal a (List.mem_cons_self _ _)
    simp only [List.length_cons] at hlen
    simp only [List.cons_append, readName, ha, Bool.not_true, Bool.false_or, ge_iff_le,
      decide_eq_true_eq, show ¬ TOKENMAX ≤ acc.length by omega, if_false]
    have := ih (acc ++ [a]) rest (fun c hc => hal c (List.mem_cons_of_mem _ hc))
      (by simp only [List.length_append, List.length_singleton]; omega) hrest
    rw [List.append_assoc, List.singleton_append] at this
    exact this

/-- The token and the arena that result from scanning the spelling `cs` of a
control sequence. -/
theorem scan_name (st : Engine) (name rest : List Nat) (L : List (List Nat))
    (hinp : st.inp = 92 :: (name ++ rest)) (hne : name ≠ [])
    (hal : ∀ c ∈ name, isalpha c = true) (hlen : name.length < TOKENMAX)
    (hrest : rest = [] ∨ ∃ c r, rest = c :: r ∧ isalpha c = false)
    (ha : Arena st L) (hcap : st.blast < BUFFERMAX) (hp : st.pcur < UINT16_MAX)
    (hpool : st.plast + name.length + 1 ≤ POOLMAX) :
    ∃ st1, scan st = .ok st1 ∧ st1.inp = rest ∧ st1.is_start = false ∧
      st1.line_breaks = st.line_breaks ∧ st1.bpos = st.bpos ∧ st1.blast = st.blast + 1 ∧
      st1.buf = upd st.buf st.blast
        (if tESCAPE :: name = defSpelling then tDEF else internId L (tESCAPE :: name)) ∧
      Arena st1 (if tESCAPE :: name = defSpelling then L else internIn L (tESCAPE :: name)) ∧
      st1.mname = st.mname ∧ st1.mdef = st.mdef ∧ st1.margs = st.margs ∧
      st1.mlast = st.mlast := by
  obtain ⟨a, name1, hname⟩ : ∃ a n1, name = a :: n1 := by
    cases name with
    | nil => exact absurd rfl hne
    | cons a n1 => exact ⟨a, n1, rfl⟩
  have haa : isalpha a = true := hal a (by rw [hname]; exact List.mem_cons_self _ _)
  have hd : ¬ (49 ≤ a ∧ a ≤ 57) := by
    intro h
    unfold isalpha at haa
    simp only [Bool.or_eq_true, Bool.and_eq_true, decide_eq_true_eq] at haa
    omega
  have hread : readName [tESCAPE] (name ++ rest) = ([tESCAPE] ++ name, rest) :=
    readName_spec name [tESCAPE] rest hal (by simp only [List.length_singleton]; omega) hrest
  have hscan : scan st = (scan_cs { st with inp := name ++ rest }).bind
      (fun s => .ok { s with is_start := false }) := by
    unfold scan
    rw [show st.inp.length + 1 = (name ++ rest).length + 1 + 1 by rw [hinp]; rfl, scanAux]
    simp only [hinp, hname, List.cons_append, show isspace 92 = false from rfl,
      Bool.false_eq_true, if_false, show (92 : Nat) ≠ 35 by omega,
      show (92 : Nat) ≠ 123 by omega, show (92 : Nat) ≠ 125 by omega, ne_eq,
      not_true_eq_false, hd, haa, Bool.not_true]
    cases scan_cs { st with inp := a :: (name1 ++ rest) } <;> rfl
  rw [hscan]
  unfold scan_cs
  simp only [hread, List.singleton_append]
  have hfind := findEntry_cs { st with inp := rest } L
    (arena_congr st _ L ha rfl rfl rfl rfl rfl) (tESCAPE :: name)
  simp only [] at hfind
  rw [hfind]
  by_cases hdef : tESCAPE :: name = defSpelling
  · rw [if_pos hdef, if_pos hdef, if_pos hdef]
    simp only [put, hcap, if_true, Except.bind]
    exact ⟨_, rfl, rfl, rfl, rfl, rfl, rfl, rfl,
      arena_congr st _ L ha rfl rfl rfl rfl rfl, rfl, rfl, rfl, rfl⟩
  · rw [if_neg hdef, if_neg hdef, if_neg hdef]
    by_cases hm : tESCAPE :: name ∈ L
    · rw [if_pos hm]
      simp only [put, hcap, if_true, Except.bind]
      refine ⟨_, rfl, rfl, rfl, rfl, rfl, rfl, rfl, ?_, rfl, rfl, rfl, rfl⟩
      unfold internIn
      rw [if_pos hm]
      exact arena_congr st _ L ha rfl rfl rfl rfl rfl
    · rw [if_neg hm]
      simp only []
      rw [addEntry_ok { st with inp := rest } (tESCAPE :: name) hp
        (by simp only [List.length_cons]; omega)]
      simp only [put, hcap, if_true, Except.bind]
      refine ⟨_, rfl, rfl, rfl, rfl, rfl, rfl, ?_, ?_, rfl, rfl, rfl, rfl⟩
      · simp only []
        unfold internId
        rw [slotOf_of_not_mem _ L hm, ← ha.pcur]
      · unfold internIn
        rw [if_neg hm]
        have := arena_add st L ha (tESCAPE :: name) hp (by simp only [List.length_cons]; omega)
        exact arena_congr _ _ _ this rfl rfl rfl rfl rfl

end Mex

namespace Mex

/-! ## The define directive -/

theorem lxOK_all : ∀ (l : List Lx), lxOK l = true → ∀ x ∈ l, x.ok = true := by
  intro l
  induction l with
  | nil => intro _ x hx; cases hx
  | cons a l ih =>
    intro h x hx
    obtain ⟨h1, h2⟩ := lxOK_cons a l h
    rcases List.mem_cons.1 hx with e | e
    · rw [e]; exact h1
    · exact ih h2 x e

theorem lxOK_suffix : ∀ (a b : List Lx), lxOK (a ++ b) = true → lxOK b = true := by
  intro a
  induction a with
  | nil => intro b h; exact h
  | cons x a ih =>
    intro b h
    exact ih b (lxOK_cons x (a ++ b) h).2

/-- The token of a well-formed lexeme other than a brace is none of end of
input, begin group, end group. -/
theorem Lx.tok_flat (x : Lx) (hx : x.ok = true) (h : x ≠ .bg ∧ x ≠ .eg) :
    x.tok ≠ tEOF ∧ x.tok ≠ tBGROUP ∧ x.tok ≠ tEGROUP := by
  cases x with
  | lit c =>
    simp only [Lx.ok, Bool.and_eq_true, decide_eq_true_eq] at hx
    have := hx.1.1
    simp only [Lx.tok, tEOF, tBGROUP, tEGROUP]
    omega
  | arg i =>
    simp only [Lx.ok, Bool.and_eq_true, decide_eq_true_eq] at hx
    simp only [Lx.tok, tEOF, tBGROUP, tEGROUP, tARG1]
    omega
  | bg => exact absurd rfl h.1
  | eg => exact absurd rfl h.2

theorem render_append : ∀ (a b : List Lx), render (a ++ b) = render a ++ render b := by
  intro a
  induction a with
  | nil => intro b; rfl
  | cons x a ih =>
    intro b
    show x.bytes ++ render (a ++ b) = (x.bytes ++ render a) ++ render b
    rw [ih, List.append_assoc]

theorem findMacro_le (names : Nat → Nat) (t : Nat) : ∀ (n i : Nat),
    findMacro names t n i ≤ i + n := by
  intro n
  induction n with
  | zero => intro i; simp [findMacro]
  | succ n ih =>
    intro i
    simp only [findMacro]
    split
    · omega
    · have := ih (i + 1); omega

set_option maxRecDepth 10000 in
/-- The function `define` on a directive `\name`, an optional arity digit, and a
body in braces without inner braces.  It is entered with nothing pending. -/
theorem define_spec (st : Engine) (name : List Nat) (pre Gx : List Lx) (rest : List Nat)
    (L : List (List Nat)) (arity : Nat)
    (hb : st.bpos = st.blast) (hl : st.line_breaks = 0)
    (hinp : st.inp = 92 :: (name ++ (render (pre ++ Lx.bg :: (Gx ++ [Lx.eg])) ++ rest)))
    (hne : name ≠ []) (hal : ∀ c ∈ name, isalpha c = true) (hnl : name.length < TOKENMAX)
    (hnd : tESCAPE :: name ≠ defSpelling)
    (hpre : (pre = [] ∧ arity = 0) ∨ (pre = [Lx.lit (48 + arity)] ∧ arity ≤ 9))
    (hok : lxOK (pre ++ Lx.bg :: (Gx ++ [Lx.eg])) = true)
    (hflat : ∀ x ∈ Gx, x ≠ Lx.bg ∧ x ≠ Lx.eg) (hglen : Gx.length < TOKENMAX)
    (hcap : st.blast + 1 + (pre.length + Gx.length + 2) ≤ BUFFERMAX)
    (ha : Arena st L) (hp : st.pcur + 1 < UINT16_MAX)
    (hpool : st.plast + name.length + 1 + Gx.length ≤ POOLMAX) (hm : st.mlast < MACROMAX) :
    ∃ st1, define st = .ok st1 ∧ st1.inp = rest ∧ st1.bpos = st1.blast ∧
      st1.bpos = st.bpos + 1 + (pre.length + Gx.length + 2) ∧
      st1.is_start = false ∧ st1.line_breaks = 0 ∧
      Arena st1 (internIn (internIn L (tESCAPE :: name)) (Gx.map Lx.tok)) ∧
      st1.mlast = (if findMacro st.mname (internId L (tESCAPE :: name)) st.mlast 0 = st.mlast
                   then st.mlast + 1 else st.mlast) ∧
      st1.mname = (if findMacro st.mname (internId L (tESCAPE :: name)) st.mlast 0 = st.mlast
                   then upd st.mname st.mlast (internId L (tESCAPE :: name)) else st.mname) ∧
      st1.margs = upd st.margs (findMacro st.mname (internId L (tESCAPE :: name)) st.mlast 0)
                    arity ∧
      st1.mdef = upd st.mdef (findMacro st.mname (internId L (tESCAPE :: name)) st.mlast 0)
                   (internId (internIn L (tESCAPE :: name)) (Gx.map Lx.tok)) := by
  -- the name
  have hrest : render (pre ++ Lx.bg :: (Gx ++ [Lx.eg])) ++ rest = [] ∨
      ∃ c r, render (pre ++ Lx.bg :: (Gx ++ [Lx.eg])) ++ rest = c :: r ∧ isalpha c = false := by
    right
    rcases hpre with ⟨h, _⟩ | ⟨h, h9⟩
    · rw [h]; exact ⟨123, _, rfl, rfl⟩
    · rw [h]
      refine ⟨48 + arity, _, rfl, ?_⟩
      unfold isalpha
      simp only [Bool.or_eq_false_iff, Bool.and_eq_false_iff, decide_eq_false_iff_not]
      omega
  obtain ⟨s1, a1, a2, a3, a4, a5, a6, a7, a8, a9, a10, a11, a12⟩ :=
    scan_name st name _ L hinp hne hal hnl hrest ha (by omega) (by omega) (by omega)
  rw [if_neg hnd] at a7 a8
  have hfill1 : fill st = .ok s1 := by unfold fill; rw [if_pos hb]; exact a1
  have hid : s1.buf s1.bpos = internId L (tESCAPE :: name) := by
    rw [a7, a5, hb, upd_same]
  have hge : ¬ internId L (tESCAPE :: name) < tSENTINEL := by unfold internId; omega
  -- the slot in the macro table
  generalize hi : findMacro st.mname (internId L (tESCAPE :: name)) st.mlast 0 = i
  have hile : i ≤ st.mlast := by
    have := findMacro_le st.mname (internId L (tESCAPE :: name)) st.mlast 0
    rw [hi] at this; omega
  obtain ⟨s2, hs2⟩ : ∃ s2 : Engine, s2 =
      { s1 with
        mname := if i = st.mlast then upd st.mname st.mlast (internId L (tESCAPE :: name))
                 else st.mname,
        mlast := if i = st.mlast then st.mlast + 1 else st.mlast,
        bpos := s1.bpos + 1 } := ⟨_, rfl⟩
  have hfeed : Feed s2 ((pre ++ Lx.bg :: (Gx ++ [Lx.eg])).map Lx.tok) rest := by
    apply feed_of_input
    · rw [hs2]; simp only []; omega
    · rw [hs2]; exact a3
    · rw [hs2]; simp only []; omega
    · exact hok
    · rw [hs2]; exact a2
  have harena2 : Arena s2 (internIn L (tESCAPE :: name)) :=
    arena_congr s1 s2 _ a8 (by rw [hs2]) (by rw [hs2]) (by rw [hs2]) (by rw [hs2]) (by rw [hs2])
  have hGflat : ∀ t ∈ Gx.map Lx.tok, t ≠ tEOF ∧ t ≠ tBGROUP ∧ t ≠ tEGROUP := by
    intro t ht
    obtain ⟨x, hx, rfl⟩ := List.mem_map.1 ht
    have hxok : x.ok = true := lxOK_all _ hok x
      (List.mem_append_right _ (List.mem_cons_of_mem _ (List.mem_append_left _ hx)))
    exact Lx.tok_flat x hxok (hflat x hx)
  have hpl : s2.plast ≤ st.plast + name.length + 1 := by
    have h8 := a8.plast
    have h0 := ha.plast
    rw [hs2]
    simp only []
    unfold internIn at h8
    split at h8
    · omega
    · simp only [List.map_append, List.sum_append, List.map_cons, List.map_nil, List.sum_cons,
        List.sum_nil, List.length_cons] at h8
      omega
  have hpc : s2.pcur ≤ st.pcur + 1 := by
    have h8 := a8.pcur
    have h0 := ha.pcur
    rw [hs2]
    simp only []
    unfold internIn at h8
    split at h8
    · omega
    · simp only [List.length_append, List.length_singleton] at h8
      omega
  have hdef1 : define st = (match fill s2 with
      | .error e => .error e
      | .ok st3 =>
        let r4 : Except Fault Engine :=
          if 48 ≤ st3.buf st3.bpos ∧ st3.buf st3.bpos ≤ 57 then
            fill { st3 with margs := upd st3.margs i (st3.buf st3.bpos - 48),
                            bpos := st3.bpos + 1 }
          else .ok { st3 with margs := upd st3.margs i 0 }
        match r4 with
        | .error e => .error e
        | .ok st4 =>
          if st4.buf st4.bpos = tBGROUP then
            match scan_group { st4 with bpos := st4.bpos + 1 } with
            | .error e => .error e
            | .ok (g, st5) => .ok { st5 with mdef := upd st5.mdef i g }
          else if st4.buf st4.bpos ≠ tEOF then
            .ok { st4 with mdef := upd st4.mdef i (st4.buf st4.bpos) }
          else .ok st4) := by
    unfold define
    rw [hfill1]
    simp only [hid, hge, if_false, a9, a12, hi]
    by_cases him : i = st.mlast
    · simp only [him, if_true, hm]
      rw [hs2]
      simp only [him, if_true, a9, a12]
    · simp only [him, if_false]
      rw [hs2]
      simp only [him, if_false, a9, a12]
  rw [hdef1]
  have hbg : ¬ (48 ≤ tBGROUP ∧ tBGROUP ≤ 57) := by decide
  rcases hpre with ⟨hp0, har⟩ | ⟨hp1, har⟩
  · subst hp0
    subst har
    simp only [List.nil_append, List.map_cons, List.map_append, List.map_nil] at hfeed
    obtain ⟨inp3, buf3, blast3, f1, f2, f3, f4⟩ := feed_pull s2 _ _ rest hfeed (by
      have : s2.bpos = st.blast + 1 := by rw [hs2]; simp only []; omega
      simp only [List.length_append, List.length_map, List.length_singleton]
      simp only [List.length_nil] at hcap
      omega)
    rw [f1]
    have hbgt : Lx.bg.tok = tBGROUP := rfl
    have hegt : Lx.eg.tok = tEGROUP := rfl
    rw [hbgt] at f2
    rw [hegt] at f4
    simp only [hbg, if_false, f2, if_true]
    obtain ⟨S4, hS4⟩ : ∃ S4 : Engine, S4 =
        { s2 with inp := inp3, buf := buf3, blast := blast3, margs := upd s2.margs i 0,
                  bpos := s2.bpos + 1 } := ⟨_, rfl⟩
    have hf4 : Feed S4 (Gx.map Lx.tok ++ tEGROUP :: []) rest :=
      feed_congr _ S4 _ _ f4 (by rw [hS4]) (by rw [hS4]) (by rw [hS4]) (by rw [hS4])
        (by rw [hS4]) (by rw [hS4])
    have ha4 : Arena S4 (internIn L (tESCAPE :: name)) :=
      arena_congr s2 S4 _ harena2 (by rw [hS4]) (by rw [hS4]) (by rw [hS4]) (by rw [hS4])
        (by rw [hS4])
    have hb2 : s2.bpos = st.blast + 1 := by rw [hs2]; simp only []; omega
    have e41 : S4.bpos = s2.bpos + 1 := by rw [hS4]
    have e42 : S4.pcur = s2.pcur := by rw [hS4]
    have e43 : S4.plast = s2.plast := by rw [hS4]
    obtain ⟨s5, g1, g2, g3, g4, g5, g6, g7, g8⟩ := scan_group_flat S4 _ [] rest _ hf4 hGflat
      (by simpa using hglen)
      (by simp only [List.length_map, List.length_nil]
          simp only [List.length_nil] at hcap
          omega)
      ha4 (by omega) (by simp only [List.length_map]; omega)
    rw [hS4] at g1
    rw [g1]
    obtain ⟨d1, d2⟩ := feed_done s5 rest g2
    refine ⟨_, rfl, d2, d1, ?_, g2.noStart, g2.lb, ?_, ?_, ?_, ?_, ?_⟩
    · simp only [List.length_map, List.length_nil] at g4 ⊢
      omega
    · exact arena_congr s5 _ _ g3 rfl rfl rfl rfl rfl
    · show s5.mlast = _
      rw [g8, hS4, hs2]
    · show s5.mname = _
      rw [g5, hS4, hs2]
    · show s5.margs = _
      rw [g7, hS4, hs2]
      simp only [a11]
    · show upd s5.mdef i _ = _
      rw [g6, hS4, hs2]
      simp only [a10]
  · subst hp1
    simp only [List.cons_append, List.nil_append, List.map_cons, List.map_append,
      List.map_nil] at hfeed
    have hb2 : s2.bpos = st.blast + 1 := by rw [hs2]; simp only []; omega
    simp only [List.length_singleton] at hcap
    obtain ⟨inp3, buf3, blast3, f1, f2, f3, f4⟩ := feed_pull s2 _ _ rest hfeed (by
      simp only [List.length_append, List.length_map, List.length_singleton, List.length_cons,
        List.length_nil]
      omega)
    rw [f1]
    have hbgt : Lx.bg.tok = tBGROUP := rfl
    have hegt : Lx.eg.tok = tEGROUP := rfl
    have hlt : (Lx.lit (48 + arity)).tok = 48 + arity := rfl
    rw [hlt] at f2
    rw [hbgt, hegt] at f4
    have hdig : 48 ≤ 48 + arity ∧ 48 + arity ≤ 57 := by omega
    simp only [f2, hdig, and_self, if_true, Nat.add_sub_cancel_left]
    obtain ⟨S3, hS3⟩ : ∃ S3 : Engine, S3 =
        { s2 with inp := inp3, buf := buf3, blast := blast3, margs := upd s2.margs i arity,
                  bpos := s2.bpos + 1 } := ⟨_, rfl⟩
    have hf3 : Feed S3 (tBGROUP :: (Gx.map Lx.tok ++ [tEGROUP])) rest :=
      feed_congr _ S3 _ _ f4 (by rw [hS3]) (by rw [hS3]) (by rw [hS3]) (by rw [hS3])
        (by rw [hS3]) (by rw [hS3])
    have e31 : S3.bpos = s2.bpos + 1 := by rw [hS3]
    obtain ⟨inp4, buf4, blast4, k1, k2, k3, k4⟩ := feed_pull S3 _ _ rest hf3 (by
      simp only [List.length_append, List.length_map, List.length_singleton, List.length_cons,
        List.length_nil]
      omega)
    rw [hS3] at k1
    rw [k1]
    rw [hS3] at k2
    simp only [] at k2
    simp only [k2, if_true]
    obtain ⟨S4, hS4⟩ : ∃ S4 : Engine, S4 =
        { S3 with inp := inp4, buf := buf4, blast := blast4, bpos := S3.bpos + 1 } := ⟨_, rfl⟩
    have hf4 : Feed S4 (Gx.map Lx.tok ++ tEGROUP :: []) rest :=
      feed_congr _ S4 _ _ k4 (by rw [hS4]) (by rw [hS4]) (by rw [hS4]) (by rw [hS4])
        (by rw [hS4]) (by rw [hS4])
    have ha4 : Arena S4 (internIn L (tESCAPE :: name)) :=
      arena_congr s2 S4 _ harena2 (by rw [hS4, hS3]) (by rw [hS4, hS3]) (by rw [hS4, hS3])
        (by rw [hS4, hS3]) (by rw [hS4, hS3])
    have e41 : S4.bpos = s2.bpos + 2 := by rw [hS4, hS3]
    have e42 : S4.pcur = s2.pcur := by rw [hS4, hS3]
    have e43 : S4.plast = s2.plast := by rw [hS4, hS3]
    obtain ⟨s5, g1, g2, g3, g4, g5, g6, g7, g8⟩ := scan_group_flat S4 _ [] rest _ hf4 hGflat
      (by simpa using hglen)
      (by simp only [List.length_map, List.length_nil]
          omega)
      ha4 (by omega) (by simp only [List.length_map]; omega)
    rw [hS4, hS3] at g1
    rw [g1]
    obtain ⟨d1, d2⟩ := feed_done s5 rest g2
    refine ⟨_, rfl, d2, d1, ?_, g2.noStart, g2.lb, ?_, ?_, ?_, ?_, ?_⟩
    · simp only [List.length_map, List.length_nil, List.length_singleton] at g4 ⊢
      omega
    · exact arena_congr s5 _ _ g3 rfl rfl rfl rfl rfl
    · show s5.mlast = _
      rw [g8, hS4, hS3, hs2]
    · show s5.mname = _
      rw [g5, hS4, hS3, hs2]
    · show s5.margs = _
      rw [g7, hS4, hS3, hs2]
      simp only [a11]
    · show upd s5.mdef i _ = _
      rw [g6, hS4, hS3, hs2]
      simp only [a10]

end Mex


namespace Mex

/-! ## Fuel -/

/-- More fuel does not change a result of `next`. -/
theorem next_mono : ∀ (f : Nat) (st : Engine) (r : Nat × Engine), next f st = .ok r →
    ∀ g, f ≤ g → next g st = .ok r := by
  intro f
  induction f with
  | zero => intro st r h; simp [next] at h
  | succ f ih =>
    intro st r h g hg
    obtain ⟨g, rfl⟩ : ∃ k, g = k + 1 := ⟨g - 1, by omega⟩
    unfold next at h ⊢
    cases hfill : fill st with
    | error e => rw [hfill] at h; simp at h
    | ok st0 =>
      rw [hfill] at h
      simp only [] at h ⊢
      by_cases h1 : (compact st0).buf (compact st0).bpos = tDEF
      · rw [if_pos h1] at h ⊢
        cases hd : define { compact st0 with bpos := (compact st0).bpos + 1 } with
        | error e => rw [hd] at h; simp at h
        | ok st2 =>
          rw [hd] at h
          exact ih st2 r h g (by omega)
      · rw [if_neg h1] at h ⊢
        by_cases h2 : (compact st0).buf (compact st0).bpos ≥ tSENTINEL
        · rw [if_pos h2] at h ⊢
          cases hd : expand (compact st0) with
          | error e => rw [hd] at h; simp at h
          | ok st2 =>
            rw [hd] at h
            exact ih st2 r h g (by omega)
        · rw [if_neg h2] at h ⊢
          exact h

/-- More fuel and more rounds do not change a result of the driver loop. -/
theorem runLoop_mono (f g : Nat) (hfg : f ≤ g) : ∀ (n : Nat) (st : Engine) (out : List Nat)
    (R : List Nat × Engine), runLoop f n st out = .ok R →
    ∀ m, n ≤ m → runLoop g m st out = .ok R := by
  intro n
  induction n with
  | zero => intro st out R h; simp [runLoop] at h
  | succ n ih =>
    intro st out R h m hm
    obtain ⟨m, rfl⟩ : ∃ k, m = k + 1 := ⟨m - 1, by omega⟩
    unfold runLoop at h ⊢
    cases hn : next f st with
    | error e => rw [hn] at h; simp at h
    | ok r =>
      obtain ⟨t, st1⟩ := r
      rw [hn] at h
      rw [next_mono f st _ hn g hfg]
      simp only [] at h ⊢
      by_cases h1 : t = tEOF
      · rw [if_pos h1] at h ⊢; exact h
      · rw [if_neg h1] at h ⊢
        by_cases h2 : t < tEOF
        · rw [if_pos h2] at h ⊢
          exact ih _ _ _ h m (by omega)
        · rw [if_neg h2] at h ⊢
          exact ih _ _ _ h m (by omega)

/-- The driver loop entered in a state `a` from which `next` goes on, after `k`
rounds of `goto again`, as from the state `b`. -/
theorem runLoop_enter (a b : Engine) (k : Nat) (hk : ∀ f, next (f + k) a = next f b)
    (f n : Nat) (out : List Nat) (R : List Nat × Engine) (h : runLoop f n b out = .ok R) :
    runLoop (f + k) n a out = .ok R := by
  have h2 := runLoop_mono f (f + k) (by omega) n b out R h n (le_refl _)
  cases n with
  | zero => simp [runLoop] at h
  | succ n =>
    unfold runLoop at h h2 ⊢
    cases hn : next f b with
    | error e => rw [hn] at h; simp at h
    | ok r =>
      have e1 : next (f + k) b = .ok r := next_mono f b r hn _ (by omega)
      have e2 : next (f + k) a = .ok r := by rw [hk, hn]
      rw [e1] at h2
      rw [e2]
      exact h2

/-- The driver writes pending literal tokens one by one. -/
theorem runLoop_drain : ∀ (ts : List Nat) (st : Engine) (out : List Nat) (fuel n : Nat),
    0 < fuel → st.bpos ≤ st.blast → pending st = ts → (∀ t ∈ ts, t < 256) →
    ∃ st1, runLoop fuel (n + ts.length) st out = runLoop fuel n st1 (out ++ ts) ∧
      st1.bpos = st1.blast ∧ st1.blast ≤ st.blast ∧ st1.inp = st.inp ∧
      st1.is_start = st.is_start ∧ st1.line_breaks = st.line_breaks ∧ sameTables st1 st := by
  intro ts
  induction ts with
  | nil =>
    intro st out fuel n _ hle hp _
    have hl := pending_length st
    rw [hp] at hl
    simp only [List.length_nil] at hl
    exact ⟨st, by simp, by omega, le_refl _, rfl, rfl, rfl, sameTables_refl st⟩
  | cons t ts ih =>
    intro st out fuel n hfuel hle hp hlit
    have hl := pending_length st
    rw [hp] at hl
    simp only [List.length_cons] at hl
    have hlt : st.bpos < st.blast := by omega
    have hadv := advance_spec st hlt
    have hpd := hadv.pend
    rw [hp] at hpd
    obtain ⟨e1, e2⟩ := List.cons.inj hpd
    have ht : t < 256 := hlit t (List.mem_cons_self _ _)
    obtain ⟨f, rfl⟩ : ∃ k, fuel = k + 1 := ⟨fuel - 1, by omega⟩
    have hn := next_emit f st hlt (by rw [← e1]; unfold tDEF; omega)
      (by rw [← e1]; unfold tSENTINEL; omega)
    obtain ⟨st1, h1, h2, h3, h4, h5, h6, h7⟩ := ih (advance st) (out ++ [t]) (f + 1) n
      (by omega) hadv.le e2.symm (fun x hx => hlit x (List.mem_cons_of_mem _ hx))
    refine ⟨st1, ?_, h2, le_trans h3 hadv.blast, h4.trans hadv.inp, h5.trans hadv.is_start,
      h6.trans hadv.line_breaks, sameTables_trans h7 hadv.tables⟩
    rw [show n + (t :: ts).length = (n + ts.length) + 1 by simp only [List.length_cons]; omega]
    rw [runLoop, hn]
    simp only []
    rw [← e1, if_neg (by unfold tEOF; omega), if_pos (by unfold tEOF; omega), h1]
    simp only [List.append_assoc, List.singleton_append]

end Mex


namespace Mex

/-! ## Interning several groups -/

theorem mem_internIn_self (L : List (List Nat)) (xs : List Nat) : xs ∈ internIn L xs := by
  unfold internIn
  split
  · assumption
  · simp

theorem mem_internIn_of_mem (L : List (List Nat)) (xs y : List Nat) (h : y ∈ L) :
    y ∈ internIn L xs := by
  unfold internIn
  split
  · exact h
  · exact List.mem_append_left _ h

theorem internId_internIn (L : List (List Nat)) (xs y : List Nat) (h : y ∈ L) :
    internId (internIn L xs) y = internId L y := by
  unfold internIn internId
  split
  · rfl
  · rw [slotOf_append_of_mem y _ L h]

theorem internId_internIn_self (L : List (List Nat)) (xs : List Nat) :
    internId (internIn L xs) xs = internId L xs := by
  unfold internIn internId
  split
  · rfl
  · rename_i h
    rw [slotOf_append_self xs L h, slotOf_of_not_mem xs L h]

theorem length_internIn_le (L : List (List Nat)) (xs : List Nat) :
    (internIn L xs).length ≤ L.length + 1 := by
  unfold internIn
  split
  · omega
  · simp

theorem sum_internIn_le (L : List (List Nat)) (xs : List Nat) :
    ((internIn L xs).map List.length).sum ≤ (L.map List.length).sum + xs.length := by
  unfold internIn
  split
  · omega
  · simp

theorem mem_internAll_of_mem : ∀ (As L : List (List Nat)) (y : List Nat), y ∈ L →
    y ∈ internAll L As := by
  intro As
  induction As with
  | nil => intro L y h; exact h
  | cons a r ih => intro L y h; exact ih _ y (mem_internIn_of_mem L a y h)

theorem internId_internAll : ∀ (As L : List (List Nat)) (y : List Nat), y ∈ L →
    internId (internAll L As) y = internId L y := by
  intro As
  induction As with
  | nil => intro L y _; rfl
  | cons a r ih =>
    intro L y h
    show internId (internAll (internIn L a) r) y = _
    rw [ih _ y (mem_internIn_of_mem L a y h), internId_internIn L a y h]

theorem mem_internAll : ∀ (As L : List (List Nat)) (a : List Nat), a ∈ As →
    a ∈ internAll L As := by
  intro As
  induction As with
  | nil => intro L a h; cases h
  | cons b r ih =>
    intro L a h
    rcases List.mem_cons.1 h with h1 | h1
    · subst h1
      exact mem_internAll_of_mem r _ a (mem_internIn_self L a)
    · exact ih _ a h1

/-- The spelling of an interned compound entry. -/
theorem arena_spelling (st : Engine) (L : List (List Nat)) (h : Arena st L) (xs : List Nat)
    (hm : xs ∈ L) : spelling st (internId L xs) = xs := by
  unfold internId
  rw [h.spell _ ((slotOf_lt_length xs L).2 hm)]
  exact getD_slotOf xs L hm

/-! ## The argument loop -/

/-- The argument loop of `expand` on arguments that are groups without inner
braces. -/
theorem collectArgs_groups : ∀ (As : List (List Nat)) (st : Engine) (param : List Nat)
    (L : List (List Nat)) (ts rest : List Nat),
    Feed st (groupToks As ++ ts) rest →
    (∀ a ∈ As, (∀ t ∈ a, t ≠ tEOF ∧ t ≠ tBGROUP ∧ t ≠ tEGROUP) ∧ a.length < TOKENMAX) →
    param.length + As.length ≤ 9 →
    st.bpos + groupCells As + ts.length ≤ BUFFERMAX →
    Arena st L → st.pcur + As.length ≤ UINT16_MAX → st.plast + groupCells As ≤ POOLMAX →
    ∃ st1, collectArgs As.length st param =
        .ok (st1, param ++ As.map (internId (internAll L As))) ∧
      Feed st1 ts rest ∧ Arena st1 (internAll L As) ∧ st1.bpos = st.bpos + groupCells As ∧
      st1.mname = st.mname ∧ st1.mdef = st.mdef ∧ st1.margs = st.margs ∧
      st1.mlast = st.mlast := by
  intro As
  induction As with
  | nil =>
    intro st param L ts rest hfeed _ _ _ ha _ _
    exact ⟨st, by simp [collectArgs], hfeed, ha, rfl, rfl, rfl, rfl, rfl⟩
  | cons a r ih =>
    intro st param L ts rest hfeed hAs hpar hcap ha hp hpool
    obtain ⟨hflat, hlen⟩ := hAs a (List.mem_cons_self _ _)
    simp only [groupToks, List.cons_append, List.append_assoc, groupCells,
      List.length_cons] at hfeed hcap hpool hpar hp
    have hgl : (groupToks r).length = groupCells r := by
      clear ih hfeed hAs hpar hcap hp hpool
      induction r with
      | nil => rfl
      | cons b r ihr =>
        simp only [groupToks, groupCells, List.length_cons, List.length_append, ihr]
        omega
    obtain ⟨inp1, buf1, blast1, f1, f2, f3, f4⟩ := feed_pull st _ _ rest hfeed (by
      simp only [List.length_append, List.length_cons, hgl]
      omega)
    obtain ⟨S, hS⟩ : ∃ S : Engine, S =
        { st with inp := inp1, buf := buf1, blast := blast1, bpos := st.bpos + 1 } := ⟨_, rfl⟩
    rw [← hS] at f4
    have eS1 : S.bpos = st.bpos + 1 := by rw [hS]
    have eS2 : S.pcur = st.pcur := by rw [hS]
    have eS3 : S.plast = st.plast := by rw [hS]
    have haS : Arena S L :=
      arena_congr st S L ha (by rw [hS]) (by rw [hS]) (by rw [hS]) (by rw [hS]) (by rw [hS])
    obtain ⟨st2, g1, g2, g3, g4, g5, g6, g7, g8⟩ := scan_group_flat S a _ rest L f4 hflat hlen
      (by simp only [List.length_append, hgl]; omega) haS (by omega) (by omega)
    have hp2 : st2.pcur ≤ st.pcur + 1 := by
      have := g3.pcur
      have := ha.pcur
      have := length_internIn_le L a
      omega
    have hl2 : st2.plast ≤ st.plast + a.length := by
      have := g3.plast
      have := ha.plast
      have := sum_internIn_le L a
      omega
    obtain ⟨st3, k1, k2, k3, k4, k5, k6, k7, k8⟩ := ih st2 (param ++ [internId L a])
      (internIn L a) ts rest g2 (fun b hb => hAs b (List.mem_cons_of_mem _ hb))
      (by simp only [List.length_append, List.length_singleton]; omega)
      (by omega) g3 (by omega) (by omega)
    refine ⟨st3, ?_, k2, k3, by rw [k4, g4, eS1]; show _ = st.bpos + (a.length + 2 + groupCells r); omega, ?_, ?_, ?_, ?_⟩
    · rw [List.length_cons, collectArgs, f1]
      simp only [f2]
      rw [if_pos (by omega), if_pos trivial]
      rw [hS] at g1
      rw [g1]
      simp only []
      rw [k1]
      simp only [List.map_cons, List.append_assoc, List.singleton_append]
      show Except.ok
          (st3, param ++ internId L a :: List.map (internId (internAll (internIn L a) r)) r) =
        Except.ok (st3, param ++ internId (internAll (internIn L a) r) a ::
          List.map (internId (internAll (internIn L a) r)) r)
      rw [internId_internAll r _ a (mem_internIn_self L a), internId_internIn_self]
    · rw [k5, g5, hS]
    · rw [k6, g6, hS]
    · rw [k7, g7, hS]
    · rw [k8, g8, hS]

end Mex


namespace Mex

/-! ## The substitution and the splice -/

theorem copySpelling_spec (pool : Nat → Nat) : ∀ (n v : Nat) (tmp : List Nat),
    tmp.length + n ≤ BUFFERMAX →
    copySpelling pool n v tmp = .ok (tmp ++ (List.range n).map (fun k => pool (v + k))) := by
  intro n
  induction n with
  | zero => intro v tmp _; simp [copySpelling]
  | succ n ih =>
    intro v tmp h
    have h1 : (tmp ++ [pool v]).length + n ≤ BUFFERMAX := by
      simp only [List.length_append, List.length_singleton]; omega
    rw [copySpelling, if_pos (by omega), ih (v + 1) _ h1]
    rw [List.range_succ_eq_map]
    simp only [List.map_cons, List.map_map, Nat.add_zero, List.append_assoc,
      List.singleton_append]
    congr 3
    apply List.map_congr_left
    intro k _
    show pool (v + 1 + k) = pool (v + (k + 1))
    congr 1
    omega

theorem substToks_length_le (As : List (List Nat)) (t : Nat) (r : List Nat) :
    (substToks As r).length ≤ (substToks As (t :: r)).length := by
  simp only [substToks, List.length_append]
  omega

/-- The substitution loop of `expand` over the cells of a body spelling. -/
theorem substitute_spec (st : Engine) (param : List Nat) : ∀ (toks : List Nat) (i : Nat)
    (tmp : List Nat),
    (List.range toks.length).map (fun k => st.pool (i + k)) = toks →
    (∀ t ∈ toks, t < tARG1 ∨ t > tARG9 ∨ t - tARG1 < param.length) →
    tmp.length + (substToks (param.map (spelling st)) toks).length ≤ BUFFERMAX →
    substitute st param toks.length i tmp =
      .ok (tmp ++ substToks (param.map (spelling st)) toks) := by
  intro toks
  induction toks with
  | nil => intro i tmp _ _ _; simp [substitute, substToks]
  | cons t r ih =>
    intro i tmp hcells hrefs hcap
    rw [List.length_cons, List.range_succ_eq_map] at hcells
    simp only [List.map_cons, List.map_map, Nat.add_zero] at hcells
    obtain ⟨h0, hr⟩ := List.cons.inj hcells
    have hr1 : (List.range r.length).map (fun k => st.pool (i + 1 + k)) = r := by
      refine Eq.trans (List.map_congr_left ?_) hr
      intro k _
      show st.pool (i + 1 + k) = st.pool (i + (k + 1))
      congr 1
      omega
    rw [List.length_cons, substitute, h0]
    simp only [substToks, List.length_append] at hcap
    by_cases hlit : t < tARG1 ∨ t > tARG9
    · rw [if_pos hlit] at hcap
      simp only [List.length_singleton] at hcap
      rw [if_pos hlit, if_pos (by omega), ih (i + 1) _ hr1
        (fun x hx => hrefs x (List.mem_cons_of_mem _ hx))
        (by simp only [List.length_append, List.length_singleton]; omega)]
      simp only [substToks, if_pos hlit, List.append_assoc]
    · rw [if_neg hlit] at hcap
      rw [if_neg hlit]
      have hj : t - tARG1 < param.length := by
        rcases hrefs t (List.mem_cons_self _ _) with h | h | h
        · exact absurd (Or.inl h) hlit
        · exact absurd (Or.inr h) hlit
        · exact h
      have hget : param.get? (t - tARG1) = some (param.get ⟨t - tARG1, hj⟩) :=
        List.get?_eq_get hj
      have hsp : (param.map (spelling st)).getD (t - tARG1) [] =
          spelling st (param.get ⟨t - tARG1, hj⟩) := by
        rw [List.getD_eq_getElem?_getD, List.getElem?_map, ← List.get?_eq_getElem?, hget]
        rfl
      rw [hsp] at hcap
      have hlen : (spelling st (param.get ⟨t - tARG1, hj⟩)).length =
          st.plen (param.get ⟨t - tARG1, hj⟩) := by
        simp [spelling]
      rw [hget]
      simp only []
      rw [copySpelling_spec _ _ _ _ (by omega)]
      simp only []
      rw [ih (i + 1) _ hr1 (fun x hx => hrefs x (List.mem_cons_of_mem _ hx))
        (by simp only [List.length_append, List.length_map, List.length_range]
            rw [hlen] at hcap
            omega)]
      simp only [substToks, if_neg hlit, List.append_assoc, hsp]
      rfl

theorem copyIn_spec : ∀ (ts : List Nat) (buf : Nat → Nat) (pos : Nat),
    pos + ts.length ≤ BUFFERMAX → copyIn buf pos ts = .ok (writeAll buf pos ts) := by
  intro ts
  induction ts with
  | nil => intro buf pos _; rfl
  | cons t r ih =>
    intro buf pos h
    simp only [List.length_cons] at h
    rw [copyIn, if_pos (by omega), ih _ _ (by omega)]
    rfl

/-- The function `expand` on an invocation whose arguments are groups without
inner braces, entered with nothing pending behind the invocation token. -/
theorem expand_spec (st : Engine) (As : List (List Nat)) (Btoks rest : List Nat)
    (L : List (List Nat)) (m : Nat)
    (hfeed : Feed { st with bpos := st.bpos + 1 } (groupToks As ++ []) rest)
    (hm : findMacro st.mname (st.buf st.bpos) st.mlast 0 = m) (hmm : m < MACROMAX)
    (hargs : st.margs m = As.length) (hdef : st.mdef m = internId L Btoks) (hB : Btoks ∈ L)
    (hAs : ∀ a ∈ As, (∀ t ∈ a, t ≠ tEOF ∧ t ≠ tBGROUP ∧ t ≠ tEGROUP) ∧ a.length < TOKENMAX)
    (hn : As.length ≤ 9)
    (hrefs : ∀ t ∈ Btoks, t < tARG1 ∨ t > tARG9 ∨ t - tARG1 < As.length)
    (hcap1 : st.bpos + 1 + groupCells As ≤ BUFFERMAX)
    (hcap2 : st.bpos + (substToks As Btoks).length ≤ BUFFERMAX)
    (ha : Arena st L) (hp : st.pcur + As.length ≤ UINT16_MAX)
    (hpool : st.plast + groupCells As ≤ POOLMAX) :
    ∃ st1, expand st = .ok st1 ∧ st1.inp = rest ∧ st1.bpos = st.bpos ∧
      st1.blast = st.bpos + (substToks As Btoks).length ∧
      pending st1 = substToks As Btoks ∧ st1.is_start = false ∧ st1.line_breaks = 0 ∧
      Arena st1 (internAll L As) ∧ st1.mname = st.mname ∧ st1.mdef = st.mdef ∧
      st1.margs = st.margs ∧ st1.mlast = st.mlast := by
  obtain ⟨S, hS⟩ : ∃ S : Engine, S = { st with bpos := st.bpos + 1 } := ⟨_, rfl⟩
  rw [← hS] at hfeed
  have haS : Arena S L :=
    arena_congr st S L ha (by rw [hS]) (by rw [hS]) (by rw [hS]) (by rw [hS]) (by rw [hS])
  obtain ⟨s1, c1, c2, c3, c4, c5, c6, c7, c8⟩ := collectArgs_groups As S [] L [] rest hfeed hAs
    (by simpa using hn) (by rw [hS]; simp only [List.length_nil]; omega) haS
    (by rw [hS]; exact hp) (by rw [hS]; exact hpool)
  obtain ⟨d1, d2⟩ := feed_done s1 rest c2
  have hbid : spelling s1 (internId L Btoks) = Btoks := by
    rw [← internId_internAll As L Btoks hB]
    exact arena_spelling s1 _ c3 Btoks (mem_internAll_of_mem As L Btoks hB)
  have hplen : s1.plen (internId L Btoks) = Btoks.length := by
    have := congrArg List.length hbid
    simpa [spelling] using this
  have hcells : (List.range Btoks.length).map
      (fun k => s1.pool (s1.ppos (internId L Btoks) + k)) = Btoks := by
    rw [← hplen]; exact hbid
  have hparam : (([] : List Nat) ++ As.map (internId (internAll L As))).map (spelling s1) = As := by
    rw [List.nil_append, List.map_map]
    conv_rhs => rw [← List.map_id As]
    apply List.map_congr_left
    intro a hmem
    exact arena_spelling s1 _ c3 a (mem_internAll As L a hmem)
  have hsub := substitute_spec s1 ([] ++ As.map (internId (internAll L As))) Btoks
    (s1.ppos (internId L Btoks)) [] hcells
    (by intro t ht
        simp only [List.nil_append, List.length_map]
        exact hrefs t ht)
    (by rw [hparam]; simp only [List.length_nil]; omega)
  rw [hparam] at hsub
  have hcopy := copyIn_spec (substToks As Btoks) s1.buf st.bpos hcap2
  refine ⟨{ s1 with buf := writeAll s1.buf st.bpos (substToks As Btoks),
                    blast := st.bpos + (substToks As Btoks).length, bpos := st.bpos },
    ?_, d2, rfl, rfl, ?_, c2.noStart, c2.lb, ?_, ?_, ?_, ?_, ?_⟩
  · unfold expand
    simp only []
    rw [hm, if_pos hmm, hargs]
    rw [hS] at c1
    rw [c1]
    simp only []
    rw [c6, hS]
    simp only []
    rw [hdef, hplen, hsub]
    simp only [List.nil_append]
    have hz : s1.blast - s1.bpos = 0 := by omega
    have hr : (if st.bpos + (substToks As Btoks).length > s1.bpos then
          shiftUp (st.bpos + (substToks As Btoks).length - s1.bpos) s1.bpos
            (s1.blast - s1.bpos) s1.buf
        else if st.bpos + (substToks As Btoks).length < s1.bpos then
          .ok (shiftDown (s1.bpos - (st.bpos + (substToks As Btoks).length))
            (s1.blast - s1.bpos) s1.bpos s1.buf)
        else .ok s1.buf) = .ok s1.buf := by
      rw [hz]
      split
      · rfl
      · split <;> rfl
    rw [hr]
    simp only []
    rw [hcopy]
    simp only []
    congr 2
    omega
  · exact pending_writeAll _ _ s1.buf st.bpos rfl rfl rfl
  · exact arena_congr s1 _ _ c3 rfl rfl rfl rfl rfl
  · show s1.mname = _
    rw [c5, hS]
  · show s1.mdef = _
    rw [c6, hS]
  · show s1.margs = _
    rw [c7, hS]
  · show s1.mlast = _
    rw [c8, hS]

end Mex


namespace Mex

/-! ## Lexemes of plain texts and argument groups -/

theorem lxOK_glue : ∀ (xs : List Lx) (y : Lx) (ys : List Lx), lxOK (xs ++ [y]) = true →
    lxOK (y :: ys) = true → lxOK (xs ++ y :: ys) = true := by
  intro xs
  induction xs with
  | nil => intro y ys _ h; exact h
  | cons x xs ih =>
    intro y ys h1 h2
    cases xs with
    | nil =>
      simp only [List.cons_append, List.nil_append, lxOK, Bool.and_eq_true] at h1 ⊢
      exact ⟨⟨h1.1.1, h1.1.2⟩, h2⟩
    | cons x2 xs =>
      simp only [List.cons_append, lxOK, Bool.and_eq_true] at h1 ⊢
      exact ⟨h1.1, ih y ys h1.2 h2⟩

theorem lxOK_brace (x : Lx) (hx : x = Lx.bg ∨ x = Lx.eg) (zs : List Lx) (h : lxOK zs = true) :
    lxOK (x :: zs) = true := by
  cases zs with
  | nil => rcases hx with e | e <;> subst e <;> rfl
  | cons z r =>
    rcases hx with e | e <;> subst e <;>
      simp only [lxOK, Lx.ok, Lx.isSp, Bool.false_and, Bool.not_false, Bool.true_and, h]

theorem render_lits : ∀ (a : List Nat), render (a.map Lx.lit) = a := by
  intro a
  induction a with
  | nil => rfl
  | cons c a ih =>
    show [c] ++ render (a.map Lx.lit) = c :: a
    rw [ih]; rfl

theorem tok_lits (a : List Nat) : (a.map Lx.lit).map Lx.tok = a := by
  rw [List.map_map]
  conv_rhs => rw [← List.map_id a]
  apply List.map_congr_left
  intro c _
  rfl

theorem render_groupLx : ∀ (As : List (List Nat)), render (groupLx As) = groups As := by
  intro As
  induction As with
  | nil => rfl
  | cons a r ih =>
    show [123] ++ render (a.map Lx.lit ++ Lx.eg :: groupLx r) = 123 :: (a ++ 125 :: groups r)
    rw [render_append, render_lits]
    show [123] ++ (a ++ ([125] ++ render (groupLx r))) = _
    rw [ih]
    rfl

theorem tok_groupLx : ∀ (As : List (List Nat)), (groupLx As).map Lx.tok = groupToks As := by
  intro As
  induction As with
  | nil => rfl
  | cons a r ih =>
    show Lx.bg.tok :: (a.map Lx.lit ++ Lx.eg :: groupLx r).map Lx.tok = _
    rw [List.map_append, tok_lits, List.map_cons, ih]
    rfl

theorem lxOK_groupLx : ∀ (As : List (List Nat)), (∀ a ∈ As, textOK a = true) →
    lxOK (groupLx As) = true := by
  intro As
  induction As with
  | nil => intro _; rfl
  | cons a r ih =>
    intro h
    have h1 : textOK a = true := h a (List.mem_cons_self _ _)
    have h2 := ih (fun b hb => h b (List.mem_cons_of_mem _ hb))
    show lxOK (Lx.bg :: (a.map Lx.lit ++ Lx.eg :: groupLx r)) = true
    exact lxOK_brace _ (Or.inl rfl) _ (lxOK_glue _ _ _ h1 (lxOK_brace _ (Or.inr rfl) _ h2))

/-- The bytes of a plain text are below 256. -/
theorem textOK_lt (a : List Nat) (h : textOK a = true) : ∀ t ∈ a, t < 256 := by
  intro t ht
  have := lxOK_all _ h (Lx.lit t) (List.mem_append_left _ (List.mem_map_of_mem _ ht))
  simp only [Lx.ok, Bool.and_eq_true, decide_eq_true_eq] at this
  exact this.1.1

theorem groups_head (As : List (List Nat)) (rest : List Nat)
    (h : As ≠ [] ∨ rest = [] ∨ ∃ c r, rest = c :: r ∧ isalpha c = false) :
    groups As ++ rest = [] ∨ ∃ c r, groups As ++ rest = c :: r ∧ isalpha c = false := by
  cases As with
  | nil =>
    rcases h with h | h | h
    · exact absurd rfl h
    · left; rw [h]; rfl
    · right; exact h
  | cons a r => right; exact ⟨123, _, rfl, rfl⟩

theorem compact_bpos (st : Engine) : (compact st).bpos = compacted st.bpos := by
  unfold compact compacted
  split <;> rfl

end Mex


namespace Mex

/-! ## The driver on a directive and on an invocation -/

/-- What `next` finds in front of a control sequence: the scanner appends its
token, the compaction step is applied, and the token is the pending one. -/
theorem next_front (st : Engine) (name rest : List Nat) (L : List (List Nat))
    (hb : st.bpos = st.blast)
    (hinp : st.inp = 92 :: (name ++ rest)) (hne : name ≠ [])
    (hal : ∀ c ∈ name, isalpha c = true) (hnl : name.length < TOKENMAX)
    (hrest : rest = [] ∨ ∃ c r, rest = c :: r ∧ isalpha c = false)
    (ha : Arena st L) (hcap : st.blast < BUFFERMAX) (hp : st.pcur < UINT16_MAX)
    (hpool : st.plast + name.length + 1 ≤ POOLMAX) :
    ∃ s0 c0, fill st = .ok s0 ∧ c0 = compact s0 ∧ c0.inp = rest ∧ c0.is_start = false ∧
      c0.line_breaks = st.line_breaks ∧ c0.bpos = compacted st.bpos ∧
      c0.blast = c0.bpos + 1 ∧
      c0.buf c0.bpos =
        (if tESCAPE :: name = defSpelling then tDEF else internId L (tESCAPE :: name)) ∧
      Arena c0 (if tESCAPE :: name = defSpelling then L else internIn L (tESCAPE :: name)) ∧
      c0.mname = st.mname ∧ c0.mdef = st.mdef ∧ c0.margs = st.margs ∧ c0.mlast = st.mlast := by
  obtain ⟨s0, a1, a2, a3, a4, a5, a6, a7, a8, a9, a10, a11, a12⟩ :=
    scan_name st name rest L hinp hne hal hnl hrest ha hcap hp hpool
  have hfill : fill st = .ok s0 := by unfold fill; rw [if_pos hb]; exact a1
  have hlt : s0.bpos < s0.blast := by omega
  have hhead := compact_head s0 hlt
  have hbd := compact_bounds s0 (le_of_lt hlt)
  obtain ⟨o1, o2, o3, o4, o5, o6, o7, o8, o9, o10, o11, o12⟩ := compact_other s0
  refine ⟨s0, compact s0, hfill, rfl, o1.trans a2, o2.trans a3, o3.trans a4, ?_, by omega, ?_,
    arena_congr s0 _ _ a8 o4 o5 o6 o7 o8, o9.trans a9, o10.trans a10, o11.trans a11,
    o12.trans a12⟩
  · rw [compact_bpos, a5]
  · rw [hhead, a7, a5, hb, upd_same]

set_option maxRecDepth 10000 in
/-- One round of `next` on a directive `\def\name`, an optional arity digit and
a body in braces without inner braces: the definition is recorded and `next`
goes on behind it. -/
theorem next_define (st : Engine) (name : List Nat) (pre Gx : List Lx)
    (rest : List Nat) (L : List (List Nat)) (arity : Nat)
    (hb : st.bpos = st.blast) (hl : st.line_breaks = 0)
    (hinp : st.inp = 92 :: ([100, 101, 102] ++
      (92 :: (name ++ (render (pre ++ Lx.bg :: (Gx ++ [Lx.eg])) ++ rest)))))
    (hne : name ≠ []) (hal : ∀ c ∈ name, isalpha c = true) (hnl : name.length < TOKENMAX)
    (hnd : tESCAPE :: name ≠ defSpelling)
    (hpre : (pre = [] ∧ arity = 0) ∨ (pre = [Lx.lit (48 + arity)] ∧ arity ≤ 9))
    (hok : lxOK (pre ++ Lx.bg :: (Gx ++ [Lx.eg])) = true)
    (hflat : ∀ x ∈ Gx, x ≠ Lx.bg ∧ x ≠ Lx.eg) (hglen : Gx.length < TOKENMAX)
    (hcap0 : st.blast < BUFFERMAX)
    (hcap : compacted st.bpos + 2 + (pre.length + Gx.length + 2) ≤ BUFFERMAX)
    (ha : Arena st L) (hp : st.pcur + 1 < UINT16_MAX)
    (hpool0 : st.plast + 4 ≤ POOLMAX)
    (hpool : st.plast + name.length + 1 + Gx.length ≤ POOLMAX) (hm : st.mlast < MACROMAX) :
    ∃ st1, (∀ fuel, next (fuel + 1) st = next fuel st1) ∧ st1.inp = rest ∧
      st1.bpos = st1.blast ∧
      st1.bpos = compacted st.bpos + 2 + (pre.length + Gx.length + 2) ∧
      st1.is_start = false ∧ st1.line_breaks = 0 ∧
      Arena st1 (internIn (internIn L (tESCAPE :: name)) (Gx.map Lx.tok)) ∧
      st1.mlast = (if findMacro st.mname (internId L (tESCAPE :: name)) st.mlast 0 = st.mlast
                   then st.mlast + 1 else st.mlast) ∧
      st1.mname = (if findMacro st.mname (internId L (tESCAPE :: name)) st.mlast 0 = st.mlast
                   then upd st.mname st.mlast (internId L (tESCAPE :: name)) else st.mname) ∧
      st1.margs = upd st.margs (findMacro st.mname (internId L (tESCAPE :: name)) st.mlast 0)
                    arity ∧
      st1.mdef = upd st.mdef (findMacro st.mname (internId L (tESCAPE :: name)) st.mlast 0)
                   (internId (internIn L (tESCAPE :: name)) (Gx.map Lx.tok)) := by
  have hplen := ha.plast
  obtain ⟨s0, c0, b1, b2, b3, b4, b5, b6, b7, b8, b9, b10, b11, b12, b13⟩ :=
    next_front st [100, 101, 102] _ L hb hinp (by simp) (by decide) (by decide)
      (Or.inr ⟨92, _, rfl, rfl⟩) ha hcap0 (by omega) (by
        simp only [List.length_cons, List.length_nil]; omega)
  have hds : [tESCAPE, 100, 101, 102] = defSpelling := rfl
  rw [if_pos hds] at b8 b9
  obtain ⟨D, hD⟩ : ∃ D : Engine, D = { c0 with bpos := c0.bpos + 1 } := ⟨_, rfl⟩
  have haD : Arena D L :=
    arena_congr c0 D L b9 (by rw [hD]) (by rw [hD]) (by rw [hD]) (by rw [hD]) (by rw [hD])
  have e1 : D.bpos = c0.bpos + 1 := by rw [hD]
  have e2 : D.blast = c0.blast := by rw [hD]
  have e3 : D.mlast = st.mlast := by rw [hD]; exact b13
  have e4 : D.mname = st.mname := by rw [hD]; exact b10
  have e5 : D.margs = st.margs := by rw [hD]; exact b12
  have e6 : D.mdef = st.mdef := by rw [hD]; exact b11
  have e7 := haD.pcur
  have e8 := ha.pcur
  have e9 := haD.plast
  obtain ⟨st1, d1, d2, d3, d4, d5, d6, d7, d8, d9, d10, d11⟩ :=
    define_spec D name pre Gx rest L arity (by omega) (by rw [hD]; exact b5.trans hl)
      (by rw [hD]; exact b3) hne hal hnl hnd hpre hok hflat hglen (by omega) haD (by omega)
      (by omega) (by omega)
  rw [e3, e4] at d8 d9
  rw [e4, e3, e5] at d10
  rw [e4, e3, e6] at d11
  refine ⟨st1, ?_, d2, d3, by omega, d5, d6, d7, d8, d9, d10, d11⟩
  intro fuel
  rw [next, b1]
  simp only []
  rw [← b2, b8, if_pos rfl]
  rw [hD] at d1
  rw [d1]

/-- One round of `next` on an invocation `\name` of a defined macro with
arguments that are groups of plain text: the invocation is replaced by the
substitution and `next` goes on with it. -/
theorem next_expand (st : Engine) (name : List Nat) (As : List (List Nat))
    (Btoks rest : List Nat) (L : List (List Nat)) (m : Nat)
    (hb : st.bpos = st.blast) (hl : st.line_breaks = 0)
    (hinp : st.inp = 92 :: (name ++ (groups As ++ rest)))
    (hrest : As ≠ [] ∨ rest = [] ∨ ∃ c r, rest = c :: r ∧ isalpha c = false)
    (hne : name ≠ []) (hal : ∀ c ∈ name, isalpha c = true) (hnl : name.length < TOKENMAX)
    (hnd : tESCAPE :: name ≠ defSpelling) (hin : tESCAPE :: name ∈ L)
    (hm : findMacro st.mname (internId L (tESCAPE :: name)) st.mlast 0 = m)
    (hmm : m < MACROMAX)
    (hargs : st.margs m = As.length) (hdef : st.mdef m = internId L Btoks) (hB : Btoks ∈ L)
    (hAs : ∀ a ∈ As, textOK a = true ∧ a.length < TOKENMAX) (hn : As.length ≤ 9)
    (hrefs : ∀ t ∈ Btoks, t < tARG1 ∨ t > tARG9 ∨ t - tARG1 < As.length)
    (hcap0 : st.blast < BUFFERMAX)
    (hcap1 : compacted st.bpos + 1 + groupCells As ≤ BUFFERMAX)
    (hcap2 : compacted st.bpos + (substToks As Btoks).length ≤ BUFFERMAX)
    (ha : Arena st L) (hp : st.pcur + As.length ≤ UINT16_MAX) (hp0 : st.pcur < UINT16_MAX)
    (hpool0 : st.plast + name.length + 1 ≤ POOLMAX)
    (hpool : st.plast + groupCells As ≤ POOLMAX) :
    ∃ st1, (∀ fuel, next (fuel + 1) st = next fuel st1) ∧ st1.inp = rest ∧
      st1.bpos = compacted st.bpos ∧
      st1.blast = compacted st.bpos + (substToks As Btoks).length ∧
      pending st1 = substToks As Btoks ∧ st1.is_start = false ∧ st1.line_breaks = 0 ∧
      Arena st1 (internAll L As) ∧ st1.mname = st.mname ∧ st1.mdef = st.mdef ∧
      st1.margs = st.margs ∧ st1.mlast = st.mlast := by
  obtain ⟨s0, c0, b1, b2, b3, b4, b5, b6, b7, b8, b9, b10, b11, b12, b13⟩ :=
    next_front st name _ L hb hinp hne hal hnl (groups_head As rest hrest) ha hcap0 hp0 hpool0
  rw [if_neg hnd] at b8 b9
  have hLL : internIn L (tESCAPE :: name) = L := by unfold internIn; rw [if_pos hin]
  rw [hLL] at b9
  have e7 := b9.pcur
  have e8 := ha.pcur
  have e9 := b9.plast
  have e10 := ha.plast
  have hfeed : Feed { c0 with bpos := c0.bpos + 1 } (groupToks As ++ []) rest := by
    rw [List.append_nil, ← tok_groupLx]
    apply feed_of_input
    · show c0.bpos + 1 = c0.blast
      omega
    · exact b4
    · exact b5.trans hl
    · exact lxOK_groupLx As (fun a h => (hAs a h).1)
    · show c0.inp = _
      rw [b3, render_groupLx]
  obtain ⟨st1, d1, d2, d3, d4, d5, d6, d7, d8, d9, d10, d11, d12⟩ :=
    expand_spec c0 As Btoks rest L m hfeed (by rw [b10, b8, b13]; exact hm) hmm
      (by rw [b12]; exact hargs) (by rw [b11]; exact hdef) hB
      (by intro a h
          refine ⟨?_, (hAs a h).2⟩
          intro t ht
          have := textOK_lt a (hAs a h).1 t ht
          simp only [tEOF, tBGROUP, tEGROUP]
          omega)
      hn hrefs (by omega) (by omega) b9 (by omega) (by omega)
  refine ⟨st1, ?_, d2, d3.trans b6, by rw [d4, b6], d5, d6, d7, d8, d9.trans b10,
    d10.trans b11, d11.trans b12, d12.trans b13⟩
  have hge : tSENTINEL ≤ internId L (tESCAPE :: name) := by unfold internId; omega
  intro fuel
  rw [next, b1]
  simp only []
  rw [← b2, b8, if_neg (by simp only [tDEF, tSENTINEL] at hge ⊢; omega), if_pos hge, d1]

end Mex


namespace Mex

/-! ## A definition followed by an invocation -/

theorem compacted_le (p : Nat) : compacted p ≤ TOKENMAX := by
  unfold compacted
  split
  · omega
  · omega

theorem internId_round (L : List (List Nat)) (nm Bt : List Nat) (As : List (List Nat)) :
    internId (internAll (internIn (internIn L nm) Bt) As) nm = internId L nm := by
  rw [internId_internAll As _ nm (mem_internIn_of_mem _ Bt nm (mem_internIn_self L nm)),
    internId_internIn _ Bt nm (mem_internIn_self L nm), internId_internIn_self]

theorem internId_round_body (L : List (List Nat)) (nm Bt : List Nat) (As : List (List Nat)) :
    internId (internAll (internIn (internIn L nm) Bt) As) Bt =
      internId (internIn L nm) Bt := by
  rw [internId_internAll As _ Bt (mem_internIn_self _ Bt), internId_internIn_self]

/-- Two rounds of `next` on `\def\name<n>{B}\name{A1}..{An}`, in a state whose
macro table is empty or holds `\name` alone: the definition is recorded in slot
0 and the substitution is pending. -/
theorem macro_round (st : Engine) (name : List Nat) (pre Gx : List Lx)
    (As : List (List Nat)) (rest : List Nat) (L : List (List Nat))
    (hb : st.bpos = st.blast) (hl : st.line_breaks = 0)
    (hinp : st.inp = 92 :: ([100, 101, 102] ++
      (92 :: (name ++ (render (pre ++ Lx.bg :: (Gx ++ [Lx.eg])) ++
        (92 :: (name ++ (groups As ++ rest))))))))
    (hrest : As ≠ [] ∨ rest = [] ∨ ∃ c r, rest = c :: r ∧ isalpha c = false)
    (hne : name ≠ []) (hal : ∀ c ∈ name, isalpha c = true) (hnl : name.length < TOKENMAX)
    (hnd : tESCAPE :: name ≠ defSpelling)
    (hpre : (pre = [] ∧ As.length = 0) ∨ (pre = [Lx.lit (48 + As.length)] ∧ As.length ≤ 9))
    (hok : lxOK (pre ++ Lx.bg :: (Gx ++ [Lx.eg])) = true)
    (hflat : ∀ x ∈ Gx, x ≠ Lx.bg ∧ x ≠ Lx.eg) (hglen : Gx.length < TOKENMAX)
    (hAs : ∀ a ∈ As, textOK a = true ∧ a.length < TOKENMAX)
    (hrefs : ∀ t ∈ Gx.map Lx.tok, t < tARG1 ∨ t > tARG9 ∨ t - tARG1 < As.length)
    (hT : st.mlast = 0 ∨ (st.mlast = 1 ∧ st.mname 0 = internId L (tESCAPE :: name)))
    (hcap0 : st.blast < BUFFERMAX)
    (hcap1 : compacted (compacted st.bpos + 2 + (pre.length + Gx.length + 2)) + 1 +
      groupCells As ≤ BUFFERMAX)
    (hcap2 : compacted (compacted st.bpos + 2 + (pre.length + Gx.length + 2)) +
      (substToks As (Gx.map Lx.tok)).length ≤ BUFFERMAX)
    (ha : Arena st L) (hp : st.pcur + 12 < UINT16_MAX)
    (hpool : st.plast + 3000 ≤ POOLMAX) :
    ∃ st2, (∀ f, next (f + 2) st = next f st2) ∧ st2.inp = rest ∧
      st2.bpos = compacted (compacted st.bpos + 2 + (pre.length + Gx.length + 2)) ∧
      st2.blast = st2.bpos + (substToks As (Gx.map Lx.tok)).length ∧
      pending st2 = substToks As (Gx.map Lx.tok) ∧
      st2.is_start = false ∧ st2.line_breaks = 0 ∧
      Arena st2 (internAll (internIn (internIn L (tESCAPE :: name)) (Gx.map Lx.tok)) As) ∧
      st2.mlast = 1 ∧ st2.mname 0 = internId L (tESCAPE :: name) ∧
      st2.margs 0 = As.length ∧
      st2.mdef 0 = internId (internIn L (tESCAPE :: name)) (Gx.map Lx.tok) := by
  have hT1 : TOKENMAX = 500 := rfl
  have hB1 : BUFFERMAX = 1500 := rfl
  have hn9 : As.length ≤ 9 := by
    rcases hpre with ⟨_, h⟩ | ⟨_, h⟩
    · omega
    · exact h
  have hpl : pre.length ≤ 1 := by
    rcases hpre with ⟨h, _⟩ | ⟨h, _⟩ <;> rw [h] <;> simp
  have hc := compacted_le st.bpos
  have hfm : findMacro st.mname (internId L (tESCAPE :: name)) st.mlast 0 = 0 := by
    rcases hT with h | ⟨h1, h2⟩
    · rw [h]; rfl
    · rw [h1]; simp only [findMacro, h2, if_true]
  have hml : st.mlast < MACROMAX := by
    rcases hT with h | ⟨h, _⟩ <;> rw [h] <;> decide
  obtain ⟨st1, d1, d2, d3, d4, d5, d6, d7, d8, d9, d10, d11⟩ :=
    next_define st name pre Gx (92 :: (name ++ (groups As ++ rest))) L As.length hb hl hinp
      hne hal hnl hnd hpre hok hflat hglen hcap0 (by omega) ha (by omega) (by omega) (by omega)
      hml
  rw [hfm] at d8 d9 d10 d11
  have e8 : st1.mlast = 1 := by
    rw [d8]
    rcases hT with h | ⟨h, _⟩ <;> rw [h] <;> rfl
  have e9 : st1.mname 0 = internId L (tESCAPE :: name) := by
    rw [d9]
    rcases hT with h | ⟨h, h2⟩
    · rw [h, if_pos rfl, upd_same]
    · rw [h, if_neg (by decide)]; exact h2
  have hp1 : st1.pcur ≤ st.pcur + 2 := by
    have := d7.pcur
    have := ha.pcur
    have := length_internIn_le (internIn L (tESCAPE :: name)) (Gx.map Lx.tok)
    have := length_internIn_le L (tESCAPE :: name)
    omega
  have hl1 : st1.plast ≤ st.plast + name.length + 1 + Gx.length := by
    have := d7.plast
    have := ha.plast
    have := sum_internIn_le (internIn L (tESCAPE :: name)) (Gx.map Lx.tok)
    have := sum_internIn_le L (tESCAPE :: name)
    simp only [List.length_map, List.length_cons] at this
    have := sum_internIn_le (internIn L (tESCAPE :: name)) (Gx.map Lx.tok)
    simp only [List.length_map] at this
    omega
  have hin : tESCAPE :: name ∈ internIn (internIn L (tESCAPE :: name)) (Gx.map Lx.tok) :=
    mem_internIn_of_mem _ _ _ (mem_internIn_self L _)
  have hid : internId (internIn (internIn L (tESCAPE :: name)) (Gx.map Lx.tok))
      (tESCAPE :: name) = internId L (tESCAPE :: name) := internId_round L _ _ []
  obtain ⟨st2, k1, k2, k3, k4, k5, k6, k7, k8, k9, k10, k11, k12⟩ :=
    next_expand st1 name As (Gx.map Lx.tok) rest
      (internIn (internIn L (tESCAPE :: name)) (Gx.map Lx.tok)) 0 d3 d6 d2 hrest hne hal hnl
      hnd hin (by rw [hid, e8]; simp only [findMacro, e9, if_true]) (by decide)
      (by rw [d10, upd_same]) (by rw [d11, upd_same, internId_internIn_self])
      (mem_internIn_self _ _) hAs hn9 hrefs (by omega) (by rw [d4]; exact hcap1)
      (by rw [d4]; exact hcap2) d7 (by omega) (by omega) (by omega) (by omega)
  refine ⟨st2, ?_, k2, by rw [k3, d4], by rw [k4, k3], k5, k6, k7, k8, k12.trans e8,
    ?_, ?_, ?_⟩
  · intro f
    rw [d1 (f + 1), k1 f]
  · rw [k9]; exact e9
  · rw [k11, d10, upd_same]
  · rw [k10, d11, upd_same]

end Mex


namespace Mex

/-! ## Bodies, and the end of a run -/

theorem bodyOK_lx (n : Nat) (B : List Lx) (h : bodyOK n B = true) :
    lxOK (B ++ [Lx.eg]) = true := by
  unfold bodyOK at h
  simp only [Bool.and_eq_true] at h
  exact h.1

theorem bodyOK_item (n : Nat) (B : List Lx) (h : bodyOK n B = true) (x : Lx) (hx : x ∈ B) :
    (∃ c, x = Lx.lit c ∧ c < 256) ∨ (∃ i, x = Lx.arg i ∧ 1 ≤ i ∧ i ≤ 9 ∧ i ≤ n) := by
  have hok := lxOK_all _ (bodyOK_lx n B h) x (List.mem_append_left _ hx)
  unfold bodyOK at h
  simp only [Bool.and_eq_true, List.all_eq_true] at h
  have h2 := h.2 x hx
  cases x with
  | lit c =>
    left
    simp only [Lx.ok, Bool.and_eq_true, decide_eq_true_eq] at hok
    exact ⟨c, rfl, hok.1.1⟩
  | arg i =>
    right
    simp only [Lx.ok, Bool.and_eq_true, decide_eq_true_eq] at hok
    simp only [decide_eq_true_eq] at h2
    exact ⟨i, rfl, hok.1, hok.2, h2⟩
  | bg => simp at h2
  | eg => simp at h2

theorem bodyOK_flat (n : Nat) (B : List Lx) (h : bodyOK n B = true) :
    ∀ x ∈ B, x ≠ Lx.bg ∧ x ≠ Lx.eg := by
  intro x hx
  rcases bodyOK_item n B h x hx with ⟨c, e, _⟩ | ⟨i, e, _⟩ <;> rw [e] <;> simp

theorem bodyOK_refs (n : Nat) (B : List Lx) (h : bodyOK n B = true) :
    ∀ t ∈ B.map Lx.tok, t < tARG1 ∨ t > tARG9 ∨ t - tARG1 < n := by
  intro t ht
  obtain ⟨x, hx, rfl⟩ := List.mem_map.1 ht
  rcases bodyOK_item n B h x hx with ⟨c, e, hc⟩ | ⟨i, e, h1, h2, h3⟩
  · left
    rw [e]
    show c < tARG1
    unfold tARG1
    omega
  · right; right
    rw [e]
    show tARG1 + i - 1 - tARG1 < n
    omega

/-- The substitution loop on the tokens of a body yields the body with each
reference replaced by its argument. -/
theorem substToks_body (n : Nat) (As : List (List Nat)) : ∀ (B : List Lx),
    (∀ x ∈ B, (∃ c, x = Lx.lit c ∧ c < 256) ∨ (∃ i, x = Lx.arg i ∧ 1 ≤ i ∧ i ≤ 9 ∧ i ≤ n)) →
    substToks As (B.map Lx.tok) = instantiate As B := by
  intro B
  induction B with
  | nil => intro _; rfl
  | cons x r ih =>
    intro hB
    have ihr := ih (fun y hy => hB y (List.mem_cons_of_mem _ hy))
    rcases hB x (List.mem_cons_self _ _) with ⟨c, e, hc⟩ | ⟨i, e, h1, h2, _⟩
    · subst e
      show (if c < tARG1 ∨ c > tARG9 then [c] else As.getD (c - tARG1) []) ++
        substToks As (r.map Lx.tok) = c :: instantiate As r
      rw [if_pos (Or.inl (by unfold tARG1; omega)), ihr]
      rfl
    · subst e
      show (if tARG1 + i - 1 < tARG1 ∨ tARG1 + i - 1 > tARG9 then [tARG1 + i - 1]
          else As.getD (tARG1 + i - 1 - tARG1) []) ++ substToks As (r.map Lx.tok) =
        As.getD (i - 1) [] ++ instantiate As r
      have hi : tARG1 + i - 1 - tARG1 = i - 1 := by unfold tARG1; omega
      rw [if_neg (by unfold tARG1 tARG9; omega), ihr, hi]

theorem instantiate_lt (n : Nat) (As : List (List Nat)) (hAs : ∀ a ∈ As, textOK a = true) :
    ∀ (B : List Lx),
    (∀ x ∈ B, (∃ c, x = Lx.lit c ∧ c < 256) ∨ (∃ i, x = Lx.arg i ∧ 1 ≤ i ∧ i ≤ 9 ∧ i ≤ n)) →
    ∀ t ∈ instantiate As B, t < 256 := by
  intro B
  induction B with
  | nil => intro _ t ht; cases ht
  | cons x r ih =>
    intro hB t ht
    have ihr := ih (fun y hy => hB y (List.mem_cons_of_mem _ hy))
    rcases hB x (List.mem_cons_self _ _) with ⟨c, e, hc⟩ | ⟨i, e, _⟩
    · subst e
      rcases List.mem_cons.1 ht with h | h
      · rw [h]; exact hc
      · exact ihr t h
    · subst e
      rcases List.mem_append.1 ht with h | h
      · rw [List.getD_eq_getElem?_getD] at h
        cases hg : As[i - 1]? with
        | none => rw [hg] at h; cases h
        | some a =>
          rw [hg] at h
          exact textOK_lt a (hAs a (List.getElem?_mem hg)) t h
      · exact ihr t h

theorem textOK_body (B : List Nat) (h : textOK B = true) : bodyOK 0 (B.map Lx.lit) = true := by
  unfold bodyOK
  rw [Bool.and_eq_true]
  refine ⟨h, ?_⟩
  rw [List.all_eq_true]
  intro x hx
  obtain ⟨c, _, rfl⟩ := List.mem_map.1 hx
  rfl

theorem instantiate_lits (As : List (List Nat)) : ∀ (B : List Nat),
    instantiate As (B.map Lx.lit) = B := by
  intro B
  induction B with
  | nil => rfl
  | cons c r ih =>
    show c :: instantiate As (r.map Lx.lit) = c :: r
    rw [ih]

/-- The driver writes the pending tokens and stops at the end of the input. -/
theorem runLoop_pending (st : Engine) (ts out : List Nat) (hinp : st.inp = [])
    (hlow : st.bpos ≤ TOKENMAX) (hle : st.bpos ≤ st.blast) (hp : pending st = ts)
    (hts : ∀ t ∈ ts, t < 256) :
    ∃ st1, runLoop 1 (ts.length + 1) st out = .ok (out ++ ts, st1) ∧ sameTables st1 st := by
  have hinv : LitInv st := by
    constructor
    · exact hle
    · intro _; omega
    · rw [hinp]; decide
    · rw [hinp]; rfl
    · right; exact hinp
    · intro t ht
      rw [hp] at ht
      exact le_of_lt (hts t ht)
  obtain ⟨st1, h1, h2⟩ := runLoop_lit (ts.length + 1) st out 1 (by omega) hinv
    (by rw [hinp, hp]; simp)
  refine ⟨st1, ?_, h2⟩
  rw [h1]
  have : ahead st = ts := by
    unfold ahead
    rw [hinp, hp]
    have : litLex (modeOf st.is_start) [] = [] := by
      cases modeOf st.is_start <;> rfl
    rw [this, List.append_nil]
    exact takeWhile_all ts hts
  rw [this]

/-- The lexemes of the optional arity digit and of the braced body. -/
theorem directive_lx (digit : List Nat) (B : List Lx) (n : Nat) (hn : n ≤ 9)
    (hdigit : (digit = [] ∧ n = 0) ∨ digit = [48 + n]) (hB : lxOK (B ++ [Lx.eg]) = true) :
    ((digit.map Lx.lit = [] ∧ n = 0) ∨ (digit.map Lx.lit = [Lx.lit (48 + n)] ∧ n ≤ 9)) ∧
    lxOK (digit.map Lx.lit ++ Lx.bg :: (B ++ [Lx.eg])) = true ∧
    render (digit.map Lx.lit ++ Lx.bg :: (B ++ [Lx.eg])) = digit ++ 123 :: (render B ++ [125]) ∧
    (digit.map Lx.lit).length = digit.length := by
  have h1 : lxOK (Lx.bg :: (B ++ [Lx.eg])) = true := lxOK_brace _ (Or.inl rfl) _ hB
  have hr : render (Lx.bg :: (B ++ [Lx.eg])) = 123 :: (render B ++ [125]) := by
    show [123] ++ render (B ++ [Lx.eg]) = _
    rw [render_append]
    rfl
  refine ⟨?_, ?_, ?_, by simp⟩
  · rcases hdigit with ⟨h, h0⟩ | h
    · left; rw [h]; exact ⟨rfl, h0⟩
    · right; rw [h]; exact ⟨rfl, hn⟩
  · rcases hdigit with ⟨h, _⟩ | h
    · rw [h]; exact h1
    · rw [h]
      show lxOK (Lx.lit (48 + n) :: Lx.bg :: (B ++ [Lx.eg])) = true
      have hd : (Lx.lit (48 + n)).ok = true := by
        simp only [Lx.ok, isPlain, isspace, Bool.and_eq_true, decide_eq_true_eq,
          Bool.or_eq_true, Bool.not_eq_true', beq_iff_eq, Bool.or_eq_false_iff,
          beq_eq_false_iff_ne, Bool.and_eq_false_iff, decide_eq_false_iff_not]
        omega
      simp only [lxOK, hd, Lx.isSp, Bool.and_false, Bool.not_false, Bool.true_and,
        Bool.and_true]
      exact h1
  · rw [render_append, render_lits, hr]

end Mex


namespace Mex

/-! ## The arena only grows -/

theorem grows_refl (a : Engine) : Grows a a :=
  fun L h => ⟨[], by rw [List.append_nil]; exact h⟩

theorem grows_trans {a b c : Engine} (h1 : Grows a b) (h2 : Grows b c) : Grows a c := by
  intro L h
  obtain ⟨M, hM⟩ := h1 L h
  obtain ⟨N, hN⟩ := h2 _ hM
  exact ⟨M ++ N, by rw [← List.append_assoc]; exact hN⟩

theorem grows_of_same {a b : Engine} (h : sameArena a b) : Grows a b := by
  intro L hL
  exact ⟨[], by
    rw [List.append_nil]
    exact arena_congr a b L hL h.1 h.2.1 h.2.2.1 h.2.2.2.1 h.2.2.2.2⟩

theorem sameArena_trans {a b c : Engine} (h1 : sameArena a b) (h2 : sameArena b c) :
    sameArena a c :=
  ⟨h2.1.trans h1.1, h2.2.1.trans h1.2.1, h2.2.2.1.trans h1.2.2.1,
    h2.2.2.2.1.trans h1.2.2.2.1, h2.2.2.2.2.trans h1.2.2.2.2⟩

theorem put_same (st st1 : Engine) (t : Nat) (h : put st t = .ok st1) : sameArena st st1 := by
  unfold put at h
  split at h
  · cases h; exact ⟨rfl, rfl, rfl, rfl, rfl⟩
  · cases h

theorem put_grows (a st st1 : Engine) (t : Nat) (h : put st t = .ok st1)
    (hs : sameArena a st) : Grows a st1 :=
  grows_of_same (sameArena_trans hs (put_same st st1 t h))

theorem poolPushAll_room : ∀ (xs : List Nat) (st st1 : Engine), poolPushAll st xs = .ok st1 →
    st.plast ≤ POOLMAX → st.plast + xs.length ≤ POOLMAX := by
  intro xs
  induction xs with
  | nil => intro st st1 _ h; exact h
  | cons x xs ih =>
    intro st st1 h _
    unfold poolPushAll poolPush at h
    split at h
    · rename_i s1 hs
      split at hs
      · cases hs
        have := ih _ _ h (by show st.plast + 1 ≤ POOLMAX; omega)
        simp only [List.length_cons] at this ⊢
        omega
      · cases hs
    · cases h

/-- A successful `addEntry` appends the entry `xs`. -/
theorem addEntry_arena (st st1 : Engine) (xs : List Nat) (t : Nat)
    (h : addEntry st xs = .ok (t, st1)) (L : List (List Nat)) (ha : Arena st L) :
    t = tSENTINEL + L.length ∧ Arena st1 (L ++ [xs]) ∧ st1.blast = st.blast := by
  have hp : st.pcur < UINT16_MAX := by
    by_contra hn
    unfold addEntry at h
    rw [if_neg hn] at h
    cases h
  have hroom : st.plast + xs.length ≤ POOLMAX := by
    unfold addEntry at h
    rw [if_pos hp] at h
    split at h
    · rename_i s1 hs
      have := poolPushAll_room xs _ s1 hs ha.cap
      exact this
    · cases h
  rw [addEntry_ok st xs hp hroom] at h
  cases h
  exact ⟨ha.pcur, arena_add st L ha xs hp hroom, rfl⟩

theorem addEntry_grows (st st1 : Engine) (xs : List Nat) (t : Nat)
    (h : addEntry st xs = .ok (t, st1)) : Grows st st1 :=
  fun L ha => ⟨[xs], (addEntry_arena st st1 xs t h L ha).2.1⟩

theorem scan_cs_grows (st st1 : Engine) (h : scan_cs st = .ok st1) : Grows st st1 := by
  unfold scan_cs at h
  simp only [] at h
  have h0 : sameArena st { st with inp := (readName [tESCAPE] st.inp).2 } :=
    ⟨rfl, rfl, rfl, rfl, rfl⟩
  split at h
  · exact put_grows _ _ _ _ h h0
  · split at h
    · rename_i t st2 hadd
      exact grows_trans (grows_trans (grows_of_same h0) (addEntry_grows _ _ _ _ hadd))
        (grows_of_same (put_same _ _ _ h))
    · cases h

theorem scanAux_grows : ∀ (fuel : Nat) (a st st1 : Engine), scanAux fuel st = .ok st1 →
    sameArena a st → Grows a st1 := by
  intro fuel
  induction fuel with
  | zero => intro a st st1 h _; simp [scanAux] at h
  | succ fuel ih =>
    intro a st st1 h hs
    rw [scanAux] at h
    split at h
    · exact put_grows a _ _ _ h hs
    · split at h
      · split at h
        · split at h
          · exact put_grows a _ _ _ h (sameArena_trans hs ⟨rfl, rfl, rfl, rfl, rfl⟩)
          · split at h
            · rename_i s1 hput
              have h1 := put_same _ _ _ hput
              exact ih a _ _ h (sameArena_trans hs (sameArena_trans ⟨rfl, rfl, rfl, rfl, rfl⟩
                (sameArena_trans h1 ⟨rfl, rfl, rfl, rfl, rfl⟩)))
            · cases h
        · exact ih a _ _ h (sameArena_trans hs ⟨rfl, rfl, rfl, rfl, rfl⟩)
      · split at h
        · split at h
          · exact put_grows a _ _ _ h (sameArena_trans hs ⟨rfl, rfl, rfl, rfl, rfl⟩)
          · exact ih a _ _ h (sameArena_trans hs ⟨rfl, rfl, rfl, rfl, rfl⟩)
        · simp only [] at h
          split at h
          · rename_i s1 hr
            cases h
            have hg : Grows a s1 := by
              split at hr
              · exact put_grows a _ _ _ hr (sameArena_trans hs ⟨rfl, rfl, rfl, rfl, rfl⟩)
              · split at hr
                · exact put_grows a _ _ _ hr (sameArena_trans hs ⟨rfl, rfl, rfl, rfl, rfl⟩)
                · split at hr
                  · exact put_grows a _ _ _ hr (sameArena_trans hs ⟨rfl, rfl, rfl, rfl, rfl⟩)
                  · split at hr
                    · exact put_grows a _ _ _ hr (sameArena_trans hs ⟨rfl, rfl, rfl, rfl, rfl⟩)
                    · split at hr
                      · exact put_grows a _ _ _ hr
                          (sameArena_trans hs ⟨rfl, rfl, rfl, rfl, rfl⟩)
                      · split at hr
                        · exact put_grows a _ _ _ hr
                            (sameArena_trans hs ⟨rfl, rfl, rfl, rfl, rfl⟩)
                        · refine grows_trans ?_ (scan_cs_grows _ _ hr)
                          exact grows_of_same (sameArena_trans hs ⟨rfl, rfl, rfl, rfl, rfl⟩)
            exact grows_trans hg (grows_of_same ⟨rfl, rfl, rfl, rfl, rfl⟩)
          · cases h

theorem scan_grows (st st1 : Engine) (h : scan st = .ok st1) : Grows st st1 :=
  scanAux_grows _ st st st1 h ⟨rfl, rfl, rfl, rfl, rfl⟩

theorem fill_grows (st st1 : Engine) (h : fill st = .ok st1) : Grows st st1 := by
  unfold fill at h
  split at h
  · exact scan_grows st st1 h
  · cases h; exact grows_refl _

end Mex


namespace Mex

theorem groupLoop_grows : ∀ (n : Nat) (a st : Engine) (d : Nat) (acc : List Nat)
    (r : Engine × List Nat), groupLoop n st d acc = .ok r → Grows a st → Grows a r.1 := by
  intro n
  induction n with
  | zero => intro a st d acc r h _; simp [groupLoop] at h
  | succ n ih =>
    intro a st d acc r h hs
    rw [groupLoop] at h
    split at h
    · cases h
    · rename_i s1 hf
      have h1 : Grows a s1 := grows_trans hs (fill_grows st s1 hf)
      simp only [] at h
      split at h
      · cases h; exact h1
      · split at h
        · exact ih a _ _ _ r h (grows_trans h1 (grows_of_same ⟨rfl, rfl, rfl, rfl, rfl⟩))
        · split at h
          · split at h
            · cases h
              exact grows_trans h1 (grows_of_same ⟨rfl, rfl, rfl, rfl, rfl⟩)
            · exact ih a _ _ _ r h (grows_trans h1 (grows_of_same ⟨rfl, rfl, rfl, rfl, rfl⟩))
          · exact ih a _ _ _ r h (grows_trans h1 (grows_of_same ⟨rfl, rfl, rfl, rfl, rfl⟩))

/-- The interning step of `scan_group`: the identifier and the arena after the
tokens `G` are captured in the state `sa`. -/
theorem scan_group_arena (st sa st1 : Engine) (G : List Nat) (g : Nat)
    (hloop : groupLoop (TOKENMAX + 1) st 1 [] = .ok (sa, G))
    (h : scan_group st = .ok (g, st1)) (L : List (List Nat)) (ha : Arena sa L) :
    g = internId L G ∧ Arena st1 (internIn L G) ∧
      (G ∈ L → st1 = sa) := by
  unfold scan_group at h
  rw [hloop] at h
  simp only [] at h
  rw [findEntry_group sa L ha G] at h
  by_cases hm : G ∈ L
  · rw [if_pos hm] at h
    simp only [] at h
    cases h
    refine ⟨rfl, ?_, fun _ => rfl⟩
    unfold internIn
    rw [if_pos hm]
    exact ha
  · rw [if_neg hm] at h
    simp only [] at h
    obtain ⟨h1, h2, _⟩ := addEntry_arena sa st1 G g h L ha
    refine ⟨?_, ?_, fun hc => absurd hc hm⟩
    · rw [h1]; unfold internId; rw [slotOf_of_not_mem G L hm]
    · unfold internIn
      rw [if_neg hm]
      exact h2

theorem scan_group_grows (st st1 : Engine) (g : Nat) (h : scan_group st = .ok (g, st1)) :
    Grows st st1 := by
  cases hloop : groupLoop (TOKENMAX + 1) st 1 [] with
  | error e =>
    unfold scan_group at h
    rw [hloop] at h
    cases h
  | ok r =>
    obtain ⟨sa, G⟩ := r
    have h1 : Grows st sa := groupLoop_grows _ st st 1 [] (sa, G) hloop (grows_refl st)
    intro L hL
    obtain ⟨M, hM⟩ := h1 L hL
    have h2 := (scan_group_arena st sa st1 G g hloop h _ hM).2.1
    unfold internIn at h2
    split at h2
    · exact ⟨M, h2⟩
    · exact ⟨M ++ [G], by rw [← List.append_assoc]; exact h2⟩

theorem define_grows (st st1 : Engine) (h : define st = .ok st1) : Grows st st1 := by
  unfold define at h
  split at h
  · cases h
  · rename_i s1 hf1
    have g1 : Grows st s1 := fill_grows st s1 hf1
    split at h
    · cases h; exact g1
    · simp only [] at h
      split at h
      · cases h
      · rename_i s2 hr2
        have g2 : Grows st s2 := by
          split at hr2
          · split at hr2
            · cases hr2
              exact grows_trans g1 (grows_of_same ⟨rfl, rfl, rfl, rfl, rfl⟩)
            · cases hr2
          · cases hr2; exact g1
        split at h
        · cases h
        · rename_i s3 hf3
          have g3 : Grows st s3 := by
            refine grows_trans ?_ (fill_grows _ s3 hf3)
            exact grows_trans g2 (grows_of_same ⟨rfl, rfl, rfl, rfl, rfl⟩)
          split at h
          · cases h
          · rename_i s4 hr4
            have g4 : Grows st s4 := by
              split at hr4
              · refine grows_trans ?_ (fill_grows _ s4 hr4)
                exact grows_trans g3 (grows_of_same ⟨rfl, rfl, rfl, rfl, rfl⟩)
              · cases hr4
                exact grows_trans g3 (grows_of_same ⟨rfl, rfl, rfl, rfl, rfl⟩)
            split at h
            · split at h
              · cases h
              · rename_i gid s5 hsg
                cases h
                have g5 : Grows st s5 := by
                  refine grows_trans ?_ (scan_group_grows _ s5 gid hsg)
                  exact grows_trans g4 (grows_of_same ⟨rfl, rfl, rfl, rfl, rfl⟩)
                exact grows_trans g5 (grows_of_same ⟨rfl, rfl, rfl, rfl, rfl⟩)
            · split at h
              · cases h
                exact grows_trans g4 (grows_of_same ⟨rfl, rfl, rfl, rfl, rfl⟩)
              · cases h; exact g4

theorem collectArgs_grows : ∀ (n : Nat) (a st : Engine) (param : List Nat)
    (r : Engine × List Nat), collectArgs n st param = .ok r → Grows a st → Grows a r.1 := by
  intro n
  induction n with
  | zero =>
    intro a st param r h hs
    rw [collectArgs] at h
    cases h
    exact hs
  | succ n ih =>
    intro a st param r h hs
    rw [collectArgs] at h
    split at h
    · cases h
    · rename_i s1 hf
      have h1 : Grows a s1 := grows_trans hs (fill_grows st s1 hf)
      split at h
      · split at h
        · split at h
          · cases h
          · rename_i gid s2 hsg
            refine ih a s2 _ r h (grows_trans ?_ (scan_group_grows _ s2 gid hsg))
            exact grows_trans h1 (grows_of_same ⟨rfl, rfl, rfl, rfl, rfl⟩)
        · exact ih a _ _ r h (grows_trans h1 (grows_of_same ⟨rfl, rfl, rfl, rfl, rfl⟩))
      · cases h

theorem expand_grows (st st1 : Engine) (h : expand st = .ok st1) : Grows st st1 := by
  unfold expand at h
  simp only [] at h
  split at h
  · split at h
    · cases h
    · rename_i s1 param hc
      have g1 : Grows st s1 := collectArgs_grows _ st _ [] (s1, param) hc
        (grows_of_same ⟨rfl, rfl, rfl, rfl, rfl⟩)
      split at h
      · cases h
      · split at h
        · cases h
        · split at h
          · cases h
          · cases h
            exact grows_trans g1 (grows_of_same ⟨rfl, rfl, rfl, rfl, rfl⟩)
  · cases h

theorem compact_same (st : Engine) : sameArena st (compact st) := by
  obtain ⟨_, _, _, h4, h5, h6, h7, h8, _⟩ := compact_other st
  exact ⟨h4, h5, h6, h7, h8⟩

theorem next_grows : ∀ (f : Nat) (a st : Engine) (r : Nat × Engine), next f st = .ok r →
    Grows a st → Grows a r.2 := by
  intro f
  induction f with
  | zero => intro a st r h _; simp [next] at h
  | succ f ih =>
    intro a st r h hs
    rw [next] at h
    split at h
    · cases h
    · rename_i s0 hf
      have g0 : Grows a (compact s0) :=
        grows_trans (grows_trans hs (fill_grows st s0 hf)) (grows_of_same (compact_same s0))
      simp only [] at h
      split at h
      · split at h
        · cases h
        · rename_i s2 hd
          refine ih a s2 r h (grows_trans ?_ (define_grows _ s2 hd))
          exact grows_trans g0 (grows_of_same ⟨rfl, rfl, rfl, rfl, rfl⟩)
      · split at h
        · split at h
          · cases h
          · rename_i s2 he
            exact ih a s2 r h (grows_trans g0 (expand_grows _ s2 he))
        · cases h
          exact grows_trans g0 (grows_of_same ⟨rfl, rfl, rfl, rfl, rfl⟩)

/-- Every step of the engine keeps the compound entries under their identifiers. -/
theorem later_grows (a b : Engine) (h : Later a b) : Grows a b := by
  induction h with
  | refl => exact grows_refl _
  | frame b c _ hs _ ih => exact grows_trans ih (grows_of_same hs)
  | scan_cs b c _ hs ih => exact grows_trans ih (scan_cs_grows b c hs)
  | scan b c _ hs ih => exact grows_trans ih (scan_grows b c hs)
  | scan_group b c g _ hs ih => exact grows_trans ih (scan_group_grows b c g hs)
  | define b c _ hs ih => exact grows_trans ih (define_grows b c hs)
  | expand b c _ hs ih => exact grows_trans ih (expand_grows b c hs)
  | next b c f t _ hs ih => exact next_grows f a b (t, c) hs ih

/-- The arena of a reachable state is well formed. -/
theorem reachable_arena (st : Engine) (h : Reachable st) : ∃ L, Arena st L := by
  obtain ⟨fp, _, hl⟩ := h
  obtain ⟨M, hM⟩ := later_grows _ _ hl [] (arena_init fp)
  exact ⟨_, hM⟩

end Mex


namespace Mex

/-! ## Interning of control-sequence names -/

theorem put_buf (st st1 : Engine) (t : Nat) (h : put st t = .ok st1) :
    st1.buf st.blast = t := by
  unfold put at h
  split at h
  · cases h; exact upd_same _ _ _
  · cases h

set_option maxRecDepth 10000 in
/-- A successful `scan_cs` on the name `name`: the token appended to the buffer
and the arena afterwards. -/
theorem scan_cs_first (st st1 : Engine) (name rest : List Nat) (L : List (List Nat))
    (ha : Arena st L) (hinp : st.inp = name ++ rest)
    (hal : ∀ c ∈ name, isalpha c = true) (hlen : name.length < TOKENMAX)
    (hrest : rest = [] ∨ ∃ c r, rest = c :: r ∧ isalpha c = false)
    (h : scan_cs st = .ok st1) :
    st1.buf st.blast =
      (if tESCAPE :: name = defSpelling then tDEF else internId L (tESCAPE :: name)) ∧
    Arena st1 (if tESCAPE :: name = defSpelling then L else internIn L (tESCAPE :: name)) := by
  have hread : readName [tESCAPE] (name ++ rest) = ([tESCAPE] ++ name, rest) :=
    readName_spec name [tESCAPE] rest hal (by simp only [List.length_singleton]; omega) hrest
  unfold scan_cs at h
  simp only [hinp, hread, List.singleton_append] at h
  have hfind := findEntry_cs { st with inp := rest } L
    (arena_congr st _ L ha rfl rfl rfl rfl rfl) (tESCAPE :: name)
  simp only [] at hfind
  rw [hfind] at h
  by_cases hdef : tESCAPE :: name = defSpelling
  · rw [if_pos hdef] at h
    simp only [] at h
    rw [if_pos hdef, if_pos hdef]
    have hs := put_same _ _ _ h
    have hb := put_buf _ _ _ h
    exact ⟨hb, arena_congr st st1 L ha hs.1 hs.2.1 hs.2.2.1 hs.2.2.2.1 hs.2.2.2.2⟩
  · rw [if_neg hdef] at h
    rw [if_neg hdef, if_neg hdef]
    by_cases hm : tESCAPE :: name ∈ L
    · rw [if_pos hm] at h
      simp only [] at h
      have hs := put_same _ _ _ h
      have hb := put_buf _ _ _ h
      refine ⟨hb, ?_⟩
      unfold internIn
      rw [if_pos hm]
      exact arena_congr st st1 L ha hs.1 hs.2.1 hs.2.2.1 hs.2.2.2.1 hs.2.2.2.2
    · rw [if_neg hm] at h
      simp only [] at h
      split at h
      · rename_i t st2 hadd
        obtain ⟨e1, e2, e3⟩ := addEntry_arena _ st2 _ t hadd L
          (arena_congr st _ L ha rfl rfl rfl rfl rfl)
        have hs := put_same _ _ _ h
        have hb := put_buf _ _ _ h
        rw [e3] at hb
        refine ⟨?_, ?_⟩
        · rw [hb, e1]; unfold internId; rw [slotOf_of_not_mem _ L hm]
        · unfold internIn
          rw [if_neg hm]
          exact arena_congr st2 st1 _ e2 hs.1 hs.2.1 hs.2.2.1 hs.2.2.2.1 hs.2.2.2.2
      · cases h

set_option maxRecDepth 10000 in
/-- The function `scan_cs` on a name that is `def` or has an entry: it returns,
appends the identifier of the name and leaves the arena as it is. -/
theorem scan_cs_known (st : Engine) (name rest : List Nat) (L : List (List Nat))
    (ha : Arena st L) (hinp : st.inp = name ++ rest)
    (hal : ∀ c ∈ name, isalpha c = true) (hlen : name.length < TOKENMAX)
    (hrest : rest = [] ∨ ∃ c r, rest = c :: r ∧ isalpha c = false)
    (hk : tESCAPE :: name = defSpelling ∨ tESCAPE :: name ∈ L)
    (hcap : st.blast < BUFFERMAX) :
    ∃ st1, scan_cs st = .ok st1 ∧
      st1.buf st.blast =
        (if tESCAPE :: name = defSpelling then tDEF else internId L (tESCAPE :: name)) ∧
      st1.pcur = st.pcur ∧ st1.plast = st.plast := by
  have hread : readName [tESCAPE] (name ++ rest) = ([tESCAPE] ++ name, rest) :=
    readName_spec name [tESCAPE] rest hal (by simp only [List.length_singleton]; omega) hrest
  unfold scan_cs
  simp only [hinp, hread, List.singleton_append]
  have hfind := findEntry_cs { st with inp := rest } L
    (arena_congr st _ L ha rfl rfl rfl rfl rfl) (tESCAPE :: name)
  simp only [] at hfind
  rw [hfind]
  by_cases hdef : tESCAPE :: name = defSpelling
  · rw [if_pos hdef, if_pos hdef]
    simp only [put, hcap, if_true]
    exact ⟨_, rfl, upd_same _ _ _, rfl, rfl⟩
  · rw [if_neg hdef, if_neg hdef]
    have hm : tESCAPE :: name ∈ L := by
      rcases hk with h | h
      · exact absurd h hdef
      · exact h
    rw [if_pos hm]
    simp only [put, hcap, if_true]
    exact ⟨_, rfl, upd_same _ _ _, rfl, rfl⟩

end Mex


namespace Mex

/-! ## The tokens in the buffer and in the pool exist -/

theorem grows_pcur (a b : Engine) (L : List (List Nat)) (h : Grows a b) (ha : Arena a L) :
    a.pcur ≤ b.pcur := by
  obtain ⟨M, hM⟩ := h L ha
  have h1 := ha.pcur
  have h2 := hM.pcur
  rw [List.length_append] at h2
  omega

theorem arena_pcur_ge (st : Engine) (L : List (List Nat)) (ha : Arena st L) :
    270 ≤ st.pcur := by
  have := ha.pcur
  unfold tSENTINEL at this
  omega

theorem put_valid (st st1 : Engine) (t : Nat) (h : put st t = .ok st1)
    (hv : validTokens st) (ht : t < st.pcur) : validTokens st1 := by
  unfold put at h
  split at h
  · cases h
    refine ⟨?_, hv.2.1, hv.2.2⟩
    intro j
    show upd st.buf st.blast t j < st.pcur
    unfold upd
    split
    · exact ht
    · exact hv.1 j
  · cases h

theorem writeAll_cell : ∀ (ts : List Nat) (buf : Nat → Nat) (pos j : Nat),
    writeAll buf pos ts j = buf j ∨ writeAll buf pos ts j ∈ ts := by
  intro ts
  induction ts with
  | nil => intro buf pos j; left; rfl
  | cons t ts ih =>
    intro buf pos j
    rcases ih (upd buf pos t) (pos + 1) j with h | h
    · by_cases hj : j = pos
      · right
        show writeAll (upd buf pos t) (pos + 1) ts j ∈ t :: ts
        rw [h, hj, upd_same]
        exact List.mem_cons_self _ _
      · left
        show writeAll (upd buf pos t) (pos + 1) ts j = buf j
        rw [h, upd_other _ _ _ _ hj]
    · right
      exact List.mem_cons_of_mem _ h

/-- The state that a successful `addEntry` leaves. -/
theorem addEntry_eq (st st1 : Engine) (xs : List Nat) (t : Nat)
    (h : addEntry st xs = .ok (t, st1)) (L : List (List Nat)) (ha : Arena st L) :
    t = st.pcur ∧
    st1 = { st with ppos := upd st.ppos st.pcur st.plast, plen := upd st.plen st.pcur xs.length,
                    pool := writeAll st.pool st.plast xs, plast := st.plast + xs.length,
                    pcur := st.pcur + 1 } := by
  have hp : st.pcur < UINT16_MAX := by
    by_contra hn
    unfold addEntry at h
    rw [if_neg hn] at h
    cases h
  have hroom : st.plast + xs.length ≤ POOLMAX := by
    unfold addEntry at h
    rw [if_pos hp] at h
    split at h
    · rename_i s1 hs
      have := poolPushAll_room xs _ s1 hs ha.cap
      exact this
    · cases h
  rw [addEntry_ok st xs hp hroom] at h
  cases h
  exact ⟨rfl, rfl⟩

theorem addEntry_valid (st st1 : Engine) (xs : List Nat) (t : Nat)
    (h : addEntry st xs = .ok (t, st1)) (L : List (List Nat)) (ha : Arena st L)
    (hv : validTokens st) (hx : ∀ x ∈ xs, x < st.pcur) :
    validTokens st1 ∧ t < st1.pcur := by
  obtain ⟨e1, e2⟩ := addEntry_eq st st1 xs t h L ha
  rw [e2, e1]
  refine ⟨⟨?_, ?_, hv.2.2⟩, Nat.lt_succ_self _⟩
  · intro j
    exact Nat.lt_succ_of_lt (hv.1 j)
  · intro j
    show writeAll st.pool st.plast xs j < st.pcur + 1
    rcases writeAll_cell xs st.pool st.plast j with h1 | h1
    · rw [h1]; exact Nat.lt_succ_of_lt (hv.2.1 j)
    · exact Nat.lt_succ_of_lt (hx _ h1)

theorem findEntry_lt (st : Engine) (xs : List Nat) : ∀ (n i k : Nat),
    findEntry st xs n i = some k → k < i + n := by
  intro n
  induction n with
  | zero => intro i k h; simp [findEntry] at h
  | succ n ih =>
    intro i k h
    rw [findEntry] at h
    split at h
    · cases h; omega
    · have := ih (i + 1) k h
      omega

theorem readName_mem : ∀ (inp cs : List Nat),
    (∀ x ∈ (readName cs inp).1, x ∈ cs ∨ x ∈ inp) ∧ (∀ c ∈ (readName cs inp).2, c ∈ inp) := by
  intro inp
  induction inp with
  | nil => intro cs; exact ⟨fun x hx => Or.inl hx, fun c hc => hc⟩
  | cons a r ih =>
    intro cs
    rw [readName]
    split
    · exact ⟨fun x hx => Or.inl hx, fun c hc => hc⟩
    · obtain ⟨h1, h2⟩ := ih (cs ++ [a])
      refine ⟨?_, fun c hc => List.mem_cons_of_mem _ (h2 c hc)⟩
      intro x hx
      rcases h1 x hx with h | h
      · rcases List.mem_append.1 h with h | h
        · exact Or.inl h
        · rw [List.mem_singleton.1 h]; exact Or.inr (List.mem_cons_self _ _)
      · exact Or.inr (List.mem_cons_of_mem _ h)

theorem scan_cs_valid (st st1 : Engine) (h : scan_cs st = .ok st1) (L : List (List Nat))
    (ha : Arena st L) (hv : validTokens st) : validTokens st1 := by
  have hge := arena_pcur_ge st L ha
  obtain ⟨m1, m2⟩ := readName_mem st.inp [tESCAPE]
  have hv0 : validTokens { st with inp := (readName [tESCAPE] st.inp).2 } :=
    ⟨hv.1, hv.2.1, fun c hc => hv.2.2 c (m2 c hc)⟩
  unfold scan_cs at h
  simp only [] at h
  split at h
  · rename_i i hf
    have := findEntry_lt _ _ _ _ _ hf
    exact put_valid _ _ _ h hv0 (by
      show i < st.pcur
      have e : tDEF + (st.pcur - tDEF) = st.pcur := by unfold tDEF; omega
      rw [e] at this
      exact this)
  · split at h
    · rename_i t st2 hadd
      obtain ⟨v2, ht⟩ := addEntry_valid _ st2 _ t hadd L
        (arena_congr st _ L ha rfl rfl rfl rfl rfl) hv0 (by
          intro x hx
          show x < st.pcur
          rcases m1 x hx with h1 | h1
          · rw [List.mem_singleton.1 h1]; unfold tESCAPE; omega
          · have := hv.2.2 x h1; omega)
      exact put_valid _ _ _ h v2 ht
    · cases h

theorem valid_congr (a b : Engine) (hv : validTokens a) (e1 : b.buf = a.buf)
    (e2 : b.pool = a.pool) (e3 : b.pcur = a.pcur) (hi : ∀ c ∈ b.inp, c < 256) :
    validTokens b := by
  refine ⟨?_, ?_, hi⟩
  · intro j; rw [e1, e3]; exact hv.1 j
  · intro j; rw [e2, e3]; exact hv.2.1 j

theorem skipSpaces_mem : ∀ (rest : List Nat) (lb ch lb1 : Nat) (r1 : List Nat),
    skipSpaces lb ch rest = (lb1, some r1) → ∀ c ∈ r1, c ∈ rest := by
  intro rest
  induction rest with
  | nil => intro lb ch lb1 r1 h; simp [skipSpaces] at h
  | cons a r ih =>
    intro lb ch lb1 r1 h
    rw [skipSpaces] at h
    split at h
    · intro c hc
      exact List.mem_cons_of_mem _ (ih _ _ _ _ h c hc)
    · cases h
      intro c hc
      exact hc

theorem skipComment_mem : ∀ (rest r1 : List Nat), skipComment rest = some r1 →
    ∀ c ∈ r1, c ∈ rest := by
  intro rest
  induction rest with
  | nil => intro r1 h; simp [skipComment] at h
  | cons a r ih =>
    intro r1 h
    rw [skipComment] at h
    split at h
    · cases h
      intro c hc
      exact List.mem_cons_of_mem _ hc
    · intro c hc
      exact List.mem_cons_of_mem _ (ih _ h c hc)

theorem scanAux_valid : ∀ (fuel : Nat) (st st1 : Engine), scanAux fuel st = .ok st1 →
    ∀ L, Arena st L → validTokens st → validTokens st1 := by
  intro fuel
  induction fuel with
  | zero => intro st st1 h; simp [scanAux] at h
  | succ fuel ih =>
    intro st st1 h L ha hv
    have hge := arena_pcur_ge st L ha
    rw [scanAux] at h
    split at h
    · exact put_valid _ _ _ h hv (by unfold tEOF; omega)
    · rename_i ch rest heq
      have hin : ∀ c ∈ ch :: rest, c < 256 := by rw [← heq]; exact hv.2.2
      have hch : ch < 256 := hin ch (List.mem_cons_self _ _)
      have hrest : ∀ c ∈ rest, c < 256 := fun c hc => hin c (List.mem_cons_of_mem _ hc)
      split at h
      · split at h
        · split at h
          · exact put_valid _ _ _ h (valid_congr st _ hv rfl rfl rfl (by intro c hc; cases hc))
              (by show tEOF < st.pcur; unfold tEOF; omega)
          · rename_i lb rest1 hsk
            have hr1 : ∀ c ∈ rest1, c < 256 :=
              fun c hc => hrest c (skipSpaces_mem _ _ _ _ _ hsk c hc)
            split at h
            · rename_i s1 hput
              have v1 := put_valid _ _ _ hput (valid_congr st _ hv rfl rfl rfl hr1)
                (by show (if lb > 1 then 10 else 32) < st.pcur
                    split <;> omega)
              have hs := put_same _ _ _ hput
              exact ih _ _ h L
                (arena_congr st _ L ha hs.1 hs.2.1 hs.2.2.1 hs.2.2.2.1 hs.2.2.2.2)
                (valid_congr s1 _ v1 rfl rfl rfl v1.2.2)
            · cases h
        · exact ih _ _ h L (arena_congr st _ L ha rfl rfl rfl rfl rfl)
            (valid_congr st _ hv rfl rfl rfl hrest)
      · split at h
        · split at h
          · exact put_valid _ _ _ h (valid_congr st _ hv rfl rfl rfl (by intro c hc; cases hc))
              (by show tEOF < st.pcur; unfold tEOF; omega)
          · rename_i rest1 hsk
            exact ih _ _ h L (arena_congr st _ L ha rfl rfl rfl rfl rfl)
              (valid_congr st _ hv rfl rfl rfl
                (fun c hc => hrest c (skipComment_mem _ _ hsk c hc)))
        · simp only [] at h
          split at h
          · rename_i s1 hr
            cases h
            have hg : validTokens s1 := by
              have hv1 : validTokens { st with inp := rest } :=
                valid_congr st _ hv rfl rfl rfl hrest
              split at hr
              · exact put_valid _ _ _ hr hv1 (by show tBGROUP < st.pcur; unfold tBGROUP; omega)
              · split at hr
                · exact put_valid _ _ _ hr hv1
                    (by show tEGROUP < st.pcur; unfold tEGROUP; omega)
                · split at hr
                  · exact put_valid _ _ _ hr hv1 (by show ch < st.pcur; omega)
                  · split at hr
                    · exact put_valid _ _ _ hr
                        (valid_congr st _ hv rfl rfl rfl (by intro c hc; cases hc))
                        (by show tEOF < st.pcur; unfold tEOF; omega)
                    · rename_i c rest1
                      have hc1 : c < 256 := hrest c (List.mem_cons_self _ _)
                      have hr1 : ∀ x ∈ rest1, x < 256 :=
                        fun x hx => hrest x (List.mem_cons_of_mem _ hx)
                      split at hr
                      · rename_i hd
                        exact put_valid _ _ _ hr (valid_congr st _ hv rfl rfl rfl hr1)
                          (by show tARG1 + c - 49 < st.pcur; unfold tARG1; omega)
                      · split at hr
                        · exact put_valid _ _ _ hr (valid_congr st _ hv rfl rfl rfl hr1)
                            (by show c < st.pcur; omega)
                        · exact scan_cs_valid _ _ hr L
                            (arena_congr st _ L ha rfl rfl rfl rfl rfl)
                            (valid_congr st _ hv rfl rfl rfl hrest)
            exact valid_congr s1 _ hg rfl rfl rfl hg.2.2
          · cases h

theorem fill_valid (st st1 : Engine) (h : fill st = .ok st1) (L : List (List Nat))
    (ha : Arena st L) (hv : validTokens st) : validTokens st1 := by
  unfold fill at h
  split at h
  · exact scanAux_valid _ st st1 h L ha hv
  · cases h; exact hv

end Mex


namespace Mex

/-! ## The invariant of the reachable states -/

theorem sound_congr (a b : Engine) (hs : Sound a) (e1 : b.buf = a.buf) (e2 : sameArena a b)
    (hi : ∀ c ∈ b.inp, c < 256) : Sound b := by
  obtain ⟨hv, L, ha⟩ := hs
  exact ⟨valid_congr a b hv e1 e2.1 e2.2.2.2.1 hi,
    L, arena_congr a b L ha e2.1 e2.2.1 e2.2.2.1 e2.2.2.2.1 e2.2.2.2.2⟩

theorem fill_sound (st st1 : Engine) (h : fill st = .ok st1) (hs : Sound st) : Sound st1 := by
  obtain ⟨hv, L, ha⟩ := hs
  obtain ⟨M, hM⟩ := fill_grows st st1 h L ha
  exact ⟨fill_valid st st1 h L ha hv, _, hM⟩

theorem scan_cs_sound (st st1 : Engine) (h : scan_cs st = .ok st1) (hs : Sound st) :
    Sound st1 := by
  obtain ⟨hv, L, ha⟩ := hs
  obtain ⟨M, hM⟩ := scan_cs_grows st st1 h L ha
  exact ⟨scan_cs_valid st st1 h L ha hv, _, hM⟩

theorem scan_sound (st st1 : Engine) (h : scan st = .ok st1) (hs : Sound st) : Sound st1 := by
  obtain ⟨hv, L, ha⟩ := hs
  obtain ⟨M, hM⟩ := scan_grows st st1 h L ha
  exact ⟨scanAux_valid _ st st1 h L ha hv, _, hM⟩

theorem sound_pcur_le (a b : Engine) (h : Grows a b) (hs : Sound a) : a.pcur ≤ b.pcur := by
  obtain ⟨_, L, ha⟩ := hs
  exact grows_pcur a b L h ha

/-- The capture loop of `scan_group` keeps the invariant, and the tokens it
collects exist. -/
theorem groupLoop_sound : ∀ (n : Nat) (st : Engine) (d : Nat) (acc : List Nat)
    (r : Engine × List Nat), groupLoop n st d acc = .ok r → Sound st →
    (∀ t ∈ acc, t < st.pcur) → Sound r.1 ∧ (∀ t ∈ r.2, t < r.1.pcur) := by
  intro n
  induction n with
  | zero => intro st d acc r h; simp [groupLoop] at h
  | succ n ih =>
    intro st d acc r h hs hacc
    rw [groupLoop] at h
    split at h
    · cases h
    · rename_i s1 hf
      have h1 : Sound s1 := fill_sound st s1 hf hs
      have hle : st.pcur ≤ s1.pcur := sound_pcur_le st s1 (fill_grows st s1 hf) hs
      have hacc1 : ∀ t ∈ acc, t < s1.pcur := fun t ht => lt_of_lt_of_le (hacc t ht) hle
      have hnext : Sound { s1 with bpos := s1.bpos + 1 } :=
        sound_congr s1 _ h1 rfl ⟨rfl, rfl, rfl, rfl, rfl⟩ h1.1.2.2
      have hacc2 : ∀ t ∈ acc ++ [s1.buf s1.bpos], t < s1.pcur := by
        intro t ht
        rcases List.mem_append.1 ht with h2 | h2
        · exact hacc1 t h2
        · rw [List.mem_singleton.1 h2]; exact h1.1.1 _
      simp only [] at h
      split at h
      · cases h; exact ⟨h1, hacc1⟩
      · split at h
        · exact ih _ _ _ r h hnext hacc2
        · split at h
          · split at h
            · cases h
              exact ⟨hnext, hacc1⟩
            · exact ih _ _ _ r h hnext hacc2
          · exact ih _ _ _ r h hnext hacc2

theorem scan_group_sound (st st1 : Engine) (g : Nat) (h : scan_group st = .ok (g, st1))
    (hs : Sound st) : Sound st1 ∧ g < st1.pcur := by
  have hgr := scan_group_grows st st1 g h
  unfold scan_group at h
  split at h
  · cases h
  · rename_i sa G hloop
    obtain ⟨⟨hv, L, ha⟩, hG⟩ := groupLoop_sound _ st 1 [] (sa, G) hloop hs
      (fun t ht => by cases ht)
    have hge := arena_pcur_ge sa L ha
    split at h
    · rename_i i hf
      have hlt := findEntry_lt _ _ _ _ _ hf
      have e : tSENTINEL + (sa.pcur - tSENTINEL) = sa.pcur := by unfold tSENTINEL; omega
      rw [e] at hlt
      cases h
      exact ⟨⟨hv, L, ha⟩, hlt⟩
    · obtain ⟨v1, ht⟩ := addEntry_valid sa st1 G g h L ha hv hG
      obtain ⟨M, hM⟩ := addEntry_grows sa st1 G g h L ha
      exact ⟨⟨v1, _, hM⟩, ht⟩

theorem define_sound (st st1 : Engine) (h : define st = .ok st1) (hs : Sound st) :
    Sound st1 := by
  unfold define at h
  split at h
  · cases h
  · rename_i s1 hf1
    have g1 : Sound s1 := fill_sound st s1 hf1 hs
    split at h
    · cases h; exact g1
    · simp only [] at h
      split at h
      · cases h
      · rename_i s2 hr2
        have g2 : Sound s2 := by
          split at hr2
          · split at hr2
            · cases hr2
              exact sound_congr s1 _ g1 rfl ⟨rfl, rfl, rfl, rfl, rfl⟩ g1.1.2.2
            · cases hr2
          · cases hr2; exact g1
        split at h
        · cases h
        · rename_i s3 hf3
          have g3 : Sound s3 := fill_sound _ s3 hf3
            (sound_congr s2 _ g2 rfl ⟨rfl, rfl, rfl, rfl, rfl⟩ g2.1.2.2)
          split at h
          · cases h
          · rename_i s4 hr4
            have g4 : Sound s4 := by
              split at hr4
              · exact fill_sound _ s4 hr4
                  (sound_congr s3 _ g3 rfl ⟨rfl, rfl, rfl, rfl, rfl⟩ g3.1.2.2)
              · cases hr4
                exact sound_congr s3 _ g3 rfl ⟨rfl, rfl, rfl, rfl, rfl⟩ g3.1.2.2
            split at h
            · split at h
              · cases h
              · rename_i gid s5 hsg
                cases h
                have g5 : Sound s5 := (scan_group_sound _ s5 gid hsg
                  (sound_congr s4 _ g4 rfl ⟨rfl, rfl, rfl, rfl, rfl⟩ g4.1.2.2)).1
                exact sound_congr s5 _ g5 rfl ⟨rfl, rfl, rfl, rfl, rfl⟩ g5.1.2.2
            · split at h
              · cases h
                exact sound_congr s4 _ g4 rfl ⟨rfl, rfl, rfl, rfl, rfl⟩ g4.1.2.2
              · cases h; exact g4

theorem collectArgs_sound : ∀ (n : Nat) (st : Engine) (param : List Nat)
    (r : Engine × List Nat), collectArgs n st param = .ok r → Sound st → Sound r.1 := by
  intro n
  induction n with
  | zero =>
    intro st param r h hs
    rw [collectArgs] at h
    cases h
    exact hs
  | succ n ih =>
    intro st param r h hs
    rw [collectArgs] at h
    split at h
    · cases h
    · rename_i s1 hf
      have h1 : Sound s1 := fill_sound st s1 hf hs
      have hnext : Sound { s1 with bpos := s1.bpos + 1 } :=
        sound_congr s1 _ h1 rfl ⟨rfl, rfl, rfl, rfl, rfl⟩ h1.1.2.2
      split at h
      · split at h
        · split at h
          · cases h
          · rename_i gid s2 hsg
            exact ih s2 _ r h (scan_group_sound _ s2 gid hsg hnext).1
        · exact ih _ _ r h hnext
      · cases h

end Mex


namespace Mex

theorem copySpelling_mem (pool : Nat → Nat) : ∀ (n v : Nat) (tmp r : List Nat),
    copySpelling pool n v tmp = .ok r → ∀ t ∈ r, t ∈ tmp ∨ ∃ j, t = pool j := by
  intro n
  induction n with
  | zero =>
    intro v tmp r h t ht
    rw [copySpelling] at h
    cases h
    exact Or.inl ht
  | succ n ih =>
    intro v tmp r h t ht
    rw [copySpelling] at h
    split at h
    · rcases ih _ _ _ h t ht with h1 | h1
      · rcases List.mem_append.1 h1 with h2 | h2
        · exact Or.inl h2
        · exact Or.inr ⟨v, List.mem_singleton.1 h2⟩
      · exact Or.inr h1
    · cases h

theorem substitute_mem (st : Engine) (param : List Nat) : ∀ (n i : Nat) (tmp r : List Nat),
    substitute st param n i tmp = .ok r → ∀ t ∈ r, t ∈ tmp ∨ ∃ j, t = st.pool j := by
  intro n
  induction n with
  | zero =>
    intro i tmp r h t ht
    rw [substitute] at h
    cases h
    exact Or.inl ht
  | succ n ih =>
    intro i tmp r h t ht
    rw [substitute] at h
    split at h
    · split at h
      · rcases ih _ _ _ h t ht with h1 | h1
        · rcases List.mem_append.1 h1 with h2 | h2
          · exact Or.inl h2
          · exact Or.inr ⟨i, List.mem_singleton.1 h2⟩
        · exact Or.inr h1
      · cases h
    · split at h
      · cases h
      · split at h
        · cases h
        · rename_i tmp1 hc
          rcases ih _ _ _ h t ht with h1 | h1
          · exact copySpelling_mem _ _ _ _ _ hc t h1
          · exact Or.inr h1

theorem shiftUp_cell (j bpos : Nat) : ∀ (n : Nat) (buf b1 : Nat → Nat),
    shiftUp j bpos n buf = .ok b1 → ∀ i, ∃ k, b1 i = buf k := by
  intro n
  induction n with
  | zero =>
    intro buf b1 h i
    rw [shiftUp] at h
    cases h
    exact ⟨i, rfl⟩
  | succ n ih =>
    intro buf b1 h i
    rw [shiftUp] at h
    split at h
    · cases h
    · obtain ⟨k, hk⟩ := ih _ _ h i
      rw [hk]
      unfold upd
      split
      · exact ⟨_, rfl⟩
      · exact ⟨_, rfl⟩

theorem shiftDown_cell (jneg : Nat) : ∀ (n i0 : Nat) (buf : Nat → Nat) (i : Nat),
    ∃ k, shiftDown jneg n i0 buf i = buf k := by
  intro n
  induction n with
  | zero => intro i0 buf i; exact ⟨i, rfl⟩
  | succ n ih =>
    intro i0 buf i
    rw [shiftDown]
    obtain ⟨k, hk⟩ := ih (i0 + 1) (upd buf (i0 - jneg) (buf i0)) i
    rw [hk]
    unfold upd
    split
    · exact ⟨_, rfl⟩
    · exact ⟨_, rfl⟩

theorem compactLoop_cell (bpos : Nat) : ∀ (n i0 : Nat) (buf : Nat → Nat) (i : Nat),
    ∃ k, compactLoop bpos n i0 buf i = buf k := by
  intro n
  induction n with
  | zero => intro i0 buf i; exact ⟨i, rfl⟩
  | succ n ih =>
    intro i0 buf i
    rw [compactLoop]
    obtain ⟨k, hk⟩ := ih (i0 + 1) (upd buf (i0 - bpos) (buf i0)) i
    rw [hk]
    unfold upd
    split
    · exact ⟨_, rfl⟩
    · exact ⟨_, rfl⟩

theorem copyIn_cell : ∀ (ts : List Nat) (buf b2 : Nat → Nat) (pos : Nat),
    copyIn buf pos ts = .ok b2 → ∀ i, b2 i = buf i ∨ b2 i ∈ ts := by
  intro ts
  induction ts with
  | nil =>
    intro buf b2 pos h i
    rw [copyIn] at h
    cases h
    exact Or.inl rfl
  | cons t ts ih =>
    intro buf b2 pos h i
    rw [copyIn] at h
    split at h
    · rcases ih _ _ _ h i with h1 | h1
      · rw [h1]
        unfold upd
        split
        · exact Or.inr (List.mem_cons_self _ _)
        · exact Or.inl rfl
      · exact Or.inr (List.mem_cons_of_mem _ h1)
    · cases h

theorem expand_sound (st st1 : Engine) (h : expand st = .ok st1) (hs : Sound st) :
    Sound st1 := by
  unfold expand at h
  simp only [] at h
  split at h
  · split at h
    · cases h
    · rename_i s1 param hc
      have g1 : Sound s1 := collectArgs_sound _ _ [] (s1, param) hc
        (sound_congr st _ hs rfl ⟨rfl, rfl, rfl, rfl, rfl⟩ hs.1.2.2)
      split at h
      · cases h
      · rename_i tmp hsub
        have htmp : ∀ t ∈ tmp, t < s1.pcur := by
          intro t ht
          rcases substitute_mem _ _ _ _ _ _ hsub t ht with h1 | ⟨j, h1⟩
          · cases h1
          · rw [h1]; exact g1.1.2.1 j
        split at h
        · cases h
        · rename_i buf1 hr
          have hb1 : ∀ i, buf1 i < s1.pcur := by
            intro i
            split at hr
            · obtain ⟨k, hk⟩ := shiftUp_cell _ _ _ _ _ hr i
              rw [hk]; exact g1.1.1 k
            · split at hr
              · cases hr
                obtain ⟨k, hk⟩ := shiftDown_cell (s1.bpos - (st.bpos + tmp.length))
                  (s1.blast - s1.bpos) s1.bpos s1.buf i
                rw [hk]; exact g1.1.1 k
              · cases hr
                exact g1.1.1 i
          split at h
          · cases h
          · rename_i buf2 hcp
            cases h
            obtain ⟨hv, L, ha⟩ := g1
            refine ⟨⟨?_, hv.2.1, hv.2.2⟩, L, arena_congr s1 _ L ha rfl rfl rfl rfl rfl⟩
            intro i
            show buf2 i < s1.pcur
            rcases copyIn_cell _ _ _ _ hcp i with h1 | h1
            · rw [h1]; exact hb1 i
            · exact htmp _ h1
  · cases h

theorem compact_sound (st : Engine) (hs : Sound st) : Sound (compact st) := by
  obtain ⟨hv, L, ha⟩ := hs
  have hsame := compact_same st
  obtain ⟨o1, _⟩ := compact_other st
  refine ⟨⟨?_, ?_, ?_⟩, L,
    arena_congr st _ L ha hsame.1 hsame.2.1 hsame.2.2.1 hsame.2.2.2.1 hsame.2.2.2.2⟩
  · intro i
    rw [hsame.2.2.2.1]
    unfold compact
    split
    · obtain ⟨k, hk⟩ := compactLoop_cell st.bpos (st.blast - st.bpos) st.bpos st.buf i
      show compactLoop st.bpos (st.blast - st.bpos) st.bpos st.buf i < st.pcur
      rw [hk]; exact hv.1 k
    · exact hv.1 i
  · intro j
    rw [hsame.1, hsame.2.2.2.1]
    exact hv.2.1 j
  · rw [o1]; exact hv.2.2

theorem next_sound : ∀ (f : Nat) (st : Engine) (r : Nat × Engine), next f st = .ok r →
    Sound st → Sound r.2 := by
  intro f
  induction f with
  | zero => intro st r h; simp [next] at h
  | succ f ih =>
    intro st r h hs
    rw [next] at h
    split at h
    · cases h
    · rename_i s0 hf
      have g0 : Sound (compact s0) := compact_sound s0 (fill_sound st s0 hf hs)
      have g1 : Sound { compact s0 with bpos := (compact s0).bpos + 1 } :=
        sound_congr _ _ g0 rfl ⟨rfl, rfl, rfl, rfl, rfl⟩ g0.1.2.2
      simp only [] at h
      split at h
      · split at h
        · cases h
        · rename_i s2 hd
          exact ih s2 r h (define_sound _ s2 hd g1)
      · split at h
        · split at h
          · cases h
          · rename_i s2 he
            exact ih s2 r h (expand_sound _ s2 he g0)
        · cases h
          exact g1

/-- Every step of the engine keeps the invariant. -/
theorem later_sound (a b : Engine) (h : Later a b) (hs : Sound a) : Sound b := by
  induction h with
  | refl => exact hs
  | frame b c _ hsame hv ih =>
    obtain ⟨_, L, ha⟩ := ih
    exact ⟨hv, L, arena_congr b c L ha hsame.1 hsame.2.1 hsame.2.2.1 hsame.2.2.2.1
      hsame.2.2.2.2⟩
  | scan_cs b c _ hstep ih => exact scan_cs_sound b c hstep ih
  | scan b c _ hstep ih => exact scan_sound b c hstep ih
  | scan_group b c g _ hstep ih => exact (scan_group_sound b c g hstep ih).1
  | define b c _ hstep ih => exact define_sound b c hstep ih
  | expand b c _ hstep ih => exact expand_sound b c hstep ih
  | next b c f t _ hstep ih => exact next_sound f b (t, c) hstep ih

set_option maxRecDepth 100000 in
theorem init_sound (fp : List Nat) (h : ∀ c ∈ fp, c < 256) : Sound (init fp) := by
  refine ⟨⟨?_, ?_, ?_⟩, [], arena_init fp⟩
  · intro j
    rw [init_buf, init_pcur]
    show 0 < 270
    omega
  · intro j
    rw [init_pcur]
    by_cases h1 : j < 256
    · rw [init_pool_lt fp j h1]; omega
    · by_cases h2 : j < 284
      · rw [init_pool_prim fp j (by omega) h2]
        have hall : ∀ k, k < 28 → primPool.getD k 0 < 270 := by decide
        exact hall (j - 256) (by omega)
      · rw [init_pool_ge fp j (by omega)]; omega
  · rw [init_inp]; exact h

/-- The reachable states satisfy the invariant. -/
theorem reachable_sound (st : Engine) (h : Reachable st) : Sound st := by
  obtain ⟨fp, hb, hl⟩ := h
  exact later_sound _ _ hl (init_sound fp hb)

end Mex


namespace Mex

/-! ## The tokens of one call of `scan` -/

theorem put_cells (st st1 : Engine) (t : Nat) (h : put st t = .ok st1) :
    st1.bpos = st.bpos ∧ st1.blast = st.blast + 1 ∧ (∀ j, j < st.blast → st1.buf j = st.buf j) ∧
    st1.buf st.blast = t ∧ st1.pcur = st.pcur := by
  unfold put at h
  split at h
  · cases h
    refine ⟨rfl, rfl, ?_, upd_same _ _ _, rfl⟩
    intro j hj
    exact upd_other _ _ _ _ (by omega)
  · cases h

theorem burst_of_put (a st st1 : Engine) (t : Nat) (h : put st t = .ok st1)
    (e1 : st.bpos = a.bpos) (e2 : st.blast = a.blast) (e3 : st.buf = a.buf)
    (e4 : st.pcur = a.pcur) : Burst a st1 := by
  obtain ⟨p1, p2, p3, _, p5⟩ := put_cells st st1 t h
  constructor
  · rw [p1, e1]
  · rw [p2, e2]; omega
  · intro j hj
    rw [p3 j (by rw [e2]; exact hj), e3]
  · intro j h1 h2
    rw [p2, e2] at h2
    omega
  · left; rw [p5, e4]

theorem burst_congr (a b c : Engine) (h : Burst a b) (e1 : c.bpos = b.bpos)
    (e2 : c.blast = b.blast) (e3 : c.buf = b.buf) (e4 : c.pcur = b.pcur) : Burst a c := by
  constructor
  · rw [e1]; exact h.bpos
  · rw [e2]; exact h.more
  · rw [e3]; exact h.old
  · rw [e2, e3]; exact h.sp
  · rw [e2, e3, e4]; exact h.fresh

theorem burst_after_space (a s1 st1 : Engine) (e1 : s1.bpos = a.bpos)
    (e2 : s1.blast = a.blast + 1) (e3 : ∀ j, j < a.blast → s1.buf j = a.buf j)
    (e4 : s1.buf a.blast = 10 ∨ s1.buf a.blast = 32) (e5 : s1.pcur = a.pcur)
    (h : Burst s1 st1) : Burst a st1 := by
  have hm := h.more
  constructor
  · rw [h.bpos, e1]
  · omega
  · intro j hj
    rw [h.old j (by omega), e3 j hj]
  · intro j h1 h2
    by_cases hj : j = a.blast
    · rw [hj, h.old _ (by omega)]
      exact e4
    · exact h.sp j (by omega) h2
  · rw [← e5]; exact h.fresh

theorem scan_cs_burst (a st st1 : Engine) (h : scan_cs st = .ok st1) (L : List (List Nat))
    (ha : Arena st L) (e1 : st.bpos = a.bpos) (e2 : st.blast = a.blast) (e3 : st.buf = a.buf)
    (e4 : st.pcur = a.pcur) : Burst a st1 := by
  unfold scan_cs at h
  simp only [] at h
  split at h
  · exact burst_of_put a _ _ _ h e1 e2 e3 e4
  · split at h
    · rename_i t st2 hadd
      obtain ⟨k1, k2⟩ := addEntry_eq _ st2 _ t hadd L (arena_congr st _ L ha rfl rfl rfl rfl rfl)
      obtain ⟨p1, p2, p3, p4, p5⟩ := put_cells st2 st1 t h
      rw [k2] at p1 p2 p3 p4 p5
      simp only [] at p1 p2 p3 p4 p5 k1
      constructor
      · rw [p1, e1]
      · rw [p2, e2]; omega
      · intro j hj
        rw [p3 j (by rw [e2]; exact hj), e3]
      · intro j h1 h2
        rw [p2, e2] at h2
        omega
      · right
        refine ⟨by rw [p5, e4], ?_⟩
        rw [p2, Nat.add_sub_cancel, p4, k1, e4]
    · cases h

theorem scanAux_burst : ∀ (fuel : Nat) (a st st1 : Engine), scanAux fuel st = .ok st1 →
    ∀ L, Arena st L → st.bpos = a.bpos → st.blast = a.blast → st.buf = a.buf →
    st.pcur = a.pcur → Burst a st1 := by
  intro fuel
  induction fuel with
  | zero => intro a st st1 h; simp [scanAux] at h
  | succ fuel ih =>
    intro a st st1 h L ha e1 e2 e3 e4
    rw [scanAux] at h
    split at h
    · exact burst_of_put a _ _ _ h e1 e2 e3 e4
    · split at h
      · split at h
        · split at h
          · exact burst_of_put a _ _ _ h e1 e2 e3 e4
          · rename_i lb rest1 hsk
            split at h
            · rename_i s1 hput
              obtain ⟨p1, p2, p3, p4, p5⟩ := put_cells _ s1 _ hput
              have hs := put_same _ _ _ hput
              have hb := ih s1 _ _ h L
                (arena_congr st _ L ha hs.1 hs.2.1 hs.2.2.1 hs.2.2.2.1 hs.2.2.2.2)
                rfl rfl rfl rfl
              refine burst_after_space a _ st1 (p1.trans e1) (by rw [← e2]; exact p2) ?_ ?_
                (p5.trans e4) hb
              · intro j hj
                rw [← e3]
                exact p3 j (by rw [e2]; exact hj)
              · show s1.buf a.blast = 10 ∨ s1.buf a.blast = 32
                rw [← e2]
                have : s1.buf st.blast = (if lb > 1 then 10 else 32) := p4
                rw [this]
                split
                · left; rfl
                · right; rfl
            · cases h
        · exact ih a _ _ h L (arena_congr st _ L ha rfl rfl rfl rfl rfl) e1 e2 e3 e4
      · split at h
        · split at h
          · exact burst_of_put a _ _ _ h e1 e2 e3 e4
          · exact ih a _ _ h L (arena_congr st _ L ha rfl rfl rfl rfl rfl) e1 e2 e3 e4
        · simp only [] at h
          split at h
          · rename_i s1 hr
            cases h
            have hg : Burst a s1 := by
              split at hr
              · exact burst_of_put a _ _ _ hr e1 e2 e3 e4
              · split at hr
                · exact burst_of_put a _ _ _ hr e1 e2 e3 e4
                · split at hr
                  · exact burst_of_put a _ _ _ hr e1 e2 e3 e4
                  · split at hr
                    · exact burst_of_put a _ _ _ hr e1 e2 e3 e4
                    · split at hr
                      · exact burst_of_put a _ _ _ hr e1 e2 e3 e4
                      · split at hr
                        · exact burst_of_put a _ _ _ hr e1 e2 e3 e4
                        · exact scan_cs_burst a _ _ hr L
                            (arena_congr st _ L ha rfl rfl rfl rfl rfl) e1 e2 e3 e4
            exact burst_congr a s1 _ hg rfl rfl rfl rfl
          · cases h

theorem scan_burst (st st1 : Engine) (h : scan st = .ok st1) (L : List (List Nat))
    (ha : Arena st L) : Burst st st1 :=
  scanAux_burst _ st st st1 h L ha rfl rfl rfl rfl

end Mex


namespace Mex

/-! ## Entries added while a group is captured -/

theorem fresh_fill (p0 : Nat) (s s1 : Engine) (acc : List Nat) (hf : fill s = .ok s1)
    (hs : Sound s) (hinv : FreshInv p0 s acc) : FreshInv p0 s1 acc := by
  unfold fill at hf
  split at hf
  · rename_i hb
    obtain ⟨_, L, ha⟩ := hs
    have hbu := scan_burst s s1 hf L ha
    have hm := hbu.more
    have hbp := hbu.bpos
    constructor
    · exact hinv.ge
    · intro id h1 h2
      by_cases hlt : id < s.pcur
      · rcases hinv.seen id h1 hlt with h3 | ⟨h3, _⟩
        · exact Or.inl h3
        · omega
      · rcases hbu.fresh with h3 | ⟨h3, h4⟩
        · omega
        · right
          refine ⟨by omega, ?_⟩
          rw [h4]; omega
    · right
      intro j h1 h2
      exact hbu.sp j (by omega) h2
  · cases hf; exact hinv

theorem fresh_consume (p0 : Nat) (s : Engine) (acc : List Nat) (hinv : FreshInv p0 s acc) :
    FreshInv p0 { s with bpos := s.bpos + 1 } (acc ++ [s.buf s.bpos]) := by
  constructor
  · exact hinv.ge
  · intro id h1 h2
    rcases hinv.seen id h1 h2 with h3 | ⟨h3, h4⟩
    · exact Or.inl (List.mem_append_left _ h3)
    · by_cases hl : s.bpos + 1 < s.blast
      · exact Or.inr ⟨hl, h4⟩
      · left
        have : s.blast - 1 = s.bpos := by omega
        rw [this] at h4
        rw [h4]
        exact List.mem_append_right _ (List.mem_singleton.2 rfl)
  · rcases hinv.pend with h | h
    · left
      intro j h1 h2
      exact h j (by show s.bpos ≤ j; have : s.bpos + 1 ≤ j := h1; omega) h2
    · right
      intro j h1 h2
      exact h j (by show s.bpos ≤ j; have : s.bpos + 1 ≤ j := h1; omega) h2

theorem fresh_exit (p0 : Nat) (s : Engine) (acc : List Nat) (hinv : FreshInv p0 s acc)
    (ht : s.buf s.bpos < 270) (h10 : s.buf s.bpos ≠ 10) (h32 : s.buf s.bpos ≠ 32) :
    ∀ id, p0 ≤ id → id < s.pcur → id ∈ acc := by
  intro id h1 h2
  have hge := hinv.ge
  rcases hinv.seen id h1 h2 with h3 | ⟨h3, h4⟩
  · exact h3
  · exfalso
    rcases hinv.pend with h | h
    · have := h (s.blast - 1) (by omega) (by omega)
      omega
    · by_cases hl : s.bpos + 1 < s.blast
      · rcases h s.bpos (le_refl _) hl with h5 | h5
        · exact h10 h5
        · exact h32 h5
      · have : s.blast - 1 = s.bpos := by omega
        rw [this] at h4
        omega

/-- The identifier of every entry added while the capture loop runs is among
the tokens collected, when fewer than `TOKENMAX` tokens are collected. -/
theorem groupLoop_fresh (p0 : Nat) : ∀ (n : Nat) (s : Engine) (d : Nat) (acc : List Nat)
    (r : Engine × List Nat), groupLoop n s d acc = .ok r → Sound s → FreshInv p0 s acc →
    r.2.length < TOKENMAX → ∀ id, p0 ≤ id → id < r.1.pcur → id ∈ r.2 := by
  intro n
  induction n with
  | zero => intro s d acc r h; simp [groupLoop] at h
  | succ n ih =>
    intro s d acc r h hs hinv hlen
    rw [groupLoop] at h
    split at h
    · cases h
    · rename_i s1 hf
      have h1 : Sound s1 := fill_sound s s1 hf hs
      have i1 : FreshInv p0 s1 acc := fresh_fill p0 s s1 acc hf hs hinv
      have hnext : Sound { s1 with bpos := s1.bpos + 1 } :=
        sound_congr s1 _ h1 rfl ⟨rfl, rfl, rfl, rfl, rfl⟩ h1.1.2.2
      have inext := fresh_consume p0 s1 acc i1
      simp only [] at h
      split at h
      · rename_i hc
        cases h
        rcases hc with hc | hc
        · exact fresh_exit p0 s1 acc i1 (by rw [hc]; decide) (by rw [hc]; decide)
            (by rw [hc]; decide)
        · exact absurd hlen (by
            show ¬ acc.length < TOKENMAX
            omega)
      · split at h
        · exact ih _ _ _ r h hnext inext hlen
        · split at h
          · rename_i hc
            split at h
            · cases h
              exact fresh_exit p0 s1 acc i1 (by rw [hc]; decide) (by rw [hc]; decide)
                (by rw [hc]; decide)
            · exact ih _ _ _ r h hnext inext hlen
          · exact ih _ _ _ r h hnext inext hlen

/-- A second capture of tokens that all exist adds no entry. -/
theorem groupLoop_no_entry (st sb : Engine) (G : List Nat)
    (h : groupLoop (TOKENMAX + 1) st 1 [] = .ok (sb, G)) (hs : Sound st)
    (hG : ∀ t ∈ G, t < st.pcur) (hlen : G.length < TOKENMAX) :
    sb.pcur = st.pcur ∧ sb.plast = st.plast := by
  obtain ⟨hv, L, ha⟩ := hs
  have hinv : FreshInv st.pcur st [] := by
    constructor
    · exact arena_pcur_ge st L ha
    · intro id h1 h2; omega
    · left
      intro j _ _
      exact hv.1 j
  have hfresh := groupLoop_fresh st.pcur _ st 1 [] (sb, G) h ⟨hv, L, ha⟩ hinv hlen
  obtain ⟨M, hM0⟩ := groupLoop_grows _ st st 1 [] (sb, G) h (grows_refl st) L ha
  have hM : Arena sb (L ++ M) := hM0
  have h1 := ha.pcur
  have h2 := hM.pcur
  rw [List.length_append] at h2
  have hle : sb.pcur ≤ st.pcur := by
    by_contra hn
    have := hfresh st.pcur (le_refl _) (by show st.pcur < sb.pcur; omega)
    have := hG _ this
    omega
  have hMn : M = [] := List.eq_nil_of_length_eq_zero (by omega)
  rw [hMn, List.append_nil] at hM
  exact ⟨by omega, by rw [hM.plast, ha.plast]⟩

end Mex


namespace Mex

/-! ## The writes of the engine functions -/

theorem put_table (st st1 : Engine) (t : Nat) (h : put st t = .ok st1) : sameTable st st1 := by
  unfold put at h
  split at h
  · cases h; exact ⟨rfl, rfl, rfl, rfl⟩
  · cases h

theorem put_atrace (a st st1 : Engine) (t : Nat) (h : put st t = .ok st1)
    (ht : ArenaTrace a st) : ArenaTrace a st1 :=
  ArenaTrace.other a st st1 ht (put_same st st1 t h) (put_table st st1 t h)

theorem atrace_frame (a st st1 : Engine) (ht : ArenaTrace a st) (h1 : sameArena st st1)
    (h2 : sameTable st st1) : ArenaTrace a st1 :=
  ArenaTrace.other a st st1 ht h1 h2

theorem scan_cs_atrace (a st st1 : Engine) (h : scan_cs st = .ok st1) (ht : ArenaTrace a st) :
    ArenaTrace a st1 := by
  unfold scan_cs at h
  simp only [] at h
  have h0 : ArenaTrace a { st with inp := (readName [tESCAPE] st.inp).2 } :=
    atrace_frame a st _ ht ⟨rfl, rfl, rfl, rfl, rfl⟩ ⟨rfl, rfl, rfl, rfl⟩
  split at h
  · exact put_atrace a _ _ _ h h0
  · rename_i hnone
    split at h
    · rename_i t st2 hadd
      refine put_atrace a st2 st1 t h (ArenaTrace.add a _ st2 _ t h0 hadd ?_)
      intro L hL hmem
      have hf := findEntry_cs _ L hL (readName [tESCAPE] st.inp).1
      simp only [] at hf hnone
      rw [hf] at hnone
      simp only [hmem, if_true] at hnone
      split at hnone <;> cases hnone
    · cases h

theorem scanAux_atrace : ∀ (fuel : Nat) (a st st1 : Engine), scanAux fuel st = .ok st1 →
    ArenaTrace a st → ArenaTrace a st1 := by
  intro fuel
  induction fuel with
  | zero => intro a st st1 h; simp [scanAux] at h
  | succ fuel ih =>
    intro a st st1 h ht
    rw [scanAux] at h
    split at h
    · exact put_atrace a _ _ _ h ht
    · split at h
      · split at h
        · split at h
          · exact put_atrace a _ _ _ h
              (atrace_frame a st _ ht ⟨rfl, rfl, rfl, rfl, rfl⟩ ⟨rfl, rfl, rfl, rfl⟩)
          · split at h
            · rename_i s1 hput
              have h1 := put_atrace a _ _ _ hput
                (atrace_frame a st _ ht ⟨rfl, rfl, rfl, rfl, rfl⟩ ⟨rfl, rfl, rfl, rfl⟩)
              exact ih a _ _ h
                (atrace_frame a s1 _ h1 ⟨rfl, rfl, rfl, rfl, rfl⟩ ⟨rfl, rfl, rfl, rfl⟩)
            · cases h
        · exact ih a _ _ h
            (atrace_frame a st _ ht ⟨rfl, rfl, rfl, rfl, rfl⟩ ⟨rfl, rfl, rfl, rfl⟩)
      · split at h
        · split at h
          · exact put_atrace a _ _ _ h
              (atrace_frame a st _ ht ⟨rfl, rfl, rfl, rfl, rfl⟩ ⟨rfl, rfl, rfl, rfl⟩)
          · exact ih a _ _ h
              (atrace_frame a st _ ht ⟨rfl, rfl, rfl, rfl, rfl⟩ ⟨rfl, rfl, rfl, rfl⟩)
        · simp only [] at h
          split at h
          · rename_i s1 hr
            cases h
            have hg : ArenaTrace a s1 := by
              have h0 : ArenaTrace a { st with inp := (st.inp.tail) } :=
                atrace_frame a st _ ht ⟨rfl, rfl, rfl, rfl, rfl⟩ ⟨rfl, rfl, rfl, rfl⟩
              split at hr
              · exact put_atrace a _ _ _ hr
                  (atrace_frame a st _ ht ⟨rfl, rfl, rfl, rfl, rfl⟩ ⟨rfl, rfl, rfl, rfl⟩)
              · split at hr
                · exact put_atrace a _ _ _ hr
                    (atrace_frame a st _ ht ⟨rfl, rfl, rfl, rfl, rfl⟩ ⟨rfl, rfl, rfl, rfl⟩)
                · split at hr
                  · exact put_atrace a _ _ _ hr
                      (atrace_frame a st _ ht ⟨rfl, rfl, rfl, rfl, rfl⟩ ⟨rfl, rfl, rfl, rfl⟩)
                  · split at hr
                    · exact put_atrace a _ _ _ hr
                        (atrace_frame a st _ ht ⟨rfl, rfl, rfl, rfl, rfl⟩ ⟨rfl, rfl, rfl, rfl⟩)
                    · split at hr
                      · exact put_atrace a _ _ _ hr
                          (atrace_frame a st _ ht ⟨rfl, rfl, rfl, rfl, rfl⟩
                            ⟨rfl, rfl, rfl, rfl⟩)
                      · split at hr
                        · exact put_atrace a _ _ _ hr
                            (atrace_frame a st _ ht ⟨rfl, rfl, rfl, rfl, rfl⟩
                              ⟨rfl, rfl, rfl, rfl⟩)
                        · exact scan_cs_atrace a _ _ hr
                            (atrace_frame a st _ ht ⟨rfl, rfl, rfl, rfl, rfl⟩
                              ⟨rfl, rfl, rfl, rfl⟩)
            exact atrace_frame a s1 _ hg ⟨rfl, rfl, rfl, rfl, rfl⟩ ⟨rfl, rfl, rfl, rfl⟩
          · cases h

theorem scan_atrace (a st st1 : Engine) (h : scan st = .ok st1) (ht : ArenaTrace a st) :
    ArenaTrace a st1 :=
  scanAux_atrace _ a st st1 h ht

theorem fill_atrace (a st st1 : Engine) (h : fill st = .ok st1) (ht : ArenaTrace a st) :
    ArenaTrace a st1 := by
  unfold fill at h
  split at h
  · exact scan_atrace a st st1 h ht
  · cases h; exact ht

end Mex


namespace Mex

theorem groupLoop_atrace : ∀ (n : Nat) (a st : Engine) (d : Nat) (acc : List Nat)
    (r : Engine × List Nat), groupLoop n st d acc = .ok r → ArenaTrace a st →
    ArenaTrace a r.1 := by
  intro n
  induction n with
  | zero => intro a st d acc r h _; simp [groupLoop] at h
  | succ n ih =>
    intro a st d acc r h hs
    rw [groupLoop] at h
    split at h
    · cases h
    · rename_i s1 hf
      have h1 : ArenaTrace a s1 := fill_atrace a st s1 hf hs
      simp only [] at h
      split at h
      · cases h; exact h1
      · split at h
        · exact ih a _ _ _ r h (atrace_frame a s1 _ h1 ⟨rfl, rfl, rfl, rfl, rfl⟩
            ⟨rfl, rfl, rfl, rfl⟩)
        · split at h
          · split at h
            · cases h
              exact atrace_frame a s1 _ h1 ⟨rfl, rfl, rfl, rfl, rfl⟩ ⟨rfl, rfl, rfl, rfl⟩
            · exact ih a _ _ _ r h (atrace_frame a s1 _ h1 ⟨rfl, rfl, rfl, rfl, rfl⟩
                ⟨rfl, rfl, rfl, rfl⟩)
          · exact ih a _ _ _ r h (atrace_frame a s1 _ h1 ⟨rfl, rfl, rfl, rfl, rfl⟩
              ⟨rfl, rfl, rfl, rfl⟩)

theorem scan_group_atrace (a st st1 : Engine) (g : Nat) (h : scan_group st = .ok (g, st1))
    (ht : ArenaTrace a st) : ArenaTrace a st1 := by
  unfold scan_group at h
  split at h
  · cases h
  · rename_i sa G hloop
    have h1 : ArenaTrace a sa := groupLoop_atrace _ a st 1 [] (sa, G) hloop ht
    split at h
    · cases h; exact h1
    · rename_i hnone
      refine ArenaTrace.add a sa st1 G g h1 h ?_
      intro L hL hmem
      rw [findEntry_group sa L hL G, if_pos hmem] at hnone
      cases hnone

theorem collectArgs_atrace : ∀ (n : Nat) (a st : Engine) (param : List Nat)
    (r : Engine × List Nat), collectArgs n st param = .ok r → ArenaTrace a st →
    ArenaTrace a r.1 := by
  intro n
  induction n with
  | zero =>
    intro a st param r h hs
    rw [collectArgs] at h
    cases h
    exact hs
  | succ n ih =>
    intro a st param r h hs
    rw [collectArgs] at h
    split at h
    · cases h
    · rename_i s1 hf
      have h1 : ArenaTrace a s1 := fill_atrace a st s1 hf hs
      split at h
      · split at h
        · split at h
          · cases h
          · rename_i gid s2 hsg
            refine ih a s2 _ r h (scan_group_atrace a _ s2 gid hsg ?_)
            exact atrace_frame a s1 _ h1 ⟨rfl, rfl, rfl, rfl, rfl⟩ ⟨rfl, rfl, rfl, rfl⟩
        · exact ih a _ _ r h (atrace_frame a s1 _ h1 ⟨rfl, rfl, rfl, rfl, rfl⟩
            ⟨rfl, rfl, rfl, rfl⟩)
      · cases h

theorem expand_atrace (a st st1 : Engine) (h : expand st = .ok st1) (ht : ArenaTrace a st) :
    ArenaTrace a st1 := by
  unfold expand at h
  simp only [] at h
  split at h
  · split at h
    · cases h
    · rename_i s1 param hc
      have g1 : ArenaTrace a s1 := collectArgs_atrace _ a _ [] (s1, param) hc
        (atrace_frame a st _ ht ⟨rfl, rfl, rfl, rfl, rfl⟩ ⟨rfl, rfl, rfl, rfl⟩)
      split at h
      · cases h
      · split at h
        · cases h
        · split at h
          · cases h
          · cases h
            exact atrace_frame a s1 _ g1 ⟨rfl, rfl, rfl, rfl, rfl⟩ ⟨rfl, rfl, rfl, rfl⟩
  · cases h

theorem compact_table (st : Engine) : sameTable st (compact st) := by
  unfold compact
  split
  · exact ⟨rfl, rfl, rfl, rfl⟩
  · exact ⟨rfl, rfl, rfl, rfl⟩

/-! ## The writes of `define` and `next` -/

theorem trace_frame (a st st1 : Engine) (ht : Trace a st) (h1 : sameArena st st1)
    (h2 : sameTable st st1) : Trace a st1 :=
  Trace.arena a st st1 ht (ArenaTrace.other st st st1 (ArenaTrace.refl st) h1 h2)

theorem trace_fill (a st st1 : Engine) (h : fill st = .ok st1) (ht : Trace a st) :
    Trace a st1 :=
  Trace.arena a st st1 ht (fill_atrace st st st1 h (ArenaTrace.refl st))

theorem define_trace (a st st1 : Engine) (h : define st = .ok st1) (hs : Sound st)
    (ht : Trace a st) : Trace a st1 := by
  unfold define at h
  split at h
  · cases h
  · rename_i s1 hf1
    have g1 : Trace a s1 := trace_fill a st s1 hf1 ht
    have hs1 : Sound s1 := fill_sound st s1 hf1 hs
    split at h
    · cases h; exact g1
    · rename_i hcomp
      simp only [] at h
      split at h
      · cases h
      · rename_i s2 hr2
        have g2 : Trace a s2 := by
          split at hr2
          · rename_i hnew
            split at hr2
            · cases hr2
              exact Trace.name a s1 _ (s1.buf s1.bpos) g1 ⟨rfl, rfl, rfl, rfl, rfl⟩
                (Nat.le_of_not_lt hcomp) (hs1.1.1 s1.bpos) hnew rfl rfl rfl rfl
            · cases hr2
          · cases hr2; exact g1
        split at h
        · cases h
        · rename_i s3 hf3
          have g3 : Trace a s3 := by
            refine trace_fill a _ s3 hf3 ?_
            exact trace_frame a s2 _ g2 ⟨rfl, rfl, rfl, rfl, rfl⟩ ⟨rfl, rfl, rfl, rfl⟩
          split at h
          · cases h
          · rename_i s4 hr4
            have g4 : Trace a s4 := by
              split at hr4
              · rename_i hdig
                refine trace_fill a _ s4 hr4 ?_
                exact Trace.arity a s3 _ _ (s3.buf s3.bpos - 48) g3 ⟨rfl, rfl, rfl, rfl, rfl⟩
                  (by omega) rfl rfl rfl rfl
              · cases hr4
                exact Trace.arity a s3 _ _ 0 g3 ⟨rfl, rfl, rfl, rfl, rfl⟩
                  (by omega) rfl rfl rfl rfl
            split at h
            · split at h
              · cases h
              · rename_i gid s5 hsg
                cases h
                have g5 : Trace a s5 := by
                  refine Trace.arena a _ s5 ?_
                    (scan_group_atrace _ _ s5 gid hsg (ArenaTrace.refl _))
                  exact trace_frame a s4 _ g4 ⟨rfl, rfl, rfl, rfl, rfl⟩ ⟨rfl, rfl, rfl, rfl⟩
                exact Trace.body a s5 _ _ gid g5 ⟨rfl, rfl, rfl, rfl, rfl⟩ rfl rfl rfl rfl
            · split at h
              · cases h
                exact Trace.body a s4 _ _ _ g4 ⟨rfl, rfl, rfl, rfl, rfl⟩ rfl rfl rfl rfl
              · cases h; exact g4

theorem next_trace : ∀ (f : Nat) (a st : Engine) (r : Nat × Engine), next f st = .ok r →
    Sound st → Trace a st → Trace a r.2 := by
  intro f
  induction f with
  | zero => intro a st r h _ _; simp [next] at h
  | succ f ih =>
    intro a st r h hsd hs
    rw [next] at h
    split at h
    · cases h
    · rename_i s0 hf
      have g0 : Trace a (compact s0) :=
        trace_frame a s0 _ (trace_fill a st s0 hf hs) (compact_same s0) (compact_table s0)
      have hc : Sound (compact s0) := compact_sound s0 (fill_sound st s0 hf hsd)
      simp only [] at h
      split at h
      · split at h
        · cases h
        · rename_i s2 hd
          have hc1 : Sound { compact s0 with bpos := (compact s0).bpos + 1 } :=
            sound_congr (compact s0) _ hc rfl ⟨rfl, rfl, rfl, rfl, rfl⟩ hc.1.2.2
          refine ih a s2 r h (define_sound _ s2 hd hc1) (define_trace a _ s2 hd hc1 ?_)
          exact trace_frame a _ _ g0 ⟨rfl, rfl, rfl, rfl, rfl⟩ ⟨rfl, rfl, rfl, rfl⟩
      · split at h
        · split at h
          · cases h
          · rename_i s2 he
            exact ih a s2 r h (expand_sound _ s2 he hc) (Trace.arena a _ s2 g0
              (expand_atrace _ _ s2 he (ArenaTrace.refl _)))
        · cases h
          exact trace_frame a _ _ g0 ⟨rfl, rfl, rfl, rfl, rfl⟩ ⟨rfl, rfl, rfl, rfl⟩

/-- Every run of engine functions is a run in the sense of `Later`. -/
theorem ran_later (a b : Engine) (h : Ran a b) : Later a b := by
  induction h with
  | refl => exact Later.refl _
  | scan_cs b c _ hs ih => exact Later.scan_cs a b c ih hs
  | scan b c _ hs ih => exact Later.scan a b c ih hs
  | scan_group b c g _ hs ih => exact Later.scan_group a b c g ih hs
  | define b c _ hs ih => exact Later.define a b c ih hs
  | expand b c _ hs ih => exact Later.expand a b c ih hs
  | next b c f t _ hs ih => exact Later.next a b c f t ih hs

/-- Every run of engine functions is a trace of arena and macro table writes. -/
theorem ran_trace (a b : Engine) (h : Ran a b) (hs : Sound a) : Trace a b := by
  induction h with
  | refl => exact Trace.refl _
  | scan_cs b c _ hs ih =>
    exact Trace.arena a b c ih (scan_cs_atrace b b c hs (ArenaTrace.refl b))
  | scan b c _ hs ih =>
    exact Trace.arena a b c ih (scan_atrace b b c hs (ArenaTrace.refl b))
  | scan_group b c g _ hs ih =>
    exact Trace.arena a b c ih (scan_group_atrace b b c g hs (ArenaTrace.refl b))
  | define b c hr hd ih =>
    exact define_trace a b c hd (later_sound a b (ran_later a b hr) hs) ih
  | expand b c _ hs ih =>
    exact Trace.arena a b c ih (expand_atrace b b c hs (ArenaTrace.refl b))
  | next b c f t hr hn ih =>
    exact next_trace f a b (t, c) hn (later_sound a b (ran_later a b hr) hs) ih

end Mex


namespace Mex

/-! ## What a trace keeps -/

theorem sameTable_trans (a b c : Engine) (h1 : sameTable a b) (h2 : sameTable b c) :
    sameTable a c :=
  ⟨h2.1.trans h1.1, h2.2.1.trans h1.2.1, h2.2.2.1.trans h1.2.2.1, h2.2.2.2.trans h1.2.2.2⟩

theorem extends_refl (a : Engine) : Extends a a :=
  ⟨le_refl _, le_refl _, fun _ _ => rfl, fun _ _ => rfl, fun _ _ => rfl⟩

theorem extends_trans (a b c : Engine) (h1 : Extends a b) (h2 : Extends b c) : Extends a c :=
  ⟨le_trans h1.pcur h2.pcur, le_trans h1.plast h2.plast,
    fun i hi => (h2.ppos i (lt_of_lt_of_le hi h1.pcur)).trans (h1.ppos i hi),
    fun i hi => (h2.plen i (lt_of_lt_of_le hi h1.pcur)).trans (h1.plen i hi),
    fun j hj => (h2.pool j (lt_of_lt_of_le hj h1.plast)).trans (h1.pool j hj)⟩

theorem extends_of_same (a b : Engine) (h : sameArena a b) : Extends a b :=
  ⟨le_of_eq h.2.2.2.1.symm, le_of_eq h.2.2.2.2.symm, fun i _ => by rw [h.2.1],
    fun i _ => by rw [h.2.2.1], fun j _ => by rw [h.1]⟩

theorem addEntry_extends (st st1 : Engine) (xs : List Nat) (t : Nat)
    (h : addEntry st xs = .ok (t, st1)) (L : List (List Nat)) (ha : Arena st L) :
    Extends st st1 ∧ st1.pcur = st.pcur + 1 ∧ sameTable st st1 := by
  obtain ⟨_, e⟩ := addEntry_eq st st1 xs t h L ha
  rw [e]
  refine ⟨⟨Nat.le_succ _, Nat.le_add_right _ _, ?_, ?_, ?_⟩, rfl, ⟨rfl, rfl, rfl, rfl⟩⟩
  · intro i hi
    show upd st.ppos st.pcur st.plast i = st.ppos i
    unfold upd
    rw [if_neg (by omega)]
  · intro i hi
    show upd st.plen st.pcur xs.length i = st.plen i
    unfold upd
    rw [if_neg (by omega)]
  · intro j hj
    exact writeAll_lt xs st.pool st.plast j hj

/-- Along a trace of arena writes the compound entries stay where they are, new
ones are appended, the macro table is not touched, and no spelling is entered
twice. -/
theorem atrace_inv (a b : Engine) (h : ArenaTrace a b) (L : List (List Nat))
    (ha : Arena a L) :
    ∃ M, Arena b (L ++ M) ∧ Extends a b ∧ sameTable a b ∧ (L.Nodup → (L ++ M).Nodup) ∧
      (b.pcur = a.pcur → sameArena a b) := by
  induction h with
  | refl =>
    exact ⟨[], by rw [List.append_nil]; exact ha, extends_refl a, ⟨rfl, rfl, rfl, rfl⟩,
      fun hn => by rw [List.append_nil]; exact hn, fun _ => ⟨rfl, rfl, rfl, rfl, rfl⟩⟩
  | other b c _ hs ht ih =>
    obtain ⟨M, hM, he, htb, hn, hsame⟩ := ih
    refine ⟨M, arena_congr b c _ hM hs.1 hs.2.1 hs.2.2.1 hs.2.2.2.1 hs.2.2.2.2,
      extends_trans a b c he (extends_of_same b c hs), sameTable_trans a b c htb ht, hn, ?_⟩
    intro hp
    exact sameArena_trans (hsame (by rw [← hp]; exact hs.2.2.2.1.symm)) hs
  | add b c xs t _ hadd hx ih =>
    obtain ⟨M, hM, he, htb, hn, hsame⟩ := ih
    obtain ⟨_, h2, _⟩ := addEntry_arena b c xs t hadd _ hM
    obtain ⟨e1, e2, e3⟩ := addEntry_extends b c xs t hadd _ hM
    refine ⟨M ++ [xs], by rw [← List.append_assoc]; exact h2, extends_trans a b c he e1,
      sameTable_trans a b c htb e3, ?_, ?_⟩
    · intro hL
      rw [← List.append_assoc]
      refine List.nodup_append.2 ⟨hn hL, List.nodup_singleton _, ?_⟩
      intro y hy hy1
      rw [List.mem_singleton] at hy1
      rw [hy1] at hy
      exact hx _ hM hy
    · intro hp
      have := he.pcur
      omega

theorem extends_spelling (a b : Engine) (L : List (List Nat)) (ha : Arena a L)
    (he : Extends a b) (i : Nat) (hi : i < a.pcur) : spelling b i = spelling a i := by
  unfold spelling
  rw [he.plen i hi, he.ppos i hi]
  apply List.map_congr_left
  intro k hk
  rw [List.mem_range] at hk
  have := ha.ok i hi
  exact he.pool _ (by omega)

/-! ## The search of the macro table -/

theorem findMacro_ge (names : Nat → Nat) (t : Nat) : ∀ (n i : Nat),
    i ≤ findMacro names t n i := by
  intro n
  induction n with
  | zero => intro i; simp [findMacro]
  | succ n ih =>
    intro i
    rw [findMacro]
    split
    · exact le_refl _
    · exact le_trans (Nat.le_succ i) (ih (i + 1))

/-- The search stops at the first slot that holds the name. -/
theorem findMacro_found (names : Nat → Nat) (t : Nat) : ∀ (n i : Nat),
    findMacro names t n i < i + n → names (findMacro names t n i) = t := by
  intro n
  induction n with
  | zero => intro i h; simp [findMacro] at h
  | succ n ih =>
    intro i h
    rw [findMacro] at h ⊢
    split
    · assumption
    · rename_i hne
      rw [if_neg hne] at h
      exact ih (i + 1) (by omega)

/-- The search runs to the end exactly when no slot holds the name. -/
theorem findMacro_absent (names : Nat → Nat) (t : Nat) : ∀ (n i : Nat),
    findMacro names t n i = i + n → ∀ j, i ≤ j → j < i + n → names j ≠ t := by
  intro n
  induction n with
  | zero => intro i _ j h1 h2; omega
  | succ n ih =>
    intro i h j h1 h2
    rw [findMacro] at h
    split at h
    · omega
    · rename_i hne
      by_cases hj : j = i
      · rw [hj]; exact hne
      · exact ih (i + 1) (by omega) j (by omega) (by omega)

theorem findMacro_first (names : Nat → Nat) (t : Nat) : ∀ (n i : Nat) (j : Nat),
    i ≤ j → j < findMacro names t n i → names j ≠ t := by
  intro n
  induction n with
  | zero => intro i j h1 h2; simp [findMacro] at h2; omega
  | succ n ih =>
    intro i j h1 h2
    rw [findMacro] at h2
    split at h2
    · omega
    · rename_i hne
      by_cases hj : j = i
      · rw [hj]; exact hne
      · exact ih (i + 1) j (by omega) h2

/-! ## The macro table along a trace -/

theorem tableOK_of (b c : Engine) (h : TableOK b) (ht : sameTable b c) (hp : b.pcur ≤ c.pcur) :
    TableOK c := by
  obtain ⟨e1, _, e3, e4⟩ := ht
  constructor
  · intro i j hij hj
    rw [e1]
    rw [e4] at hj
    exact h.distinct i j hij hj
  · intro i hi
    rw [e1]
    rw [e4] at hi
    exact h.compound i hi
  · intro i hi
    rw [e1]
    rw [e4] at hi
    exact lt_of_lt_of_le (h.known i hi) hp
  · intro i
    rw [e3]
    exact h.arity i

/-- Along a trace of arena and macro table writes the arena grows as along a
trace of arena writes. -/
theorem trace_arena (a b : Engine) (h : Trace a b) (L : List (List Nat)) (ha : Arena a L) :
    ∃ M, Arena b (L ++ M) ∧ Extends a b ∧ (L.Nodup → (L ++ M).Nodup) := by
  induction h with
  | refl =>
    exact ⟨[], by rw [List.append_nil]; exact ha, extends_refl a,
      fun hn => by rw [List.append_nil]; exact hn⟩
  | arena b c _ hbc ih =>
    obtain ⟨M, hM, he, hn⟩ := ih
    obtain ⟨M1, hM1, he1, _, hn1, _⟩ := atrace_inv b c hbc _ hM
    refine ⟨M ++ M1, by rw [← List.append_assoc]; exact hM1, extends_trans a b c he he1, ?_⟩
    intro hL
    rw [← List.append_assoc]
    exact hn1 (hn hL)
  | name b c t _ hs _ _ _ _ _ _ _ ih =>
    obtain ⟨M, hM, he, hn⟩ := ih
    exact ⟨M, arena_congr b c _ hM hs.1 hs.2.1 hs.2.2.1 hs.2.2.2.1 hs.2.2.2.2,
      extends_trans a b c he (extends_of_same b c hs), hn⟩
  | arity b c i v _ hs _ _ _ _ _ ih =>
    obtain ⟨M, hM, he, hn⟩ := ih
    exact ⟨M, arena_congr b c _ hM hs.1 hs.2.1 hs.2.2.1 hs.2.2.2.1 hs.2.2.2.2,
      extends_trans a b c he (extends_of_same b c hs), hn⟩
  | body b c i g _ hs _ _ _ _ ih =>
    obtain ⟨M, hM, he, hn⟩ := ih
    exact ⟨M, arena_congr b c _ hM hs.1 hs.2.1 hs.2.2.1 hs.2.2.2.1 hs.2.2.2.2,
      extends_trans a b c he (extends_of_same b c hs), hn⟩

/-- Along a trace of arena and macro table writes the macro table keeps its
invariant. -/
theorem trace_table (a b : Engine) (h : Trace a b) (L : List (List Nat)) (ha : Arena a L)
    (ht : TableOK a) : TableOK b := by
  induction h with
  | refl => exact ht
  | arena b c hab hbc ih =>
    obtain ⟨M, hM, _, _⟩ := trace_arena a b hab L ha
    obtain ⟨M1, _, he1, ht1, _, _⟩ := atrace_inv b c hbc _ hM
    exact tableOK_of b c ih ht1 he1.pcur
  | name b c t _ hs hge hlt hfind e1 e2 e3 e4 ih =>
    have hok := ih
    have hab := findMacro_absent b.mname t b.mlast 0 (by rw [hfind, Nat.zero_add])
    constructor
    · intro i j hij hj
      rw [e1]
      rw [e2] at hj
      unfold upd
      rw [if_neg (by omega)]
      by_cases hjl : j = b.mlast
      · rw [if_pos hjl]
        exact hab i (Nat.zero_le _) (by omega)
      · rw [if_neg hjl]
        exact hok.distinct i j hij (by omega)
    · intro i hi
      rw [e1]
      rw [e2] at hi
      unfold upd
      split
      · exact hge
      · exact hok.compound i (by omega)
    · intro i hi
      rw [e1, hs.2.2.2.1]
      rw [e2] at hi
      unfold upd
      split
      · exact hlt
      · exact hok.known i (by omega)
    · intro i
      rw [e3]
      exact hok.arity i
  | arity b c i v _ hs hv e1 e2 e3 e4 ih =>
    have hok := ih
    constructor
    · intro i j hij hj
      rw [e2]
      rw [e3] at hj
      exact hok.distinct i j hij hj
    · intro i hi
      rw [e2]
      rw [e3] at hi
      exact hok.compound i hi
    · intro i hi
      rw [e2, hs.2.2.2.1]
      rw [e3] at hi
      exact hok.known i hi
    · intro k
      rw [e1]
      unfold upd
      split
      · exact hv
      · exact hok.arity k
  | body b c i g _ hs e1 e2 e3 e4 ih =>
    have hok := ih
    constructor
    · intro i j hij hj
      rw [e2]
      rw [e3] at hj
      exact hok.distinct i j hij hj
    · intro i hi
      rw [e2]
      rw [e3] at hi
      exact hok.compound i hi
    · intro i hi
      rw [e2, hs.2.2.2.1]
      rw [e3] at hi
      exact hok.known i hi
    · intro k
      rw [e4]
      exact hok.arity k

theorem init_tableOK (fp : List Nat) : TableOK (init fp) := by
  constructor
  · intro i j _ hj
    rw [init_mlast] at hj
    omega
  · intro i hi
    rw [init_mlast] at hi
    omega
  · intro i hi
    rw [init_mlast] at hi
    omega
  · intro i
    rw [init_margs]
    exact Nat.zero_le 9

end Mex


namespace Mex

/-! ## The macro table is written by `define` only -/

theorem poolPushAll_table : ∀ (xs : List Nat) (st st1 : Engine), poolPushAll st xs = .ok st1 →
    sameTable st st1 := by
  intro xs
  induction xs with
  | nil => intro st st1 h; cases h; exact ⟨rfl, rfl, rfl, rfl⟩
  | cons x xs ih =>
    intro st st1 h
    unfold poolPushAll poolPush at h
    split at h
    · rename_i s1 hs
      split at hs
      · cases hs
        have h2 := ih _ _ h
        exact sameTable_trans st _ st1 ⟨rfl, rfl, rfl, rfl⟩ h2
      · cases hs
    · cases h

theorem addEntry_table (st st1 : Engine) (xs : List Nat) (t : Nat)
    (h : addEntry st xs = .ok (t, st1)) : sameTable st st1 := by
  unfold addEntry at h
  split at h
  · split at h
    · rename_i s1 hs
      cases h
      have h2 := poolPushAll_table _ _ s1 hs
      exact sameTable_trans st _ _ (sameTable_trans st _ s1 ⟨rfl, rfl, rfl, rfl⟩ h2)
        ⟨rfl, rfl, rfl, rfl⟩
    · cases h
  · cases h

theorem atrace_table (a b : Engine) (h : ArenaTrace a b) : sameTable a b := by
  induction h with
  | refl => exact ⟨rfl, rfl, rfl, rfl⟩
  | other b c _ _ ht ih => exact sameTable_trans a b c ih ht
  | add b c xs t _ hadd _ ih => exact sameTable_trans a b c ih (addEntry_table b c xs t hadd)

theorem fill_table (st st1 : Engine) (h : fill st = .ok st1) : sameTable st st1 :=
  atrace_table st st1 (fill_atrace st st st1 h (ArenaTrace.refl st))

theorem scan_group_table (st st1 : Engine) (g : Nat) (h : scan_group st = .ok (g, st1)) :
    sameTable st st1 :=
  atrace_table st st1 (scan_group_atrace st st st1 g h (ArenaTrace.refl st))

/-- What `define` does to the macro table, in terms of the state `s1` in which
the name token is under the cursor. -/
theorem define_table (st st1 : Engine) (h : define st = .ok st1) :
    ∃ s1, fill st = .ok s1 ∧ sameTable st s1 ∧
      (s1.buf s1.bpos < tSENTINEL → st1 = s1) ∧
      (tSENTINEL ≤ s1.buf s1.bpos →
        st1.mlast = (if findMacro s1.mname (s1.buf s1.bpos) s1.mlast 0 = s1.mlast
          then s1.mlast + 1 else s1.mlast) ∧
        st1.mname = (if findMacro s1.mname (s1.buf s1.bpos) s1.mlast 0 = s1.mlast
          then upd s1.mname s1.mlast (s1.buf s1.bpos) else s1.mname) ∧
        (∀ k, k ≠ findMacro s1.mname (s1.buf s1.bpos) s1.mlast 0 →
          st1.margs k = s1.margs k ∧ st1.mdef k = s1.mdef k)) := by
  unfold define at h
  split at h
  · cases h
  · rename_i s1 hf1
    refine ⟨s1, hf1, fill_table st s1 hf1, ?_, ?_⟩
    · intro hlt
      rw [if_pos hlt] at h
      cases h
      rfl
    · intro hge
      rw [if_neg (by omega)] at h
      simp only [] at h
      obtain ⟨i, hi⟩ : ∃ i, i = findMacro s1.mname (s1.buf s1.bpos) s1.mlast 0 := ⟨_, rfl⟩
      rw [← hi] at h ⊢
      split at h
      · cases h
      · rename_i s2 hr2
        have t2 : s2.mlast = (if i = s1.mlast then s1.mlast + 1 else s1.mlast) ∧
            s2.mname = (if i = s1.mlast then upd s1.mname s1.mlast (s1.buf s1.bpos)
              else s1.mname) ∧ s2.margs = s1.margs ∧ s2.mdef = s1.mdef := by
          split at hr2
          · rename_i hnew
            split at hr2
            · cases hr2
              rw [if_pos hnew, if_pos hnew]
              exact ⟨rfl, rfl, rfl, rfl⟩
            · cases hr2
          · rename_i hold
            cases hr2
            rw [if_neg hold, if_neg hold]
            exact ⟨rfl, rfl, rfl, rfl⟩
        obtain ⟨a1, a2, a3, a4⟩ := t2
        split at h
        · cases h
        · rename_i s3 hf3
          obtain ⟨b1, b2, b3, b4⟩ := fill_table _ s3 hf3
          simp only [] at b1 b2 b3 b4
          split at h
          · cases h
          · rename_i s4 hr4
            have t4 : s4.mlast = s3.mlast ∧ s4.mname = s3.mname ∧ s4.mdef = s3.mdef ∧
                ∀ k, k ≠ i → s4.margs k = s3.margs k := by
              split at hr4
              · obtain ⟨c1, c2, c3, c4⟩ := fill_table _ s4 hr4
                simp only [] at c1 c2 c3 c4
                refine ⟨c4, c1, c2, ?_⟩
                intro k hk
                rw [c3]
                unfold upd
                rw [if_neg hk]
              · cases hr4
                refine ⟨rfl, rfl, rfl, ?_⟩
                intro k hk
                show upd s3.margs i 0 k = s3.margs k
                unfold upd
                rw [if_neg hk]
            obtain ⟨d1, d2, d3, d4⟩ := t4
            have t5 : st1.mlast = s4.mlast ∧ st1.mname = s4.mname ∧ st1.margs = s4.margs ∧
                ∀ k, k ≠ i → st1.mdef k = s4.mdef k := by
              split at h
              · split at h
                · cases h
                · rename_i gid s5 hsg
                  cases h
                  obtain ⟨c1, c2, c3, c4⟩ := scan_group_table _ s5 gid hsg
                  simp only [] at c1 c2 c3 c4
                  refine ⟨c4, c1, c3, ?_⟩
                  intro k hk
                  show upd s5.mdef i gid k = s4.mdef k
                  unfold upd
                  rw [if_neg hk, c2]
              · split at h
                · cases h
                  refine ⟨rfl, rfl, rfl, ?_⟩
                  intro k hk
                  show upd s4.mdef i _ k = s4.mdef k
                  unfold upd
                  rw [if_neg hk]
                · cases h
                  exact ⟨rfl, rfl, rfl, fun _ _ => rfl⟩
            obtain ⟨e1, e2, e3, e4⟩ := t5
            refine ⟨by rw [e1, d1, b4, a1], by rw [e2, d2, b1, a2], ?_⟩
            intro k hk
            exact ⟨by rw [e3, d4 k hk, b3, a3], by rw [e4 k hk, d3, b2, a4]⟩

/-! ## Reachable states -/

/-- Along every run from a state whose compound spellings are pairwise
different, none is entered twice. -/
theorem later_nodup (a b : Engine) (h : Later a b) (hs : Sound a) (L : List (List Nat))
    (ha : Arena a L) (hn : L.Nodup) : ∃ M, Arena b (L ++ M) ∧ (L ++ M).Nodup := by
  have key : ∀ (b c : Engine) (M : List (List Nat)), Arena b (L ++ M) → (L ++ M).Nodup →
      Trace b c → ∃ M1, Arena c (L ++ M1) ∧ (L ++ M1).Nodup := by
    intro b c M hM hnM T
    obtain ⟨M1, h1, _, h2⟩ := trace_arena b c T _ hM
    exact ⟨M ++ M1, by rw [← List.append_assoc]; exact h1,
      by rw [← List.append_assoc]; exact h2 hnM⟩
  induction h with
  | refl => exact ⟨[], by rw [List.append_nil]; exact ha, by rw [List.append_nil]; exact hn⟩
  | frame b c _ hsame _ ih =>
    obtain ⟨M, hM, hnM⟩ := ih
    exact ⟨M, arena_congr b c _ hM hsame.1 hsame.2.1 hsame.2.2.1 hsame.2.2.2.1 hsame.2.2.2.2,
      hnM⟩
  | scan_cs b c _ hstep ih =>
    obtain ⟨M, hM, hnM⟩ := ih
    exact key b c M hM hnM
      (Trace.arena b b c (Trace.refl b) (scan_cs_atrace b b c hstep (ArenaTrace.refl b)))
  | scan b c _ hstep ih =>
    obtain ⟨M, hM, hnM⟩ := ih
    exact key b c M hM hnM
      (Trace.arena b b c (Trace.refl b) (scan_atrace b b c hstep (ArenaTrace.refl b)))
  | scan_group b c g _ hstep ih =>
    obtain ⟨M, hM, hnM⟩ := ih
    exact key b c M hM hnM
      (Trace.arena b b c (Trace.refl b) (scan_group_atrace b b c g hstep (ArenaTrace.refl b)))
  | define b c hab hstep ih =>
    obtain ⟨M, hM, hnM⟩ := ih
    exact key b c M hM hnM (define_trace b b c hstep (later_sound a b hab hs) (Trace.refl b))
  | expand b c _ hstep ih =>
    obtain ⟨M, hM, hnM⟩ := ih
    exact key b c M hM hnM
      (Trace.arena b b c (Trace.refl b) (expand_atrace b b c hstep (ArenaTrace.refl b)))
  | next b c f t hab hstep ih =>
    obtain ⟨M, hM, hnM⟩ := ih
    exact key b c M hM hnM
      (next_trace f b b (t, c) hstep (later_sound a b hab hs) (Trace.refl b))

theorem distinct_of_nodup (st : Engine) (L : List (List Nat)) (ha : Arena st L)
    (hn : L.Nodup) : Distinct st := by
  intro i j hi hij hj heq
  have hp := ha.pcur
  obtain ⟨k1, rfl⟩ : ∃ k, i = tSENTINEL + k := ⟨i - tSENTINEL, by omega⟩
  obtain ⟨k2, rfl⟩ : ∃ k, j = tSENTINEL + k := ⟨j - tSENTINEL, by omega⟩
  have h1 : k1 < L.length := by omega
  have h2 : k2 < L.length := by omega
  rw [ha.spell k1 h1, ha.spell k2 h2, List.getD_eq_getElem L [] h1,
    List.getD_eq_getElem L [] h2] at heq
  have := (List.Nodup.getElem_inj_iff hn).1 heq
  omega

theorem reachable_distinct (st : Engine) (h : Reachable st) : Distinct st := by
  obtain ⟨fp, hb, hl⟩ := h
  obtain ⟨M, hM, hn⟩ := later_nodup _ _ hl (init_sound fp hb) [] (arena_init fp) List.nodup_nil
  exact distinct_of_nodup st _ hM hn

/-- The table invariant holds in every state that engine functions reach from
`init`. -/
theorem ran_table (fp : List Nat) (hfp : ∀ c ∈ fp, c < 256) (st : Engine)
    (hr : Ran (init fp) st) : TableOK st :=
  trace_table _ _ (ran_trace _ _ hr (init_sound fp hfp)) [] (arena_init fp) (init_tableOK fp)

/-- Engine functions keep every arena entry that exists. -/
theorem ran_extends (st st1 : Engine) (hs : Sound st) (h : Ran st st1) :
    Extends st st1 ∧ ∀ i, i < st.pcur → spelling st1 i = spelling st i := by
  obtain ⟨_, L, ha⟩ := hs
  obtain ⟨M, _, he, _⟩ := trace_arena st st1 (ran_trace st st1 h ⟨‹_›, L, ha⟩) L ha
  exact ⟨he, fun i hi => extends_spelling st st1 L ha he i hi⟩

end Mex


namespace Mex

/-! ## A directive without a name -/

/-- What `if (bpos == blast) scan();` changes: nothing when a token is pending;
otherwise the cursor stays, tokens are appended and at most one entry is
added. -/
theorem fill_effect (st s1 : Engine) (L : List (List Nat)) (ha : Arena st L)
    (hf : fill st = .ok s1) :
    s1.bpos = st.bpos ∧ sameTable st s1 ∧ Extends st s1 ∧ (st.bpos ≠ st.blast → s1 = st) ∧
      (s1.pcur = st.pcur → sameArena st s1) ∧
      (st.bpos = st.blast → Burst st s1) := by
  obtain ⟨M, _, he, ht, _, hsame⟩ := atrace_inv st s1 (fill_atrace st st s1 hf (ArenaTrace.refl st))
    L ha
  unfold fill at hf
  by_cases hb : st.bpos = st.blast
  · rw [if_pos hb] at hf
    have hbu := scan_burst st s1 hf L ha
    exact ⟨hbu.bpos, ht, he, fun h => absurd hb h, hsame, fun _ => hbu⟩
  · rw [if_neg hb] at hf
    cases hf
    exact ⟨rfl, ht, he, fun _ => rfl, hsame, fun h => absurd h hb⟩

/-- The statement `if (buf[bpos] < tSENTINEL) return;` of `define`. -/
theorem define_drop (st s1 : Engine) (hf : fill st = .ok s1)
    (ht : s1.buf s1.bpos < tSENTINEL) : define st = .ok s1 := by
  unfold define
  rw [hf]
  simp only []
  rw [if_pos ht]

/-- A directive whose next token is not compound: `define` returns in the state
that fetching the token leaves. -/
theorem define_drop_spec (st s1 : Engine) (L : List (List Nat)) (ha : Arena st L)
    (hle : st.bpos ≤ st.blast) (hf : fill st = .ok s1) (ht : s1.buf s1.bpos < tSENTINEL) :
    define st = .ok s1 ∧ s1.bpos = st.bpos ∧ sameTable st s1 ∧
      (st.bpos < st.blast → s1 = st) ∧ Extends st s1 ∧
      (sameArena st s1 ∨ (s1.pcur = st.pcur + 1 ∧ s1.buf (s1.blast - 1) = st.pcur ∧
        (s1.buf s1.bpos = 10 ∨ s1.buf s1.bpos = 32))) ∧
      (s1.buf s1.bpos ≠ tDEF →
        ∀ fuel, next (fuel + 1) s1 = .ok (s1.buf s1.bpos, advance s1)) := by
  obtain ⟨e1, e2, e3, e4, e5, e6⟩ := fill_effect st s1 L ha hf
  have hlt : s1.bpos < s1.blast := by
    by_cases hb : st.bpos = st.blast
    · have := (e6 hb).more
      omega
    · rw [e4 hb]
      omega
  refine ⟨define_drop st s1 hf ht, e1, e2, fun h => e4 (by omega), e3, ?_,
    fun hd fuel => next_emit fuel s1 hlt hd ht⟩
  by_cases hb : st.bpos = st.blast
  · have hbu := e6 hb
    rcases hbu.fresh with h | ⟨h1, h2⟩
    · exact Or.inl (e5 h)
    · right
      refine ⟨h1, h2, ?_⟩
      have hp := ha.pcur
      have hmore := hbu.more
      have hne : st.blast ≠ s1.blast - 1 := by
        intro heq
        rw [← heq, ← hb, ← e1] at h2
        simp only [tSENTINEL] at ht hp
        omega
      rw [e1, hb]
      exact hbu.sp st.blast (le_refl _) (by omega)
  · rw [e4 hb]
    exact Or.inl ⟨rfl, rfl, rfl, rfl, rfl⟩

/-! ## The end of the input -/

theorem scan_at_end (st : Engine) (hinp : st.inp = []) (hcap : st.blast < BUFFERMAX) :
    scan st = .ok { st with buf := upd st.buf st.blast tEOF, blast := st.blast + 1 } := by
  unfold scan
  rw [hinp]
  simp only [List.length_nil, Nat.zero_add, scanAux, hinp, put, hcap, if_true]

/-- The driver on the end-of-input token: `next` returns it and advances the
cursor, and the loop of `mxrun` stops without writing. -/
theorem next_at_eof (st s0 : Engine) (fuel n : Nat) (out : List Nat) (hf : fill st = .ok s0)
    (heof : (compact s0).buf (compact s0).bpos = tEOF) :
    next (fuel + 1) st = .ok (tEOF, advance s0) ∧
      runLoop (fuel + 1) (n + 1) st out = .ok (out, advance s0) := by
  have h1 : next (fuel + 1) st = .ok (tEOF, advance s0) := by
    simp only [next, hf, heof, advance, show tEOF ≠ tDEF by decide, if_false, ge_iff_le,
      show ¬ tSENTINEL ≤ tEOF by decide]
  refine ⟨h1, ?_⟩
  simp only [runLoop, h1, if_true]

/-- After the end-of-input token is consumed at the end of the input, the next
call of `next` scans a new one and returns it. -/
theorem next_after_eof (s : Engine) (fuel : Nat) (hinp : s.inp = []) (hb : s.bpos = s.blast)
    (hcap : s.blast < BUFFERMAX) :
    ∃ s2, next (fuel + 1) s = .ok (tEOF, s2) := by
  have hf : fill s = .ok { s with buf := upd s.buf s.blast tEOF, blast := s.blast + 1 } := by
    unfold fill
    rw [if_pos hb]
    exact scan_at_end s hinp hcap
  obtain ⟨S, hS⟩ : ∃ S : Engine, S =
      { s with buf := upd s.buf s.blast tEOF, blast := s.blast + 1 } := ⟨_, rfl⟩
  rw [← hS] at hf
  have hlt : S.bpos < S.blast := by rw [hS]; show s.bpos < s.blast + 1; omega
  have htok : S.buf S.bpos = tEOF := by
    rw [hS]
    show upd s.buf s.blast tEOF s.bpos = tEOF
    unfold upd
    rw [if_pos hb]
  rw [next_fill (fuel + 1) s S hf hlt, next_emit fuel S hlt (by rw [htok]; decide)
    (by rw [htok]; decide), htok]
  exact ⟨_, rfl⟩

theorem arena_not_start (st : Engine) (L : List (List Nat)) (h : Arena st L) :
    Arena { st with is_start := false } L :=
  arena_congr st _ L h rfl rfl rfl rfl rfl

end Mex


namespace Mex

/-! ## Capturing a balanced group -/

/-- The capture loop at nesting depth `d` on tokens in which every end-group
token but the last has a begin-group token open. -/
theorem groupLoop_delivers : ∀ (ts : List Nat) (n : Nat) (st : Engine) (d : Nat)
    (acc : List Nat) (st2 : Engine), Delivers st (ts ++ [tEGROUP]) st2 →
    (∀ k, k ≤ ts.length → (ts.take k).count tEGROUP < d + (ts.take k).count tBGROUP) →
    d + ts.count tBGROUP = ts.count tEGROUP + 1 →
    tEOF ∉ ts → acc.length + ts.length < TOKENMAX → ts.length < n →
    groupLoop n st d acc = .ok (st2, acc ++ ts) := by
  intro ts
  induction ts with
  | nil =>
    intro n st d acc st2 hd hpre htot _ hlen hn
    obtain ⟨n, rfl⟩ : ∃ k, n = k + 1 := ⟨n - 1, by simp only [List.length_nil] at hn; omega⟩
    simp only [List.count_nil, Nat.add_zero, Nat.zero_add] at htot
    subst htot
    simp only [List.nil_append] at hd
    cases hd with
    | cons _ s1 _ _ _ hf ht hrest =>
      cases hrest
      simp only [List.length_nil, Nat.add_zero] at hlen
      rw [groupLoop, hf]
      simp only [ht, show tEGROUP ≠ tEOF by decide, false_or, ge_iff_le,
        Nat.not_le.2 hlen, if_false, show tEGROUP ≠ tBGROUP by decide, if_true,
        List.append_nil]
  | cons t r ih =>
    intro n st d acc st2 hd hpre htot heof hlen hn
    obtain ⟨n, rfl⟩ : ∃ k, n = k + 1 := ⟨n - 1, by simp only [List.length_cons] at hn; omega⟩
    simp only [List.length_cons] at hlen hn
    simp only [List.cons_append] at hd
    have hteof : t ≠ tEOF := fun h => heof (by rw [h]; exact List.mem_cons_self _ _)
    have hreof : tEOF ∉ r := fun h => heof (List.mem_cons_of_mem _ h)
    cases hd with
    | cons _ s1 _ _ _ hf ht hrest =>
      rw [groupLoop, hf]
      simp only [ht, hteof, false_or, ge_iff_le, show ¬ TOKENMAX ≤ acc.length by omega,
        if_false]
      have hacc : (acc ++ [t]).length + r.length < TOKENMAX := by
        simp only [List.length_append, List.length_singleton]; omega
      have hres : acc ++ [t] ++ r = acc ++ t :: r := by
        rw [List.append_assoc, List.singleton_append]
      by_cases hbg : t = tBGROUP
      · rw [if_pos hbg]
        rw [← hres]
        apply ih n _ (d + 1) (acc ++ [t]) st2 hrest ?_ ?_ hreof hacc (by omega)
        · intro k hk
          have := hpre (k + 1) (by simp only [List.length_cons]; omega)
          simp only [List.take_succ_cons, List.count_cons, hbg, beq_self_eq_true, if_true,
            show (tBGROUP == tEGROUP) = false by decide, Bool.false_eq_true, if_false,
            Nat.add_zero] at this
          omega
        · simp only [List.count_cons, hbg, beq_self_eq_true, if_true,
            show (tBGROUP == tEGROUP) = false by decide, Bool.false_eq_true, if_false,
            Nat.add_zero] at htot
          omega
      · rw [if_neg hbg]
        have hbg1 : (t == tBGROUP) = false := by simpa using hbg
        by_cases heg : t = tEGROUP
        · rw [if_pos heg]
          have h1 := hpre 1 (by simp only [List.length_cons]; omega)
          simp only [List.take_succ_cons, List.take_zero, List.count_cons, List.count_nil, heg,
            beq_self_eq_true, if_true, show (tEGROUP == tBGROUP) = false by decide,
            Bool.false_eq_true, if_false, Nat.add_zero, Nat.zero_add] at h1
          rw [if_neg (by omega)]
          rw [← hres]
          apply ih n _ (d - 1) (acc ++ [t]) st2 hrest ?_ ?_ hreof hacc (by omega)
          · intro k hk
            have := hpre (k + 1) (by simp only [List.length_cons]; omega)
            simp only [List.take_succ_cons, List.count_cons, heg, beq_self_eq_true, if_true,
              show (tEGROUP == tBGROUP) = false by decide, Bool.false_eq_true, if_false,
              Nat.add_zero] at this
            omega
          · simp only [List.count_cons, heg, beq_self_eq_true, if_true,
              show (tEGROUP == tBGROUP) = false by decide, Bool.false_eq_true, if_false,
              Nat.add_zero] at htot
            omega
        · rw [if_neg heg]
          have heg1 : (t == tEGROUP) = false := by simpa using heg
          rw [← hres]
          apply ih n _ d (acc ++ [t]) st2 hrest ?_ ?_ hreof hacc (by omega)
          · intro k hk
            have := hpre (k + 1) (by simp only [List.length_cons]; omega)
            simp only [List.take_succ_cons, List.count_cons, heg1, hbg1, Bool.false_eq_true,
              if_false, Nat.add_zero] at this
            exact this
          · simp only [List.count_cons, heg1, hbg1, Bool.false_eq_true, if_false,
              Nat.add_zero] at htot
            exact htot

set_option maxRecDepth 10000 in
/-- The function `scan_group` on a balanced group: the identifier it returns is
spelled as the group, and the consumer is left where reading the group and the
closing brace leaves it. -/
theorem scan_group_balanced (st st2 : Engine) (G : List Nat) (L : List (List Nat))
    (ha : Arena st L) (hd : Delivers st (G ++ [tEGROUP]) st2) (hbal : balanced G)
    (heof : tEOF ∉ G) (hlen : G.length < TOKENMAX) (hp : st2.pcur < UINT16_MAX)
    (hpool : st2.plast + G.length ≤ POOLMAX) :
    ∃ g st3, scan_group st = .ok (g, st3) ∧ spelling st3 g = G ∧ st3.bpos = st2.bpos ∧
      st3.buf = st2.buf ∧ st3.blast = st2.blast ∧ st3.inp = st2.inp ∧
      (∀ M, Arena st2 M → g = internId M G ∧ Arena st3 (internIn M G)) := by
  have hloop : groupLoop (TOKENMAX + 1) st 1 [] = .ok (st2, [] ++ G) :=
    groupLoop_delivers G (TOKENMAX + 1) st 1 [] st2 hd
      (fun k hk => by have := hbal.1 k hk; omega) (by have := hbal.2; omega) heof
      (by simpa using hlen) (by omega)
  rw [List.nil_append] at hloop
  have hg : Grows st st2 := groupLoop_grows _ st st 1 [] (st2, G) hloop (grows_refl st)
  obtain ⟨M0, hM0⟩ := hg L ha
  obtain ⟨p1, p2, p3, p4, p5, k1, k2⟩ := intern_group st2 _ hM0 G hp hpool
  refine ⟨internId (L ++ M0) G,
    { st2 with pool := p1, ppos := p2, plen := p3, pcur := p4, plast := p5 },
    ?_, ?_, rfl, rfl, rfl, rfl, ?_⟩
  · unfold scan_group
    rw [hloop]
    exact k1
  · have := arena_spelling _ _ k2 G (mem_internIn_self _ G)
    rw [internId_internIn_self] at this
    exact this
  · intro M hM
    obtain ⟨q1, q2, q3, q4, q5, j1, j2⟩ := intern_group st2 M hM G hp hpool
    rw [k1] at j1
    injection j1 with j1
    injection j1 with j3 j4
    rw [j3, j4]
    exact ⟨rfl, j2⟩

/-- Tokens that are pending in the buffer are delivered without a call of
`scan`. -/
theorem delivers_pending : ∀ (ts : List Nat) (st : Engine),
    st.bpos + ts.length ≤ st.blast →
    (∀ k, k < ts.length → st.buf (st.bpos + k) = ts.getD k 0) →
    Delivers st ts { st with bpos := st.bpos + ts.length } := by
  intro ts
  induction ts with
  | nil => intro st _ _; exact Delivers.nil st
  | cons t r ih =>
    intro st hle hbuf
    simp only [List.length_cons] at hle
    have hf : fill st = .ok st := by
      unfold fill
      rw [if_neg (by omega)]
    have h0 := hbuf 0 (by simp)
    simp only [Nat.add_zero, List.getD_cons_zero] at h0
    have := ih { st with bpos := st.bpos + 1 } (by show st.bpos + 1 + r.length ≤ st.blast; omega)
      (by
        intro k hk
        have := hbuf (k + 1) (by simp only [List.length_cons]; omega)
        simp only [List.getD_cons_succ] at this
        show st.buf (st.bpos + 1 + k) = r.getD k 0
        rw [← this]
        congr 1
        omega)
    have e : ({ st with bpos := st.bpos + (t :: r).length } : Engine) =
        { st with bpos := st.bpos + 1 + r.length } := by
      simp only [List.length_cons]
      congr 1
      omega
    rw [e]
    exact Delivers.cons st st _ t r hf h0 this

theorem arena_pending (st : Engine) (L : List (List Nat)) (h : Arena st L) (b : Nat → Nat)
    (p n : Nat) : Arena { st with buf := b, bpos := p, blast := n } L :=
  arena_congr st _ L h rfl rfl rfl rfl rfl

/-- Tokens put into the buffer of a state are delivered from there. -/
theorem delivers_buffer (st : Engine) (ts : List Nat) :
    Delivers { st with buf := fun j => ts.getD j 0, bpos := 0, blast := ts.length } ts
      { st with buf := fun j => ts.getD j 0, bpos := ts.length, blast := ts.length } := by
  have := delivers_pending ts
    { st with buf := fun j => ts.getD j 0, bpos := 0, blast := ts.length }
    (by show 0 + ts.length ≤ ts.length; omega)
    (by intro k _; show ts.getD (0 + k) 0 = ts.getD k 0; rw [Nat.zero_add])
  have e : ({ st with buf := fun j => ts.getD j 0, bpos := ts.length,
                      blast := ts.length } : Engine) =
      { ({ st with buf := fun j => ts.getD j 0, bpos := 0, blast := ts.length } : Engine) with
        bpos := ({ st with buf := fun j => ts.getD j 0, bpos := 0,
                           blast := ts.length } : Engine).bpos + ts.length } := by
    show _ = ({ st with buf := fun j => ts.getD j 0, bpos := 0 + ts.length,
                        blast := ts.length } : Engine)
    rw [Nat.zero_add]
  rw [e]
  exact this

end Mex


namespace Mex

/-! ## The expansion in general -/

/-- The argument loop collects as the specification says. -/
theorem collectArgs_collected : ∀ (n : Nat) (st : Engine) (acc : List Nat) (s1 : Engine)
    (param : List Nat), collectArgs n st acc = .ok (s1, param) →
    ∃ ps, param = acc ++ ps ∧ ps.length = n ∧ Collected st ps s1 := by
  intro n
  induction n with
  | zero =>
    intro st acc s1 param h
    rw [collectArgs] at h
    cases h
    exact ⟨[], by rw [List.append_nil], rfl, Collected.nil _⟩
  | succ n ih =>
    intro st acc s1 param h
    rw [collectArgs] at h
    split at h
    · cases h
    · rename_i sa hf
      split at h
      · split at h
        · rename_i hbg
          split at h
          · cases h
          · rename_i g sb hsg
            obtain ⟨ps, e1, e2, e3⟩ := ih sb _ s1 param h
            refine ⟨g :: ps, ?_, by rw [List.length_cons, e2], ?_⟩
            · rw [e1, List.append_assoc, List.singleton_append]
            · exact Collected.group st sa sb s1 g ps hf hbg hsg e3
        · rename_i hbg
          obtain ⟨ps, e1, e2, e3⟩ := ih _ _ s1 param h
          refine ⟨sa.buf sa.bpos :: ps, ?_, by rw [List.length_cons, e2], ?_⟩
          · rw [e1, List.append_assoc, List.singleton_append]
          · exact Collected.token st sa s1 _ ps hf rfl hbg e3
      · cases h

theorem shiftUp_ok (j bpos : Nat) : ∀ (n : Nat) (buf : Nat → Nat), (n = 0 ∨ j ≤ bpos) →
    ∃ buf1, shiftUp j bpos n buf = .ok buf1 := by
  intro n
  induction n with
  | zero => intro buf _; exact ⟨buf, rfl⟩
  | succ n ih =>
    intro buf h
    have hj : j ≤ bpos := by
      rcases h with h | h
      · omega
      · exact h
    rw [shiftUp, if_neg (by omega)]
    exact ih _ (Or.inr hj)

theorem spelling_length (st : Engine) (i : Nat) : (spelling st i).length = st.plen i := by
  simp [spelling]

/-- The function `expand`, given what its argument loop does: the substitution
is written at the cursor of the invocation. -/
theorem expand_general (st s1 : Engine) (param : List Nat) (m : Nat)
    (hm : findMacro st.mname (st.buf st.bpos) st.mlast 0 = m) (hmm : m < MACROMAX)
    (hc : collectArgs (st.margs m) { st with bpos := st.bpos + 1 } [] = .ok (s1, param))
    (hrefs : ∀ t ∈ spelling s1 (s1.mdef m), t < tARG1 ∨ t > tARG9 ∨ t - tARG1 < param.length)
    (hcap : st.bpos + (substToks (param.map (spelling s1)) (spelling s1 (s1.mdef m))).length ≤
      BUFFERMAX)
    (hshift : s1.blast ≤ s1.bpos ∨
      st.bpos + (substToks (param.map (spelling s1)) (spelling s1 (s1.mdef m))).length ≤
        s1.bpos + s1.bpos) :
    ∃ buf1, expand st = .ok { s1 with
      buf := writeAll buf1 st.bpos (substToks (param.map (spelling s1)) (spelling s1 (s1.mdef m))),
      blast := s1.blast +
        (st.bpos + (substToks (param.map (spelling s1)) (spelling s1 (s1.mdef m))).length) -
          s1.bpos,
      bpos := st.bpos } := by
  obtain ⟨T, hT⟩ : ∃ T, T = substToks (param.map (spelling s1)) (spelling s1 (s1.mdef m)) :=
    ⟨_, rfl⟩
  rw [← hT] at hcap hshift ⊢
  have hcells : (List.range (spelling s1 (s1.mdef m)).length).map
      (fun k => s1.pool (s1.ppos (s1.mdef m) + k)) = spelling s1 (s1.mdef m) := by
    rw [spelling_length]
    rfl
  have hsub := substitute_spec s1 param (spelling s1 (s1.mdef m)) (s1.ppos (s1.mdef m)) []
    hcells hrefs (by rw [← hT]; simp only [List.length_nil]; omega)
  rw [spelling_length, List.nil_append, ← hT] at hsub
  have hr : ∃ buf1, (if st.bpos + T.length > s1.bpos then
        shiftUp (st.bpos + T.length - s1.bpos) s1.bpos (s1.blast - s1.bpos) s1.buf
      else if st.bpos + T.length < s1.bpos then
        .ok (shiftDown (s1.bpos - (st.bpos + T.length)) (s1.blast - s1.bpos) s1.bpos s1.buf)
      else .ok s1.buf) = .ok buf1 := by
    split
    · apply shiftUp_ok
      rcases hshift with h | h
      · left; omega
      · right; omega
    · split
      · exact ⟨_, rfl⟩
      · exact ⟨_, rfl⟩
  obtain ⟨buf1, hb⟩ := hr
  refine ⟨buf1, ?_⟩
  unfold expand
  simp only []
  rw [hm, if_pos hmm, hc]
  simp only []
  rw [hsub]
  simp only []
  rw [hb]
  simp only []
  rw [copyIn_spec T buf1 st.bpos hcap]

/-- Whenever `expand` returns, the substitution stands at the cursor of the
invocation. -/
theorem expand_returns (st s1 st1 : Engine) (param : List Nat) (m : Nat)
    (hm : findMacro st.mname (st.buf st.bpos) st.mlast 0 = m) (hmm : m < MACROMAX)
    (hc : collectArgs (st.margs m) { st with bpos := st.bpos + 1 } [] = .ok (s1, param))
    (hrefs : ∀ t ∈ spelling s1 (s1.mdef m), t < tARG1 ∨ t > tARG9 ∨ t - tARG1 < param.length)
    (hcap : st.bpos + (substToks (param.map (spelling s1)) (spelling s1 (s1.mdef m))).length ≤
      BUFFERMAX)
    (h : expand st = .ok st1) :
    ∃ buf1, st1 = { s1 with
      buf := writeAll buf1 st.bpos (substToks (param.map (spelling s1)) (spelling s1 (s1.mdef m))),
      blast := s1.blast +
        (st.bpos + (substToks (param.map (spelling s1)) (spelling s1 (s1.mdef m))).length) -
          s1.bpos,
      bpos := st.bpos } := by
  obtain ⟨T, hT⟩ : ∃ T, T = substToks (param.map (spelling s1)) (spelling s1 (s1.mdef m)) :=
    ⟨_, rfl⟩
  rw [← hT] at hcap ⊢
  have hcells : (List.range (spelling s1 (s1.mdef m)).length).map
      (fun k => s1.pool (s1.ppos (s1.mdef m) + k)) = spelling s1 (s1.mdef m) := by
    rw [spelling_length]
    rfl
  have hsub := substitute_spec s1 param (spelling s1 (s1.mdef m)) (s1.ppos (s1.mdef m)) []
    hcells hrefs (by rw [← hT]; simp only [List.length_nil]; omega)
  rw [spelling_length, List.nil_append, ← hT] at hsub
  unfold expand at h
  simp only [] at h
  rw [hm, if_pos hmm, hc] at h
  simp only [] at h
  rw [hsub] at h
  simp only [] at h
  split at h
  · cases h
  · rename_i buf1 _
    rw [copyIn_spec T buf1 st.bpos hcap] at h
    simp only [] at h
    cases h
    exact ⟨buf1, rfl⟩

theorem init_spelling_lit (c : Nat) (hc : c < 256) : spelling (init []) c = [c] := by
  unfold spelling
  rw [init_plen_lt [] c hc, init_ppos_lt [] c hc]
  show [(init []).pool (c + 0)] = [c]
  rw [Nat.add_zero, init_pool_lt [] c hc]

theorem arena_spelling_lit (st : Engine) (L : List (List Nat)) (h : Arena st L) (c : Nat)
    (hc : c < 256) : spelling st c = [c] := by
  rw [arena_spelling_base st L h c (by simp only [tSENTINEL]; omega)]
  exact init_spelling_lit c hc

/-- The function `expand` in a state with a well-formed arena, given the result
`(s1, param)` of its argument loop. -/
theorem expand_built (st s1 : Engine) (param : List Nat) (m : Nat) (L : List (List Nat))
    (ha : Arena st L)
    (hm : findMacro st.mname (st.buf st.bpos) st.mlast 0 = m) (hmm : m < MACROMAX)
    (hc : collectArgs (st.margs m) { st with bpos := st.bpos + 1 } [] = .ok (s1, param))
    (hrefs : ∀ t ∈ spelling s1 (st.mdef m), tARG1 ≤ t → t ≤ tARG9 → t - tARG1 < st.margs m)
    (hcap : st.bpos + (substToks (param.map (spelling s1)) (spelling s1 (st.mdef m))).length ≤
      BUFFERMAX) :
    Collected { st with bpos := st.bpos + 1 } param s1 ∧ param.length = st.margs m ∧
    (∀ c, c < 256 → spelling s1 c = [c]) ∧
    (∀ st1, expand st = .ok st1 →
      st1.bpos = st.bpos ∧ (∀ i, spelling st1 i = spelling s1 i) ∧
      (List.range (substToks (param.map (spelling st1)) (spelling st1 (st.mdef m))).length).map
          (fun k => st1.buf (st.bpos + k)) =
        substToks (param.map (spelling st1)) (spelling st1 (st.mdef m))) ∧
    ((s1.blast ≤ s1.bpos ∨
        st.bpos + (substToks (param.map (spelling s1)) (spelling s1 (st.mdef m))).length ≤
          s1.bpos + s1.bpos) →
      ∃ st1, expand st = .ok st1) := by
  obtain ⟨ps, e1, e2, e3⟩ := collectArgs_collected _ _ [] s1 param hc
  rw [List.nil_append] at e1
  subst e1
  have htr : ArenaTrace { st with bpos := st.bpos + 1 } s1 :=
    collectArgs_atrace _ _ _ [] (s1, param) hc (ArenaTrace.refl _)
  have hd : s1.mdef = st.mdef := (atrace_table _ _ htr).2.1
  obtain ⟨M, hM, _⟩ := atrace_inv _ _ htr L (arena_congr st _ L ha rfl rfl rfl rfl rfl)
  rw [← hd] at hrefs hcap
  have hrefs1 : ∀ t ∈ spelling s1 (s1.mdef m),
      t < tARG1 ∨ t > tARG9 ∨ t - tARG1 < param.length := by
    intro t ht
    by_cases h1 : t < tARG1
    · exact Or.inl h1
    · by_cases h2 : t > tARG9
      · exact Or.inr (Or.inl h2)
      · right; right
        rw [e2]
        exact hrefs t ht (by omega) (by omega)
  refine ⟨e3, e2, fun c hc => arena_spelling_lit s1 _ hM c hc, ?_, ?_⟩
  · intro st1 h
    obtain ⟨buf1, he⟩ := expand_returns st s1 st1 param m hm hmm hc hrefs1 hcap h
    rw [he, ← hd]
    refine ⟨rfl, fun _ => rfl, ?_⟩
    exact range_map_eq_of_get
      (fun k => writeAll buf1 st.bpos
        (substToks (param.map (spelling s1)) (spelling s1 (s1.mdef m))) (st.bpos + k))
      (substToks (param.map (spelling s1)) (spelling s1 (s1.mdef m)))
      (fun k hk => writeAll_get _ buf1 st.bpos k hk)
  · intro hshift
    rw [← hd] at hshift
    obtain ⟨buf1, he⟩ := expand_general st s1 param m hm hmm hc hrefs1 hcap hshift
    exact ⟨_, he⟩

end Mex


namespace Mex

/-! ## Arguments at the end of the input -/

set_option maxRecDepth 100000 in
theorem init_spelling_eof : spelling (init []) tEOF = [69, 79, 70] := by decide

theorem arena_spelling_eof (st : Engine) (L : List (List Nat)) (h : Arena st L) :
    spelling st tEOF = [69, 79, 70] := by
  rw [arena_spelling_base st L h tEOF (by decide)]
  exact init_spelling_eof

/-- With the input exhausted and nothing pending, every round of the argument
loop scans an end-of-input token and takes it as the argument. -/
theorem collectArgs_at_end : ∀ (n : Nat) (st : Engine) (acc : List Nat),
    st.inp = [] → st.bpos = st.blast → st.blast + n ≤ BUFFERMAX → acc.length + n ≤ 9 →
    collectArgs n st acc =
      .ok ({ st with buf := writeAll st.buf st.blast (List.replicate n tEOF),
                     blast := st.blast + n, bpos := st.bpos + n },
        acc ++ List.replicate n tEOF) := by
  intro n
  induction n with
  | zero =>
    intro st acc _ _ _ _
    rw [collectArgs]
    simp only [List.replicate_zero, List.append_nil, Nat.add_zero]
    rfl
  | succ n ih =>
    intro st acc hinp hb hcap hacc
    have hf : fill st = .ok { st with buf := upd st.buf st.blast tEOF, blast := st.blast + 1 } := by
      unfold fill
      rw [if_pos hb]
      exact scan_at_end st hinp (by omega)
    rw [collectArgs, hf]
    simp only []
    have htok : upd st.buf st.blast tEOF st.bpos = tEOF := by
      unfold upd
      rw [if_pos hb]
    rw [htok, if_pos (by omega), if_neg (by decide)]
    have hstep := ih
      { st with buf := upd st.buf st.blast tEOF, blast := st.blast + 1, bpos := st.bpos + 1 }
      (acc ++ [tEOF]) hinp (by show st.bpos + 1 = st.blast + 1; omega)
      (by show st.blast + 1 + n ≤ BUFFERMAX; omega)
      (by simp only [List.length_append, List.length_singleton]; omega)
    rw [hstep]
    simp only [List.replicate_succ, List.append_assoc, List.singleton_append, writeAll]
    congr 3 <;> omega

/-- An invocation that is the last thing in the document: every argument is the
end-of-input token, and its spelling is substituted. -/
theorem expand_at_end (st : Engine) (L : List (List Nat)) (m n : Nat) (ha : Arena st L)
    (hinp : st.inp = []) (hlast : st.bpos + 1 = st.blast)
    (hm : findMacro st.mname (st.buf st.bpos) st.mlast 0 = m) (hmm : m < MACROMAX)
    (hn : st.margs m = n) (h9 : n ≤ 9)
    (hrefs : ∀ t ∈ spelling st (st.mdef m), tARG1 ≤ t → t ≤ tARG9 → t - tARG1 < n)
    (hcap1 : st.blast + n ≤ BUFFERMAX)
    (hcap2 : st.bpos +
      (substToks (List.replicate n [69, 79, 70]) (spelling st (st.mdef m))).length ≤ BUFFERMAX) :
    spelling st tEOF = [69, 79, 70] ∧
    (∃ s1, collectArgs n { st with bpos := st.bpos + 1 } [] = .ok (s1, List.replicate n tEOF) ∧
      s1.bpos = st.blast + n ∧ s1.blast = st.blast + n) ∧
    ∃ st1, expand st = .ok st1 ∧ st1.bpos = st.bpos ∧
      (List.range (substToks (List.replicate n [69, 79, 70])
          (spelling st (st.mdef m))).length).map (fun k => st1.buf (st.bpos + k)) =
        substToks (List.replicate n [69, 79, 70]) (spelling st (st.mdef m)) := by
  have heof := arena_spelling_eof st L ha
  have hc := collectArgs_at_end n { st with bpos := st.bpos + 1 } [] hinp hlast hcap1
    (by simp only [List.length_nil]; omega)
  rw [List.nil_append] at hc
  obtain ⟨S, hS⟩ : ∃ S : Engine, S =
      { st with buf := writeAll st.buf st.blast (List.replicate n tEOF),
                blast := st.blast + n, bpos := st.bpos + 1 + n } := ⟨_, rfl⟩
  have hc1 : collectArgs n { st with bpos := st.bpos + 1 } [] =
      .ok (S, List.replicate n tEOF) := by rw [hS]; exact hc
  have hsp : spelling S = spelling st := by rw [hS]; rfl
  have hSb : S.bpos = st.blast + n := by rw [hS]; show st.bpos + 1 + n = st.blast + n; omega
  have hSl : S.blast = st.blast + n := by rw [hS]
  have hpar : (List.replicate n tEOF).map (spelling st) = List.replicate n [69, 79, 70] := by
    rw [List.map_replicate, heof]
  refine ⟨heof, ⟨S, hc1, hSb, hSl⟩, ?_⟩
  obtain ⟨_, _, _, hall, hex⟩ := expand_built st S (List.replicate n tEOF) m L ha hm hmm
    (by rw [hn]; exact hc1)
    (by rw [hsp, hn]; exact hrefs)
    (by rw [hsp, hpar]; exact hcap2)
  obtain ⟨st1, k1⟩ := hex (Or.inl (by omega))
  obtain ⟨k2, k3, k4⟩ := hall st1 k1
  have hfun : spelling st1 = spelling st := by
    funext i
    rw [k3 i, hsp]
  rw [hfun, hpar] at k4
  exact ⟨st1, k1, k2, k4⟩

/-! ## A macro whose body is its own invocation -/

theorem compact_id (st : Engine) (h : st.bpos ≤ TOKENMAX) : compact st = st := by
  unfold compact
  rw [if_neg (by omega)]

/-- The function `expand` on a macro without arguments whose body is spelled as
the invocation token alone: the state does not change. -/
theorem expand_fixed (X : Engine) (m : Nat)
    (hm : findMacro X.mname (X.buf X.bpos) X.mlast 0 = m) (hmm : m < MACROMAX)
    (harity : X.margs m = 0) (hlen : X.plen (X.mdef m) = 1)
    (hbody : X.pool (X.ppos (X.mdef m)) = X.buf X.bpos)
    (hnm : X.buf X.bpos < tARG1 ∨ X.buf X.bpos > tARG9) (hcap : X.bpos < BUFFERMAX) :
    expand X = .ok X := by
  unfold expand
  simp only []
  rw [hm, if_pos hmm, harity]
  simp only [collectArgs, hlen, substitute, hbody, hnm, if_true, List.length_nil,
    show 0 < BUFFERMAX by decide, List.nil_append, List.length_singleton, gt_iff_lt,
    Nat.lt_irrefl, if_false, copyIn, hcap]
  congr 1
  apply Engine.ext <;> try rfl
  · funext j
    show (if j = X.bpos then X.buf X.bpos else X.buf j) = X.buf j
    split
    · rename_i h
      rw [h]
    · rfl
  · simp only []
    omega

/-- The driver on a state that `expand` does not change never returns. -/
theorem next_loops (X : Engine) (hlt : X.bpos < X.blast) (hlow : X.bpos ≤ TOKENMAX)
    (hge : tSENTINEL ≤ X.buf X.bpos) (hexp : expand X = .ok X) :
    ∀ fuel, next fuel X = .error .fuel := by
  intro fuel
  induction fuel with
  | zero => rfl
  | succ f ih =>
    have hf : fill X = .ok X := by
      unfold fill
      rw [if_neg (by omega)]
    rw [next, hf]
    simp only []
    rw [compact_id X hlow, if_neg (by simp only [tSENTINEL, tDEF] at hge ⊢; omega), if_pos hge,
      hexp]
    exact ih

end Mex


namespace Mex

/-! ## A macro body that is a single token -/

/-- The function `define` on a directive whose body is a single token: `s1` is
the state with the name under the cursor, `s2` the state after the name is
entered into the table, `s3` the state with the token behind the name under the
cursor, `s4` the state in which the body is examined (behind the arity digit
if there is one).  The token under the cursor of `s4` is stored as the body,
and the cursor stays on it. -/
theorem define_token_body (st s1 s2 s3 s4 : Engine) (i : Nat)
    (h1 : fill st = .ok s1) (hname : tSENTINEL ≤ s1.buf s1.bpos)
    (hi : findMacro s1.mname (s1.buf s1.bpos) s1.mlast 0 = i)
    (h2 : (i = s1.mlast ∧ s1.mlast < MACROMAX ∧
        s2 = { s1 with mname := upd s1.mname s1.mlast (s1.buf s1.bpos),
                       mlast := s1.mlast + 1 }) ∨
      (i ≠ s1.mlast ∧ s2 = s1))
    (h3 : fill { s2 with bpos := s2.bpos + 1 } = .ok s3)
    (h4 : (48 ≤ s3.buf s3.bpos ∧ s3.buf s3.bpos ≤ 57 ∧
        fill { s3 with margs := upd s3.margs i (s3.buf s3.bpos - 48),
                       bpos := s3.bpos + 1 } = .ok s4) ∨
      (¬ (48 ≤ s3.buf s3.bpos ∧ s3.buf s3.bpos ≤ 57) ∧
        s4 = { s3 with margs := upd s3.margs i 0 }))
    (hb : s4.buf s4.bpos ≠ tBGROUP) (he : s4.buf s4.bpos ≠ tEOF) :
    define st = .ok { s4 with mdef := upd s4.mdef i (s4.buf s4.bpos) } := by
  unfold define
  rw [h1]
  simp only []
  rw [if_neg (by omega), hi]
  have hr2 : (if i = s1.mlast then
        if s1.mlast < MACROMAX then
          Except.ok { s1 with mname := upd s1.mname s1.mlast (s1.buf s1.bpos),
                              mlast := s1.mlast + 1 }
        else Except.error Fault.tableOverflow
      else Except.ok s1) = Except.ok s2 := by
    rcases h2 with ⟨a, b, c⟩ | ⟨a, b⟩
    · rw [if_pos a, if_pos b, c]
    · rw [if_neg a, b]
  rw [hr2]
  simp only []
  rw [h3]
  simp only []
  have hr4 : (if 48 ≤ s3.buf s3.bpos ∧ s3.buf s3.bpos ≤ 57 then
        fill { s3 with margs := upd s3.margs i (s3.buf s3.bpos - 48), bpos := s3.bpos + 1 }
      else Except.ok { s3 with margs := upd s3.margs i 0 }) = Except.ok s4 := by
    rcases h4 with ⟨a, b, c⟩ | ⟨a, b⟩
    · rw [if_pos ⟨a, b⟩, c]
    · rw [if_neg a, b]
  rw [hr4]
  simp only []
  rw [if_neg hb, if_pos he]

set_option maxRecDepth 10000 in
/-- The first round of `next` on the document `\def\a` `c` ..: the definition
is recorded with the body `c`, and `next` goes on with the cursor on `c`. -/
theorem next_single_define (c : Nat) (hp : isPlain c) (hna : isalpha c = false)
    (hnd : ¬ (48 ≤ c ∧ c ≤ 57)) (hns : isspace c = false) (rest : List Nat) :
    ∃ st1, (∀ fuel, next (fuel + 1) (init ([92, 100, 101, 102, 92, 97] ++ c :: rest)) =
        next fuel st1) ∧
      st1.inp = rest ∧ st1.bpos = 2 ∧ st1.blast = 3 ∧ st1.buf 2 = c ∧ st1.is_start = false ∧
      st1.line_breaks = 0 ∧ Arena st1 [[tESCAPE, 97]] ∧ st1.mlast = 1 ∧ st1.mname 0 = 270 ∧
      st1.margs 0 = 0 ∧ st1.mdef 0 = c := by
  obtain ⟨S0, hS0⟩ : ∃ S0, S0 = init ([92, 100, 101, 102, 92, 97] ++ c :: rest) := ⟨_, rfl⟩
  have i1 : S0.inp = 92 :: ([100, 101, 102] ++ (92 :: ([97] ++ c :: rest))) := by
    rw [hS0, init_inp]; rfl
  have i2 : S0.bpos = 0 := by rw [hS0, init_bpos]
  have i3 : S0.blast = 0 := by rw [hS0, init_blast]
  have i4 : S0.line_breaks = 0 := by rw [hS0, init_line_breaks]
  have i5 : S0.mlast = 0 := by rw [hS0, init_mlast]
  have i6 : Arena S0 [] := by rw [hS0]; exact arena_init _
  have i7 := i6.pcur
  have i8 := i6.plast
  simp only [List.length_nil, List.map_nil, List.sum_nil, Nat.add_zero] at i7 i8
  rw [← hS0]
  obtain ⟨s0, c0, b1, b2, b3, b4, b5, b6, b7, b8, b9, b10, b11, b12, b13⟩ :=
    next_front S0 [100, 101, 102] _ [] (by omega) i1 (by simp) (by decide) (by decide)
      (Or.inr ⟨92, _, rfl, rfl⟩) i6 (by simp only [BUFFERMAX, TOKENMAX]; omega)
      (by simp only [UINT16_MAX, tSENTINEL] at i7 ⊢; omega)
      (by simp only [POOLMAX, List.length_cons, List.length_nil]; omega)
  have hds : [tESCAPE, 100, 101, 102] = defSpelling := rfl
  rw [if_pos hds] at b8 b9
  rw [i2] at b6
  have b6' : c0.bpos = 0 := b6
  rw [b6'] at b7
  -- the name
  obtain ⟨D, hD⟩ : ∃ D : Engine, D = { c0 with bpos := c0.bpos + 1 } := ⟨_, rfl⟩
  have haD : Arena D [] :=
    arena_congr c0 D [] b9 (by rw [hD]) (by rw [hD]) (by rw [hD]) (by rw [hD]) (by rw [hD])
  have d1 : D.bpos = 1 := by rw [hD]; show c0.bpos + 1 = 1; omega
  have d2 : D.blast = 1 := by rw [hD]; show c0.blast = 1; omega
  have d3 : D.inp = 92 :: ([97] ++ c :: rest) := by rw [hD]; exact b3
  have d4 : D.mlast = 0 := by rw [hD]; show c0.mlast = 0; rw [b13, i5]
  have d5 : D.line_breaks = 0 := by rw [hD]; show c0.line_breaks = 0; rw [b5, i4]
  have d7 := haD.pcur
  have d8 := haD.plast
  simp only [List.length_nil, List.map_nil, List.sum_nil, Nat.add_zero] at d7 d8
  obtain ⟨s1, a1, a2, a3, a4, a5, a6, a7, a8, a9, a10, a11, a12⟩ :=
    scan_name D [97] (c :: rest) [] d3 (by simp) (by decide) (by decide)
      (Or.inr ⟨c, rest, rfl, hna⟩) haD (by simp only [BUFFERMAX, TOKENMAX]; omega)
      (by simp only [UINT16_MAX, tSENTINEL] at d7 ⊢; omega)
      (by simp only [POOLMAX, List.length_cons, List.length_nil]; omega)
  have hnds : ¬ ([tESCAPE, 97] = defSpelling) := by decide
  rw [if_neg hnds] at a7 a8
  have hid : internId [] [tESCAPE, 97] = 270 := rfl
  have hin : internIn [] [tESCAPE, 97] = [[tESCAPE, 97]] := rfl
  rw [hid] at a7
  rw [hin] at a8
  have hfD : fill D = .ok s1 := by unfold fill; rw [if_pos (by omega)]; exact a1
  have htok : s1.buf s1.bpos = 270 := by rw [a7, a5, d1, d2, upd_same]
  have hml : s1.mlast = 0 := by rw [a12, d4]
  -- the body token
  obtain ⟨s2, hs2⟩ : ∃ s2 : Engine, s2 =
      { s1 with mname := upd s1.mname s1.mlast (s1.buf s1.bpos), mlast := s1.mlast + 1 } :=
    ⟨_, rfl⟩
  obtain ⟨S, hS⟩ : ∃ S : Engine, S = { s2 with bpos := s2.bpos + 1 } := ⟨_, rfl⟩
  have e1 : S.bpos = 2 := by rw [hS, hs2]; show s1.bpos + 1 = 2; omega
  have e2 : S.blast = 2 := by rw [hS, hs2]; show s1.blast = 2; omega
  have e3 : S.inp = c :: rest := by rw [hS, hs2]; exact a2
  have e4 : S.is_start = false := by rw [hS, hs2]; exact a3
  have e5 : S.line_breaks = 0 := by rw [hS, hs2]; show s1.line_breaks = 0; rw [a4, d5]
  have hc32 : c ≠ 32 := by
    intro h
    rw [h] at hns
    exact absurd hns (by decide)
  have hfeed : Feed S ([Lx.lit c].map Lx.tok) rest :=
    feed_of_input S [Lx.lit c] rest (by omega) e4 e5
      (by simp [lxOK, Lx.ok, Lx.isSp, hp, hns, hc32]) (by rw [e3]; rfl)
  obtain ⟨inp1, buf1, blast1, f1, f2, f3, f4⟩ := feed_pull S c [] rest hfeed
    (by simp only [List.length_nil, BUFFERMAX, TOKENMAX]; omega)
  obtain ⟨g1, g2⟩ := feed_done _ rest f4
  simp only [] at g1 g2
  obtain ⟨s3, hs3⟩ : ∃ s3 : Engine, s3 = { S with inp := inp1, buf := buf1, blast := blast1 } :=
    ⟨_, rfl⟩
  rw [← hs3] at f1
  have k1 : s3.buf s3.bpos = c := by rw [hs3]; exact f2
  have hdef := define_token_body D s1 s2 s3 { s3 with margs := upd s3.margs 0 0 } 0 hfD
    (by rw [htok]; decide) (by rw [hml]; rfl) (Or.inl ⟨hml.symm, by rw [hml]; decide, hs2⟩)
    (by rw [← hS]; exact f1) (Or.inr ⟨by rw [k1]; exact hnd, rfl⟩)
    (by show s3.buf s3.bpos ≠ tBGROUP; rw [k1]; have := hp.1; simp only [tBGROUP]; omega)
    (by show s3.buf s3.bpos ≠ tEOF; rw [k1]; have := hp.1; simp only [tEOF]; omega)
  refine ⟨{ s3 with margs := upd s3.margs 0 0, mdef := upd s3.mdef 0 (s3.buf s3.bpos) },
    ?_, ?_, ?_, ?_, ?_, ?_, ?_, ?_, ?_, ?_, ?_, ?_⟩
  · intro fuel
    rw [next, b1]
    simp only []
    rw [← b2, b8, if_pos rfl, ← hD, hdef]
  · show s3.inp = rest
    rw [hs3]; exact g2
  · show s3.bpos = 2
    rw [hs3]; exact e1
  · show s3.blast = 3
    rw [hs3]; show blast1 = 3; omega
  · show s3.buf 2 = c
    rw [← e1, hs3]; exact f2
  · show s3.is_start = false
    rw [hs3]; exact e4
  · show s3.line_breaks = 0
    rw [hs3]; exact e5
  · exact arena_congr s1 _ _ a8 (by rw [hs3, hS, hs2]) (by rw [hs3, hS, hs2])
      (by rw [hs3, hS, hs2]) (by rw [hs3, hS, hs2]) (by rw [hs3, hS, hs2])
  · show s3.mlast = 1
    rw [hs3, hS, hs2]; show s1.mlast + 1 = 1; omega
  · show s3.mname 0 = 270
    rw [hs3, hS, hs2]; show upd s1.mname s1.mlast (s1.buf s1.bpos) 0 = 270
    rw [hml, htok, upd_same]
  · show upd s3.margs 0 0 0 = 0
    rw [upd_same]
  · show upd s3.mdef 0 (s3.buf s3.bpos) 0 = c
    rw [upd_same, k1]

set_option maxRecDepth 10000 in
/-- The document `\def\a` `c` `\a` for a plain byte `c` that is no letter, no
digit and no whitespace: `c` is written twice. -/
theorem mxrun_single_token_body (c : Nat) (hp : isPlain c) (hna : isalpha c = false)
    (hnd : ¬ (48 ≤ c ∧ c ≤ 57)) (hns : isspace c = false) (fuel : Nat) (hf : 3 ≤ fuel) :
    mxrun fuel ([92, 100, 101, 102, 92, 97] ++ c :: [92, 97]) = .ok [c, c] := by
  obtain ⟨st1, n1, t1, t2, t3, t4, t5, t6, t7, t8, t9, t10, t11⟩ :=
    next_single_define c hp hna hnd hns [92, 97]
  have hc256 := hp.1
  have hT : TOKENMAX = 500 := rfl
  have hB : BUFFERMAX = 1500 := rfl
  have htok1 : st1.buf st1.bpos = c := by rw [t2]; exact t4
  -- the first round returns the body token
  have r1 : ∀ f, next (f + 2) (init ([92, 100, 101, 102, 92, 97] ++ c :: [92, 97])) =
      .ok (c, advance st1) := by
    intro f
    rw [n1 (f + 1), next_emit f st1 (by omega) (by rw [htok1]; simp only [tDEF]; omega)
      (by rw [htok1]; simp only [tSENTINEL]; omega), htok1]
  obtain ⟨A1, hA1⟩ : ∃ A1 : Engine, A1 = advance st1 := ⟨_, rfl⟩
  have hA1' : A1 = { st1 with bpos := st1.bpos + 1 } := by
    rw [hA1]; unfold advance; rw [compact_id st1 (by omega)]
  rw [← hA1] at r1
  have u1 : A1.inp = 92 :: ([97] ++ []) := by rw [hA1']; exact t1
  have u2 : A1.bpos = 3 := by rw [hA1']; show st1.bpos + 1 = 3; omega
  have u3 : A1.blast = 3 := by rw [hA1']; exact t3
  have u4 : Arena A1 [[tESCAPE, 97]] := by
    rw [hA1']; exact arena_congr st1 _ _ t7 rfl rfl rfl rfl rfl
  have u5 : A1.mlast = 1 := by rw [hA1']; exact t8
  have u6 : A1.mname 0 = 270 := by rw [hA1']; exact t9
  have u7 : A1.margs 0 = 0 := by rw [hA1']; exact t10
  have u8 : A1.mdef 0 = c := by rw [hA1']; exact t11
  have u9 := u4.pcur
  have u10 := u4.plast
  simp only [List.length_cons, List.length_nil, List.map_cons, List.map_nil, List.sum_cons,
    List.sum_nil, Nat.add_zero] at u9 u10
  -- the invocation
  obtain ⟨s0, X, b1, b2, b3, b4, b5, b6, b7, b8, b9, b10, b11, b12, b13⟩ :=
    next_front A1 [97] [] [[tESCAPE, 97]] (by omega) u1 (by simp) (by decide) (by decide)
      (Or.inl rfl) u4 (by omega) (by simp only [UINT16_MAX, tSENTINEL] at u9 ⊢; omega)
      (by simp only [POOLMAX, List.length_cons, List.length_nil]; omega)
  have hnds : ¬ ([tESCAPE, 97] = defSpelling) := by decide
  rw [if_neg hnds] at b8 b9
  have hid : internId [[tESCAPE, 97]] [tESCAPE, 97] = 270 := rfl
  have hin : internIn [[tESCAPE, 97]] [tESCAPE, 97] = [[tESCAPE, 97]] := rfl
  rw [hid] at b8
  rw [hin] at b9
  rw [u2] at b6
  have x1 : X.bpos = 3 := b6
  have x2 : X.blast = 4 := by omega
  have x3 : X.mname 0 = 270 := by rw [b10]; exact u6
  have x4 : X.mlast = 1 := by rw [b13]; exact u5
  have x5 : X.margs 0 = 0 := by rw [b12]; exact u7
  have x6 : X.mdef 0 = c := by rw [b11]; exact u8
  have hm : findMacro X.mname (X.buf X.bpos) X.mlast 0 = 0 := by
    rw [b8, x4]
    show (if X.mname 0 = 270 then 0 else _) = 0
    rw [if_pos x3]
  obtain ⟨Y, hY⟩ : ∃ Y : Engine, Y = { X with bpos := X.bpos + 1 } := ⟨_, rfl⟩
  have hc : collectArgs (X.margs 0) { X with bpos := X.bpos + 1 } [] = .ok (Y, []) := by
    rw [x5, hY]; rfl
  have haY : Arena Y [[tESCAPE, 97]] := by
    rw [hY]; exact arena_congr X _ _ b9 rfl rfl rfl rfl rfl
  have y1 : Y.mdef 0 = c := by rw [hY]; exact x6
  have y2 : Y.bpos = 4 := by rw [hY]; show X.bpos + 1 = 4; omega
  have y3 : Y.blast = 4 := by rw [hY]; exact x2
  have y4 : Y.inp = [] := by rw [hY]; exact b3
  have hsp : spelling Y (Y.mdef 0) = [c] := by
    rw [y1]; exact arena_spelling_lit Y _ haY c hc256
  have hsub : substToks (([] : List Nat).map (spelling Y)) (spelling Y (Y.mdef 0)) = [c] := by
    rw [hsp]
    simp only [substToks, List.map_nil, List.append_nil]
    rw [if_pos (Or.inl (by simp only [tARG1]; omega))]
  obtain ⟨buf1, he⟩ := expand_general X Y [] 0 hm (by decide) hc
    (by
      intro t ht
      rw [hsp, List.mem_singleton] at ht
      left
      rw [ht]
      simp only [tARG1]
      omega)
    (by rw [hsub]; simp only [List.length_singleton]; omega)
    (Or.inl (by omega))
  rw [hsub] at he
  obtain ⟨E, hE⟩ : ∃ E : Engine, E =
      { Y with buf := writeAll buf1 X.bpos [c],
               blast := Y.blast + (X.bpos + [c].length) - Y.bpos, bpos := X.bpos } := ⟨_, rfl⟩
  rw [← hE] at he
  have z1 : E.bpos = 3 := by rw [hE]; exact x1
  have z2 : E.blast = 4 := by
    rw [hE]
    show Y.blast + (X.bpos + [c].length) - Y.bpos = 4
    simp only [List.length_singleton]
    omega
  have z3 : E.buf E.bpos = c := by
    rw [hE]
    show upd buf1 X.bpos c X.bpos = c
    rw [upd_same]
  have z4 : E.inp = [] := by rw [hE]; exact y4
  have r2 : ∀ f, next (f + 2) A1 = .ok (c, advance E) := by
    intro f
    rw [next, b1]
    simp only []
    rw [← b2, b8, if_neg (by decide), if_pos (by decide), he]
    simp only []
    rw [next_emit f E (by omega) (by rw [z3]; simp only [tDEF]; omega)
      (by rw [z3]; simp only [tSENTINEL]; omega), z3]
  obtain ⟨A2, hA2⟩ : ∃ A2 : Engine, A2 = advance E := ⟨_, rfl⟩
  have hA2' : A2 = { E with bpos := E.bpos + 1 } := by
    rw [hA2]; unfold advance; rw [compact_id E (by omega)]
  rw [← hA2] at r2
  -- the end of the input
  obtain ⟨s9, r3⟩ := next_after_eof A2 (fuel - 1) (by rw [hA2']; exact z4)
    (by rw [hA2']; show E.bpos + 1 = E.blast; omega)
    (by rw [hA2']; show E.blast < BUFFERMAX; omega)
  obtain ⟨g, rfl⟩ : ∃ g, fuel = g + 3 := ⟨fuel - 3, by omega⟩
  have r3' : next (g + 3) A2 = .ok (tEOF, s9) := r3
  unfold mxrun mxrunState
  have c1 : c ≠ tEOF := by simp only [tEOF]; omega
  have c2 : c < tEOF := by simp only [tEOF]; omega
  rw [runLoop, r1 (g + 1)]
  simp only [c1, if_false, c2, if_true]
  rw [runLoop, r2 (g + 1)]
  simp only [c1, if_false, c2, if_true]
  rw [runLoop, r3']
  simp only [if_true, List.nil_append, List.singleton_append]

/-- After `define` has stored a single token as the body, the cursor is on that
token, and `next` returns it if it is a literal or a primitive other than the
token of `\def`. -/
theorem define_token_body_spec (st s1 s2 s3 s4 : Engine) (i : Nat)
    (h1 : fill st = .ok s1) (hname : tSENTINEL ≤ s1.buf s1.bpos)
    (hi : findMacro s1.mname (s1.buf s1.bpos) s1.mlast 0 = i)
    (h2 : (i = s1.mlast ∧ s1.mlast < MACROMAX ∧
        s2 = { s1 with mname := upd s1.mname s1.mlast (s1.buf s1.bpos),
                       mlast := s1.mlast + 1 }) ∨
      (i ≠ s1.mlast ∧ s2 = s1))
    (h3 : fill { s2 with bpos := s2.bpos + 1 } = .ok s3)
    (h4 : (48 ≤ s3.buf s3.bpos ∧ s3.buf s3.bpos ≤ 57 ∧
        fill { s3 with margs := upd s3.margs i (s3.buf s3.bpos - 48),
                       bpos := s3.bpos + 1 } = .ok s4) ∨
      (¬ (48 ≤ s3.buf s3.bpos ∧ s3.buf s3.bpos ≤ 57) ∧
        s4 = { s3 with margs := upd s3.margs i 0 }))
    (hb : s4.buf s4.bpos ≠ tBGROUP) (he : s4.buf s4.bpos ≠ tEOF) :
    ∃ st1, define st = .ok st1 ∧ st1.bpos = s4.bpos ∧ st1.buf = s4.buf ∧
      st1.blast = s4.blast ∧ st1.mdef i = s4.buf s4.bpos ∧
      (∀ k, k ≠ i → st1.mdef k = s4.mdef k) ∧
      (s4.bpos < s4.blast → s4.buf s4.bpos < tSENTINEL → s4.buf s4.bpos ≠ tDEF →
        ∀ fuel, next (fuel + 1) st1 = .ok (s4.buf s4.bpos, advance st1)) := by
  refine ⟨{ s4 with mdef := upd s4.mdef i (s4.buf s4.bpos) },
    define_token_body st s1 s2 s3 s4 i h1 hname hi h2 h3 h4 hb he, rfl, rfl, rfl, ?_, ?_, ?_⟩
  · show upd s4.mdef i (s4.buf s4.bpos) i = s4.buf s4.bpos
    rw [upd_same]
  · intro k hk
    show upd s4.mdef i (s4.buf s4.bpos) k = s4.mdef k
    rw [upd_other _ _ _ _ hk]
  · intro hlt hs hd fuel
    exact next_emit fuel { s4 with mdef := upd s4.mdef i (s4.buf s4.bpos) } hlt hd hs

end Mex

namespace Mex

/-! ## The claims -/

/-- C1: substitution law, end to end.  For a macro name other than `def`, an
arity `n ≤ 9` (written as a digit, or omitted when `n = 0`), a body `B` of plain
bytes with whitespace only as single spaces and references `\1` .. `\n`, and
`n` arguments of such plain bytes, every group shorter than `TOKENMAX` and the
invocation with its arguments as well as the substitution fitting into the
token buffer from the cursor of the invocation on, `mxrun` on
`\def\name<n>{B}\name{A1}...{An}` returns and writes exactly `B` with each
reference `\i` replaced by `Ai`. -/
theorem C1_substitution_law (name digit : List Nat) (B : List Lx) (As : List (List Nat))
    (fuel : Nat)
    (hne : name ≠ []) (hal : ∀ c ∈ name, isalpha c = true) (hnl : name.length < TOKENMAX)
    (hnd : name ≠ bytes "def") (hn : As.length ≤ 9)
    (hdigit : (digit = [] ∧ As.length = 0) ∨ digit = [48 + As.length])
    (hB : bodyOK As.length B = true) (hBl : B.length < TOKENMAX)
    (hAs : ∀ a ∈ As, textOK a = true ∧ a.length < TOKENMAX)
    (hcap1 : compacted (B.length + 4 + digit.length) + 1 + groupCells As ≤ BUFFERMAX)
    (hcap2 : compacted (B.length + 4 + digit.length) + (instantiate As B).length ≤ BUFFERMAX)
    (hfuel : (instantiate As B).length + 3 ≤ fuel) :
    mxrun fuel (bytes "\\def\\" ++ name ++ digit ++ [123] ++ render B ++ [125] ++ [92] ++
      name ++ groups As) = .ok (instantiate As B) := by
  obtain ⟨doc, hdoc⟩ : ∃ doc, doc = bytes "\\def\\" ++ name ++ digit ++ [123] ++ render B ++
    [125] ++ [92] ++ name ++ groups As := ⟨_, rfl⟩
  rw [← hdoc]
  obtain ⟨p1, p2, p3, p4⟩ := directive_lx digit B As.length hn hdigit (bodyOK_lx _ B hB)
  have hitem := bodyOK_item _ B hB
  have hsub : substToks As (B.map Lx.tok) = instantiate As B := substToks_body _ As B hitem
  have hc0 : compacted (init doc).bpos = 0 := by rw [init_bpos]; rfl
  have hcur : compacted (init doc).bpos + 2 + ((digit.map Lx.lit).length + B.length + 2) =
      B.length + 4 + digit.length := by rw [hc0, p4]; omega
  obtain ⟨st2, k1, k2, k3, k4, k5, k6, k7, k8, k9, k10, k11, k12⟩ :=
    macro_round (init doc) name (digit.map Lx.lit) B As [] [] (by rw [init_bpos, init_blast])
      (init_line_breaks doc)
      (by rw [init_inp, hdoc, p3, List.append_nil]
          have : bytes "\\def\\" = [92, 100, 101, 102, 92] := by decide
          rw [this]
          simp only [List.append_assoc, List.cons_append, List.nil_append])
      (Or.inr (Or.inl rfl)) hne hal hnl
      (by intro h
          apply hnd
          have : bytes "def" = [100, 101, 102] := by decide
          rw [this]
          exact (List.cons.inj h).2)
      p1 p2 (bodyOK_flat _ B hB) hBl hAs (bodyOK_refs _ B hB) (Or.inl (init_mlast doc))
      (by rw [init_blast]; decide) (by rw [hcur]; exact hcap1)
      (by rw [hcur, hsub]; exact hcap2) (arena_init doc) (by rw [init_pcur]; decide)
      (by rw [init_plast]; decide)
  rw [hsub] at k4 k5
  obtain ⟨st3, r1, _⟩ := runLoop_pending st2 (instantiate As B) [] k2
    (by rw [k3]; exact compacted_le _) (by omega) k5
    (instantiate_lt _ As (fun a h => (hAs a h).1) B hitem)
  have r2 := runLoop_enter (init doc) st2 2 k1 1 _ [] _ r1
  have r3 := runLoop_mono (1 + 2) fuel (by omega) _ _ _ _ r2 fuel (by omega)
  unfold mxrun mxrunState
  rw [r3]
  rfl

set_option maxRecDepth 100000 in
theorem C1_substitution_law_witness :
    mxrun 20 (bytes "\\def\\" ++ bytes "greet" ++ [49] ++ [123] ++
        render ((bytes "hello, ").map Lx.lit ++ [Lx.arg 1, Lx.lit 33]) ++ [125] ++ [92] ++
        bytes "greet" ++ groups [bytes "world"]) =
      .ok (instantiate [bytes "world"] ((bytes "hello, ").map Lx.lit ++ [Lx.arg 1, Lx.lit 33])) ∧
    bytes "\\def\\" ++ bytes "greet" ++ [49] ++ [123] ++
        render ((bytes "hello, ").map Lx.lit ++ [Lx.arg 1, Lx.lit 33]) ++ [125] ++ [92] ++
        bytes "greet" ++ groups [bytes "world"] =
      bytes "\\def\\greet1\x7bhello, \\1!\x7d\\greet\x7bworld\x7d" ∧
    instantiate [bytes "world"] ((bytes "hello, ").map Lx.lit ++ [Lx.arg 1, Lx.lit 33]) =
      bytes "hello, world!" :=
  ⟨C1_substitution_law (bytes "greet") [49] ((bytes "hello, ").map Lx.lit ++ [Lx.arg 1, Lx.lit 33])
      [bytes "world"] 20 (by decide) (by decide) (by decide) (by decide) (by decide)
      (by decide) (by decide) (by decide) (by decide) (by decide) (by decide) (by decide),
    by decide, by decide⟩

set_option maxRecDepth 100000 in
/-- C2 (code defect): expansion is not fully recursive.  On the document
`\def\x{abc}\def\y{\x!}\y` the run writes `abc` followed by a NUL byte instead
of `abc!`: when `\x` is expanded inside the expansion of `\y`, the splice of
`expand` overwrites the pending token `!`. -/
theorem C2_nested_expansion_loses_text :
    mxrun 10 (bytes "\\def\\x\x7babc\x7d\\def\\y\x7b\\x!\x7d\\y") = .ok [97, 98, 99, 0] := by
  decide

set_option maxRecDepth 100000 in
/-- C3 (code defect): the splice does not preserve what follows the invocation
when the substitution is longer than the invocation.  On `\def\a1{x\1y}\a b`,
`expand` is entered at `s = 8`; after the argument the cursor is `e = 10`, the
extent is `11` and the token `b` (98) is pending; the substitution has the three
tokens `x`, space, `y`.  On return the extent is `12`, the cells from `s` on
hold `x`, space, `y`, and the cell after them holds `0`, not `b`; the run
writes `x y` and a NUL byte. -/
theorem C3_splice_drops_pending_token :
    spliceReport (bytes "\\def\\a1\x7bx\\1y\x7d\\a b") =
      .ok { s := 8, e := 10, blastBefore := 11, pendingBefore := [98],
            tmp := [120, 32, 121], blastAfter := 12, cells := [120, 32, 121, 0] } ∧
    mxrun 10 (bytes "\\def\\a1\x7bx\\1y\x7d\\a b") = .ok [120, 32, 121, 0] := by
  decide

/-- C4: a document without backslash, braces, `#` and whitespace is copied:
with fuel beyond its length, `mxrun` returns and writes exactly the input
bytes, whatever the length of the document. -/
theorem C4_identity (doc : List Nat)
    (h : ∀ c ∈ doc, isPlain c ∧ isspace c = false) (fuel : Nat) (hf : doc.length < fuel) :
    mxrun fuel doc = .ok doc := by
  rw [mxrun_plain doc (fun c hc => (h c hc).1) fuel hf]
  congr 1
  exact (litLex_copy doc (fun c hc => ⟨(h c hc).1.2.2.2.2, (h c hc).2⟩)).1

set_option maxRecDepth 100000 in
theorem C4_identity_witness :
    (∀ c ∈ bytes "abc", isPlain c ∧ isspace c = false) ∧
    mxrun 4 (bytes "abc") = .ok (bytes "abc") :=
  ⟨by decide, C4_identity (bytes "abc") (by decide) 4 (by decide)⟩

/-- C5: whitespace law.  For a document without backslash, braces and `#` that
does not end in whitespace, `mxrun` writes the input with the leading
whitespace removed and every maximal whitespace run replaced by a newline if
the run holds two or more newlines, and by a space otherwise. -/
theorem C5_whitespace_law (doc : List Nat) (hplain : ∀ c ∈ doc, isPlain c)
    (hend : endsInSpace doc = false) (fuel : Nat) (hf : doc.length < fuel) :
    mxrun fuel doc = .ok (normalize doc) := by
  rw [mxrun_plain doc hplain fuel hf]
  congr 1
  exact litLex_normalize doc (fun c hc => (hplain c hc).2.2.2.2) hend

set_option maxRecDepth 100000 in
theorem C5_whitespace_law_witness :
    (∀ c ∈ bytes " a   b\n \nc", isPlain c) ∧ endsInSpace (bytes " a   b\n \nc") = false ∧
    mxrun 12 (bytes " a   b\n \nc") = .ok (normalize (bytes " a   b\n \nc")) ∧
    normalize (bytes " a   b\n \nc") = bytes "a b\nc" :=
  ⟨by decide, by decide,
   C5_whitespace_law (bytes " a   b\n \nc") (by decide) (by decide) 12 (by decide), by decide⟩

set_option maxRecDepth 100000 in
/-- C6, as stated, fails: with `u = "a "`, the comment text `c` and `v` empty,
the document `a #c` + newline writes `a` and a space, the document `a ` writes
`a` only.  The whitespace before a comment is a run of its own. -/
theorem C6_comment_law_counterexample :
    (∀ a ∈ bytes "a ", isPlain a) ∧ (∀ x ∈ bytes "c", x ≠ 10) ∧
    mxrun 10 (bytes "a " ++ [35] ++ bytes "c" ++ [10] ++ []) = .ok (bytes "a ") ∧
    mxrun 10 (bytes "a " ++ []) = .ok (bytes "a") ∧
    mxrun 10 (bytes "a " ++ [35] ++ bytes "c" ++ [10] ++ []) ≠ mxrun 10 (bytes "a " ++ []) := by
  decide

/-- C6, amended: a comment contributes nothing when the whitespace around it
cannot be told apart.  For `u`, `v` without backslash, braces and `#`, and a
comment text `c` without newline, `mxrun` writes the same for
`u ++ "#" ++ c ++ "\n" ++ v` and for `u ++ v`, provided `u` is whitespace only,
or `u` does not end in whitespace, or `v` begins with a byte that is not
whitespace. -/
theorem C6_comment_law_amended (u c v : List Nat) (hu : ∀ a ∈ u, isPlain a)
    (hv : ∀ a ∈ v, isPlain a) (hc : ∀ x ∈ c, x ≠ 10)
    (H : (∀ a ∈ u, isspace a = true) ∨ endsInSpace u = false ∨
         ∃ d w, v = d :: w ∧ isspace d = false)
    (fuel : Nat) (hf : (u ++ [35] ++ c ++ [10] ++ v).length < fuel) :
    mxrun fuel (u ++ [35] ++ c ++ [10] ++ v) = mxrun fuel (u ++ v) ∧
    ∃ out, mxrun fuel (u ++ v) = .ok out := by
  have e : u ++ [35] ++ c ++ [10] ++ v = u ++ 35 :: (c ++ 10 :: v) := by simp
  rw [e] at hf ⊢
  have huv : ∀ a ∈ u ++ v, isPlain a := by
    intro a ha
    rcases List.mem_append.1 ha with h | h
    · exact hu a h
    · exact hv a h
  have h1 : litOK false (u ++ 35 :: (c ++ 10 :: v)) = true := by
    rw [litOK_append_plain u hu, litOK_cons_false]
    simp only [beq_self_eq_true, Bool.and_eq_true, decide_eq_true_eq]
    refine ⟨by unfold isLiteral; omega, ?_⟩
    rw [litOK_comment c hc v]
    exact litOK_of_plain v hv
  have h2 : cmtCount false (u ++ 35 :: (c ++ 10 :: v)) ≤ 997 := by
    rw [cmtCount_append_plain u hu]
    simp only [cmtCount, if_true]
    rw [cmtCount_comment c hc v, cmtCount_of_plain v hv]
    omega
  have h3 : (u ++ v).length < fuel := by
    simp only [List.length_append, List.length_cons] at hf ⊢
    omega
  rw [mxrun_literal _ h1 h2 fuel hf, mxrun_plain _ huv fuel h3]
  refine ⟨?_, _, rfl⟩
  congr 1
  exact litLex_comment_law u c v (fun a ha => (hu a ha).2.2.2.2)
    (fun a ha => (hv a ha).2.2.2.2) hc H

set_option maxRecDepth 100000 in
theorem C6_comment_law_amended_witness :
    (∀ a ∈ bytes "x", isPlain a) ∧ (∀ a ∈ bytes "y", isPlain a) ∧
    (∀ x ∈ bytes "comment", x ≠ 10) ∧ endsInSpace (bytes "x") = false ∧
    (mxrun 12 (bytes "x" ++ [35] ++ bytes "comment" ++ [10] ++ bytes "y") =
       mxrun 12 (bytes "x" ++ bytes "y") ∧
     ∃ out, mxrun 12 (bytes "x" ++ bytes "y") = .ok out) :=
  ⟨by decide, by decide, by decide, by decide,
   C6_comment_law_amended (bytes "x") (bytes "comment") (bytes "y") (by decide) (by decide)
     (by decide) (Or.inr (Or.inl (by decide))) 12 (by decide)⟩

/-- C7: escape rules of the scanner.  On input that begins with a backslash
followed by a byte `c` that is not alphabetic, one call of `scan` appends
exactly one token and consumes the two bytes: the argument marker
`tARG1 + c - '1'` if `c` is one of `'1'..'9'`, the literal token `c` otherwise;
and the document that consists of a backslash and such a `c` (not a digit
`'1'..'9'`) writes exactly the byte `c`. -/
theorem C7_escape_rules (st : Engine) (c : Nat) (rest : List Nat) (fuel : Nat)
    (hc : c < 256) (hna : isalpha c = false) (hinp : st.inp = 92 :: c :: rest)
    (hcap : st.blast < BUFFERMAX) (hfuel : 2 ≤ fuel) :
    ((49 ≤ c ∧ c ≤ 57) →
      scan st = .ok { st with inp := rest, is_start := false,
                              buf := upd st.buf st.blast (tARG1 + c - 49),
                              blast := st.blast + 1 }) ∧
    (¬ (49 ≤ c ∧ c ≤ 57) →
      scan st = .ok { st with inp := rest, is_start := false,
                              buf := upd st.buf st.blast c,
                              blast := st.blast + 1 } ∧
      mxrun fuel [92, c] = .ok [c]) := by
  have h := scan_escape st c rest hinp hcap hna
  constructor
  · intro hd
    rw [if_pos hd] at h
    exact h
  · intro hd
    rw [if_neg hd] at h
    exact ⟨h, mxrun_escape c hc hna hd fuel hfuel⟩

set_option maxRecDepth 100000 in
theorem C7_escape_rules_witness :
    (123 < 256 ∧ isalpha 123 = false ∧ ¬ (49 ≤ 123 ∧ 123 ≤ 57) ∧
      (init [92, 123, 97]).inp = 92 :: 123 :: [97] ∧ (init [92, 123, 97]).blast < BUFFERMAX) ∧
    (scan (init [92, 123, 97]) =
       .ok { init [92, 123, 97] with
             inp := [97], is_start := false,
             buf := upd (init [92, 123, 97]).buf (init [92, 123, 97]).blast 123,
             blast := (init [92, 123, 97]).blast + 1 } ∧
     mxrun 2 [92, 123] = .ok [123]) :=
  ⟨⟨by decide, by decide, by decide, by decide, by decide⟩,
   (C7_escape_rules (init [92, 123, 97]) 123 [97] 2 (by decide) (by decide) (by decide)
     (by decide) (by decide)).2 (by decide)⟩

/-- C8: interning law.  In every reachable state: (1) if `scan_cs` has scanned
a name of fewer than `TOKENMAX` letters, then in every later state `scan_cs` on
the same name (with room for one token in the buffer) returns, appends the same
identifier as the first time and leaves `pcur` and `plast` as they are; (2) if
`scan_group` has captured the token list `G`, then in every later state in
which the capture loop yields the same list `G`, `scan_group` returns the same
identifier and its interning step adds no entry, and when `G` has fewer than
`TOKENMAX` tokens the call as a whole adds no entry: `pcur` and `plast` are
what they were when it was called; (2a) the same for a group of plain bytes and
argument references given as the text read from the input both times; (3) on
the name `def`, `scan_cs` returns, appends the token `tDEF` and leaves `pcur`
and `plast` as they are. -/
theorem C8_interning_law (st : Engine) (hr : Reachable st) :
    (∀ (name r1 r2 : List Nat) (st1 st2 : Engine),
      (∀ c ∈ name, isalpha c = true) → name.length < TOKENMAX →
      (r1 = [] ∨ ∃ c r, r1 = c :: r ∧ isalpha c = false) →
      (r2 = [] ∨ ∃ c r, r2 = c :: r ∧ isalpha c = false) →
      st.inp = name ++ r1 → scan_cs st = .ok st1 → Later st1 st2 →
      st2.inp = name ++ r2 → st2.blast < BUFFERMAX →
      ∃ st3, scan_cs st2 = .ok st3 ∧ st3.buf st2.blast = st1.buf st.blast ∧
        st3.pcur = st2.pcur ∧ st3.plast = st2.plast) ∧
    (∀ (G : List Nat) (g : Nat) (sa st1 st2 sb : Engine),
      groupLoop (TOKENMAX + 1) st 1 [] = .ok (sa, G) → scan_group st = .ok (g, st1) →
      Later st1 st2 → groupLoop (TOKENMAX + 1) st2 1 [] = .ok (sb, G) →
      ∃ st3, scan_group st2 = .ok (g, st3) ∧ st3.pcur = sb.pcur ∧ st3.plast = sb.plast ∧
        (G.length < TOKENMAX → st3.pcur = st2.pcur ∧ st3.plast = st2.plast)) ∧
    (∀ (Gx : List Lx) (r1 r2 : List Nat) (g : Nat) (st1 st2 : Engine),
      lxOK (Gx ++ [Lx.eg]) = true → (∀ x ∈ Gx, x ≠ Lx.bg ∧ x ≠ Lx.eg) →
      Gx.length < TOKENMAX →
      st.bpos = st.blast → st.is_start = false → st.line_breaks = 0 →
      st.inp = render (Gx ++ [Lx.eg]) ++ r1 → st.bpos + Gx.length + 1 ≤ BUFFERMAX →
      scan_group st = .ok (g, st1) → Later st1 st2 →
      st2.bpos = st2.blast → st2.is_start = false → st2.line_breaks = 0 →
      st2.inp = render (Gx ++ [Lx.eg]) ++ r2 → st2.bpos + Gx.length + 1 ≤ BUFFERMAX →
      ∃ st3, scan_group st2 = .ok (g, st3) ∧ st3.pcur = st2.pcur ∧ st3.plast = st2.plast) ∧
    (∀ (r : List Nat), (r = [] ∨ ∃ c r0, r = c :: r0 ∧ isalpha c = false) →
      st.inp = bytes "def" ++ r → st.blast < BUFFERMAX →
      ∃ st1, scan_cs st = .ok st1 ∧ st1.buf st.blast = tDEF ∧ st1.pcur = st.pcur ∧
        st1.plast = st.plast) := by
  obtain ⟨L, ha⟩ := reachable_arena st hr
  have hsound := reachable_sound st hr
  refine ⟨?_, ?_, ?_, ?_⟩
  · intro name r1 r2 st1 st2 hal hlen hr1 hr2 hinp h hl hinp2 hcap
    obtain ⟨e1, a1⟩ := scan_cs_first st st1 name r1 L ha hinp hal hlen hr1 h
    obtain ⟨M, hM⟩ := later_grows st1 st2 hl _ a1
    by_cases hdef : tESCAPE :: name = defSpelling
    · rw [if_pos hdef] at e1 hM
      obtain ⟨st3, k1, k2, k3, k4⟩ := scan_cs_known st2 name r2 _ hM hinp2 hal hlen hr2
        (Or.inl hdef) hcap
      rw [if_pos hdef] at k2
      exact ⟨st3, k1, by rw [k2, e1], k3, k4⟩
    · rw [if_neg hdef] at e1 hM
      have hmem : tESCAPE :: name ∈ internIn L (tESCAPE :: name) ++ M :=
        List.mem_append_left _ (mem_internIn_self L _)
      obtain ⟨st3, k1, k2, k3, k4⟩ := scan_cs_known st2 name r2 _ hM hinp2 hal hlen hr2
        (Or.inr hmem) hcap
      rw [if_neg hdef] at k2
      refine ⟨st3, k1, ?_, k3, k4⟩
      rw [k2, e1]
      unfold internId
      rw [slotOf_append_of_mem _ M _ (mem_internIn_self L _)]
      exact internId_internIn_self L _
  · intro G g sa st1 st2 sb hloop h hl hloop2
    obtain ⟨M0, hsa⟩ := groupLoop_grows _ st st 1 [] (sa, G) hloop (grows_refl st) L ha
    obtain ⟨e1, a1, _⟩ := scan_group_arena st sa st1 G g hloop h _ hsa
    obtain ⟨M1, hM1⟩ := later_grows st1 st2 hl _ a1
    obtain ⟨M2, hsb⟩ := groupLoop_grows _ st2 st2 1 [] (sb, G) hloop2 (grows_refl st2) _ hM1
    have hmem : G ∈ internIn (L ++ M0) G ++ M1 ++ M2 :=
      List.mem_append_left _ (List.mem_append_left _ (mem_internIn_self _ _))
    refine ⟨sb, ?_, rfl, rfl, ?_⟩
    swap
    · intro hlen
      obtain ⟨_, hGsa⟩ := groupLoop_sound _ st 1 [] (sa, G) hloop hsound (fun t ht => by cases ht)
      have hs2 : Sound st2 := later_sound st1 st2 hl (scan_group_sound st st1 g h hsound).1
      have p1 : sa.pcur = tSENTINEL + (L ++ M0).length := hsa.pcur
      have p2 := a1.pcur
      have p3 := hM1.pcur
      have p4 : (L ++ M0).length ≤ (internIn (L ++ M0) G).length := by
        unfold internIn
        split
        · exact le_refl _
        · simp
      rw [List.length_append] at p3
      exact groupLoop_no_entry st2 sb G hloop2 hs2
        (fun t ht => lt_of_lt_of_le (hGsa t ht) (by show sa.pcur ≤ st2.pcur; omega)) hlen
    unfold scan_group
    rw [hloop2]
    simp only []
    rw [findEntry_group sb _ hsb G, if_pos hmem]
    simp only []
    rw [e1]
    unfold internId
    rw [slotOf_append_of_mem _ M2 _ (List.mem_append_left _ (mem_internIn_self _ _)),
      slotOf_append_of_mem _ M1 _ (mem_internIn_self _ _)]
    have := internId_internIn_self (L ++ M0) G
    unfold internId at this
    rw [this]
  · intro Gx r1 r2 g st1 st2 hok hflat hlen hb hs hlb hinp hcap h hl hb2 hs2 hlb2 hinp2 hcap2
    have hGflat : ∀ t ∈ Gx.map Lx.tok, t ≠ tEOF ∧ t ≠ tBGROUP ∧ t ≠ tEGROUP := by
      intro t ht
      obtain ⟨x, hx, rfl⟩ := List.mem_map.1 ht
      exact Lx.tok_flat x (lxOK_all _ hok x (List.mem_append_left _ hx)) (hflat x hx)
    have hmap : (Gx ++ [Lx.eg]).map Lx.tok = Gx.map Lx.tok ++ tEGROUP :: [] := by
      rw [List.map_append]; rfl
    have feed1 : Feed st (Gx.map Lx.tok ++ tEGROUP :: []) r1 := by
      rw [← hmap]; exact feed_of_input st _ r1 hb hs hlb hok hinp
    have feed2 : Feed st2 (Gx.map Lx.tok ++ tEGROUP :: []) r2 := by
      rw [← hmap]; exact feed_of_input st2 _ r2 hb2 hs2 hlb2 hok hinp2
    obtain ⟨i1, b1, l1, gl1, _⟩ := groupLoop_flat (Gx.map Lx.tok) (TOKENMAX + 1) st [] [] r1
      feed1 hGflat (by simpa using hlen) (by simp only [List.length_map]; omega)
      (by simp only [List.length_map, List.length_nil]; omega)
    obtain ⟨i2, b2, l2, gl2, _⟩ := groupLoop_flat (Gx.map Lx.tok) (TOKENMAX + 1) st2 [] [] r2
      feed2 hGflat (by simpa using hlen) (by simp only [List.length_map]; omega)
      (by simp only [List.length_map, List.length_nil]; omega)
    rw [List.nil_append] at gl1 gl2
    obtain ⟨e1, a1, _⟩ := scan_group_arena st _ st1 _ g gl1 h L
      (arena_congr st _ L ha rfl rfl rfl rfl rfl)
    obtain ⟨M1, hM1⟩ := later_grows st1 st2 hl _ a1
    have hmem : Gx.map Lx.tok ∈ internIn L (Gx.map Lx.tok) ++ M1 :=
      List.mem_append_left _ (mem_internIn_self _ _)
    obtain ⟨S2, hS2⟩ : ∃ S2 : Engine, S2 =
        { st2 with inp := i2, buf := b2, blast := l2,
                   bpos := st2.bpos + (Gx.map Lx.tok).length + 1 } := ⟨_, rfl⟩
    rw [← hS2] at gl2
    have haS : Arena S2 (internIn L (Gx.map Lx.tok) ++ M1) :=
      arena_congr st2 S2 _ hM1 (by rw [hS2]) (by rw [hS2]) (by rw [hS2]) (by rw [hS2])
        (by rw [hS2])
    refine ⟨S2, ?_, by rw [hS2], by rw [hS2]⟩
    unfold scan_group
    rw [gl2]
    simp only []
    rw [findEntry_group S2 _ haS (Gx.map Lx.tok), if_pos hmem]
    simp only []
    rw [e1]
    unfold internId
    rw [slotOf_append_of_mem _ M1 _ (mem_internIn_self _ _)]
    have := internId_internIn_self L (Gx.map Lx.tok)
    unfold internId at this
    rw [this]
  · intro r hrest hinp hcap
    have hb : bytes "def" = [100, 101, 102] := by decide
    rw [hb] at hinp
    obtain ⟨st1, k1, k2, k3, k4⟩ := scan_cs_known st [100, 101, 102] r L ha hinp (by decide)
      (by decide) hrest (Or.inl rfl) hcap
    exact ⟨st1, k1, k2, k3, k4⟩

set_option maxRecDepth 100000 in
theorem C8_interning_law_witness :
    Reachable (init (bytes "ab")) ∧
    ∃ st1 st3, scan_cs (init (bytes "ab")) = .ok st1 ∧
      scan_cs { st1 with inp := bytes "ab" } = .ok st3 ∧
      st3.buf st1.blast = st1.buf (init (bytes "ab")).blast ∧
      st3.pcur = st1.pcur ∧ st3.plast = st1.plast := by
  have hr : Reachable (init (bytes "ab")) := ⟨bytes "ab", by decide, Later.refl _⟩
  have hbl : (match scan_cs (init (bytes "ab")) with
      | .ok s => s.blast
      | .error _ => BUFFERMAX) = 1 := by decide
  refine ⟨hr, ?_⟩
  cases h : scan_cs (init (bytes "ab")) with
  | error e => rw [h] at hbl; cases hbl
  | ok st1 =>
    rw [h] at hbl
    have hs1 : Sound st1 := scan_cs_sound _ _ h (init_sound _ (by decide))
    obtain ⟨st3, k1, k2, k3, k4⟩ :=
      (C8_interning_law (init (bytes "ab")) hr).1 (bytes "ab") [] [] st1
        { st1 with inp := bytes "ab" } (by decide) (by decide) (Or.inl rfl) (Or.inl rfl)
        (by rw [init_inp, List.append_nil]) h
        (Later.frame _ _ _ (Later.refl _) ⟨rfl, rfl, rfl, rfl, rfl⟩
          (valid_congr st1 _ hs1.1 rfl rfl rfl (by
            show ∀ c ∈ bytes "ab", c < 256
            decide)))
        (by rw [List.append_nil])
        (by show st1.blast < BUFFERMAX
            simp only [] at hbl
            rw [hbl]
            decide)
    exact ⟨st1, st3, rfl, k1, k2, k3, k4⟩

/-- C9: redefinition is last-wins.  For a macro name other than `def` and
bodies `B1`, `B2` of plain bytes with whitespace only as single spaces, each
shorter than `TOKENMAX`, `mxrun` on `\def\a{B1}\a\def\a{B2}\a` returns and
writes `B1` followed by `B2`; in the state in which the run ends the macro
table has one entry, its name is `\a`, its arity 0 and its body `B2`. -/
theorem C9_redefinition_last_wins (name B1 B2 : List Nat) (fuel : Nat)
    (hne : name ≠ []) (hal : ∀ c ∈ name, isalpha c = true) (hnl : name.length < TOKENMAX)
    (hnd : name ≠ bytes "def")
    (h1 : textOK B1 = true) (h1l : B1.length < TOKENMAX)
    (h2 : textOK B2 = true) (h2l : B2.length < TOKENMAX)
    (hfuel : B1.length + B2.length + 5 ≤ fuel) :
    mxrun fuel (bytes "\\def\\" ++ name ++ [123] ++ B1 ++ [125] ++ [92] ++ name ++
      bytes "\\def\\" ++ name ++ [123] ++ B2 ++ [125] ++ [92] ++ name) = .ok (B1 ++ B2) ∧
    ∃ st, mxrunState fuel (bytes "\\def\\" ++ name ++ [123] ++ B1 ++ [125] ++ [92] ++ name ++
        bytes "\\def\\" ++ name ++ [123] ++ B2 ++ [125] ++ [92] ++ name) = .ok (B1 ++ B2, st) ∧
      st.mlast = 1 ∧ spelling st (st.mname 0) = tESCAPE :: name ∧ st.margs 0 = 0 ∧
      spelling st (st.mdef 0) = B2 := by
  obtain ⟨doc, hdoc⟩ : ∃ doc, doc = bytes "\\def\\" ++ name ++ [123] ++ B1 ++ [125] ++ [92] ++
    name ++ bytes "\\def\\" ++ name ++ [123] ++ B2 ++ [125] ++ [92] ++ name := ⟨_, rfl⟩
  rw [← hdoc]
  have hT1 : TOKENMAX = 500 := rfl
  have hB1 : BUFFERMAX = 1500 := rfl
  have hbd : bytes "\\def\\" = [92, 100, 101, 102, 92] := by decide
  have hnd1 : tESCAPE :: name ≠ defSpelling := by
    intro h
    apply hnd
    have : bytes "def" = [100, 101, 102] := by decide
    rw [this]
    exact (List.cons.inj h).2
  have hb1 := textOK_body B1 h1
  have hb2 := textOK_body B2 h2
  obtain ⟨p1, p2, p3, p4⟩ := directive_lx [] (B1.map Lx.lit) 0 (by omega) (Or.inl ⟨rfl, rfl⟩)
    (bodyOK_lx _ _ hb1)
  obtain ⟨q1, q2, q3, q4⟩ := directive_lx [] (B2.map Lx.lit) 0 (by omega) (Or.inl ⟨rfl, rfl⟩)
    (bodyOK_lx _ _ hb2)
  rw [render_lits] at p3 q3
  have hs1 : substToks [] ((B1.map Lx.lit).map Lx.tok) = B1 := by
    rw [substToks_body 0 [] _ (bodyOK_item _ _ hb1), instantiate_lits]
  have hs2 : substToks [] ((B2.map Lx.lit).map Lx.tok) = B2 := by
    rw [substToks_body 0 [] _ (bodyOK_item _ _ hb2), instantiate_lits]
  have hc0 : compacted (init doc).bpos = 0 := by rw [init_bpos]; rfl
  -- the first definition and invocation
  obtain ⟨st2, k1, k2, k3, k4, k5, k6, k7, k8, k9, k10, k11, k12⟩ :=
    macro_round (init doc) name [] (B1.map Lx.lit) []
      (92 :: ([100, 101, 102] ++ (92 :: (name ++ ([123] ++ B2 ++ [125] ++ (92 :: name))))))
      [] (by rw [init_bpos, init_blast]) (init_line_breaks doc)
      (by rw [init_inp, hdoc]
          change _ = 92 :: ([100, 101, 102] ++ (92 :: (name ++
            (render ([].map Lx.lit ++ Lx.bg :: (B1.map Lx.lit ++ [Lx.eg])) ++ _))))
          rw [p3, hbd]
          simp only [List.append_assoc, List.cons_append, List.nil_append, groups])
      (Or.inr (Or.inr ⟨92, _, rfl, rfl⟩)) hne hal hnl hnd1 (Or.inl ⟨rfl, rfl⟩) p2
      (bodyOK_flat _ _ hb1) (by simpa using h1l) (by intro a h; cases h)
      (bodyOK_refs _ _ hb1) (Or.inl (init_mlast doc)) (by rw [init_blast]; decide)
      (by have := compacted_le (compacted (init doc).bpos + 2 +
            (([] : List Lx).length + (B1.map Lx.lit).length + 2))
          simp only [groupCells]
          omega)
      (by have := compacted_le (compacted (init doc).bpos + 2 +
            (([] : List Lx).length + (B1.map Lx.lit).length + 2))
          rw [hs1]
          omega)
      (arena_init doc) (by rw [init_pcur]; decide) (by rw [init_plast]; decide)
  rw [hs1] at k4 k5
  have hlow2 := compacted_le (compacted (init doc).bpos + 2 +
    (([] : List Lx).length + (B1.map Lx.lit).length + 2))
  rw [← k3] at hlow2
  obtain ⟨L2, hL2⟩ : ∃ L2, L2 = internIn (internIn [] (tESCAPE :: name))
    ((B1.map Lx.lit).map Lx.tok) := ⟨_, rfl⟩
  have k8a : Arena st2 L2 := by rw [hL2]; exact k8
  have hid2 : internId L2 (tESCAPE :: name) = internId [] (tESCAPE :: name) := by
    rw [hL2]; exact internId_round [] _ _ []
  -- the tokens of the first body are written
  obtain ⟨st3, d1, d2, d3, d4, d5, d6, d7⟩ := runLoop_drain B1 st2 [] 3 (B2.length + 1)
    (by omega) (by omega) k5 (textOK_lt B1 h1)
  obtain ⟨t1, t2, t3, t4, t5, t6, t7, t8, t9⟩ := d7
  have ha3 : Arena st3 L2 := arena_congr st2 st3 L2 k8a t1 t2 t3 t4 t5
  have hp3 := ha3.pcur
  have hl3 := ha3.plast
  have hlen2 : L2.length ≤ 2 := by
    rw [hL2]
    have := length_internIn_le (internIn [] (tESCAPE :: name)) ((B1.map Lx.lit).map Lx.tok)
    have := length_internIn_le [] (tESCAPE :: name)
    simp only [List.length_nil] at this
    omega
  have hsum2 : (L2.map List.length).sum ≤ name.length + 1 + B1.length := by
    rw [hL2]
    have h := sum_internIn_le (internIn [] (tESCAPE :: name)) ((B1.map Lx.lit).map Lx.tok)
    have h0 := sum_internIn_le [] (tESCAPE :: name)
    simp only [List.map_nil, List.sum_nil, List.length_cons, List.length_map] at h h0
    omega
  -- the second definition and invocation
  obtain ⟨st4, m1, m2, m3, m4, m5, m6, m7, m8, m9, m10, m11, m12⟩ :=
    macro_round st3 name [] (B2.map Lx.lit) [] [] L2 d2 (d6.trans k7)
      (by rw [d4, k2]
          change _ = 92 :: ([100, 101, 102] ++ (92 :: (name ++
            (render ([].map Lx.lit ++ Lx.bg :: (B2.map Lx.lit ++ [Lx.eg])) ++ _))))
          rw [q3]
          simp only [List.append_assoc, List.cons_append, List.nil_append, groups,
            List.append_nil])
      (Or.inr (Or.inl rfl)) hne hal hnl hnd1 (Or.inl ⟨rfl, rfl⟩) q2
      (bodyOK_flat _ _ hb2) (by simpa using h2l) (by intro a h; cases h)
      (bodyOK_refs _ _ hb2) (Or.inr ⟨t9.trans k9, by rw [t6, k10, hid2]⟩) (by omega)
      (by have := compacted_le (compacted st3.bpos + 2 +
            (([] : List Lx).length + (B2.map Lx.lit).length + 2))
          simp only [groupCells]
          omega)
      (by have := compacted_le (compacted st3.bpos + 2 +
            (([] : List Lx).length + (B2.map Lx.lit).length + 2))
          rw [hs2]
          omega)
      ha3 (by rw [hp3]; simp only [tSENTINEL, UINT16_MAX]; omega)
      (by rw [hl3]; simp only [POOLMAX]; omega)
  rw [hs2] at m4 m5
  have hlow4 := compacted_le (compacted st3.bpos + 2 +
    (([] : List Lx).length + (B2.map Lx.lit).length + 2))
  rw [← m3] at hlow4
  -- the tokens of the second body are written and the run ends
  obtain ⟨st5, r1, r2⟩ := runLoop_pending st4 B2 ([] ++ B1) m2 hlow4 (by omega) m5
    (textOK_lt B2 h2)
  have r3 := runLoop_enter st3 st4 2 m1 1 _ _ _ r1
  rw [← d1] at r3
  have r4 := runLoop_enter (init doc) st2 2 k1 (1 + 2) _ _ _ r3
  have r5 := runLoop_mono (1 + 2 + 2) fuel (by omega) _ _ _ _ r4 fuel (by omega)
  rw [List.nil_append] at r5
  have hstate : mxrunState fuel doc = .ok (B1 ++ B2, st5) := r5
  obtain ⟨u1, u2, u3, u4, u5, u6, u7, u8, u9⟩ := r2
  have ha5 : Arena st5 (internIn (internIn L2 (tESCAPE :: name))
      ((B2.map Lx.lit).map Lx.tok)) := arena_congr st4 st5 _ m8 u1 u2 u3 u4 u5
  refine ⟨?_, st5, hstate, u9.trans m9, ?_, ?_, ?_⟩
  · unfold mxrun
    rw [hstate]
  · rw [u6, m10, ← internId_round L2 (tESCAPE :: name) ((B2.map Lx.lit).map Lx.tok) []]
    exact arena_spelling st5 _ ha5 _ (mem_internIn_of_mem _ _ _ (mem_internIn_self _ _))
  · rw [u8, m11]; rfl
  · rw [u7, m12, ← internId_round_body L2 (tESCAPE :: name) ((B2.map Lx.lit).map Lx.tok) []]
    have := arena_spelling st5 _ ha5 _ (mem_internIn_self (internIn L2 (tESCAPE :: name))
      ((B2.map Lx.lit).map Lx.tok))
    rw [tok_lits] at this ⊢
    exact this

set_option maxRecDepth 100000 in
theorem C9_redefinition_last_wins_witness :
    (mxrun 10 (bytes "\\def\\" ++ bytes "a" ++ [123] ++ bytes "xy" ++ [125] ++ [92] ++
        bytes "a" ++ bytes "\\def\\" ++ bytes "a" ++ [123] ++ bytes "z" ++ [125] ++ [92] ++
        bytes "a") = .ok (bytes "xy" ++ bytes "z") ∧
      ∃ st, mxrunState 10 (bytes "\\def\\" ++ bytes "a" ++ [123] ++ bytes "xy" ++ [125] ++
          [92] ++ bytes "a" ++ bytes "\\def\\" ++ bytes "a" ++ [123] ++ bytes "z" ++ [125] ++
          [92] ++ bytes "a") = .ok (bytes "xy" ++ bytes "z", st) ∧
        st.mlast = 1 ∧ spelling st (st.mname 0) = tESCAPE :: bytes "a" ∧ st.margs 0 = 0 ∧
        spelling st (st.mdef 0) = bytes "z") ∧
    bytes "\\def\\" ++ bytes "a" ++ [123] ++ bytes "xy" ++ [125] ++ [92] ++
        bytes "a" ++ bytes "\\def\\" ++ bytes "a" ++ [123] ++ bytes "z" ++ [125] ++ [92] ++
        bytes "a" = bytes "\\def\\a\x7bxy\x7d\\a\\def\\a\x7bz\x7d\\a" :=
  ⟨C9_redefinition_last_wins (bytes "a") (bytes "xy") (bytes "z") 10 (by decide) (by decide)
      (by decide) (by decide) (by decide) (by decide) (by decide) (by decide) (by decide),
    by decide⟩

set_option maxRecDepth 100000 in
/-- C10 (code defect): an undefined control sequence is not passed through.
`next` calls `expand` for every compound token; for a name that is not in the
macro table the search loop of `expand` ends at `m = mlast`, the unset slots
`margs[mlast]`, `mdef[mlast]` are read as arity `0` and body `0`, and the token
is replaced by the spelling of token `0`.  On the document `\foo` the call of
`next` returns `0`, and the run writes one NUL byte instead of nothing. -/
theorem C10_undefined_control_sequence_writes_nul :
    (next 5 (init (bytes "\\foo"))).map Prod.fst = .ok 0 ∧
    mxrun 10 (bytes "\\foo") = .ok [0] := by
  decide

set_option maxRecDepth 100000 in
/-- C11, as stated, fails for the arena.  On the document `\def \x` the first
`fill` delivers the token of `\def`; `define`, entered with the cursor behind
it, calls `scan`, which appends the space token and goes on to the next token,
the name `\x`, for which it adds an entry.  `define` returns with the cursor on
the space token (a literal, so the directive is dropped), but `pcur` has gone
from 270 to 271 and `plast` from 284 to 286. -/
theorem C11_malformed_define_counterexample :
    (match fill (init (bytes "\\def \\x")) with
      | .ok s0 =>
        match define { s0 with bpos := s0.bpos + 1 } with
        | .ok s1 =>
          some [s0.buf s0.bpos, s1.buf s1.bpos, s0.pcur, s1.pcur, s0.plast, s1.plast,
            s1.bpos, s1.blast]
        | .error _ => none
      | .error _ => none) = some [tDEF, 32, 270, 271, 284, 286, 1, 3] := by
  decide

set_option maxRecDepth 100000 in
/-- C11, amended: when the token that follows the directive, the token under the
cursor of the state `s1` that `if (bpos == blast) scan();` leaves, is not
compound, `define` returns in `s1`: the cursor has not moved, the macro table is
unchanged, and every arena entry that existed is unchanged.  If the token was
pending, nothing at all has changed.  If it had to be scanned, the arena is
either unchanged, or the token is a whitespace token and the same call of `scan`
has added one entry, whose identifier is the last token of the buffer.  Unless
the token is the token of `\def`, the next call of `next` returns it.  On the
document `\def!` the output is `!`. -/
theorem C11_malformed_define_amended (st s1 : Engine) (L : List (List Nat)) (ha : Arena st L)
    (hle : st.bpos ≤ st.blast) (hf : fill st = .ok s1) (ht : s1.buf s1.bpos < tSENTINEL) :
    (define st = .ok s1 ∧ s1.bpos = st.bpos ∧ sameTable st s1 ∧
      (st.bpos < st.blast → s1 = st) ∧ Extends st s1 ∧
      (sameArena st s1 ∨ (s1.pcur = st.pcur + 1 ∧ s1.buf (s1.blast - 1) = st.pcur ∧
        (s1.buf s1.bpos = 10 ∨ s1.buf s1.bpos = 32))) ∧
      (s1.buf s1.bpos ≠ tDEF →
        ∀ fuel, next (fuel + 1) s1 = .ok (s1.buf s1.bpos, advance s1))) ∧
    mxrun 10 (bytes "\\def!") = .ok [33] :=
  ⟨define_drop_spec st s1 L ha hle hf ht, by decide⟩

set_option maxRecDepth 100000 in
/-- C11, amended, in a state with nothing pending and the input ` \x`: the
token is the space token, and the entry of `\x` is added. -/
theorem C11_malformed_define_amended_witness :
    ∃ s1, fill { init (bytes " \\x") with is_start := false } = .ok s1 ∧
      s1.buf s1.bpos = 32 ∧
      (define { init (bytes " \\x") with is_start := false } = .ok s1 ∧
        s1.bpos = ({ init (bytes " \\x") with is_start := false } : Engine).bpos ∧
        sameTable { init (bytes " \\x") with is_start := false } s1 ∧
        (({ init (bytes " \\x") with is_start := false } : Engine).bpos <
            ({ init (bytes " \\x") with is_start := false } : Engine).blast →
          s1 = { init (bytes " \\x") with is_start := false }) ∧
        Extends { init (bytes " \\x") with is_start := false } s1 ∧
        (sameArena { init (bytes " \\x") with is_start := false } s1 ∨
          (s1.pcur = ({ init (bytes " \\x") with is_start := false } : Engine).pcur + 1 ∧
            s1.buf (s1.blast - 1) =
              ({ init (bytes " \\x") with is_start := false } : Engine).pcur ∧
            (s1.buf s1.bpos = 10 ∨ s1.buf s1.bpos = 32))) ∧
        (s1.buf s1.bpos ≠ tDEF →
          ∀ fuel, next (fuel + 1) s1 = .ok (s1.buf s1.bpos, advance s1))) ∧
      mxrun 10 (bytes "\\def!") = .ok [33] := by
  have hp : (match fill { init (bytes " \\x") with is_start := false } with
      | .ok s => s.buf s.bpos
      | .error _ => 1000) = 32 := by decide
  cases h : fill { init (bytes " \\x") with is_start := false } with
  | error e => rw [h] at hp; cases hp
  | ok s1 =>
    rw [h] at hp
    have hp1 : s1.buf s1.bpos = 32 := hp
    have ha : Arena ({ init (bytes " \\x") with is_start := false } : Engine) [] :=
      arena_not_start (init (bytes " \\x")) [] (arena_init _)
    have hle : ({ init (bytes " \\x") with is_start := false } : Engine).bpos ≤
        ({ init (bytes " \\x") with is_start := false } : Engine).blast := by
      have e1 : ∀ s : Engine, ({ s with is_start := false } : Engine).bpos = s.bpos :=
        fun _ => rfl
      have e2 : ∀ s : Engine, ({ s with is_start := false } : Engine).blast = s.blast :=
        fun _ => rfl
      rw [e1, e2, init_bpos, init_blast]
    exact ⟨s1, rfl, hp1, C11_malformed_define_amended
      { init (bytes " \\x") with is_start := false } s1 [] ha hle h (by rw [hp1]; decide)⟩

/-- C12: balanced capture.  Let the arena of `st` be well formed (as in every
reachable state), let `G` be a list of fewer than 500 tokens without the
end-of-input token that is brace-balanced, and let `G` followed by an end-group
token be the tokens that a consumer gets next from `st`, the state `st2` being
the one in which it has consumed them.  If the arena has room for one more
entry, `scan_group`, called in `st` (just behind an opening brace), returns an
identifier whose spelling is `G`, inner braces included, and leaves cursor,
buffer and input as in `st2`, that is, just behind the closing brace that
matches. -/
theorem C12_balanced_capture (st st2 : Engine) (G : List Nat) (L : List (List Nat))
    (ha : Arena st L) (hlen : G.length < 500) (heof : tEOF ∉ G) (hbal : balanced G)
    (hd : Delivers st (G ++ [tEGROUP]) st2) (hp : st2.pcur < UINT16_MAX)
    (hpool : st2.plast + G.length ≤ POOLMAX) :
    ∃ g st3, scan_group st = .ok (g, st3) ∧ spelling st3 g = G ∧ st3.bpos = st2.bpos ∧
      st3.buf = st2.buf ∧ st3.blast = st2.blast ∧ st3.inp = st2.inp := by
  obtain ⟨g, st3, h1, h2, h3, h4, h5, h6, _⟩ :=
    scan_group_balanced st st2 G L ha hd hbal heof hlen hp hpool
  exact ⟨g, st3, h1, h2, h3, h4, h5, h6⟩

set_option maxRecDepth 100000 in
/-- C12 for the group `a{b}c`, whose tokens and closing brace are pending in
the buffer. -/
theorem C12_balanced_capture_witness :
    ∃ g st3,
      scan_group { init [] with buf := fun j => ([97, 258, 98, 259, 99] ++ [tEGROUP]).getD j 0,
                                bpos := 0,
                                blast := ([97, 258, 98, 259, 99] ++ [tEGROUP]).length } =
        .ok (g, st3) ∧
      spelling st3 g = [97, 258, 98, 259, 99] ∧
      st3.bpos = ({ init [] with
        buf := fun j => ([97, 258, 98, 259, 99] ++ [tEGROUP]).getD j 0,
        bpos := ([97, 258, 98, 259, 99] ++ [tEGROUP]).length,
        blast := ([97, 258, 98, 259, 99] ++ [tEGROUP]).length } : Engine).bpos ∧
      st3.buf = ({ init [] with
        buf := fun j => ([97, 258, 98, 259, 99] ++ [tEGROUP]).getD j 0,
        bpos := ([97, 258, 98, 259, 99] ++ [tEGROUP]).length,
        blast := ([97, 258, 98, 259, 99] ++ [tEGROUP]).length } : Engine).buf ∧
      st3.blast = ({ init [] with
        buf := fun j => ([97, 258, 98, 259, 99] ++ [tEGROUP]).getD j 0,
        bpos := ([97, 258, 98, 259, 99] ++ [tEGROUP]).length,
        blast := ([97, 258, 98, 259, 99] ++ [tEGROUP]).length } : Engine).blast ∧
      st3.inp = ({ init [] with
        buf := fun j => ([97, 258, 98, 259, 99] ++ [tEGROUP]).getD j 0,
        bpos := ([97, 258, 98, 259, 99] ++ [tEGROUP]).length,
        blast := ([97, 258, 98, 259, 99] ++ [tEGROUP]).length } : Engine).inp :=
  C12_balanced_capture _ _ [97, 258, 98, 259, 99] []
    (arena_pending (init []) [] (arena_init []) _ _ _) (by decide) (by decide) (by decide)
    (delivers_buffer (init []) ([97, 258, 98, 259, 99] ++ [tEGROUP]))
    (by
      have e : ∀ (s : Engine) (b : Nat → Nat) (p n : Nat),
          ({ s with buf := b, bpos := p, blast := n } : Engine).pcur = s.pcur :=
        fun _ _ _ _ => rfl
      rw [e, init_pcur]
      decide)
    (by
      have e : ∀ (s : Engine) (b : Nat → Nat) (p n : Nat),
          ({ s with buf := b, bpos := p, blast := n } : Engine).plast = s.plast :=
        fun _ _ _ _ => rfl
      rw [e, init_plast]
      decide)

/-- C13: the macro table invariant.  In every state that the functions
`scan_cs`, `scan`, `scan_group`, `define`, `expand` and `next` reach from `init`
on an input of bytes (every call returning, that is, within capacity), the
names `macro[0..mlast)` are pairwise distinct, each of them is the identifier of
a compound entry of the arena, and every arity `margs[i]` is at most 9.  A call
of `define` in such a state, whose name token `t` is the token under the cursor
of the state `s1` that `if (bpos == blast) scan();` leaves, keeps the names
below `mlast` and either keeps `mlast` or increments it; it increments `mlast`
only if `t` is a compound token that no slot holds, and the new slot then holds
`t`; if the slot `i` holds `t`, then `mlast` and all names stay as they are and
arity and body change in no slot other than `i`. -/
theorem C13_macro_table_invariant (fp : List Nat) (hfp : ∀ c ∈ fp, c < 256) (st : Engine)
    (hr : Ran (init fp) st) :
    ((∀ i j, i < j → j < st.mlast → st.mname i ≠ st.mname j) ∧
      (∀ i, i < st.mlast → tSENTINEL ≤ st.mname i ∧ st.mname i < st.pcur) ∧
      (∀ i, i < st.mlast → st.margs i ≤ 9)) ∧
    ∀ st1, define st = .ok st1 →
      ∃ s1, fill st = .ok s1 ∧
        (∀ i, i < st.mlast → st1.mname i = st.mname i) ∧
        (st1.mlast = st.mlast ∨ st1.mlast = st.mlast + 1) ∧
        (st1.mlast = st.mlast + 1 → tSENTINEL ≤ s1.buf s1.bpos ∧
          (∀ i, i < st.mlast → st.mname i ≠ s1.buf s1.bpos) ∧
          st1.mname st.mlast = s1.buf s1.bpos) ∧
        (∀ i, i < st.mlast → st.mname i = s1.buf s1.bpos →
          st1.mlast = st.mlast ∧ st1.mname = st.mname ∧
          ∀ k, k ≠ i → st1.margs k = st.margs k ∧ st1.mdef k = st.mdef k) := by
  have hok := ran_table fp hfp st hr
  refine ⟨⟨hok.distinct, fun i hi => ⟨hok.compound i hi, hok.known i hi⟩,
    fun i _ => hok.arity i⟩, ?_⟩
  intro st1 hd
  obtain ⟨s1, hf, ⟨e1, e2, e3, e4⟩, hlow, hhigh⟩ := define_table st st1 hd
  refine ⟨s1, hf, ?_⟩
  by_cases hlt : s1.buf s1.bpos < tSENTINEL
  · have := hlow hlt
    subst this
    refine ⟨fun i _ => by rw [e1], Or.inl e4, fun h => by omega, ?_⟩
    intro i hi hname
    have := hok.compound i hi
    omega
  · obtain ⟨a1, a2, a3⟩ := hhigh (by omega)
    rw [e1, e4] at a1 a2 a3
    by_cases hnew : findMacro st.mname (s1.buf s1.bpos) st.mlast 0 = st.mlast
    · rw [if_pos hnew] at a1 a2
      have hab := findMacro_absent st.mname (s1.buf s1.bpos) st.mlast 0
        (by rw [hnew, Nat.zero_add])
      refine ⟨?_, Or.inr a1, fun _ => ⟨by omega, ?_, ?_⟩, ?_⟩
      · intro i hi
        rw [a2]
        unfold upd
        rw [if_neg (by omega)]
      · intro i hi
        exact hab i (Nat.zero_le _) (by omega)
      · rw [a2]
        unfold upd
        rw [if_pos rfl]
      · intro i hi hname
        exact absurd hname (hab i (Nat.zero_le _) (by omega))
    · rw [if_neg hnew] at a1 a2
      refine ⟨fun i _ => by rw [a2], Or.inl a1, fun h => by omega, ?_⟩
      intro i hi hname
      refine ⟨a1, a2, ?_⟩
      have hle := findMacro_le st.mname (s1.buf s1.bpos) st.mlast 0
      have hfound := findMacro_found st.mname (s1.buf s1.bpos) st.mlast 0 (by omega)
      have hi2 : findMacro st.mname (s1.buf s1.bpos) st.mlast 0 = i := by
        by_contra hne
        rcases Nat.lt_or_gt_of_ne hne with h1 | h1
        · exact hok.distinct _ i h1 hi (by rw [hfound, hname])
        · exact hok.distinct i _ h1 (by omega) (by rw [hfound, hname])
      intro k hk
      rw [e3, e2] at a3
      exact a3 k (by rw [hi2]; exact hk)

set_option maxRecDepth 100000 in
/-- C13 at the state that `define` leaves after `\a{x}`, in which the table
holds one macro. -/
theorem C13_macro_table_invariant_witness :
    ∃ st, define (init (bytes "\\a\x7bx\x7d")) = .ok st ∧ st.mlast = 1 ∧
      ((∀ i j, i < j → j < st.mlast → st.mname i ≠ st.mname j) ∧
        (∀ i, i < st.mlast → tSENTINEL ≤ st.mname i ∧ st.mname i < st.pcur) ∧
        (∀ i, i < st.mlast → st.margs i ≤ 9)) ∧
      ∀ st1, define st = .ok st1 →
        ∃ s1, fill st = .ok s1 ∧
          (∀ i, i < st.mlast → st1.mname i = st.mname i) ∧
          (st1.mlast = st.mlast ∨ st1.mlast = st.mlast + 1) ∧
          (st1.mlast = st.mlast + 1 → tSENTINEL ≤ s1.buf s1.bpos ∧
            (∀ i, i < st.mlast → st.mname i ≠ s1.buf s1.bpos) ∧
            st1.mname st.mlast = s1.buf s1.bpos) ∧
          (∀ i, i < st.mlast → st.mname i = s1.buf s1.bpos →
            st1.mlast = st.mlast ∧ st1.mname = st.mname ∧
            ∀ k, k ≠ i → st1.margs k = st.margs k ∧ st1.mdef k = st.mdef k) := by
  have hm : (match define (init (bytes "\\a\x7bx\x7d")) with
      | .ok s => s.mlast
      | .error _ => 0) = 1 := by decide
  cases h : define (init (bytes "\\a\x7bx\x7d")) with
  | error e => rw [h] at hm; cases hm
  | ok st =>
    rw [h] at hm
    exact ⟨st, rfl, hm, C13_macro_table_invariant (bytes "\\a\x7bx\x7d") (by decide) st
      (Ran.define _ _ _ (Ran.refl _) h)⟩

/-- C14: the arena is append-only.  From a reachable state `st`, every sequence
of calls of `scan_cs`, `scan`, `scan_group`, `define`, `expand` and `next` leads
to a state `st1` in which every identifier that exists in `st` (the literals,
the primitives and the compound identifiers below `pcur`) has the same offset,
the same length and the same spelling, every pool cell below `plast` holds the
same token, and `pcur` and `plast` have not decreased. -/
theorem C14_arena_append_only (st st1 : Engine) (hr : Reachable st) (h : Ran st st1) :
    (∀ i, i < st.pcur → st1.ppos i = st.ppos i ∧ st1.plen i = st.plen i ∧
      spelling st1 i = spelling st i) ∧
    (∀ j, j < st.plast → st1.pool j = st.pool j) ∧
    st.pcur ≤ st1.pcur ∧ st.plast ≤ st1.plast := by
  obtain ⟨he, hsp⟩ := ran_extends st st1 (reachable_sound st hr) h
  exact ⟨fun i hi => ⟨he.ppos i hi, he.plen i hi, hsp i hi⟩, he.pool, he.pcur, he.plast⟩

set_option maxRecDepth 100000 in
/-- C14 for the call of `next` on the document `\def\a{x}`, which adds two
entries. -/
theorem C14_arena_append_only_witness :
    ∃ t st1, next 5 (init (bytes "\\def\\a\x7bx\x7d")) = .ok (t, st1) ∧ st1.pcur = 272 ∧
      (∀ i, i < (init (bytes "\\def\\a\x7bx\x7d")).pcur →
        st1.ppos i = (init (bytes "\\def\\a\x7bx\x7d")).ppos i ∧
        st1.plen i = (init (bytes "\\def\\a\x7bx\x7d")).plen i ∧
        spelling st1 i = spelling (init (bytes "\\def\\a\x7bx\x7d")) i) ∧
      (∀ j, j < (init (bytes "\\def\\a\x7bx\x7d")).plast →
        st1.pool j = (init (bytes "\\def\\a\x7bx\x7d")).pool j) ∧
      (init (bytes "\\def\\a\x7bx\x7d")).pcur ≤ st1.pcur ∧
      (init (bytes "\\def\\a\x7bx\x7d")).plast ≤ st1.plast := by
  have hm : (match next 5 (init (bytes "\\def\\a\x7bx\x7d")) with
      | .ok r => r.2.pcur
      | .error _ => 0) = 272 := by decide
  cases h : next 5 (init (bytes "\\def\\a\x7bx\x7d")) with
  | error e => rw [h] at hm; cases hm
  | ok r =>
    obtain ⟨t, st1⟩ := r
    rw [h] at hm
    exact ⟨t, st1, rfl, hm, C14_arena_append_only _ st1
      ⟨bytes "\\def\\a\x7bx\x7d", by decide, Later.refl _⟩
      (Ran.next _ _ _ 5 t (Ran.refl _) h)⟩

/-- C15: the substitution built by `expand`.  Let `expand` be entered in a state
`st` with a well-formed arena, with the cursor `st.bpos` on a token for which
the table search yields the slot `m`, and let the argument loop, run for the
arity `margs[m]` from behind that token, return the arguments `param` in the
state `s1`.  Then `param` is collected as the specification says (`Collected`:
in order, the identifier that `scan_group` returns when the next token is a
begin-group token, the next token itself otherwise) and has `margs[m]` members.
If every argument-reference marker in the spelling of the body `mdef[m]` has an
index below the arity and the substitution fits into the buffer, then whenever
`expand` returns, the cursor is back at `st.bpos` and the tokens from there on
are the spelling of the body with every marker replaced by the spelling of the
argument it refers to and every other token copied.  `expand` does return if
its grow loop reads no cell in front of the buffer: nothing is pending behind
the arguments, or the substitution ends at most `s1.bpos` cells behind
`s1.bpos`.  The spelling of a literal `c` is `c` alone, as is the spelling of
the identifier of the group that holds `c` alone (C12), so both give the same
substitution. -/
theorem C15_substitution_built_by_expand (st s1 : Engine) (param : List Nat) (m : Nat)
    (L : List (List Nat)) (ha : Arena st L)
    (hm : findMacro st.mname (st.buf st.bpos) st.mlast 0 = m) (hmm : m < MACROMAX)
    (hc : collectArgs (st.margs m) { st with bpos := st.bpos + 1 } [] = .ok (s1, param))
    (hrefs : ∀ t ∈ spelling s1 (st.mdef m), tARG1 ≤ t → t ≤ tARG9 → t - tARG1 < st.margs m)
    (hcap : st.bpos + (substToks (param.map (spelling s1)) (spelling s1 (st.mdef m))).length ≤
      BUFFERMAX) :
    Collected { st with bpos := st.bpos + 1 } param s1 ∧ param.length = st.margs m ∧
    (∀ c, c < 256 → spelling s1 c = [c]) ∧
    (∀ st1, expand st = .ok st1 →
      st1.bpos = st.bpos ∧ (∀ i, spelling st1 i = spelling s1 i) ∧
      (List.range (substToks (param.map (spelling st1)) (spelling st1 (st.mdef m))).length).map
          (fun k => st1.buf (st.bpos + k)) =
        substToks (param.map (spelling st1)) (spelling st1 (st.mdef m))) ∧
    ((s1.blast ≤ s1.bpos ∨
        st.bpos + (substToks (param.map (spelling s1)) (spelling s1 (st.mdef m))).length ≤
          s1.bpos + s1.bpos) →
      ∃ st1, expand st = .ok st1) :=
  expand_built st s1 param m L ha hm hmm hc hrefs hcap

set_option maxRecDepth 100000 in
/-- C15 for the invocation `\a{b}` of the macro defined by `\def\a1{x\1y}`: the
state `st` is the one in which `define` has read `\a1{x\1y}` and the scanner has
delivered the token of `\a`; the substitution is `x`, `b`, `y`, and nothing is
pending behind the argument. -/
theorem C15_substitution_built_by_expand_witness :
    ∃ a st s1 param, define (init (bytes "\\a1\x7bx\\1y\x7d\\a\x7bb\x7dc")) = .ok a ∧
      fill a = .ok st ∧
      collectArgs (st.margs 0) { st with bpos := st.bpos + 1 } [] = .ok (s1, param) ∧
      substToks (param.map (spelling s1)) (spelling s1 (st.mdef 0)) = [120, 98, 121] ∧
      s1.blast ≤ s1.bpos ∧
      Collected { st with bpos := st.bpos + 1 } param s1 ∧ param.length = st.margs 0 ∧
      (∀ c, c < 256 → spelling s1 c = [c]) ∧
      (∀ st1, expand st = .ok st1 →
        st1.bpos = st.bpos ∧ (∀ i, spelling st1 i = spelling s1 i) ∧
        (List.range (substToks (param.map (spelling st1))
            (spelling st1 (st.mdef 0))).length).map (fun k => st1.buf (st.bpos + k)) =
          substToks (param.map (spelling st1)) (spelling st1 (st.mdef 0))) ∧
      ((s1.blast ≤ s1.bpos ∨
          st.bpos + (substToks (param.map (spelling s1)) (spelling s1 (st.mdef 0))).length ≤
            s1.bpos + s1.bpos) →
        ∃ st1, expand st = .ok st1) := by
  have hp : (match define (init (bytes "\\a1\x7bx\\1y\x7d\\a\x7bb\x7dc")) with
      | .ok a =>
        match fill a with
        | .ok st =>
          match collectArgs (st.margs 0) { st with bpos := st.bpos + 1 } [] with
          | .ok (s1, param) =>
            decide (findMacro st.mname (st.buf st.bpos) st.mlast 0 = 0 ∧
              (∀ t ∈ spelling s1 (st.mdef 0), tARG1 ≤ t → t ≤ tARG9 →
                t - tARG1 < st.margs 0) ∧
              st.bpos + (substToks (param.map (spelling s1))
                (spelling s1 (st.mdef 0))).length ≤ BUFFERMAX ∧
              s1.blast ≤ s1.bpos ∧
              substToks (param.map (spelling s1)) (spelling s1 (st.mdef 0)) = [120, 98, 121])
          | .error _ => false
        | .error _ => false
      | .error _ => false) = true := by decide
  cases h1 : define (init (bytes "\\a1\x7bx\\1y\x7d\\a\x7bb\x7dc")) with
  | error e => rw [h1] at hp; cases hp
  | ok a =>
    rw [h1] at hp
    simp only [] at hp
    cases h2 : fill a with
    | error e => rw [h2] at hp; cases hp
    | ok st =>
      rw [h2] at hp
      simp only [] at hp
      cases h3 : collectArgs (st.margs 0) { st with bpos := st.bpos + 1 } [] with
      | error e => rw [h3] at hp; cases hp
      | ok r =>
        obtain ⟨s1, param⟩ := r
        rw [h3] at hp
        obtain ⟨q1, q2, q3, q4, q5⟩ := of_decide_eq_true hp
        have hg : Grows (init (bytes "\\a1\x7bx\\1y\x7d\\a\x7bb\x7dc")) st :=
          grows_trans (define_grows _ a h1) (fill_grows a st h2)
        obtain ⟨M, hM⟩ := hg [] (arena_init _)
        exact ⟨a, st, s1, param, rfl, h2, h3, q5, q4,
          C15_substitution_built_by_expand st s1 param 0 _ hM q1 (by decide) h3 q2 q3⟩

set_option maxRecDepth 100000 in
/-- C16, as stated, fails in its consequence that a name and a group never
share an identifier.  On the document `\def\g1{\def\k{\1}}\g\b` the first
call of `next` returns the end-of-input token; by then the expansion of `\g`
has put the argument `\b` by value, as the escape marker followed by `b`,
between the braces of the body of `\k`, and `scan_group` has found for this
group the entry of the name `\b`: the body identifier of the macro `\k`
(slot 1) is 273, its spelling is the escape marker followed by `b`, and 273 is
also the token that `scan_cs` delivers for the name `\b`. -/
theorem C16_name_and_group_share_identifier :
    (match next 10 (init (bytes "\\def\\g1\x7b\\def\\k\x7b\\1\x7d\x7d\\g\\b")) with
      | .ok (t, st) =>
        some (t, st.mname 1, st.mdef 1, spelling st (st.mdef 1),
          match scan_cs { st with inp := bytes "b" } with
          | .ok s => some (s.buf (s.blast - 1))
          | .error _ => none)
      | .error _ => none) = some (tEOF, 271, 273, [tESCAPE, 98], some 273) := by
  decide

/-- C16, amended: in every reachable state any two different compound
identifiers have different spellings, and `scan_cs` and `scan_group` lead to
states with the same property.  Two identifiers are therefore equal exactly
when their spellings are: two different names never share an identifier, and a
name and a group share one only if the tokens of the group are the spelling of
the name. -/
theorem C16_distinct_spellings_amended (st : Engine) (hr : Reachable st) :
    (∀ i j, tSENTINEL ≤ i → i < j → j < st.pcur → spelling st i ≠ spelling st j) ∧
    (∀ st1, scan_cs st = .ok st1 → Distinct st1) ∧
    (∀ g st1, scan_group st = .ok (g, st1) → Distinct st1) := by
  obtain ⟨fp, hb, hl⟩ := hr
  exact ⟨reachable_distinct st ⟨fp, hb, hl⟩,
    fun st1 h => reachable_distinct st1 ⟨fp, hb, Later.scan_cs _ st st1 hl h⟩,
    fun g st1 h => reachable_distinct st1 ⟨fp, hb, Later.scan_group _ st st1 g hl h⟩⟩

set_option maxRecDepth 100000 in
/-- C16, amended, at the state that `next` leaves on the document
`\def\a{x}`, which has the two compound entries of `\a` and of the body. -/
theorem C16_distinct_spellings_amended_witness :
    ∃ t st, next 5 (init (bytes "\\def\\a\x7bx\x7d")) = .ok (t, st) ∧ st.pcur = 272 ∧
      (∀ i j, tSENTINEL ≤ i → i < j → j < st.pcur → spelling st i ≠ spelling st j) ∧
      (∀ st1, scan_cs st = .ok st1 → Distinct st1) ∧
      (∀ g st1, scan_group st = .ok (g, st1) → Distinct st1) := by
  have hm : (match next 5 (init (bytes "\\def\\a\x7bx\x7d")) with
      | .ok r => r.2.pcur
      | .error _ => 0) = 272 := by decide
  cases h : next 5 (init (bytes "\\def\\a\x7bx\x7d")) with
  | error e => rw [h] at hm; cases hm
  | ok r =>
    obtain ⟨t, st⟩ := r
    rw [h] at hm
    exact ⟨t, st, rfl, hm, C16_distinct_spellings_amended st
      ⟨bytes "\\def\\a\x7bx\x7d", by decide, Later.next _ _ _ 5 t (Later.refl _) h⟩⟩

set_option maxRecDepth 100000 in
/-- C17, as stated, fails for the cursor.  On the empty document the first call
of `next` returns the end-of-input token, which `scan` has put into `buf[0]`;
after the call the cursor is 1, equal to `blast`: it has been advanced past the
token, and the cell it designates holds 0, not the end-of-input token. -/
theorem C17_terminal_condition_counterexample :
    (match next 1 (init []) with
      | .ok (t, s) => some (t, s.bpos, s.blast, s.buf 0, s.buf s.bpos)
      | .error _ => none) = some (tEOF, 1, 1, tEOF, 0) := by
  decide

/-- C17, amended: whenever the token under the cursor after
`if (bpos == blast) scan();` and the compaction step is the end-of-input token,
`next` returns it and advances the cursor by one, as for every token it
returns; the loop of `mxrun` then stops and writes nothing for it.  If the
input is exhausted and the token was the last one pending, a further call of
`next` scans another end-of-input token and returns that. -/
theorem C17_terminal_condition_amended (st s0 : Engine) (fuel n : Nat) (out : List Nat)
    (hf : fill st = .ok s0) (heof : (compact s0).buf (compact s0).bpos = tEOF) :
    next (fuel + 1) st = .ok (tEOF, advance s0) ∧
    (advance s0).bpos = (compact s0).bpos + 1 ∧
    runLoop (fuel + 1) (n + 1) st out = .ok (out, advance s0) ∧
    ((advance s0).inp = [] → (advance s0).bpos = (advance s0).blast →
      (advance s0).blast < BUFFERMAX → ∃ s2, next (fuel + 1) (advance s0) = .ok (tEOF, s2)) := by
  obtain ⟨h1, h2⟩ := next_at_eof st s0 fuel n out hf heof
  exact ⟨h1, rfl, h2, fun hinp hb hcap => next_after_eof (advance s0) fuel hinp hb hcap⟩

set_option maxRecDepth 100000 in
/-- C17, amended, on the empty document. -/
theorem C17_terminal_condition_amended_witness :
    ∃ s0, fill (init []) = .ok s0 ∧
      next (0 + 1) (init []) = .ok (tEOF, advance s0) ∧
      (advance s0).bpos = (compact s0).bpos + 1 ∧
      runLoop (0 + 1) (0 + 1) (init []) [] = .ok ([], advance s0) ∧
      ((advance s0).inp = [] → (advance s0).bpos = (advance s0).blast →
        (advance s0).blast < BUFFERMAX → ∃ s2, next (0 + 1) (advance s0) = .ok (tEOF, s2)) := by
  have hp : (match fill (init []) with
      | .ok s => (compact s).buf (compact s).bpos
      | .error _ => 0) = tEOF := by decide
  cases h : fill (init []) with
  | error e => rw [h] at hp; cases hp
  | ok s0 =>
    rw [h] at hp
    exact ⟨s0, rfl, C17_terminal_condition_amended (init []) s0 0 0 [] h hp⟩

/-- C18: a macro body that is a single token is recorded but not consumed.  In a
call of `define`, let `s1` be the state with the name token under the cursor,
`i` the slot that the table search yields for it, `s2` the state after the
name is appended to the table if it was absent, `s3` the state with the token
behind the name under the cursor, and `s4` the state in which the body is
examined: `s3` with the arity 0, or, if the token is a digit, the state with
the token behind the digit under the cursor.  If the token under the cursor of
`s4` is neither the begin-group nor the end-of-input token, `define` returns
with that token stored as the body of slot `i` and with cursor and buffer as in
`s4`, the cursor still on the token; if the token is pending there and is not
compound and not the token of `\def`, the next call of `next` returns it.
For every plain byte `c` that is no letter, no digit and no whitespace, `mxrun`
writes `c` twice on the document `\def\a` `c` `\a`. -/
theorem C18_single_token_body (st s1 s2 s3 s4 : Engine) (i : Nat)
    (h1 : fill st = .ok s1) (hname : tSENTINEL ≤ s1.buf s1.bpos)
    (hi : findMacro s1.mname (s1.buf s1.bpos) s1.mlast 0 = i)
    (h2 : (i = s1.mlast ∧ s1.mlast < MACROMAX ∧
        s2 = { s1 with mname := upd s1.mname s1.mlast (s1.buf s1.bpos),
                       mlast := s1.mlast + 1 }) ∨
      (i ≠ s1.mlast ∧ s2 = s1))
    (h3 : fill { s2 with bpos := s2.bpos + 1 } = .ok s3)
    (h4 : (48 ≤ s3.buf s3.bpos ∧ s3.buf s3.bpos ≤ 57 ∧
        fill { s3 with margs := upd s3.margs i (s3.buf s3.bpos - 48),
                       bpos := s3.bpos + 1 } = .ok s4) ∨
      (¬ (48 ≤ s3.buf s3.bpos ∧ s3.buf s3.bpos ≤ 57) ∧
        s4 = { s3 with margs := upd s3.margs i 0 }))
    (hb : s4.buf s4.bpos ≠ tBGROUP) (he : s4.buf s4.bpos ≠ tEOF) :
    (∃ st1, define st = .ok st1 ∧ st1.bpos = s4.bpos ∧ st1.buf = s4.buf ∧
      st1.blast = s4.blast ∧ st1.mdef i = s4.buf s4.bpos ∧
      (∀ k, k ≠ i → st1.mdef k = s4.mdef k) ∧
      (s4.bpos < s4.blast → s4.buf s4.bpos < tSENTINEL → s4.buf s4.bpos ≠ tDEF →
        ∀ fuel, next (fuel + 1) st1 = .ok (s4.buf s4.bpos, advance st1))) ∧
    ∀ c, isPlain c → isalpha c = false → ¬ (48 ≤ c ∧ c ≤ 57) → isspace c = false →
      ∀ fuel, 3 ≤ fuel →
        mxrun fuel (bytes "\\def\\a" ++ c :: bytes "\\a") = .ok [c, c] :=
  ⟨define_token_body_spec st s1 s2 s3 s4 i h1 hname hi h2 h3 h4 hb he,
    fun c hp hna hnd hns fuel hf => mxrun_single_token_body c hp hna hnd hns fuel hf⟩

set_option maxRecDepth 100000 in
/-- C18 for `define` called on the input `\a!\a`: the body of `\a` is the token
`!`, which stays under the cursor. -/
theorem C18_single_token_body_witness :
    ∃ s1 s3, fill (init (bytes "\\a!\\a")) = .ok s1 ∧
      fill { ({ s1 with mname := upd s1.mname s1.mlast (s1.buf s1.bpos),
                        mlast := s1.mlast + 1 } : Engine) with bpos := s1.bpos + 1 } = .ok s3 ∧
      s3.buf s3.bpos = 33 ∧
      (∃ st1, define (init (bytes "\\a!\\a")) = .ok st1 ∧
        st1.bpos = ({ s3 with margs := upd s3.margs 0 0 } : Engine).bpos ∧
        st1.buf = ({ s3 with margs := upd s3.margs 0 0 } : Engine).buf ∧
        st1.blast = ({ s3 with margs := upd s3.margs 0 0 } : Engine).blast ∧
        st1.mdef 0 = ({ s3 with margs := upd s3.margs 0 0 } : Engine).buf
          ({ s3 with margs := upd s3.margs 0 0 } : Engine).bpos ∧
        (∀ k, k ≠ 0 → st1.mdef k = ({ s3 with margs := upd s3.margs 0 0 } : Engine).mdef k) ∧
        (({ s3 with margs := upd s3.margs 0 0 } : Engine).bpos <
            ({ s3 with margs := upd s3.margs 0 0 } : Engine).blast →
          ({ s3 with margs := upd s3.margs 0 0 } : Engine).buf
            ({ s3 with margs := upd s3.margs 0 0 } : Engine).bpos < tSENTINEL →
          ({ s3 with margs := upd s3.margs 0 0 } : Engine).buf
            ({ s3 with margs := upd s3.margs 0 0 } : Engine).bpos ≠ tDEF →
          ∀ fuel, next (fuel + 1) st1 =
            .ok (({ s3 with margs := upd s3.margs 0 0 } : Engine).buf
              ({ s3 with margs := upd s3.margs 0 0 } : Engine).bpos, advance st1))) ∧
      ∀ c, isPlain c → isalpha c = false → ¬ (48 ≤ c ∧ c ≤ 57) → isspace c = false →
        ∀ fuel, 3 ≤ fuel →
          mxrun fuel (bytes "\\def\\a" ++ c :: bytes "\\a") = .ok [c, c] := by
  have hp : (match fill (init (bytes "\\a!\\a")) with
      | .ok s1 =>
        match fill { ({ s1 with mname := upd s1.mname s1.mlast (s1.buf s1.bpos),
                                mlast := s1.mlast + 1 } : Engine) with
            bpos := s1.bpos + 1 } with
        | .ok s3 =>
          decide (tSENTINEL ≤ s1.buf s1.bpos ∧
            findMacro s1.mname (s1.buf s1.bpos) s1.mlast 0 = 0 ∧ 0 = s1.mlast ∧
            s1.mlast < MACROMAX ∧ ¬ (48 ≤ s3.buf s3.bpos ∧ s3.buf s3.bpos ≤ 57) ∧
            s3.buf s3.bpos ≠ tBGROUP ∧ s3.buf s3.bpos ≠ tEOF ∧ s3.buf s3.bpos = 33)
        | .error _ => false
      | .error _ => false) = true := by decide
  cases h1 : fill (init (bytes "\\a!\\a")) with
  | error e => rw [h1] at hp; cases hp
  | ok s1 =>
    rw [h1] at hp
    simp only [] at hp
    cases h3 : fill { ({ s1 with mname := upd s1.mname s1.mlast (s1.buf s1.bpos),
                                 mlast := s1.mlast + 1 } : Engine) with
        bpos := s1.bpos + 1 } with
    | error e => rw [h3] at hp; cases hp
    | ok s3 =>
      rw [h3] at hp
      obtain ⟨q1, q2, q3, q4, q5, q6, q7, q8⟩ := of_decide_eq_true hp
      have hmain := C18_single_token_body (init (bytes "\\a!\\a")) s1
        { s1 with mname := upd s1.mname s1.mlast (s1.buf s1.bpos), mlast := s1.mlast + 1 }
        s3 { s3 with margs := upd s3.margs 0 0 } 0 h1 q1 q2 (Or.inl ⟨q3, q4, rfl⟩) h3
        (Or.inr ⟨q5, rfl⟩) q6 q7
      exact ⟨s1, s3, rfl, h3, q8, hmain⟩

set_option maxRecDepth 100000 in
/-- C19: an argument missing at the end of the input.  Let `expand` be entered in
a state with a well-formed arena in which the input is exhausted and the
invocation token is the last token of the buffer, for a macro slot `m` of arity
`n` (at most 9, within the capacity of the buffer) whose body refers to
arguments below `n` only.  Then the argument loop returns `n` times the
end-of-input token, each scanned anew and consumed (the cursor ends `n` cells
behind the old `blast`, at the new `blast`); the spelling of the end-of-input
token is `E`, `O`, `F`; and `expand` returns with the cursor on the body in
which every reference is replaced by these three bytes.  On the document
`\def\a1{\1}\a` the output of `mxrun` is `EOF`. -/
theorem C19_missing_argument_is_EOF (st : Engine) (L : List (List Nat)) (m n : Nat)
    (ha : Arena st L) (hinp : st.inp = []) (hlast : st.bpos + 1 = st.blast)
    (hm : findMacro st.mname (st.buf st.bpos) st.mlast 0 = m) (hmm : m < MACROMAX)
    (hn : st.margs m = n) (h9 : n ≤ 9)
    (hrefs : ∀ t ∈ spelling st (st.mdef m), tARG1 ≤ t → t ≤ tARG9 → t - tARG1 < n)
    (hcap1 : st.blast + n ≤ BUFFERMAX)
    (hcap2 : st.bpos +
      (substToks (List.replicate n [69, 79, 70]) (spelling st (st.mdef m))).length ≤ BUFFERMAX) :
    (spelling st tEOF = [69, 79, 70] ∧
      (∃ s1, collectArgs n { st with bpos := st.bpos + 1 } [] =
          .ok (s1, List.replicate n tEOF) ∧
        s1.bpos = st.blast + n ∧ s1.blast = st.blast + n) ∧
      ∃ st1, expand st = .ok st1 ∧ st1.bpos = st.bpos ∧
        (List.range (substToks (List.replicate n [69, 79, 70])
            (spelling st (st.mdef m))).length).map (fun k => st1.buf (st.bpos + k)) =
          substToks (List.replicate n [69, 79, 70]) (spelling st (st.mdef m))) ∧
    mxrun 10 (bytes "\\def\\a1\x7b\\1\x7d\\a") = .ok [69, 79, 70] :=
  ⟨expand_at_end st L m n ha hinp hlast hm hmm hn h9 hrefs hcap1 hcap2, by decide⟩

set_option maxRecDepth 100000 in
/-- C19 in the state in which `define` has read `\a1{\1}` and the scanner has
delivered the invocation `\a` that ends the input: the tokens at the cursor
after `expand` are `E`, `O`, `F`. -/
theorem C19_missing_argument_is_EOF_witness :
    ∃ a st, define (init (bytes "\\a1\x7b\\1\x7d\\a")) = .ok a ∧ fill a = .ok st ∧
      substToks (List.replicate 1 [69, 79, 70]) (spelling st (st.mdef 0)) = [69, 79, 70] ∧
      (spelling st tEOF = [69, 79, 70] ∧
        (∃ s1, collectArgs 1 { st with bpos := st.bpos + 1 } [] =
            .ok (s1, List.replicate 1 tEOF) ∧
          s1.bpos = st.blast + 1 ∧ s1.blast = st.blast + 1) ∧
        ∃ st1, expand st = .ok st1 ∧ st1.bpos = st.bpos ∧
          (List.range (substToks (List.replicate 1 [69, 79, 70])
              (spelling st (st.mdef 0))).length).map (fun k => st1.buf (st.bpos + k)) =
            substToks (List.replicate 1 [69, 79, 70]) (spelling st (st.mdef 0))) ∧
      mxrun 10 (bytes "\\def\\a1\x7b\\1\x7d\\a") = .ok [69, 79, 70] := by
  have hp : (match define (init (bytes "\\a1\x7b\\1\x7d\\a")) with
      | .ok a =>
        match fill a with
        | .ok st =>
          decide (st.inp = [] ∧ st.bpos + 1 = st.blast ∧
            findMacro st.mname (st.buf st.bpos) st.mlast 0 = 0 ∧ st.margs 0 = 1 ∧
            (∀ t ∈ spelling st (st.mdef 0), tARG1 ≤ t → t ≤ tARG9 → t - tARG1 < 1) ∧
            st.blast + 1 ≤ BUFFERMAX ∧
            st.bpos + (substToks (List.replicate 1 [69, 79, 70])
              (spelling st (st.mdef 0))).length ≤ BUFFERMAX ∧
            substToks (List.replicate 1 [69, 79, 70]) (spelling st (st.mdef 0)) = [69, 79, 70])
        | .error _ => false
      | .error _ => false) = true := by decide
  cases h1 : define (init (bytes "\\a1\x7b\\1\x7d\\a")) with
  | error e => rw [h1] at hp; cases hp
  | ok a =>
    rw [h1] at hp
    simp only [] at hp
    cases h2 : fill a with
    | error e => rw [h2] at hp; cases hp
    | ok st =>
      rw [h2] at hp
      obtain ⟨q1, q2, q3, q4, q5, q6, q7, q8⟩ := of_decide_eq_true hp
      have hg : Grows (init (bytes "\\a1\x7b\\1\x7d\\a")) st :=
        grows_trans (define_grows _ a h1) (fill_grows a st h2)
      obtain ⟨M, hM⟩ := hg [] (arena_init _)
      exact ⟨a, st, rfl, h2, q8,
        C19_missing_argument_is_EOF st _ 0 1 hM q1 q2 q3 (by decide) q4 (by decide) q5 q6 q7⟩

set_option maxRecDepth 100000 in
/-- C20: there is no recursion guard.  On the document `\def\a{\a}\a` the first
round of `next` runs `define` and goes on in the state `s2` that `define`
leaves; there the scanner delivers the invocation `\a`, which gives the state
`X` with the macro name as the next pending token.  `expand` returns `X`
itself: buffer, cursor, extent, arena and macro table are the same, and the
macro name is again the next pending token.  So the loop of `next` is at a
fixed point: for every fuel `next` runs out of fuel in `X`, hence on the
document, and so does `mxrun`. -/
theorem C20_no_recursion_guard :
    ∃ s2 X, (∀ f, next (f + 1) (init (bytes "\\def\\a\x7b\\a\x7d\\a")) = next f s2) ∧
      fill s2 = .ok X ∧ s2.mlast = 1 ∧ X.buf X.bpos = X.mname 0 ∧ X.bpos < X.blast ∧
      compact X = X ∧ expand X = .ok X ∧
      (∀ f, next f s2 = next f X) ∧
      (∀ fuel, next fuel X = .error .fuel) ∧
      (∀ fuel, next fuel (init (bytes "\\def\\a\x7b\\a\x7d\\a")) = .error .fuel) ∧
      ∀ fuel, mxrun fuel (bytes "\\def\\a\x7b\\a\x7d\\a") = .error .fuel := by
  have hp : (match fill (init (bytes "\\def\\a\x7b\\a\x7d\\a")) with
      | .ok s0 =>
        match define { s0 with bpos := s0.bpos + 1 } with
        | .ok s2 =>
          match fill s2 with
          | .ok X =>
            decide (s0.bpos ≤ TOKENMAX ∧ s0.buf s0.bpos = tDEF ∧ s2.mlast = 1 ∧
              X.buf X.bpos = X.mname 0 ∧ X.bpos < X.blast ∧ X.bpos ≤ TOKENMAX ∧
              tSENTINEL ≤ X.buf X.bpos ∧
              findMacro X.mname (X.buf X.bpos) X.mlast 0 = 0 ∧ X.margs 0 = 0 ∧
              X.plen (X.mdef 0) = 1 ∧ X.pool (X.ppos (X.mdef 0)) = X.buf X.bpos)
          | .error _ => false
        | .error _ => false
      | .error _ => false) = true := by decide
  cases h0 : fill (init (bytes "\\def\\a\x7b\\a\x7d\\a")) with
  | error e => rw [h0] at hp; cases hp
  | ok s0 =>
    rw [h0] at hp
    simp only [] at hp
    cases h1 : define { s0 with bpos := s0.bpos + 1 } with
    | error e => rw [h1] at hp; cases hp
    | ok s2 =>
      rw [h1] at hp
      simp only [] at hp
      cases h2 : fill s2 with
      | error e => rw [h2] at hp; cases hp
      | ok X =>
        rw [h2] at hp
        obtain ⟨q1, q2, q3, q4, q5, q6, q7, q8, q9, q10, q11⟩ := of_decide_eq_true hp
        have hexp : expand X = .ok X :=
          expand_fixed X 0 q8 (by decide) q9 q10 q11
            (Or.inr (by simp only [tSENTINEL, tARG9] at q7 ⊢; omega))
            (by simp only [TOKENMAX, BUFFERMAX] at q6 ⊢; omega)
        have hloop := next_loops X q5 q6 q7 hexp
        have hstep : ∀ f, next (f + 1) (init (bytes "\\def\\a\x7b\\a\x7d\\a")) =
            next f s2 := by
          intro f
          rw [next, h0]
          simp only []
          rw [compact_id s0 q1, if_pos q2, h1]
        have hs2 : ∀ f, next f s2 = next f X := fun f => next_fill f s2 X h2 q5
        have hdoc : ∀ fuel,
            next fuel (init (bytes "\\def\\a\x7b\\a\x7d\\a")) = .error .fuel := by
          intro fuel
          cases fuel with
          | zero => rfl
          | succ f => rw [hstep f, hs2 f, hloop f]
        refine ⟨s2, X, hstep, h2, q3, q4, q5, compact_id X q6, hexp, hs2, hloop, hdoc, ?_⟩
        intro fuel
        unfold mxrun mxrunState
        cases fuel with
        | zero => rfl
        | succ f =>
          rw [runLoop, hdoc (f + 1)]

end Mex
